import Mathlib

set_option linter.unusedSectionVars false
set_option linter.unusedVariables false

/-!
# sfc-comp: optimal-parsing core

Shallow embedding of `src/algorithm.hpp` and of the dynamic programs of
`estpolis_biography_comp.cpp`, `papuwa_comp.cpp` and `super_robot_wars_comp.cpp`.

Conventions of the embedding.

* `size_t` values (positions, lengths, distances, costs) are natural numbers; the signed
  values of the position trees (`signed_index_type`, `ptrdiff_t`) are integers.  Where a sum or
  a difference can leave the range of its machine type for the arguments considered (the
  distance test of the tree walks, `find_non_overlapping`, `uncomp_helper`), it is written
  with the conversions `size_t`, `ptrdiff_t` and `signed_index`, which reduce modulo `2^64`
  and `2^32`.
* The classes of `data_structure.hpp` (`segment_tree`, `suffix_array`) are not among the
  sources; they are modelled from the specification, the suffix ranks by counting smaller
  suffixes.
* A `std::span` / `std::vector` that is only read is a function from indices to values
  together with its size where the size is used.
* Loops are recursive functions.  A loop whose trip count is not syntactically bounded
  carries a fuel argument and its result is an `Option`; `none` means "fuel exhausted".
* The relaxation loops of `sssp_solver` run with a `size_t` counter under the signed loop
  test of the source, and form the cost `base_cost + func(i)` and the index `adr + i` modulo
  `2^64`.  A loop that descends below a lower bound `< 2^63` visits the lengths
  `to, to - 1, .., fr` in this order; `update_descend` and `update_k_descend` are these passes
  as recursions on the length, and the lemmas `update_loop_eq` and `update_k_loop_eq` give the
  bounds under which the loops are these passes.
* The vertex table is a `std::vector`; its `size()` is a `size_t`, so the table has fewer than
  `2^64` entries.
* The test `target.type == tag` is the `operator ==` of the tag type, which need not compare
  every field (`tag_ol`, `tag_o`); the solver is therefore generic in a `BEq` instance.
-/

namespace sfc_comp

/-! ## Costs -/

/-- The value `cost_traits<size_t>::infinity()`, that is `SIZE_MAX / 2`. -/
def infinite_cost : Nat := (2 ^ 64 - 1) / 2

/-- The value `cost_traits<size_t>::unspecified()`, that is `SIZE_MAX`. -/
def unspecified : Nat := 2 ^ 64 - 1

/-- The conversion `ptrdiff_t(x)` of a `size_t`. -/
def ptrdiff_t (x : Nat) : Int :=
  if x % 2 ^ 64 < 2 ^ 63 then ((x % 2 ^ 64 : Nat) : Int) else ((x % 2 ^ 64 : Nat) : Int) - 2 ^ 64

/-- The functor `LinearQ<A, B, C>`: `(A * i + B) / C` with the product and the sum formed in
`size_t`. -/
def LinearQ (A B C : Nat) (i : Nat) : Nat := (A * i + B) % 2 ^ 64 / C

/-- The functor `Linear<A, B>`, which is `LinearQ<A, B, 1>`. -/
def Linear (A B : Nat) : Nat → Nat := LinearQ A B 1

/-- The functor `Constant<C>`, which is `Linear<0, C>`. -/
def Constant (C : Nat) : Nat → Nat := Linear 0 C

/-- The trait `is_linear<LinearQ<A, B, C>>::value`: true exactly when `C == 1`. -/
def is_linear_LinearQ (_A _B C : Nat) : Bool := decide (C = 1)

/-- The trait `is_linear<Constant<N>>::value`, inherited from `LinearQ<0, N, 1>`. -/
def is_linear_Constant (N : Nat) : Bool := is_linear_LinearQ 0 N 1

/-! ## LZ match records -/

namespace encode

/-- The record `encode::lz_data`. -/
structure lz_data where
  ofs : Nat
  len : Nat
  deriving DecidableEq, Repr

/-- The comparison `lz_data::operator >`: longer first, larger `ofs` on ties. -/
def lz_data.gt (a b : lz_data) : Bool :=
  decide (a.len > b.len) || (decide (a.len = b.len) && decide (a.ofs > b.ofs))

namespace lz

/-- The constant `encode::lz::empty`. -/
def empty : lz_data := ⟨0, 0⟩

end lz

end encode

open encode

/-! ## Shortest-path solver -/

/-- The record `sssp_solver::Vertex`. -/
structure Vertex (Tag : Type) where
  cost : Nat
  len : Nat
  lz_ofs : Nat
  type : Tag
  deriving DecidableEq, Repr

/-- A value-initialised vertex, as left by `std::vector<vertex_type>(n + 1)`. -/
instance instInhabitedVertex {Tag : Type} [Inhabited Tag] : Inhabited (Vertex Tag) :=
  ⟨⟨0, 0, 0, default⟩⟩

/-- The class `sssp_solver`: the vertex table, whose `size()` is a `size_t`. -/
structure sssp_solver (Tag : Type) where
  vertex : List (Vertex Tag)
  bounded : vertex.length < 2 ^ 64

/-- Two solvers are equal when their vertex tables are. -/
instance instDecidableEqSolver {Tag : Type} [DecidableEq Tag] : DecidableEq (sssp_solver Tag) :=
  fun a b => decidable_of_iff (a.vertex = b.vertex) (by cases a; cases b; simp)

namespace sssp_solver

variable {Tag : Type} [Inhabited Tag] [BEq Tag]

/-- The member `size()`. -/
def size (s : sssp_solver Tag) : Nat := s.vertex.length

/-- The read access `operator []`. -/
def get (s : sssp_solver Tag) (i : Nat) : Vertex Tag := s.vertex.getD i default

/-- The write access through `operator []`. -/
def set (s : sssp_solver Tag) (i : Nat) (v : Vertex Tag) : sssp_solver Tag :=
  ⟨s.vertex.set i v, by rw [List.length_set]; exact s.bounded⟩

/-- The member `reset(i)`: the cost of vertex `i` becomes infinite. -/
def reset (s : sssp_solver Tag) (i : Nat) : sssp_solver Tag :=
  s.set i { s.get i with cost := infinite_cost }

/-- The constructor `sssp_solver(n, begin)`: `n + 1` value-initialised vertices (the sum is a
`size_t`), every cost reset to infinity, then cost 0 at `begin` when `begin <= n`. -/
def mk_solver (n : Nat) (begin : Nat) : sssp_solver Tag :=
  let s : sssp_solver Tag :=
    ⟨List.replicate ((n + 1) % 2 ^ 64) { (default : Vertex Tag) with cost := infinite_cost },
      by rw [List.length_replicate]; exact Nat.mod_lt _ (Nat.two_pow_pos 64)⟩
  if begin ≤ n then s.set begin { s.get begin with cost := 0 } else s

/-- The two skip policies of `update`: `std::greater_equal` (default) and `std::greater`. -/
inductive Skip where
  | greater_equal
  | greater
  deriving DecidableEq, Repr

/-- The call `skip(cost, target.cost)`. -/
def Skip.test : Skip → Nat → Nat → Bool
  | .greater_equal, a, b => decide (a ≥ b)
  | .greater, a, b => decide (a > b)

/-- The single-edge `update(adr, len, tag, cost, arg)` with policy `Skip`. -/
def update_edge (skip : Skip) (s : sssp_solver Tag) (adr len : Nat) (tag : Tag) (cost : Nat)
    (arg : Nat) : sssp_solver Tag :=
  if adr < len then s
  else if skip.test cost (s.get adr).cost then s
  else s.set adr ⟨cost, len, arg, tag⟩

/-- The member `update_u`: the single-edge update with `std::greater`. -/
def update_u (s : sssp_solver Tag) (adr len : Nat) (tag : Tag) (cost : Nat) (arg : Nat) :
    sssp_solver Tag :=
  update_edge .greater s adr len tag cost arg

/-- One pass through the body of the `for` loop of the range `update` at the counter `i`: the
cost `base_cost + func(i)` and the index `adr + i` are `size_t` sums.  The Boolean is `false`
when the body executed `break`.  The test `target.type == tag` is the `operator ==` of the tag
type. -/
def relax (skip : Skip) (linear : Bool) (adr : Nat) (func : Nat → Nat) (tag : Tag)
    (base_cost arg : Nat) (i : Nat) (s : sssp_solver Tag) : sssp_solver Tag × Bool :=
  let curr_cost := (base_cost + func i) % 2 ^ 64
  let target := s.get ((adr + i) % 2 ^ 64)
  if skip.test curr_cost target.cost then
    (s, !(linear && (target.type == tag)))
  else
    (s.set ((adr + i) % 2 ^ 64) ⟨curr_cost, i, arg, tag⟩, true)

/-- The loop `for (size_t i = to; ptrdiff_t(i) >= ptrdiff_t(fr); --i)` of the range `update`,
entered with the counter `i`; the decrement is the one of `size_t`.  The first argument bounds
the number of loop tests: a counter takes `2^64` values, so a loop that has not failed its
test within `2^64` passes never fails it. -/
def update_loop (skip : Skip) (linear : Bool) (adr fr : Nat) (func : Nat → Nat) (tag : Tag)
    (base_cost arg : Nat) : Nat → Nat → sssp_solver Tag → sssp_solver Tag
  | 0, _, s => s
  | fuel + 1, i, s =>
    if ptrdiff_t i ≥ ptrdiff_t fr then
      let r := relax skip linear adr func tag base_cost arg i s
      if r.2 then
        update_loop skip linear adr fr func tag base_cost arg fuel ((i + (2 ^ 64 - 1)) % 2 ^ 64)
          r.1
      else r.1
    else s

/-- The range `update(adr, fr, to, func, tag, base_cost, arg)` with policy `Skip`; `linear` is
the compile-time value `is_linear<Func>::value`. -/
def update (skip : Skip) (linear : Bool) (s : sssp_solver Tag) (adr fr to_ : Nat)
    (func : Nat → Nat) (tag : Tag) (base_cost : Nat) (arg : Nat) :
    sssp_solver Tag :=
  let to_ := min to_ (if s.size > adr then (s.size - 1) - adr else 0)
  let base_cost := if base_cost = unspecified then (s.get adr).cost else base_cost
  update_loop skip linear adr fr func tag base_cost arg (2 ^ 64) to_ s

/-- The member `update_lz`: the range update capped by `lz.len`, with `lz.ofs` as argument. -/
def update_lz (skip : Skip) (linear : Bool) (s : sssp_solver Tag) (adr fr to_ : Nat)
    (lz : lz_data) (func : Nat → Nat) (tag : Tag) (base_cost : Nat) :
    sssp_solver Tag :=
  update skip linear s adr fr (min to_ lz.len) func tag base_cost lz.ofs

/-- The loop `for (size_t i = to; ptrdiff_t(i) >= ptrdiff_t(fr); i -= K)` of `update_k`, entered
with the counter `i`; the step `i -= K` is the one of `size_t`.  The first argument bounds the
number of loop tests. -/
def update_k_loop (K : Nat) (linear_k : Bool) (adr fr : Nat) (func : Nat → Nat) (tag : Tag)
    (base_cost arg : Nat) : Nat → Nat → sssp_solver Tag → sssp_solver Tag
  | 0, _, s => s
  | fuel + 1, i, s =>
    if ptrdiff_t i ≥ ptrdiff_t fr then
      let r := relax .greater_equal linear_k adr func tag base_cost arg i s
      if r.2 then
        update_k_loop K linear_k adr fr func tag base_cost arg fuel
          ((i + (2 ^ 64 - K % 2 ^ 64)) % 2 ^ 64) r.1
      else r.1
    else s

/-- The member `update_k<K>(adr, fr, to, func, tag, arg)`; `linear_k` is the compile-time value
`is_linear_k<Func, K>::value`. -/
def update_k (K : Nat) (linear_k : Bool) (s : sssp_solver Tag) (adr fr to_ : Nat)
    (func : Nat → Nat) (tag : Tag) (arg : Nat) : sssp_solver Tag :=
  let to_ := min to_ (if s.size > adr then (s.size - 1) - adr else 0)
  if to_ < fr then s
  else
    update_k_loop K linear_k adr fr func tag (s.get adr).cost arg (2 ^ 64)
      (fr + (to_ - fr) / K * K) s

/-- The member `optimal_cost()`: the cost of the last vertex. -/
def optimal_cost (s : sssp_solver Tag) : Nat := (s.get (s.size - 1)).cost

/-- The ways `commands` can end. -/
inductive commands_result (Tag : Type) where
  | ok (cmds : List (Vertex Tag))
  | logic_error
  | assertion_failed
  | fuel_exhausted
  deriving DecidableEq, Repr

/-- The `while (adr > start)` loop of `commands`; `ret` is the vector built by `emplace_back`. -/
def commands_loop (s : sssp_solver Tag) (start : Int) :
    Nat → Int → List (Vertex Tag) → commands_result Tag
  | 0, _, _ => .fuel_exhausted
  | fuel + 1, adr, ret =>
    if adr > start then
      let cmd := s.get adr.toNat
      if cmd.len = 0 then .logic_error
      else commands_loop s start fuel (adr - cmd.len) (ret ++ [cmd])
    else if adr = start then .ok ret.reverse
    else .assertion_failed

/-- The member `commands(start)`. -/
def commands (s : sssp_solver Tag) (start : Nat) : commands_result Tag :=
  commands_loop s start (s.size + 1) ((s.size : Int) - 1) []

end sssp_solver

/-! ## The dynamic program of `estpolis_biography_comp` -/

namespace estpolis_biography

/-- The enumeration `enum tag { uncomp0, uncomp1, lzs, lzl }`. -/
inductive tag where
  | uncomp0
  | uncomp1
  | lzs
  | lzl
  deriving DecidableEq, Repr

/-- The value-initialised tag is the first enumerator. -/
instance instInhabitedTag : Inhabited tag := ⟨.uncomp0⟩

/-- The body of the loop over `i`, given the results `res_lzs` and `res_lzl` of the two match
queries at `i`. -/
def step (input : List Nat) (i : Nat) (res_lzs res_lzl : lz_data)
    (dp : sssp_solver tag) : sssp_solver tag :=
  let dp :=
    if Nat.land (input.getD i 0) 0x80 ≠ 0 then
      dp.update .greater_equal (is_linear_Constant 9) i 1 1 (Constant 9) .uncomp1 unspecified 0
    else
      dp.update .greater_equal (is_linear_Constant 8) i 1 1 (Constant 8) .uncomp0 unspecified 0
  let dp := dp.update_lz .greater_equal (is_linear_Constant 17) i 3 0x11 res_lzs (Constant 17)
    .lzs unspecified
  dp.update_lz .greater_equal (is_linear_Constant 25) i 3 0x42 res_lzl (Constant 25)
    .lzl unspecified

/-- The solver after the passes `0 .. i-1` of the loop, when the query at position `j` for the
window `0x800` answers `find_s j` and the one for the window `0x2000` answers `find_l j`. -/
def dp_after (input : List Nat) (find_s find_l : Nat → lz_data) : Nat → sssp_solver tag
  | 0 => sssp_solver.mk_solver input.length 0
  | i + 1 => step input i (find_s i) (find_l i) (dp_after input find_s find_l i)

/-- The three edge kinds declared by the loop body. -/
inductive edge_kind where
  | literal
  | short_match
  | long_match
  deriving DecidableEq, Repr

/-- An edge leaving a position: its kind and the number of bytes it consumes. -/
structure edge where
  kind : edge_kind
  len : Nat
  deriving DecidableEq, Repr

/-- The bit cost of an edge leaving position `i`. -/
def edge_cost (input : List Nat) (i : Nat) (e : edge) : Nat :=
  match e.kind with
  | .literal => if Nat.land (input.getD i 0) 0x80 ≠ 0 then 9 else 8
  | .short_match => 17
  | .long_match => 25

/-- Whether an edge is declared at position `i`. -/
def edge_ok (find_s find_l : Nat → lz_data) (i : Nat) (e : edge) : Bool :=
  match e.kind with
  | .literal => decide (e.len = 1)
  | .short_match => decide (3 ≤ e.len) && decide (e.len ≤ min 0x11 (find_s i).len)
  | .long_match => decide (3 ≤ e.len) && decide (e.len ≤ min 0x42 (find_l i).len)

/-- Whether the edge sequence `p`, started at position `i`, uses declared edges only and ends
exactly at position `t`. -/
def path_ok (find_s find_l : Nat → lz_data) (t : Nat) : Nat → List edge → Bool
  | i, [] => decide (i = t)
  | i, e :: es => edge_ok find_s find_l i e && path_ok find_s find_l t (i + e.len) es

/-- The summed cost of the edge sequence `p` started at position `i`. -/
def path_cost (input : List Nat) : Nat → List edge → Nat
  | _, [] => 0
  | i, e :: es => edge_cost input i e + path_cost input (i + e.len) es

end estpolis_biography

end sfc_comp

namespace sfc_comp
open encode sssp_solver

/-! ## Auxiliary predicates used in the statements below -/

namespace sssp_solver

variable {Tag : Type} [Inhabited Tag] [BEq Tag]

/-- The passes of the loop of the range `update` at the lengths `i, i - 1, .., fr`, in this
order and up to a `break`, as a recursion on the length.  For `fr < 2^63` and `i < 2^63` the
loop makes exactly these passes (`update_loop_eq`). -/
def update_descend (skip : Skip) (linear : Bool) (adr fr : Nat) (func : Nat → Nat) (tag : Tag)
    (base_cost arg : Nat) : Nat → sssp_solver Tag → sssp_solver Tag
  | 0, s => if 0 < fr then s else (relax skip linear adr func tag base_cost arg 0 s).1
  | i + 1, s =>
    if i + 1 < fr then s
    else
      let r := relax skip linear adr func tag base_cost arg (i + 1) s
      if r.2 then update_descend skip linear adr fr func tag base_cost arg i r.1 else r.1

/-- The passes of the loop of `update_k` at the lengths `fr + m K, fr + (m - 1) K, .., fr`, in
this order and up to a `break`, as a recursion on `m`.  For `1 <= K <= 2^63` and
`fr + m K < 2^63` the loop makes exactly these passes (`update_k_loop_eq`). -/
def update_k_descend (K : Nat) (linear_k : Bool) (adr fr : Nat) (func : Nat → Nat) (tag : Tag)
    (base_cost arg : Nat) : Nat → sssp_solver Tag → sssp_solver Tag
  | 0, s => (relax .greater_equal linear_k adr func tag base_cost arg fr s).1
  | m + 1, s =>
    let r := relax .greater_equal linear_k adr func tag base_cost arg (fr + (m + 1) * K) s
    if r.2 then update_k_descend K linear_k adr fr func tag base_cost arg m r.1 else r.1

/-- The outcome of relaxing, from `adr`, the lengths `lo .. hi` at the common cost `cost`. -/
structure RangeDone (s0 s1 : sssp_solver Tag) (adr lo hi cost arg : Nat) (tag : Tag) : Prop where
  size : s1.size = s0.size
  frame : ∀ v, s1.get v = s0.get v ∨
    (adr + lo ≤ v ∧ v ≤ adr + hi ∧ s1.get v = ⟨cost, v - adr, arg, tag⟩ ∧ cost < (s0.get v).cost)
  done : ∀ l, lo ≤ l → l ≤ hi → (s1.get (adr + l)).cost ≤ cost

end sssp_solver

namespace estpolis_biography

/-- The tags of the two match edges. -/
def is_lz : tag → Bool
  | .lzs => true
  | .lzl => true
  | _ => false

/-- The invariant of the loop over `i`, for the solver met while position `i` is processed. -/
structure Good (input : List Nat) (find_s find_l : Nat → lz_data) (i : Nat)
    (s : sssp_solver tag) : Prop where
  size : s.size = input.length + 1
  zero : (s.get 0).cost = 0
  reach : ∀ v, v ≤ input.length → (s.get v).cost < infinite_cost →
    ∃ p, path_ok find_s find_l v 0 p = true ∧ path_cost input 0 p = (s.get v).cost
  small : ∀ v, v ≤ i → v ≤ input.length → (s.get v).cost ≤ 9 * v
  relaxed : ∀ u e, u < i → edge_ok find_s find_l u e = true → u + e.len ≤ input.length →
    (s.get (u + e.len)).cost ≤ (s.get u).cost + edge_cost input u e
  jump : ∀ v, v ≤ input.length → (s.get v).cost < infinite_cost →
    (is_lz (s.get v).type = true → 3 ≤ (s.get v).len) ∧
    (3 ≤ (s.get v).len → (s.get v).len ≤ v ∧ v - (s.get v).len ≤ i ∧
      ∀ x, 3 ≤ x → x ≤ (s.get v).len →
        (s.get (v - (s.get v).len + x)).cost ≤ (s.get v).cost)

end estpolis_biography

end sfc_comp

namespace sfc_comp
open encode sssp_solver

namespace sssp_solver

variable {Tag : Type} [Inhabited Tag] [BEq Tag]

/-- The solvers obtained from `sssp_solver(n, begin)` by range relaxations (`update`,
`update_lz`, `update_k`) that use the default base cost, start at positions `>= begin`, have
a lower length bound `lo` with `1 <= lo < 2^63`, a stride `K <= 2^63`, and a cost function
whose values are at most `2^63`. -/
inductive Relaxed (n begin : Nat) : sssp_solver Tag → Prop where
  | init : Relaxed n begin (mk_solver n begin)
  | update (skip : Skip) (linear : Bool) (s : sssp_solver Tag) (adr fr to_ : Nat)
      (func : Nat → Nat) (tag : Tag) (arg : Nat) :
      Relaxed n begin s → begin ≤ adr → 1 ≤ fr → fr < 2 ^ 63 → (∀ l, func l ≤ 2 ^ 63) →
      Relaxed n begin (sssp_solver.update skip linear s adr fr to_ func tag unspecified arg)
  | update_lz (skip : Skip) (linear : Bool) (s : sssp_solver Tag) (adr fr to_ : Nat)
      (lz : lz_data) (func : Nat → Nat) (tag : Tag) :
      Relaxed n begin s → begin ≤ adr → 1 ≤ fr → fr < 2 ^ 63 → (∀ l, func l ≤ 2 ^ 63) →
      Relaxed n begin (sssp_solver.update_lz skip linear s adr fr to_ lz func tag unspecified)
  | update_k (K : Nat) (linear_k : Bool) (s : sssp_solver Tag) (adr fr to_ : Nat)
      (func : Nat → Nat) (tag : Tag) (arg : Nat) :
      Relaxed n begin s → 1 ≤ K → K ≤ 2 ^ 63 → begin ≤ adr → 1 ≤ fr →
      (∀ l, func l ≤ 2 ^ 63) →
      Relaxed n begin (sssp_solver.update_k K linear_k s adr fr to_ func tag arg)

/-- The back-chain invariant of a solver started at `begin`: no cost exceeds infinity, and a
vertex of finite cost is `begin` itself or has a length `>= 1` leading back to a vertex of
finite cost that is not below `begin`. -/
structure Chained (n begin : Nat) (s : sssp_solver Tag) : Prop where
  size : s.size = n + 1
  bounded : ∀ v, (s.get v).cost ≤ infinite_cost
  back : ∀ v, v ≤ n → (s.get v).cost < infinite_cost →
    v = begin ∨ (1 ≤ (s.get v).len ∧ begin + (s.get v).len ≤ v ∧
      (s.get (v - (s.get v).len)).cost < infinite_cost)

/-- The solvers of a parse that offers one affine edge family under the prune.  They are
obtained from `sssp_solver(n, begin)` by the pruned range relaxations
`update(adr, lo, hi, Linear<A, B>, tag)` with the default base cost, issued at positions that
never decrease, interleaved with range relaxations and single-edge relaxations under tags
that are not `==` to `tag`.  The index is the position of the last relaxation of the
family. -/
inductive Pruned (n begin A B lo : Nat) (tag : Tag) : Nat → sssp_solver Tag → Prop where
  | init : Pruned n begin A B lo tag begin (mk_solver n begin)
  | family (p adr hi arg : Nat) (s : sssp_solver Tag) :
      Pruned n begin A B lo tag p s → p ≤ adr → adr ≤ n →
      Pruned n begin A B lo tag adr
        (sssp_solver.update .greater_equal true s adr lo hi (Linear A B) tag unspecified arg)
  | range (p : Nat) (skip : Skip) (linear : Bool) (s : sssp_solver Tag) (adr fr to_ : Nat)
      (func : Nat → Nat) (other : Tag) (base_cost arg : Nat) :
      Pruned n begin A B lo tag p s → (other == tag) = false →
      Pruned n begin A B lo tag p
        (sssp_solver.update skip linear s adr fr to_ func other base_cost arg)
  | edge (p : Nat) (skip : Skip) (s : sssp_solver Tag) (adr len : Nat) (other : Tag)
      (cost arg : Nat) :
      Pruned n begin A B lo tag p s → (other == tag) = false →
      Pruned n begin A B lo tag p (sssp_solver.update_edge skip s adr len other cost arg)

/-- The invariant behind the prune: a vertex `v` that carries the tag was written by the edge
family from `v - len`, a position not after `p`, and every smaller length `x` of the family
from that position reaches a vertex whose cost is lower by at least `A (len - x)`. -/
structure Run (n A lo : Nat) (tag : Tag) (p : Nat) (s : sssp_solver Tag) : Prop where
  size : s.size = n + 1
  bounded : ∀ v, (s.get v).cost ≤ infinite_cost
  run : ∀ v, v ≤ n → ((s.get v).type == tag) = true →
    (s.get v).len ≤ v ∧ v - (s.get v).len ≤ p ∧
    ∀ x, lo ≤ x → x < (s.get v).len →
      (s.get (v - (s.get v).len + x)).cost + A * ((s.get v).len - x) ≤ (s.get v).cost

end sssp_solver
end sfc_comp

namespace sfc_comp
open encode sssp_solver

/-! ## Range structures -/

/-- A monoid handed to `segment_tree` as template parameter: `iden()` and `op`. -/
structure monoid_ops (α : Type) where
  iden : α
  op : α → α → α

/-- The struct `range_max<T, Iden>`. -/
def range_max (iden : Int) : monoid_ops Int := ⟨iden, fun l r => max l r⟩

/-- The struct `range_min<T, Iden>`. -/
def range_min (iden : Nat) : monoid_ops Nat := ⟨iden, fun l r => min l r⟩

/-- The value `std::numeric_limits<int32_t>::min()`, default identity of `range_max`. -/
def int32_min : Int := -(2 ^ 31)

/-- The value `std::numeric_limits<uint32_t>::max()`, default identity of `range_min`. -/
def uint32_max : Nat := 2 ^ 32 - 1

/-- The conversion `signed_index_type(i)` of a position to `int32_t`. -/
def signed_index (i : Nat) : Int :=
  if i % 2 ^ 32 < 2 ^ 31 then ((i % 2 ^ 32 : Nat) : Int) else ((i % 2 ^ 32 : Nat) : Int) - 2 ^ 32

/-- The conversion `size_t(x)` of a signed value. -/
def size_t (x : Int) : Nat := (x % 2 ^ 64).toNat

/-- A read-only `std::span`: its size and its elements. -/
structure span (α : Type) where
  size : Nat
  get : Nat → α

/-- The product of the cells `f a, f (a+1), .., f (a+len-1)` folded from the right onto the
identity. -/
def fold_range {α : Type} (M : monoid_ops α) (f : Nat → α) : Nat → Nat → α
  | _, 0 => M.iden
  | a, len + 1 => M.op (f a) (fold_range M f (a + 1) len)

/-- The smallest power of two that is `>= n`, found by doubling at most `fuel` times. -/
def next_pow2_from (n : Nat) : Nat → Nat
  | 0 => 1
  | fuel + 1 => if next_pow2_from n fuel < n then 2 * next_pow2_from n fuel
      else next_pow2_from n fuel

/-- The smallest power of two that is `>= n`. -/
def next_pow2 (n : Nat) : Nat := next_pow2_from n n

/-- The value of cell `k` of a 1-based complete binary tree of width `W` over the leaf values
`leaf`: cell `W + j` is leaf `j`, an inner cell is the product of its two children. -/
def tree_node {α : Type} (M : monoid_ops α) (W : Nat) (leaf : Nat → α) : Nat → Nat → α
  | 0, k => if W ≤ k then leaf (k - W) else M.iden
  | fuel + 1, k =>
    if W ≤ k then leaf (k - W)
    else M.op (tree_node M W leaf fuel (2 * k)) (tree_node M W leaf fuel (2 * k + 1))

/-- Modelled from the spec: the class `segment_tree` of `data_structure.hpp`, which is not
among the sources.  Section 4.2: stored as a 1-based complete-binary array of `2 W` cells with
`W` the next power of two `>=` the logical size; the logical leaves are the cells
`[W, W + n)`, the unused leaves hold the identity, `update(i, v)` writes cell `W + i` and
refolds toward the root, `fold(l, r)` is the product over the logical positions `[l, r)`.
The record keeps the logical cells; `nodes` gives the array. -/
structure segment_tree (α : Type) where
  n : Nat
  cell : List α

namespace segment_tree

variable {α : Type}

/-- Modelled from the spec: the constructor `segment_tree(size)`, every cell the identity. -/
def of_size (M : monoid_ops α) (n : Nat) : segment_tree α := ⟨n, List.replicate n M.iden⟩

/-- Modelled from the spec: the constructor `segment_tree(vector)`. -/
def of_vector (v : List α) : segment_tree α := ⟨v.length, v⟩

/-- Modelled from the spec: the width `W`. -/
def width (t : segment_tree α) : Nat := next_pow2 t.n

/-- Modelled from the spec: the content of leaf `j` (cell `W + j`). -/
def leaf (M : monoid_ops α) (t : segment_tree α) (j : Nat) : α :=
  if j < t.n then t.cell.getD j M.iden else M.iden

/-- Modelled from the spec: the array returned by `nodes()`. -/
def nodes (M : monoid_ops α) (t : segment_tree α) : span α :=
  ⟨2 * t.width, fun k => tree_node M t.width (t.leaf M) t.width k⟩

/-- Modelled from the spec: the member `update(i, v)`. -/
def update (t : segment_tree α) (i : Nat) (v : α) : segment_tree α :=
  ⟨t.n, t.cell.set i v⟩

/-- Modelled from the spec: the member `fold(l, r)`. -/
def fold (M : monoid_ops α) (t : segment_tree α) (l r : Nat) : α :=
  fold_range M (t.leaf M) l (r - l)

end segment_tree

/-! ## Suffix index -/

/-- The strict lexicographic order on sequences (a proper prefix is smaller). -/
def lex_lt : List Int → List Int → Bool
  | [], [] => false
  | [], _ :: _ => true
  | _ :: _, [] => false
  | a :: as, b :: bs => decide (a < b) || (decide (a = b) && lex_lt as bs)

/-- The length of the longest common prefix of two sequences. -/
def common_prefix_length : List Int → List Int → Nat
  | a :: as, b :: bs => if a = b then common_prefix_length as bs + 1 else 0
  | _, _ => 0

/-- Modelled from the spec: the class `suffix_array` of `data_structure.hpp`, which is not
among the sources.  Section 3: `sa` orders the suffixes lexicographically and `rank` is its
inverse; so `rank[i]` is the number of suffixes smaller than suffix `i`. -/
def suffix_rank (s : List Int) (i : Nat) : Nat :=
  (List.range s.length).countP (fun j => lex_lt (s.drop j) (s.drop i))

/-- Modelled from the spec: `sa[r]`, the start of the suffix of rank `r`. -/
def suffix_sa (s : List Int) (r : Nat) : Nat :=
  ((List.range s.length).find? (fun i => suffix_rank s i == r)).getD 0

/-- The pair `(lcp, rank)` returned by `lcp_rank()`. -/
structure suffix_index where
  lcp : List Nat
  rank : List Nat

/-- Modelled from the spec: `lcp_rank()` with the `lcp` array exactly as section 3 words it:
`lcp[i]` is the common-prefix length of the suffixes `sa[i-1]` and `sa[i]`, and `lcp[0] = 0`. -/
def lcp_rank_spec (s : List Int) : suffix_index :=
  ⟨(List.range s.length).map (fun r =>
      if r = 0 then 0
      else common_prefix_length (s.drop (suffix_sa s (r - 1))) (s.drop (suffix_sa s r))),
   (List.range s.length).map (suffix_rank s)⟩

/-- The pair `(lcp, rank)` with the `lcp` array indexed the way `find_left`, `find_right` and
the wavelet `find` read it: `lcp[i]` is the common-prefix length of the suffixes `sa[i]` and
`sa[i+1]` (0 for the last rank). -/
def lcp_rank (s : List Int) : suffix_index :=
  ⟨(List.range s.length).map (fun r =>
      if r + 1 < s.length then
        common_prefix_length (s.drop (suffix_sa s r)) (s.drop (suffix_sa s (r + 1)))
      else 0),
   (List.range s.length).map (suffix_rank s)⟩

end sfc_comp

namespace sfc_comp
open encode sssp_solver

/-! ## Longest-match search on the rank trees -/

namespace encode
namespace lz

/-- The lambda `found` of `find_left` / `find_right`: the position stored at cell `k` is
within distance `d` of `adr`.  The sum `ofs_node[k] + ptrdiff_t(d)` is formed in `ptrdiff_t`:
it is the 64-bit two's complement value of the sum. -/
def found (ofs_node : span Int) (adr d : Nat) (k : Nat) : Bool :=
  decide (ptrdiff_t (size_t (ofs_node.get k + ptrdiff_t d)) ≥ ptrdiff_t adr)

/-- The lambda `quit`: `lcp_node[k] < lcp && (lcp = lcp_node[k]) < min_len`.  The first
component is the value of `lcp` afterwards. -/
def quit (lcp_node : span Nat) (min_len : Nat) (k : Nat) (lcp : Nat) : Nat × Bool :=
  if lcp_node.get k < lcp then (lcp_node.get k, decide (lcp_node.get k < min_len))
  else (lcp, false)

/-- How one of the `while` loops of `find_left` / `find_right` ends: out of fuel, by
`return empty`, or by leaving the loop with the variables `lo`, `hi`, `k`, `lcp`. -/
inductive loop_result where
  | exhausted
  | returned (r : lz_data)
  | done (lo hi k lcp : Nat)
  deriving DecidableEq, Repr

/-- The loop `while (lo > 0 && !found(k))` of `find_left`. -/
def find_left_climb (lcp_node : span Nat) (ofs_node : span Int) (adr d min_len : Nat) :
    Nat → Nat → Nat → Nat → Nat → loop_result
  | 0, _, _, _, _ => .exhausted
  | fuel + 1, lo, hi, k, lcp =>
    if lo > 0 ∧ found ofs_node adr d k = false then
      if (quit lcp_node min_len k lcp).2 then .returned empty
      else if k % 2 = 0 then
        find_left_climb lcp_node ofs_node adr d min_len fuel (lo - 2 * (hi - lo)) lo (k / 2 - 1)
          (quit lcp_node min_len k lcp).1
      else
        find_left_climb lcp_node ofs_node adr d min_len fuel (lo - (hi - lo)) (hi - (hi - lo))
          (k - 1) (quit lcp_node min_len k lcp).1
    else .done lo hi k lcp

/-- The loop `while (k < width)` of `find_left`. -/
def find_left_descend (lcp_node : span Nat) (ofs_node : span Int) (adr d min_len width : Nat) :
    Nat → Nat → Nat → Nat → Nat → loop_result
  | 0, _, _, _, _ => .exhausted
  | fuel + 1, lo, hi, k, lcp =>
    if k < width then
      if found ofs_node adr d (2 * k + 1) then
        find_left_descend lcp_node ofs_node adr d min_len width fuel ((lo + hi) / 2) hi
          (2 * k + 1) lcp
      else if (quit lcp_node min_len (2 * k + 1) lcp).2 then .returned empty
      else
        find_left_descend lcp_node ofs_node adr d min_len width fuel lo ((lo + hi) / 2) (k * 2)
          (quit lcp_node min_len (2 * k + 1) lcp).1
    else .done lo hi k lcp

/-- The end of `find_left`, after its second loop: the last `quit` and the result. -/
def find_left_finish (lcp_node : span Nat) (ofs_node : span Int) (min_len : Nat) :
    loop_result → Option lz_data
  | .exhausted => none
  | .returned r => some r
  | .done lo _ k lcp =>
    if (quit lcp_node min_len k lcp).2 then some empty
    else some ⟨size_t (ofs_node.get (lo + lcp_node.size / 2)), (quit lcp_node min_len k lcp).1⟩

/-- The part of `find_left` that follows its first loop. -/
def find_left_tail (lcp_node : span Nat) (ofs_node : span Int) (adr d min_len : Nat) :
    loop_result → Option lz_data
  | .exhausted => none
  | .returned r => some r
  | .done lo hi k lcp =>
    if lo = 0 ∧ found ofs_node adr d k = false then some empty
    else
      find_left_finish lcp_node ofs_node min_len
        (find_left_descend lcp_node ofs_node adr d min_len (lcp_node.size / 2)
          (lcp_node.size / 2 + 1) lo hi k lcp)

/-- The function `encode::lz::find_left`.  `none` stands for an exhausted loop. -/
def find_left (adr i d min_len : Nat) (lcp_node : span Nat) (ofs_node : span Int) :
    Option lz_data :=
  if i = 0 then some empty
  else
    find_left_tail lcp_node ofs_node adr d min_len
      (find_left_climb lcp_node ofs_node adr d min_len (i + 1) (i - 1) i
        (i - 1 + lcp_node.size / 2) uint32_max)

/-- The loop `while (hi < width && !found(k))` of `find_right`. -/
def find_right_climb (lcp_node : span Nat) (ofs_node : span Int) (adr d min_len width : Nat) :
    Nat → Nat → Nat → Nat → Nat → loop_result
  | 0, _, _, _, _ => .exhausted
  | fuel + 1, lo, hi, k, lcp =>
    if hi < width ∧ found ofs_node adr d k = false then
      if (quit lcp_node min_len k lcp).2 then .returned empty
      else if k % 2 = 1 then
        find_right_climb lcp_node ofs_node adr d min_len width fuel hi (hi + 2 * (hi - lo))
          ((k + 1) / 2) (quit lcp_node min_len k lcp).1
      else
        find_right_climb lcp_node ofs_node adr d min_len width fuel (lo + (hi - lo))
          (hi + (hi - lo)) (k + 1) (quit lcp_node min_len k lcp).1
    else .done lo hi k lcp

/-- The loop `while (k < width)` of `find_right`. -/
def find_right_descend (lcp_node : span Nat) (ofs_node : span Int) (adr d min_len width : Nat) :
    Nat → Nat → Nat → Nat → Nat → loop_result
  | 0, _, _, _, _ => .exhausted
  | fuel + 1, lo, hi, k, lcp =>
    if k < width then
      if found ofs_node adr d (2 * k) then
        find_right_descend lcp_node ofs_node adr d min_len width fuel lo ((lo + hi) / 2)
          (2 * k) lcp
      else if (quit lcp_node min_len (2 * k) lcp).2 then .returned empty
      else
        find_right_descend lcp_node ofs_node adr d min_len width fuel ((lo + hi) / 2) hi
          (2 * k + 1) (quit lcp_node min_len (2 * k) lcp).1
    else .done lo hi k lcp

/-- The end of `find_right`, after its second loop. -/
def find_right_finish (lcp_node : span Nat) (ofs_node : span Int) : loop_result → Option lz_data
  | .exhausted => none
  | .returned r => some r
  | .done lo _ _ lcp => some ⟨size_t (ofs_node.get (lo + lcp_node.size / 2)), lcp⟩

/-- The part of `find_right` that follows its first loop. -/
def find_right_tail (lcp_node : span Nat) (ofs_node : span Int) (adr d min_len : Nat) :
    loop_result → Option lz_data
  | .exhausted => none
  | .returned r => some r
  | .done lo hi k lcp =>
    if hi = lcp_node.size / 2 ∧ found ofs_node adr d k = false then some empty
    else
      find_right_finish lcp_node ofs_node
        (find_right_descend lcp_node ofs_node adr d min_len (lcp_node.size / 2)
          (lcp_node.size / 2 + 1) lo hi k lcp)

/-- The function `encode::lz::find_right`.  `none` stands for an exhausted loop. -/
def find_right (adr i d min_len : Nat) (lcp_node : span Nat) (ofs_node : span Int) :
    Option lz_data :=
  find_right_tail lcp_node ofs_node adr d min_len
    (find_right_climb lcp_node ofs_node adr d min_len (lcp_node.size / 2)
      (lcp_node.size / 2 + 1) i (i + 1) (i + lcp_node.size / 2) uint32_max)

/-- The function `encode::lz::find` on the two trees: the longer of the left and the right
result, the left one on ties. -/
def find (adr rank max_dist min_len : Nat) (lcp_node : span Nat) (ofs_node : span Int) :
    Option lz_data :=
  match find_left adr rank max_dist min_len lcp_node ofs_node,
      find_right adr rank max_dist min_len lcp_node ofs_node with
  | some left, some right => some (if left.len ≥ right.len then left else right)
  | _, _ => none

/-- The largest `j < i` with `p j`, if any. -/
def last_found_below (p : Nat → Bool) : Nat → Option Nat
  | 0 => none
  | i + 1 => if p i then some i else last_found_below p i

/-- The smallest `j` with `p j` among `i, i+1, .., i+n-1`, if any. -/
def first_found_from (p : Nat → Bool) : Nat → Nat → Option Nat
  | _, 0 => none
  | i, n + 1 => if p i then some i else first_found_from p (i + 1) n

/-- What the walk of `find_left` computes on trees of width `W`: the nearest leaf `j` below
`i` whose position passes the distance test, with the minimum `m` of the lcp leaves
`j .. i-1`; empty when there is no such leaf or `m` is below `min_len`. -/
def left_spec (lcp_node : span Nat) (ofs_node : span Int) (W adr i d min_len : Nat) : lz_data :=
  match last_found_below (fun j => found ofs_node adr d (W + j)) i with
  | none => empty
  | some j =>
    if fold_range (range_min uint32_max) (fun t => lcp_node.get (W + t)) j (i - j) < min_len ∧
        fold_range (range_min uint32_max) (fun t => lcp_node.get (W + t)) j (i - j) < uint32_max
    then empty
    else ⟨size_t (ofs_node.get (W + j)),
      fold_range (range_min uint32_max) (fun t => lcp_node.get (W + t)) j (i - j)⟩

/-- What the walk of `find_right` computes on trees of width `W`: the nearest leaf `j >= i`
whose position passes the distance test, with the minimum `m` of the lcp leaves `i .. j-1`;
empty when there is no such leaf or `m` is below `min_len`. -/
def right_spec (lcp_node : span Nat) (ofs_node : span Int) (W adr i d min_len : Nat) : lz_data :=
  match first_found_from (fun j => found ofs_node adr d (W + j)) i (W - i) with
  | none => empty
  | some j =>
    if fold_range (range_min uint32_max) (fun t => lcp_node.get (W + t)) i (j - i) < min_len ∧
        fold_range (range_min uint32_max) (fun t => lcp_node.get (W + t)) i (j - i) < uint32_max
    then empty
    else ⟨size_t (ofs_node.get (W + j)),
      fold_range (range_min uint32_max) (fun t => lcp_node.get (W + t)) i (j - i)⟩

/-- The two node arrays are 1-based complete binary trees of width `W`: every inner cell of
`ofs_node` is the maximum and every inner cell of `lcp_node` the minimum of its two children,
and the lcp leaves fit the index type. -/
structure valid_trees (lcp_node : span Nat) (ofs_node : span Int) (W : Nat) : Prop where
  size : lcp_node.size / 2 = W
  hmax : ∀ k, 1 ≤ k → k < W → ofs_node.get k = max (ofs_node.get (2 * k)) (ofs_node.get (2 * k + 1))
  hmin : ∀ k, 1 ≤ k → k < W → lcp_node.get k = min (lcp_node.get (2 * k)) (lcp_node.get (2 * k + 1))
  hle : ∀ j, j < W → lcp_node.get (W + j) ≤ uint32_max

/-- The sum `ofs_node[k] + ptrdiff_t(d)` of the distance test does not leave `ptrdiff_t` at
any of the `2 W` cells of the position array. -/
def sum_fits (ofs_node : span Int) (W d : Nat) : Prop :=
  ∀ k, k < 2 * W →
    -(2 ^ 63) ≤ ofs_node.get k + ptrdiff_t d ∧ ofs_node.get k + ptrdiff_t d < 2 ^ 63

end lz
end encode

/-! ## LZ helpers -/

/-- The bytes of the input as elements of the suffix index alphabet. -/
def bytes (input : List Nat) : List Int := List.map Int.ofNat input

/-- The class `lz_helper`. -/
structure lz_helper where
  n : Nat
  rank : List Nat
  seg : segment_tree Int
  lcp : segment_tree Nat

namespace lz_helper

/-- The constructor `lz_helper(input)`; `index` is the function computing
`suffix_array<uint8_t>(input).lcp_rank()`. -/
def create (index : List Int → suffix_index) (input : List Nat) : lz_helper :=
  ⟨input.length, (index (bytes input)).rank,
    segment_tree.of_size (range_max int32_min) input.length,
    segment_tree.of_vector (index (bytes input)).lcp⟩

/-- The member `find(pos, max_dist, min_len)`. -/
def find (h : lz_helper) (pos max_dist min_len : Nat) : Option lz_data :=
  lz.find pos (h.rank.getD pos 0) max_dist min_len (h.lcp.nodes (range_min uint32_max))
    (h.seg.nodes (range_max int32_min))

/-- The member `add_element(i)`. -/
def add_element (h : lz_helper) (i : Nat) : lz_helper :=
  { h with seg := h.seg.update (h.rank.getD i 0) (signed_index i) }

end lz_helper

/-- The class `lz_helper_c`. -/
structure lz_helper_c where
  n : Nat
  rank : List Nat
  seg : segment_tree Int
  seg_c : segment_tree Int
  lcp : segment_tree Nat

namespace lz_helper_c

/-- The member `complement_appended`: the input, then `-1`, then the complemented input. -/
def complement_appended (input : List Nat) : List Int :=
  bytes input ++ [-1] ++ bytes (input.map (fun b => Nat.xor b 0xff))

/-- The constructor `lz_helper_c(input)`; `index` is the function computing
`suffix_array<int16_t>(...).lcp_rank()`. -/
def create (index : List Int → suffix_index) (input : List Nat) : lz_helper_c :=
  ⟨input.length, (index (complement_appended input)).rank,
    segment_tree.of_size (range_max int32_min) (index (complement_appended input)).rank.length,
    segment_tree.of_size (range_max int32_min) (index (complement_appended input)).rank.length,
    segment_tree.of_vector (index (complement_appended input)).lcp⟩

/-- The member `find(pos, max_dist, min_len)`. -/
def find (h : lz_helper_c) (pos max_dist min_len : Nat) : Option lz_data :=
  lz.find pos (h.rank.getD pos 0) max_dist min_len (h.lcp.nodes (range_min uint32_max))
    (h.seg.nodes (range_max int32_min))

/-- The member `find_c(pos, max_dist, min_len)`. -/
def find_c (h : lz_helper_c) (pos max_dist min_len : Nat) : Option lz_data :=
  lz.find pos (h.rank.getD pos 0) max_dist min_len (h.lcp.nodes (range_min uint32_max))
    (h.seg_c.nodes (range_max int32_min))

/-- The member `add_element(i)`. -/
def add_element (h : lz_helper_c) (i : Nat) : lz_helper_c :=
  { h with
    seg := h.seg.update (h.rank.getD i 0) (signed_index i)
    seg_c := h.seg_c.update (h.rank.getD (i + h.n + 1) 0) (signed_index i) }

end lz_helper_c

/-- The table `bit_reversed`: the three swaps of the initialiser, stored in a `uint8_t`. -/
def bit_reversed (i : Nat) : Nat :=
  let b := i
  let b := Nat.lor (Nat.shiftRight (Nat.land b 0xf0) 4) (Nat.shiftLeft (Nat.land b 0x0f) 4)
  let b := Nat.lor (Nat.shiftRight (Nat.land b 0xcc) 2) (Nat.shiftLeft (Nat.land b 0x33) 2)
  let b := Nat.lor (Nat.shiftRight (Nat.land b 0xaa) 1) (Nat.shiftLeft (Nat.land b 0x55) 1)
  b % 256

/-- The class `lz_helper_kirby`. -/
structure lz_helper_kirby where
  n : Nat
  rank_h : List Nat
  rank_v : List Nat
  lcp_h : segment_tree Nat
  lcp_v : segment_tree Nat
  seg : segment_tree Int
  seg_h : segment_tree Int
  seg_v : segment_tree Int

namespace lz_helper_kirby

/-- The member `hflip_appended`: the input, then `-1`, then the bit-reversed input. -/
def hflip_appended (input : List Nat) : List Int :=
  bytes input ++ [-1] ++ bytes (input.map bit_reversed)

/-- The member `vflip_appended`: the input, then `-1`, then `input[n - 1 - i]` for
`i = 0 .. n-1`. -/
def vflip_appended (input : List Nat) : List Int :=
  bytes input ++ [-1] ++
    bytes ((List.range input.length).map (fun i => input.getD (input.length - 1 - i) 0))

/-- The constructor `lz_helper_kirby(input)`; `index` is the function computing
`suffix_array<int16_t>(...).lcp_rank()`. -/
def create (index : List Int → suffix_index) (input : List Nat) : lz_helper_kirby :=
  ⟨input.length, (index (hflip_appended input)).rank, (index (vflip_appended input)).rank,
    segment_tree.of_vector (index (hflip_appended input)).lcp,
    segment_tree.of_vector (index (vflip_appended input)).lcp,
    segment_tree.of_size (range_max int32_min) (index (hflip_appended input)).rank.length,
    segment_tree.of_size (range_max int32_min) (index (hflip_appended input)).rank.length,
    segment_tree.of_size (range_max int32_min) (index (vflip_appended input)).rank.length⟩

/-- The member `find(pos, max_dist, min_len)`. -/
def find (h : lz_helper_kirby) (pos max_dist min_len : Nat) : Option lz_data :=
  lz.find pos (h.rank_h.getD pos 0) max_dist min_len (h.lcp_h.nodes (range_min uint32_max))
    (h.seg.nodes (range_max int32_min))

/-- The member `find_h(pos, max_dist, min_len)`. -/
def find_h (h : lz_helper_kirby) (pos max_dist min_len : Nat) : Option lz_data :=
  lz.find pos (h.rank_h.getD pos 0) max_dist min_len (h.lcp_h.nodes (range_min uint32_max))
    (h.seg_h.nodes (range_max int32_min))

/-- The member `find_v(pos, max_dist, min_len)`. -/
def find_v (h : lz_helper_kirby) (pos max_dist min_len : Nat) : Option lz_data :=
  lz.find pos (h.rank_v.getD pos 0) max_dist min_len (h.lcp_v.nodes (range_min uint32_max))
    (h.seg_v.nodes (range_max int32_min))

/-- The member `add_element(i)`. -/
def add_element (h : lz_helper_kirby) (i : Nat) : lz_helper_kirby :=
  { h with
    seg := h.seg.update (h.rank_h.getD i 0) (signed_index i)
    seg_h := h.seg_h.update (h.rank_h.getD (i + h.n + 1) 0) (signed_index i)
    seg_v := h.seg_v.update (h.rank_v.getD (2 * h.n - i) 0) (signed_index i) }

end lz_helper_kirby

end sfc_comp

namespace sfc_comp
open encode sssp_solver

/-- The minimum of the lcp leaves between the two ranks `i` and `j`. -/
def span_min (lcp : segment_tree Nat) (i j : Nat) : Nat :=
  fold_range (range_min uint32_max) (lcp.leaf (range_min uint32_max)) (min i j)
    (max i j - min i j)

end sfc_comp

namespace sfc_comp
open encode sssp_solver

/-- What one of the two walks returns, on the side of the ranks `j` with `side j`: either the
empty record, every stored position of that side within distance having a span minimum below
`min_len`; or a stored position within distance whose span minimum is at least `min_len` and
is the largest of that side. -/
def side_ok (lcp : segment_tree Nat) (seg : segment_tree Int) (M pos i d min_len : Nat)
    (side : Nat → Prop) (res : lz_data) : Prop :=
  (res = lz.empty ∧ ∀ (j b : Nat), side j → j < M →
      seg.leaf (range_max int32_min) j = (b : Int) → pos ≤ b + d →
      span_min lcp i j < min_len) ∨
  (∃ j a : Nat, side j ∧ j < M ∧ a < 2 ^ 31 ∧ seg.leaf (range_max int32_min) j = (a : Int) ∧
      pos ≤ a + d ∧ res = ⟨a, span_min lcp i j⟩ ∧ min_len ≤ span_min lcp i j ∧
      ∀ (j' b : Nat), side j' → j' < M → seg.leaf (range_max int32_min) j' = (b : Int) →
        pos ≤ b + d → span_min lcp i j' ≤ span_min lcp i j)

end sfc_comp

namespace sfc_comp
open encode sssp_solver

/-- What every function standing for `lcp_rank()` has to deliver for the position trees:
`rank[i]` is the number of suffixes smaller than suffix `i`, and `lcp` has one entry per
suffix, none larger than the length of the sequence. -/
def index_ok (index : List Int → suffix_index) : Prop :=
  ∀ s, (index s).rank = (List.range s.length).map (suffix_rank s) ∧
    (index s).lcp.length = s.length ∧ ∀ x ∈ (index s).lcp, x ≤ s.length

/-- The position tree after `add_element` has stored the positions of `added`, position `a`
going to leaf `slot a`. -/
def add_all (t : segment_tree Int) (slot : Nat → Nat) (added : List Nat) : segment_tree Int :=
  added.foldl (fun t a => t.update (slot a) (signed_index a)) t

end sfc_comp

namespace sfc_comp
open encode sssp_solver

/-- The input of the complement scenario: 100 bytes `0x00` followed by 100 bytes `0xff`. -/
def complement_scenario : List Nat := List.replicate 100 0 ++ List.replicate 100 0xff

end sfc_comp

namespace sfc_comp
open encode sssp_solver

namespace encode
namespace lz

/-- The lambda `overlapped` of `find_non_overlapping`; the sum is a `size_t`. -/
def overlapped (i : Nat) (res : lz_data) : Bool :=
  decide (res.len > 0) && decide (size_t ((res.ofs : Int) + (res.len : Int)) > i)

/-- The loop `while (ret.len < len_hi)` of `find_non_overlapping`; every difference and the
midpoint are `size_t` values. -/
def find_non_overlapping_loop (adr : Nat) (find_lz : Nat → lz_data) :
    Nat → lz_data → Nat → Option lz_data
  | 0, _, _ => none
  | fuel + 1, ret, len_hi =>
    if ret.len < len_hi then
      let len := size_t ((ret.len : Int) + (len_hi : Int) + 1) / 2
      let lz := find_lz (size_t ((adr : Int) - (size_t ((len : Int) - 1) : Int)))
      let lz : lz_data :=
        if overlapped adr lz then ⟨lz.ofs, size_t ((adr : Int) - (lz.ofs : Int))⟩ else lz
      find_non_overlapping_loop adr find_lz fuel (if lz.gt ret then lz else ret)
        (if lz.len < len then size_t ((len : Int) - 1) else len_hi)
    else some ret

/-- The function `encode::lz::find_non_overlapping`.  `none` stands for an exhausted loop. -/
def find_non_overlapping (adr_l adr : Nat) (find_lz : Nat → lz_data) (prev : lz_data) :
    Option lz_data :=
  let prev : lz_data :=
    if prev.len ≥ 1 then ⟨size_t ((prev.ofs : Int) + 1), size_t ((prev.len : Int) - 1)⟩
    else prev
  let ret := find_lz (size_t ((adr : Int) - (size_t ((max prev.len 1 : Nat) - 1 : Int) : Int)))
  if overlapped adr ret = false then some ret
  else
    find_non_overlapping_loop adr find_lz (min (size_t ((adr : Int) - (adr_l : Int))) ret.len + 1)
      ⟨ret.ofs, size_t ((adr : Int) - (ret.ofs : Int))⟩
      (min (size_t ((adr : Int) - (adr_l : Int))) ret.len)

end lz
end encode

end sfc_comp

namespace sfc_comp
open encode sssp_solver

/-! ## Literal-run helper -/

/-- The record `uncomp_helper::indexed_cost`. -/
structure indexed_cost where
  cost : Nat
  index : Nat
  deriving DecidableEq, Repr

/-- The comparison `indexed_cost::operator <`: smaller cost first, smaller index on ties. -/
def indexed_cost.lt (a b : indexed_cost) : Bool :=
  decide (a.cost < b.cost) || (decide (a.cost = b.cost) && decide (a.index < b.index))

/-- The record `uncomp_helper::len_cost`. -/
structure len_cost where
  len : Nat
  cost : Nat
  deriving DecidableEq, Repr

/-- The constant `uncomp_helper::nlen`, that is `SIZE_MAX`. -/
def nlen : Nat := 2 ^ 64 - 1

/-- The struct `range_min<T, Iden>` of `algorithm.hpp` at the type `indexed_cost`: `op` is
`std::min<T>`, which returns the right operand when it is smaller under `operator <` and the
left operand otherwise. -/
def range_min_indexed (iden : indexed_cost) : monoid_ops indexed_cost :=
  ⟨iden, fun l r => if r.lt l then r else l⟩

/-- The class `uncomp_helper<size_t>`. -/
structure uncomp_helper where
  n : Nat
  slope_ : Nat
  tree_ : segment_tree indexed_cost

namespace uncomp_helper

/-- The constant `uncomp_helper::iden`. -/
def iden : indexed_cost := ⟨infinite_cost, nlen⟩

/-- The constructor `uncomp_helper(size, slope)`. -/
def create (size slope : Nat) : uncomp_helper :=
  ⟨size, slope, segment_tree.of_size (range_min_indexed iden) size⟩

/-- The member `update(i, cost)`; the stored cost is a `size_t`. -/
def update (h : uncomp_helper) (i cost : Nat) : uncomp_helper :=
  ⟨h.n, h.slope_, h.tree_.update i
    ⟨size_t ((cost : Int) + ((h.n : Int) - (i : Int)) * (h.slope_ : Int)), i⟩⟩

/-- The member `reset(i)`. -/
def reset (h : uncomp_helper) (i : Nat) : uncomp_helper :=
  ⟨h.n, h.slope_, h.tree_.update i iden⟩

/-- The member `find(i, fr, to)`; the differences are `size_t` values. -/
def find (h : uncomp_helper) (i fr to_ : Nat) : len_cost :=
  if i < fr then ⟨nlen, infinite_cost⟩
  else
    let res := h.tree_.fold (range_min_indexed iden) (i - min i to_) (i - fr + 1)
    if res.cost ≥ infinite_cost then ⟨nlen, infinite_cost⟩
    else
      ⟨size_t ((i : Int) - (res.index : Int)),
        size_t ((res.cost : Int) - ((h.n : Int) - (i : Int)) * (h.slope_ : Int))⟩

end uncomp_helper

/-- A call on an `uncomp_helper`: `update(i, cost)` or `reset(i)`. -/
inductive uncomp_call where
  | update (i cost : Nat)
  | reset (i : Nat)
  deriving DecidableEq, Repr

namespace uncomp_call

/-- The position a call writes. -/
def index : uncomp_call → Nat
  | update i _ => i
  | reset i => i

/-- The helper after the call. -/
def run (h : uncomp_helper) : uncomp_call → uncomp_helper
  | update i cost => h.update i cost
  | reset i => h.reset i

/-- The cost that the last call on position `j` among `calls` has set, `none` when the
position was never set or was reset last. -/
def last (calls : List uncomp_call) (j : Nat) : Option Nat :=
  calls.foldl (fun c o =>
    match o with
    | update i x => if i = j then some x else c
    | reset i => if i = j then none else c) none

end uncomp_call

end sfc_comp

namespace sfc_comp
open encode sssp_solver
namespace sssp_solver

variable {Tag : Type} [Inhabited Tag] [BEq Tag]

/-- The back-chain that `commands(start)` follows: `reaches s start a b` holds when the walk,
standing at index `a`, stands at index `b` after zero or more jumps; a jump leaves an index
above `start` whose vertex has a non-zero `len` and goes back by that `len`. -/
inductive reaches (s : sssp_solver Tag) (start : Nat) : Int → Int → Prop where
  | here (a : Int) : reaches s start a a
  | jump (a b : Int) : a > start → (s.get a.toNat).len ≠ 0 →
      reaches s start (a - (s.get a.toNat).len) b → reaches s start a b

/-- A command list in forward order from index `a` to index `b`: every command is the vertex
its edge arrives at, has a length of at least one, and the next command starts there. -/
def forward_chain (s : sssp_solver Tag) : Int → List (Vertex Tag) → Int → Prop
  | a, [], b => a = b
  | a, c :: cs, b =>
    c = s.get (a + c.len).toNat ∧ 1 ≤ c.len ∧ forward_chain s (a + c.len) cs b

end sssp_solver
end sfc_comp

namespace sfc_comp
open encode sssp_solver

/-! ## Class tables -/

/-- The record `vrange`: a class of distances or lengths `min .. max`, written with `bitlen`
bits. -/
structure vrange where
  min : Nat
  max : Nat
  bitlen : Nat
  val : Nat
  mask : Nat
  deriving DecidableEq, Repr, Inhabited

namespace sssp_solver

variable {Tag : Type} [Inhabited Tag] [BEq Tag]

/-- The loop `while (oi >= 0 && d < offsets[oi].min) --oi;` of `update_lz_matrix_`, entered
with `oi = n - 1`; the result is the final `oi`. -/
def matrix_class (offsets : List vrange) (d : Nat) : Nat → Int
  | 0 => -1
  | n + 1 => if d < (offsets.getD n default).min then matrix_class offsets d n else (n : Int)

/-- The first loop `for (; li >= 0 && max_len < lens[li].min; --li);` of the lambda `f` of
`update_lz_matrix`, entered with `li = n - 1`; the result is the final `li`. -/
def matrix_skip (lens : List vrange) (max_len : Nat) : Nat → Int
  | 0 => -1
  | n + 1 => if max_len < (lens.getD n default).min then matrix_skip lens max_len n else (n : Int)

/-- The second loop `for (; li >= 0 && min_len <= lens[li].max; --li)` of the lambda `f` of
`update_lz_matrix`, entered with `li = n - 1`; the result is the solver and the final `li`.
The cost `base_cost + (offsets[oi].bitlen + l.bitlen + c)` is a `size_t` sum. -/
def matrix_relax (adr : Nat) (offsets lens : List vrange) (tag : Nat → Nat → Tag)
    (c base_cost : Nat) (oi min_len max_len : Nat) (best_lz : lz_data) :
    Nat → sssp_solver Tag → sssp_solver Tag × Int
  | 0, s => (s, -1)
  | n + 1, s =>
    if min_len ≤ (lens.getD n default).max then
      let cost :=
        (base_cost + ((offsets.getD oi default).bitlen + (lens.getD n default).bitlen + c)) %
          2 ^ 64
      let s1 := update_lz .greater_equal (is_linear_Constant 0) s adr
        (max min_len (lens.getD n default).min) (min max_len (lens.getD n default).max)
        best_lz (Constant 0) (tag oi n) cost
      if min_len > (lens.getD n default).min then (s1, (n : Int))
      else matrix_relax adr offsets lens tag c base_cost oi min_len max_len best_lz n s1
    else (s, (n : Int))

/-- The lambda `f` of `update_lz_matrix` (length classes given as `vrange`). -/
def matrix_update (adr : Nat) (offsets lens : List vrange) (tag : Nat → Nat → Tag)
    (c base_cost : Nat) (li : Int) (oi min_len max_len : Nat) (best_lz : lz_data)
    (s : sssp_solver Tag) : sssp_solver Tag × Int :=
  matrix_relax adr offsets lens tag c base_cost oi min_len max_len best_lz
    (matrix_skip lens max_len (li + 1).toNat + 1).toNat s

/-- The loop `while (true)` of `update_lz_matrix_`.  `update` is the callback, which also
passes the solver on; `oi`, `li` and `best_oi` are signed.  `none` stands for an exhausted
loop. -/
def update_lz_matrix_loop (adr : Nat) (lz_min_len : Nat) (offsets : List vrange)
    (find_lz : Nat → lz_data)
    (update : Int → Nat → Nat → Nat → lz_data → sssp_solver Tag → sssp_solver Tag × Int) :
    Nat → Int → Int → lz_data → Int → lz_data → Nat → sssp_solver Tag →
      Option (sssp_solver Tag)
  | 0, _, _, _, _, _, _, _ => none
  | fuel + 1, oi, li, res_lz, best_oi, best_lz, best_bitlen, s =>
    if res_lz.len < lz_min_len then some s
    else
      let oi1 := matrix_class offsets (size_t ((adr : Int) - (res_lz.ofs : Int))) (oi + 1).toNat
      if oi1 < 0 then some s
      else
        let better := decide ((offsets.getD oi1.toNat default).bitlen ≤ best_bitlen)
        let best_oi1 := if better then oi1 else best_oi
        let best_bitlen1 := if better then (offsets.getD oi1.toNat default).bitlen
          else best_bitlen
        let best_lz1 := if better then res_lz else best_lz
        let nres_lz := if oi1 = 0 then (⟨0, 0⟩ : lz_data) else find_lz (oi1 - 1).toNat
        let r := update li best_oi1.toNat (nres_lz.len + 1) res_lz.len best_lz1 s
        if oi1 - 1 < 0 then some r.1
        else
          update_lz_matrix_loop adr lz_min_len offsets find_lz update fuel (oi1 - 1) r.2 nres_lz
            best_oi1 best_lz1 best_bitlen1 r.1

/-- The member `update_lz_matrix_`. -/
def update_lz_matrix_ (s : sssp_solver Tag) (adr : Nat) (li : Int) (res_lz : lz_data)
    (lz_min_len : Nat) (offsets : List vrange) (find_lz : Nat → lz_data)
    (update : Int → Nat → Nat → Nat → lz_data → sssp_solver Tag → sssp_solver Tag × Int) :
    Option (sssp_solver Tag) :=
  update_lz_matrix_loop adr lz_min_len offsets find_lz update (offsets.length + 1)
    ((offsets.length : Int) - 1) li res_lz (-1) ⟨0, 0⟩ (2 ^ 64 - 1) s

/-- The member `update_lz_matrix(adr, offsets, lens, find_lz, tag, c, base_cost)` with the
length classes given as `vrange`.  The function has no `throw`: `some` is a normal return,
`none` stands for an exhausted loop. -/
def update_lz_matrix (s : sssp_solver Tag) (adr : Nat) (offsets lens : List vrange)
    (find_lz : Nat → lz_data) (tag : Nat → Nat → Tag) (c : Nat) (base_cost : Nat) :
    Option (sssp_solver Tag) :=
  if lens.isEmpty || offsets.isEmpty then some s
  else
    update_lz_matrix_ s adr ((lens.length : Int) - 1) (find_lz (offsets.length - 1))
      (lens.getD 0 default).min offsets find_lz
      (matrix_update adr offsets lens tag c
        (if base_cost = unspecified then (s.get adr).cost else base_cost))

/-- The first loop `for (; li >= 0 && max_len < lens[li]; --li);` of the lambda `f` of the
second `update_lz_matrix`, entered with `li = n - 1`. -/
def lengths_skip (lens : List Nat) (max_len : Nat) : Nat → Int
  | 0 => -1
  | n + 1 => if max_len < lens.getD n 0 then lengths_skip lens max_len n else (n : Int)

/-- The second loop `for (; li >= 0 && min_len <= lens[li]; --li)` of the lambda `f` of the
second `update_lz_matrix`, entered with `li = n - 1`; the cost and the index `adr + lens[li]`
are `size_t` sums. -/
def lengths_relax (adr : Nat) (offsets : List vrange) (lens : List Nat) (len_cost : Nat → Nat)
    (tag : Nat → Nat → Tag) (base_cost : Nat) (oi min_len : Nat) (best_lz : lz_data) :
    Nat → sssp_solver Tag → sssp_solver Tag × Int
  | 0, s => (s, -1)
  | n + 1, s =>
    if min_len ≤ lens.getD n 0 then
      let cost := (base_cost + ((offsets.getD oi default).bitlen + len_cost n)) % 2 ^ 64
      if cost ≥ (s.get ((adr + lens.getD n 0) % 2 ^ 64)).cost then
        lengths_relax adr offsets lens len_cost tag base_cost oi min_len best_lz n s
      else
        lengths_relax adr offsets lens len_cost tag base_cost oi min_len best_lz n
          (s.set ((adr + lens.getD n 0) % 2 ^ 64) ⟨cost, lens.getD n 0, best_lz.ofs, tag oi n⟩)
    else (s, (n : Int))

/-- The lambda `f` of the second `update_lz_matrix` (single lengths). -/
def lengths_update (adr : Nat) (offsets : List vrange) (lens : List Nat) (len_cost : Nat → Nat)
    (tag : Nat → Nat → Tag) (base_cost : Nat) (li : Int) (oi min_len max_len : Nat)
    (best_lz : lz_data) (s : sssp_solver Tag) : sssp_solver Tag × Int :=
  lengths_relax adr offsets lens len_cost tag base_cost oi min_len best_lz
    (lengths_skip lens max_len (li + 1).toNat + 1).toNat s

/-- The call `std::ranges::upper_bound(lens, x) - lens.begin()` on a sorted table: the number
of entries that are `<= x`. -/
def upper_bound (lens : List Nat) (x : Nat) : Nat := lens.countP (fun l => decide (l ≤ x))

/-- The member `update_lz_matrix(adr, offsets, lens, find_lz, len_cost, tag, base_cost)` with
single lengths.  The function has no `throw`: `some` is a normal return, `none` stands for an
exhausted loop. -/
def update_lz_matrix_lengths (s : sssp_solver Tag) (adr : Nat) (offsets : List vrange)
    (lens : List Nat) (find_lz : Nat → lz_data) (len_cost : Nat → Nat) (tag : Nat → Nat → Tag)
    (base_cost : Nat) : Option (sssp_solver Tag) :=
  if lens.isEmpty || offsets.isEmpty then some s
  else
    let res_lz : lz_data :=
      ⟨(find_lz (offsets.length - 1)).ofs,
        min (find_lz (offsets.length - 1)).len ((s.size - 1) - adr)⟩
    update_lz_matrix_ s adr ((upper_bound lens res_lz.len : Int) - 1) res_lz (lens.getD 0 0)
      offsets find_lz
      (lengths_update adr offsets lens len_cost tag
        (if base_cost = unspecified then (s.get adr).cost else base_cost))

end sssp_solver

end sfc_comp

namespace sfc_comp
open encode sssp_solver
namespace sssp_solver
variable {Tag : Type} [Inhabited Tag] [BEq Tag]

/-- A vertex `x` at index `v` holds a class-consistent edge of
`update_lz_matrix(adr, offsets, lens, find_lz, tag, c)` over the base cost `base`: it carries
`tag(oi, li)` for an offset class `oi` and a length class `li`, its length lies in
`lens[li]`, the distance of its stored offset lies in `offsets[oi]`, the offset is the one of
a match returned by `find_lz` that is at least as long, and its cost is
`base + (offsets[oi].bitlen + lens[li].bitlen + c)`. -/
def class_consistent (adr : Nat) (offsets lens : List vrange) (find_lz : Nat → lz_data)
    (tag : Nat → Nat → Tag) (c base : Nat) (x : Vertex Tag) (v : Nat) : Prop :=
  ∃ oi li, oi < offsets.length ∧ li < lens.length ∧ x.type = tag oi li ∧ v = adr + x.len ∧
    (lens.getD li default).min ≤ x.len ∧ x.len ≤ (lens.getD li default).max ∧
    x.lz_ofs ≤ adr ∧ (offsets.getD oi default).min ≤ adr - x.lz_ofs ∧
    adr - x.lz_ofs ≤ (offsets.getD oi default).max ∧
    (∃ k, k < offsets.length ∧ (find_lz k).ofs = x.lz_ofs ∧ x.len ≤ (find_lz k).len) ∧
    x.cost = base + ((offsets.getD oi default).bitlen + (lens.getD li default).bitlen + c)

end sssp_solver

/-- Offset classes of the matrix scenario: distances `1 .. 16` in 4 bits and `17 .. 256` in
8 bits. -/
def matrix_scenario_offsets : List vrange := [⟨1, 16, 4, 0, 0⟩, ⟨17, 256, 8, 0, 0⟩]

/-- Length classes of the matrix scenario: lengths `3 .. 6` in 2 bits and `7 .. 22` in
4 bits. -/
def matrix_scenario_lens : List vrange := [⟨3, 6, 2, 0, 0⟩, ⟨7, 22, 4, 0, 0⟩]

/-- Matches of the matrix scenario at position 20: length 12 at distance 18 within the wide
class, length 4 at distance 5 within the narrow class. -/
def matrix_scenario_find_lz (oi : Nat) : lz_data := if oi = 1 then ⟨2, 12⟩ else ⟨15, 4⟩

end sfc_comp

namespace sfc_comp
open encode sssp_solver
namespace encode
namespace lz

/-- The loop `do { dest[oi--] = res_lz; } while (oi >= 0 && (res_lz.len < lz_min_len ||
(i - res_lz.ofs) <= max_ofs(oi)));` of `find_all`, entered with `oi = n`; the result is the
filled table and the final `oi`. -/
def find_all_fill (i lz_min_len : Nat) (max_ofs : Nat → Nat) (res_lz : lz_data) :
    Nat → List lz_data → List lz_data × Int
  | 0, dest => (dest.set 0 res_lz, -1)
  | n + 1, dest =>
    if res_lz.len < lz_min_len ∨ size_t ((i : Int) - (res_lz.ofs : Int)) ≤ max_ofs n then
      find_all_fill i lz_min_len max_ofs res_lz n (dest.set (n + 1) res_lz)
    else (dest.set (n + 1) res_lz, (n : Int))

/-- The loop `for (ptrdiff_t oi = o_size - 1; oi >= 0; )` of `find_all`.  The state is the
table `dest` together with the list of the classes `oi` for which `find_lz` was called, the
latest first; `none` stands for an exhausted loop. -/
def find_all_loop (i lz_min_len : Nat) (max_ofs : Nat → Nat) (find_lz : Nat → lz_data) :
    Nat → Int → List lz_data → List Nat → Option (List lz_data × List Nat)
  | 0, _, _, _ => none
  | fuel + 1, oi, dest, calls =>
    if oi < 0 then some (dest, calls)
    else
      let r := find_lz (max_ofs oi.toNat)
      let res_lz : lz_data := if r.len < lz_min_len then ⟨0, 0⟩ else r
      let f := find_all_fill i lz_min_len max_ofs res_lz oi.toNat dest
      find_all_loop i lz_min_len max_ofs find_lz fuel f.2 f.1 (oi.toNat :: calls)

/-- The function `find_all(i, o_size, lz_min_len, dest, max_ofs, find_lz)`: the table `dest`
after the call, and the classes for which `find_lz` was called (the latest first). -/
def find_all (i o_size lz_min_len : Nat) (dest : List lz_data) (max_ofs : Nat → Nat)
    (find_lz : Nat → lz_data) : Option (List lz_data × List Nat) :=
  find_all_loop i lz_min_len max_ofs find_lz (o_size + 1)
    (ptrdiff_t (size_t ((o_size : Int) - 1))) dest []

end lz
end encode

/-- Offset caps of the class scenario: distances up to 2, 5 and 9. -/
def class_scenario_max_ofs (oi : Nat) : Nat := [2, 5, 9].getD oi 0

/-- Match lengths of the class scenario at position 10: source 6 matches 4 bytes, source 8
matches 2 bytes, no other source matches. -/
def class_scenario_match (o : Nat) : Nat := if o = 6 then 4 else if o = 8 then 2 else 0

/-- The longest match of the class scenario within distance `d` of position 10. -/
def class_scenario_find_lz (d : Nat) : lz_data :=
  if 4 ≤ d then ⟨6, 4⟩ else if 2 ≤ d then ⟨8, 2⟩ else ⟨0, 0⟩

end sfc_comp

namespace sfc_comp
open encode sssp_solver

/-! ## Affine cost functions along a stride, tag records -/

/-- The trait `is_linear_k<LinearQ<A, B, C>, K>::value`, that is `K % C == 0`. -/
def is_linear_k_LinearQ (_A _B C K : Nat) : Bool := decide (K % C = 0)

/-- The struct `tag_ol<Tag>`: a primitive identifier with an offset class and a length class
(bit-fields of 16 bits). -/
structure tag_ol (T : Type) where
  tag : T
  oi : Nat
  li : Nat
  deriving Repr

/-- The constructor `tag_ol(tag, oi, li)`: the two indices are stored in 16 bits. -/
def tag_ol.make {T : Type} (tag : T) (oi li : Nat) : tag_ol T := ⟨tag, oi % 2 ^ 16, li % 2 ^ 16⟩

/-- The member `tag_ol::operator ==`: `tag == rhs.tag && li == rhs.li`. -/
instance instBEqTagOl {T : Type} [DecidableEq T] : BEq (tag_ol T) :=
  ⟨fun a b => decide (a.tag = b.tag) && decide (a.li = b.li)⟩

/-- The struct `tag_l<Tag>`: a primitive identifier with a length class. -/
structure tag_l (T : Type) where
  tag : T
  li : Nat
  deriving Repr

/-- The constructor `tag_l(tag, li)`: the index is stored in 16 bits. -/
def tag_l.make {T : Type} (tag : T) (li : Nat) : tag_l T := ⟨tag, li % 2 ^ 16⟩

/-- The member `tag_l::operator ==`: `tag == rhs.tag && li == rhs.li`. -/
instance instBEqTagL {T : Type} [DecidableEq T] : BEq (tag_l T) :=
  ⟨fun a b => decide (a.tag = b.tag) && decide (a.li = b.li)⟩

/-- The struct `tag_o<Tag>`: a primitive identifier with an offset class. -/
structure tag_o (T : Type) where
  tag : T
  oi : Nat
  deriving Repr

/-- The constructor `tag_o(tag, oi)`: the index is stored in 16 bits. -/
def tag_o.make {T : Type} (tag : T) (oi : Nat) : tag_o T := ⟨tag, oi % 2 ^ 16⟩

/-- The member `tag_o::operator ==`: `tag == rhs.tag`. -/
instance instBEqTagO {T : Type} [DecidableEq T] : BEq (tag_o T) :=
  ⟨fun a b => decide (a.tag = b.tag)⟩

namespace lz_helper_kirby

/-- The loop `for (size_t i = 0; i < k; ++i) ret[i + shift] = f(i);`. -/
def fill (f : Nat → Int) (shift : Nat) : Nat → List Int → List Int
  | 0, ret => ret
  | k + 1, ret => (fill f shift k ret).set (k + shift) (f k)

/-- The member `hflip_appended` as it is written: a vector of `2 * n + 1` zeros, filled by
the first loop, the assignment `ret[n] = -1` and the second loop. -/
def hflip_appended_vector (input : List Nat) : List Int :=
  let n := input.length
  let ret := List.replicate (2 * n + 1) (0 : Int)
  let ret := fill (fun i => Int.ofNat (input.getD i 0)) 0 n ret
  let ret := ret.set n (-1)
  fill (fun i => Int.ofNat (bit_reversed (input.getD i 0))) (n + 1) n ret

end lz_helper_kirby

end sfc_comp

namespace sfc_comp
open encode sssp_solver

namespace estpolis_biography

/-- The bit cost that the loop of `estpolis_biography_comp` declares for the edges of a tag:
the arguments of `Constant<8>`, `Constant<9>`, `Constant<17>` and `Constant<25>`. -/
def declared_bits : tag → Nat
  | .uncomp0 => 8
  | .uncomp1 => 9
  | .lzs => 17
  | .lzl => 25

/-- Modelled from the spec: the number of bits that the emitter writes for a command, by the
case of its `switch` (`write<none, d8>`, `write<b1, d8>`, `write<b1, d16b>`,
`write<b1, d24b>`).  `writer.hpp` is not among the sources; the field emitters `none`, `b1`,
`d8`, `d16b` and `d24b` are taken to write 0, 1, 8, 16 and 24 bits. -/
def written_bits : tag → Nat
  | .uncomp0 => 0 + 8
  | .uncomp1 => 1 + 8
  | .lzs => 1 + 16
  | .lzl => 1 + 24

/-- Modelled from the spec: the value `ret.bit_length()` after the emitter loop;
`writer_b8_h ret(2)` starts with two header bytes and `bit_length()` counts the bits
written. -/
def bit_length (cmds : List (Vertex tag)) : Nat :=
  2 * 8 + (cmds.map (fun c => written_bits c.type)).sum

/-- The accounting invariant of the loop over `i`: every vertex of finite cost other than
vertex 0 was reached by an edge of its `len` from a position below `i`, and its cost is the
cost of that position plus the declared bits of its tag. -/
structure Accounted (n i : Nat) (s : sssp_solver tag) : Prop where
  size : s.size = n + 1
  zero : (s.get 0).cost = 0
  edge : ∀ v, v ≤ n → v ≠ 0 → (s.get v).cost < infinite_cost →
    1 ≤ (s.get v).len ∧ (s.get v).len ≤ v ∧ v - (s.get v).len < i ∧
    (s.get v).cost = (s.get (v - (s.get v).len)).cost + declared_bits (s.get v).type

end estpolis_biography

namespace sssp_solver

variable {Tag : Type} [Inhabited Tag] [BEq Tag]

/-- The loop `for (size_t i = 0; i < table.size(); ++i)` of `update_lz_table`, entered at
index `i` with the rest of the table; the index `adr + l` and the cost `base_cost + func(i)`
are `size_t` sums. -/
def update_lz_table_loop (adr : Nat) (lz : lz_data) (func : Nat → Nat) (tag : Tag)
    (base_cost : Nat) : Nat → List Nat → sssp_solver Tag → sssp_solver Tag
  | _, [], s => s
  | i, l :: rest, s =>
    if l > lz.len ∨ (adr + l) % 2 ^ 64 ≥ s.size then s
    else if (base_cost + func i) % 2 ^ 64 ≥ (s.get ((adr + l) % 2 ^ 64)).cost then
      update_lz_table_loop adr lz func tag base_cost (i + 1) rest s
    else
      update_lz_table_loop adr lz func tag base_cost (i + 1) rest
        (s.set ((adr + l) % 2 ^ 64) ⟨(base_cost + func i) % 2 ^ 64, l, lz.ofs, tag⟩)

/-- The member `update_lz_table(adr, table, lz, func, tag)`. -/
def update_lz_table (s : sssp_solver Tag) (adr : Nat) (table : List Nat) (lz : lz_data)
    (func : Nat → Nat) (tag : Tag) : sssp_solver Tag :=
  update_lz_table_loop adr lz func tag (s.get adr).cost 0 table s

/-- One range relaxation issued on the solver `s` with the default base cost, from a vertex
of the table, with lengths `>= 1`; the lengths are below `2^63`, sums `adr + l` do not leave
`size_t`, and the values of the cost function are below `2^63`. -/
inductive relaxation (s : sssp_solver Tag) : sssp_solver Tag → Prop where
  | update (skip : Skip) (linear : Bool) (adr fr to_ : Nat) (func : Nat → Nat) (tag : Tag)
      (arg : Nat) : adr < s.size → 1 ≤ fr → fr < 2 ^ 63 → (∀ l, func l < 2 ^ 63) →
      relaxation s (sssp_solver.update skip linear s adr fr to_ func tag unspecified arg)
  | update_lz (skip : Skip) (linear : Bool) (adr fr to_ : Nat) (lz : lz_data)
      (func : Nat → Nat) (tag : Tag) :
      adr < s.size → 1 ≤ fr → fr < 2 ^ 63 → (∀ l, func l < 2 ^ 63) →
      relaxation s (sssp_solver.update_lz skip linear s adr fr to_ lz func tag unspecified)
  | update_k (K : Nat) (linear_k : Bool) (adr fr to_ : Nat) (func : Nat → Nat) (tag : Tag)
      (arg : Nat) : adr < s.size → 1 ≤ K → K ≤ 2 ^ 63 → 1 ≤ fr → (∀ l, func l < 2 ^ 63) →
      relaxation s (sssp_solver.update_k K linear_k s adr fr to_ func tag arg)
  | update_lz_table (adr : Nat) (table : List Nat) (lz : lz_data) (func : Nat → Nat)
      (tag : Tag) : adr < s.size → (∀ l ∈ table, 1 ≤ l ∧ adr + l < 2 ^ 64) →
      (∀ i, func i < 2 ^ 63) →
      relaxation s (sssp_solver.update_lz_table s adr table lz func tag)

/-- The solvers obtained from `sssp_solver(n, begin)` by a sequence of relaxations. -/
inductive Reached (n begin : Nat) : sssp_solver Tag → Prop where
  | init : Reached n begin (mk_solver n begin)
  | step (s s1 : sssp_solver Tag) : Reached n begin s → relaxation s s1 → Reached n begin s1

/-- The vertex invariant of a solver started at `begin`: the start has cost 0, no cost
exceeds infinity, and every other vertex of finite cost has a length `len` with
`1 <= len <= v` that leads back to a vertex of finite cost. -/
structure Kept (n begin : Nat) (s : sssp_solver Tag) : Prop where
  size : s.size = n + 1
  start : (s.get begin).cost = 0
  bounded : ∀ v, (s.get v).cost ≤ infinite_cost
  back : ∀ v, v ≤ n → v ≠ begin → (s.get v).cost < infinite_cost →
    1 ≤ (s.get v).len ∧ (s.get v).len ≤ v ∧
      (s.get (v - (s.get v).len)).cost < infinite_cost

/-- The invariant of the loop of one relaxation issued on `s` from `adr` with base cost
`base`: the vertex invariant, the cost of `adr`, costs that did not increase, and the shape of
the vertices that differ from those of `s`. -/
structure Relaxing (n begin : Nat) (s : sssp_solver Tag) (adr base : Nat)
    (t : sssp_solver Tag) : Prop where
  kept : Kept n begin t
  base_eq : (t.get adr).cost = base
  mono : ∀ v, (t.get v).cost ≤ (s.get v).cost
  written : ∀ v, t.get v = s.get v ∨
    (v = adr + (t.get v).len ∧ 1 ≤ (t.get v).len ∧ base ≤ (t.get v).cost)

end sssp_solver

end sfc_comp

namespace sfc_comp
open encode sssp_solver
namespace encode
namespace lz

/-- The distance test of the tree walks on the position `p` stored at a leaf, for `adr` and
`d` below `2^63`: `p + d >= adr`. -/
def within (ofs_node : span Int) (W adr d j : Nat) : Prop :=
  (adr : Int) ≤ ofs_node.get (W + j) + (d : Int)

/-- The distance test is decidable. -/
instance instDecidableWithin (ofs_node : span Int) (W adr d j : Nat) :
    Decidable (within ofs_node W adr d j) :=
  Int.decLe _ _

/-- The query function of the overflow scenario of `find_non_overlapping`: the match
`{1, 2^64 - 2}` at every position `>= 2`, no match below. -/
def overflow_scenario_find (k : Nat) : lz_data := if 2 ≤ k then ⟨1, 2 ^ 64 - 2⟩ else ⟨0, 0⟩

end lz
end encode
end sfc_comp

namespace sfc_comp
open encode sssp_solver
namespace encode
namespace lz

/-- One round of the loop of `find_non_overlapping`: the length `len` it tries, the argument
it passes to `find_lz`, and the gap `len_hi - ret.len` with which it was entered. -/
structure round where
  len : Nat
  arg : Nat
  gap : Nat
  deriving DecidableEq, Repr

/-- The loop `while (ret.len < len_hi)` of `find_non_overlapping` together with the record of
its rounds. -/
def find_non_overlapping_loop_rounds (adr : Nat) (find_lz : Nat → lz_data) :
    Nat → lz_data → Nat → Option (lz_data × List round)
  | 0, _, _ => none
  | fuel + 1, ret, len_hi =>
    if ret.len < len_hi then
      let len := size_t ((ret.len : Int) + (len_hi : Int) + 1) / 2
      let arg := size_t ((adr : Int) - (size_t ((len : Int) - 1) : Int))
      let lz := find_lz arg
      let lz : lz_data :=
        if overlapped adr lz then ⟨lz.ofs, size_t ((adr : Int) - (lz.ofs : Int))⟩ else lz
      match find_non_overlapping_loop_rounds adr find_lz fuel (if lz.gt ret then lz else ret)
          (if lz.len < len then size_t ((len : Int) - 1) else len_hi) with
      | none => none
      | some (res, rounds) => some (res, ⟨len, arg, len_hi - ret.len⟩ :: rounds)
    else some (ret, [])

/-- The function `find_non_overlapping` together with the argument of its first query and
the record of the rounds of its loop. -/
def find_non_overlapping_rounds (adr_l adr : Nat) (find_lz : Nat → lz_data) (prev : lz_data) :
    Option (lz_data × Nat × List round) :=
  let prev : lz_data :=
    if prev.len ≥ 1 then ⟨size_t ((prev.ofs : Int) + 1), size_t ((prev.len : Int) - 1)⟩
    else prev
  let first := size_t ((adr : Int) - (size_t ((max prev.len 1 : Nat) - 1 : Int) : Int))
  let ret := find_lz first
  if overlapped adr ret = false then some (ret, first, [])
  else
    match find_non_overlapping_loop_rounds adr find_lz
        (min (size_t ((adr : Int) - (adr_l : Int))) ret.len + 1)
        ⟨ret.ofs, size_t ((adr : Int) - (ret.ofs : Int))⟩
        (min (size_t ((adr : Int) - (adr_l : Int))) ret.len) with
    | none => none
    | some (res, rounds) => some (res, first, rounds)

end lz
end encode
end sfc_comp

namespace sfc_comp
open encode sssp_solver
namespace sssp_solver

variable {Tag : Type} [Inhabited Tag] [BEq Tag]

/-! ## Relaxations with machine counters and checked vertex access -/

/-- How a relaxation ends when every access `(*this)[k]` is checked against `size()`:
normally with the solver, at the first access outside the table, or out of fuel. -/
inductive checked (Tag : Type) where
  | done (s : sssp_solver Tag)
  | out_of_range (index : Nat)
  | exhausted
  deriving DecidableEq

/-- The loop `for (size_t i = to; ptrdiff_t(i) >= ptrdiff_t(fr); --i)` of the range `update`
with every access `(*this)[adr + i]` checked against `size()`. -/
def update_loop_checked (skip : Skip) (linear : Bool) (adr fr : Nat) (func : Nat → Nat)
    (tag : Tag) (base_cost arg : Nat) : Nat → Nat → sssp_solver Tag → checked Tag
  | 0, _, _ => .exhausted
  | fuel + 1, i, s =>
    if ptrdiff_t i ≥ ptrdiff_t fr then
      if s.size ≤ (adr + i) % 2 ^ 64 then .out_of_range ((adr + i) % 2 ^ 64)
      else if skip.test ((base_cost + func i) % 2 ^ 64) (s.get ((adr + i) % 2 ^ 64)).cost then
        if linear && ((s.get ((adr + i) % 2 ^ 64)).type == tag) then .done s
        else
          update_loop_checked skip linear adr fr func tag base_cost arg fuel
            ((i + (2 ^ 64 - 1)) % 2 ^ 64) s
      else
        update_loop_checked skip linear adr fr func tag base_cost arg fuel
          ((i + (2 ^ 64 - 1)) % 2 ^ 64)
          (s.set ((adr + i) % 2 ^ 64) ⟨(base_cost + func i) % 2 ^ 64, i, arg, tag⟩)
    else .done s

/-- The range `update` with checked accesses; `fuel` bounds the number of loop tests. -/
def update_checked (skip : Skip) (linear : Bool) (s : sssp_solver Tag) (adr fr to_ : Nat)
    (func : Nat → Nat) (tag : Tag) (base_cost : Nat) (arg : Nat) (fuel : Nat) : checked Tag :=
  let to_ := min to_ (if s.size > adr then (s.size - 1) - adr else 0)
  if base_cost = unspecified ∧ s.size ≤ adr then .out_of_range adr
  else
    update_loop_checked skip linear adr fr func tag
      (if base_cost = unspecified then (s.get adr).cost else base_cost) arg fuel to_ s

/-- The member `update_lz` with checked accesses. -/
def update_lz_checked (skip : Skip) (linear : Bool) (s : sssp_solver Tag) (adr fr to_ : Nat)
    (lz : lz_data) (func : Nat → Nat) (tag : Tag) (base_cost : Nat) (fuel : Nat) :
    checked Tag :=
  update_checked skip linear s adr fr (min to_ lz.len) func tag base_cost lz.ofs fuel

/-- The loop `for (size_t i = to; ptrdiff_t(i) >= ptrdiff_t(fr); i -= K)` of `update_k` with
every access `(*this)[adr + i]` checked against `size()`. -/
def update_k_loop_checked (K : Nat) (linear_k : Bool) (adr fr : Nat) (func : Nat → Nat)
    (tag : Tag) (base_cost arg : Nat) : Nat → Nat → sssp_solver Tag → checked Tag
  | 0, _, _ => .exhausted
  | fuel + 1, i, s =>
    if ptrdiff_t i ≥ ptrdiff_t fr then
      if s.size ≤ (adr + i) % 2 ^ 64 then .out_of_range ((adr + i) % 2 ^ 64)
      else if (base_cost + func i) % 2 ^ 64 ≥ (s.get ((adr + i) % 2 ^ 64)).cost then
        if linear_k && ((s.get ((adr + i) % 2 ^ 64)).type == tag) then .done s
        else
          update_k_loop_checked K linear_k adr fr func tag base_cost arg fuel
            ((i + (2 ^ 64 - K % 2 ^ 64)) % 2 ^ 64) s
      else
        update_k_loop_checked K linear_k adr fr func tag base_cost arg fuel
          ((i + (2 ^ 64 - K % 2 ^ 64)) % 2 ^ 64)
          (s.set ((adr + i) % 2 ^ 64) ⟨(base_cost + func i) % 2 ^ 64, i, arg, tag⟩)
    else .done s

/-- The member `update_k<K>` with checked accesses. -/
def update_k_checked (K : Nat) (linear_k : Bool) (s : sssp_solver Tag) (adr fr to_ : Nat)
    (func : Nat → Nat) (tag : Tag) (arg : Nat) (fuel : Nat) : checked Tag :=
  let to_ := min to_ (if s.size > adr then (s.size - 1) - adr else 0)
  if to_ < fr then .done s
  else if s.size ≤ adr then .out_of_range adr
  else
    update_k_loop_checked K linear_k adr fr func tag (s.get adr).cost arg fuel
      (fr + (to_ - fr) / K * K) s

/-- The loop of `update_lz_table` with checked accesses. -/
def update_lz_table_loop_checked (adr : Nat) (lz : lz_data) (func : Nat → Nat) (tag : Tag)
    (base_cost : Nat) : Nat → List Nat → sssp_solver Tag → checked Tag
  | _, [], s => .done s
  | i, l :: rest, s =>
    if l > lz.len ∨ (adr + l) % 2 ^ 64 ≥ s.size then .done s
    else if s.size ≤ (adr + l) % 2 ^ 64 then .out_of_range ((adr + l) % 2 ^ 64)
    else if (base_cost + func i) % 2 ^ 64 ≥ (s.get ((adr + l) % 2 ^ 64)).cost then
      update_lz_table_loop_checked adr lz func tag base_cost (i + 1) rest s
    else
      update_lz_table_loop_checked adr lz func tag base_cost (i + 1) rest
        (s.set ((adr + l) % 2 ^ 64) ⟨(base_cost + func i) % 2 ^ 64, l, lz.ofs, tag⟩)

/-- The member `update_lz_table` with checked accesses. -/
def update_lz_table_checked (s : sssp_solver Tag) (adr : Nat) (table : List Nat)
    (lz : lz_data) (func : Nat → Nat) (tag : Tag) : checked Tag :=
  if s.size ≤ adr then .out_of_range adr
  else update_lz_table_loop_checked adr lz func tag (s.get adr).cost 0 table s

end sssp_solver
end sfc_comp

namespace sfc_comp
open encode sssp_solver

/-! ## The command words of `papuwa_comp` -/

namespace papuwa

/-- The enumeration `enum tag { uncomp, uncompl, lzs, lzm, lzls, lzlm, lzll }`. -/
inductive tag where
  | uncomp
  | uncompl
  | lzs
  | lzm
  | lzls
  | lzlm
  | lzll
  deriving DecidableEq, Repr

/-- The word that the emitter packs for a command of length `len` at distance `d`, by the
case of its `switch`.  The differences are those of the source; for the lengths and distances
of the edges they do not wrap. -/
def word : tag → Nat → Nat → Nat
  | .uncomp, len, _ => 0xe0 + len - 1
  | .uncompl, len, _ => 0xf800 + len - 0x11
  | .lzs, len, d => (len - 3) ||| ((d - 1) <<< 2)
  | .lzm, len, d => (0x8000 ||| ((len - 7) <<< 10)) ||| (d - 1)
  | .lzls, len, d =>
    ((0x4000 ||| (((d - 1) &&& 0x0f00) <<< 2)) ||| ((len - 3) <<< 8)) ||| ((d - 1) &&& 0x00ff)
  | .lzlm, len, d =>
    (((0xc00000 ||| (((len - 7) &&& 0x100) <<< 12)) ||| (((len - 7) &&& 0x00f) <<< 16))
      ||| (((len - 7) &&& 0x0f0) <<< 8)) ||| (d - 1)
  | .lzll, len, d =>
    (((0xf0000000 ||| (((len - 519) &&& 0x7000) <<< 12)) ||| (((len - 519) &&& 0x00ff) <<< 16))
      ||| (((len - 519) &&& 0x0f00) <<< 4)) ||| (d - 1)

/-- The width in bits of the field that receives the word: `d8`, `d16b`, `d8`, `d16b`,
`d16b`, `d24b`, `d32b`. -/
def width : tag → Nat
  | .uncomp => 8
  | .uncompl => 16
  | .lzs => 8
  | .lzm => 16
  | .lzls => 16
  | .lzlm => 24
  | .lzll => 32

/-- The commands that the loop of `papuwa_comp` can produce: the length range of the edge of
each tag and, for the match tags, the distance allowed by the query behind it. -/
def produced : tag → Nat → Nat → Prop
  | .uncomp, len, _ => 1 ≤ len ∧ len ≤ 0x10
  | .uncompl, len, _ => 0x11 ≤ len ∧ len ≤ 0x11 + 0x03ff
  | .lzs, len, d => 3 ≤ len ∧ len ≤ 6 ∧ 1 ≤ d ∧ d ≤ 0x10
  | .lzm, len, d => 7 ≤ len ∧ len ≤ 22 ∧ 1 ≤ d ∧ d ≤ 0x400
  | .lzls, len, d => 3 ≤ len ∧ len ≤ 6 ∧ 1 ≤ d ∧ d ≤ 0x1000
  | .lzlm, len, d => 7 ≤ len ∧ len ≤ 0x206 ∧ 1 ≤ d ∧ d ≤ 0x1000
  | .lzll, len, d => 0x207 ≤ len ∧ len ≤ 0x8206 ∧ 1 ≤ d ∧ d ≤ 0x1000

/-- Membership in the ranges of the produced commands is decidable. -/
instance instDecidableProduced (t : tag) (len d : Nat) : Decidable (produced t len d) := by
  cases t <;> (unfold produced; exact inferInstance)

/-- The tags whose word carries a distance. -/
def is_lz : tag → Bool
  | .uncomp => false
  | .uncompl => false
  | _ => true

/-- The leading byte of the word within its field. -/
def lead_byte (t : tag) (len d : Nat) : Nat := word t len d >>> (width t - 8)

/-- The smallest leading byte of the words of a tag. -/
def lead_lo : tag → Nat
  | .lzs => 0x00
  | .lzls => 0x40
  | .lzm => 0x80
  | .lzlm => 0xc0
  | .uncomp => 0xe0
  | .lzll => 0xf0
  | .uncompl => 0xf8

/-- The largest leading byte of the words of a tag. -/
def lead_hi : tag → Nat
  | .lzs => 0x3f
  | .lzls => 0x7f
  | .lzm => 0xbf
  | .lzlm => 0xdf
  | .uncomp => 0xef
  | .lzll => 0xf7
  | .uncompl => 0xfb

end papuwa
end sfc_comp

/-! # Properties -/

namespace sfc_comp
open encode sssp_solver

theorem ptrdiff_t_small (x : Nat) (h : x < 2 ^ 63) : ptrdiff_t x = (x : Int) := by
  unfold ptrdiff_t
  have : x % 2 ^ 64 = x := Nat.mod_eq_of_lt (by omega)
  rw [this, if_pos h]

namespace sssp_solver

variable {Tag : Type} [Inhabited Tag] [BEq Tag]

theorem ptrdiff_t_neg (x : Nat) (h1 : 2 ^ 63 ≤ x) (h2 : x < 2 ^ 64) : ptrdiff_t x < 0 := by
  unfold ptrdiff_t
  rw [Nat.mod_eq_of_lt h2, if_neg (by omega)]
  omega

theorem ext_vertex (a b : sssp_solver Tag) (h : a.vertex = b.vertex) : a = b := by
  cases a
  cases b
  simp only at h
  subst h
  rfl

theorem size_lt (s : sssp_solver Tag) : s.size < 2 ^ 64 := s.bounded

theorem size_set (s : sssp_solver Tag) (i : Nat) (v : Vertex Tag) :
    (s.set i v).size = s.size := by
  simp [size, set]

theorem get_set_eq (s : sssp_solver Tag) (i : Nat) (v : Vertex Tag) (h : i < s.size) :
    (s.set i v).get i = v := by
  simp only [get, set, size] at *
  simp [List.getD_eq_getElem?_getD, List.getElem?_set, h]

theorem get_set_ne (s : sssp_solver Tag) (i j : Nat) (v : Vertex Tag) (h : i ≠ j) :
    (s.set i v).get j = s.get j := by
  simp only [get, set]
  simp [List.getD_eq_getElem?_getD, List.getElem?_set, h]

theorem get_set_oob (s : sssp_solver Tag) (i : Nat) (v : Vertex Tag) (h : s.size ≤ i) :
    s.set i v = s := by
  apply ext_vertex
  simp only [set, size] at *
  exact List.set_eq_of_length_le h

end sssp_solver
end sfc_comp

namespace sfc_comp
open encode sssp_solver
namespace sssp_solver
variable {Tag : Type} [Inhabited Tag] [BEq Tag]

theorem Constant_apply (c i : Nat) (hc : c < 2 ^ 64) : Constant c i = c := by
  unfold Constant Linear LinearQ
  rw [Nat.zero_mul, Nat.zero_add, Nat.div_one]
  exact Nat.mod_eq_of_lt hc

/-- One pass of the loop of `update` when neither the cost nor the index leaves `size_t`. -/
theorem relax_fst (skip : Skip) (linear : Bool) (adr : Nat) (func : Nat → Nat) (tag : Tag)
    (base arg i : Nat) (s : sssp_solver Tag) (hw : base + func i < 2 ^ 64)
    (hx : adr + i < 2 ^ 64) :
    relax skip linear adr func tag base arg i s =
      if skip.test (base + func i) (s.get (adr + i)).cost then
        (s, !(linear && ((s.get (adr + i)).type == tag)))
      else (s.set (adr + i) ⟨base + func i, i, arg, tag⟩, true) := by
  unfold relax
  simp only [Nat.mod_eq_of_lt hw, Nat.mod_eq_of_lt hx]

theorem relax_cases (lin : Bool) (adr : Nat) (func : Nat → Nat) (tag : Tag)
    (base arg i : Nat) (s : sssp_solver Tag) (hw : base + func i < 2 ^ 64)
    (hx : adr + i < 2 ^ 64) :
    ((s.get (adr + i)).cost ≤ base + func i ∧
      relax .greater_equal lin adr func tag base arg i s =
        (s, !(lin && ((s.get (adr + i)).type == tag))))
    ∨ (base + func i < (s.get (adr + i)).cost ∧
      relax .greater_equal lin adr func tag base arg i s =
        (s.set (adr + i) ⟨base + func i, i, arg, tag⟩, true)) := by
  rw [relax_fst _ _ _ _ _ _ _ _ _ hw hx]
  by_cases h : (s.get (adr + i)).cost ≤ base + func i
  · left; simp [Skip.test, h]
  · right
    refine ⟨by omega, ?_⟩
    simp [Skip.test, h]

/-- The loop of the range `update`, entered at a counter `i < 2^63` with `fr < 2^63`, makes
the passes of `update_descend` and ends within `i + 2` tests. -/
theorem update_loop_eq (skip : Skip) (linear : Bool) (adr fr : Nat)
    (func : Nat → Nat) (tag : Tag) (base arg : Nat) (hfr : fr < 2 ^ 63) :
    ∀ (i fuel : Nat) (s : sssp_solver Tag), i < 2 ^ 63 → i + 2 ≤ fuel →
      update_loop skip linear adr fr func tag base arg fuel i s =
        update_descend skip linear adr fr func tag base arg i s := by
  intro i
  induction i with
  | zero =>
    intro fuel s _ hfuel
    obtain ⟨f1, rfl⟩ : ∃ f1, fuel = f1 + 2 := ⟨fuel - 2, by omega⟩
    have hlast : ∀ t : sssp_solver Tag,
        update_loop skip linear adr fr func tag base arg (f1 + 1)
          ((0 + (2 ^ 64 - 1)) % 2 ^ 64) t = t := by
      intro t
      unfold update_loop
      have hneg : ptrdiff_t ((0 + (2 ^ 64 - 1)) % 2 ^ 64) < 0 :=
        ptrdiff_t_neg _ (by decide) (by decide)
      have hpos : ptrdiff_t fr = (fr : Int) := ptrdiff_t_small fr hfr
      rw [if_neg (by omega)]
    unfold update_loop update_descend
    rw [ptrdiff_t_small 0 (by decide), ptrdiff_t_small fr hfr]
    by_cases h0 : 0 < fr
    · rw [if_neg (by omega), if_pos h0]
    · rw [if_pos (by omega), if_neg h0]
      simp only []
      split
      · exact hlast _
      · rfl
  | succ i ih =>
    intro fuel s hi hfuel
    obtain ⟨f1, rfl⟩ : ∃ f1, fuel = f1 + 1 := ⟨fuel - 1, by omega⟩
    unfold update_loop update_descend
    rw [ptrdiff_t_small (i + 1) hi, ptrdiff_t_small fr hfr]
    have edec : (i + 1 + (2 ^ 64 - 1)) % 2 ^ 64 = i := by omega
    by_cases h0 : i + 1 < fr
    · rw [if_neg (by omega), if_pos h0]
    · rw [if_pos (by omega), if_neg h0, edec]
      simp only []
      split
      · exact ih f1 _ (by omega) (by omega)
      · rfl

/-- The range `update` with `fr < 2^63` and a capped range below `2^63` makes the passes of
`update_descend` from the cap down to `fr`. -/
theorem update_eq_descend (skip : Skip) (linear : Bool) (s : sssp_solver Tag) (adr fr to_ : Nat)
    (func : Nat → Nat) (tag : Tag) (base_cost arg : Nat) (hfr : fr < 2 ^ 63)
    (hto : min to_ (if s.size > adr then s.size - 1 - adr else 0) < 2 ^ 63) :
    update skip linear s adr fr to_ func tag base_cost arg =
      update_descend skip linear adr fr func tag
        (if base_cost = unspecified then (s.get adr).cost else base_cost) arg
        (min to_ (if s.size > adr then s.size - 1 - adr else 0)) s := by
  unfold update
  exact update_loop_eq skip linear adr fr func tag _ arg hfr _ (2 ^ 64) s hto (by omega)

/-- The loop of `update_k`, entered at the counter `fr + m K < 2^63` with `1 <= K <= 2^63`,
makes the passes of `update_k_descend` and ends within `m + 2` tests. -/
theorem update_k_loop_eq (K : Nat) (linear_k : Bool) (adr fr : Nat)
    (func : Nat → Nat) (tag : Tag) (base arg : Nat) (hK : 1 ≤ K) (hK2 : K ≤ 2 ^ 63) :
    ∀ (m fuel : Nat) (s : sssp_solver Tag), fr + m * K < 2 ^ 63 → m + 2 ≤ fuel →
      update_k_loop K linear_k adr fr func tag base arg fuel (fr + m * K) s =
        update_k_descend K linear_k adr fr func tag base arg m s := by
  intro m
  induction m with
  | zero =>
    intro fuel s hin hfuel
    obtain ⟨f1, rfl⟩ : ∃ f1, fuel = f1 + 2 := ⟨fuel - 2, by omega⟩
    simp only [Nat.zero_mul, Nat.add_zero] at hin ⊢
    have hKm : K % 2 ^ 64 = K := Nat.mod_eq_of_lt (by omega)
    have hlast : ∀ t : sssp_solver Tag,
        update_k_loop K linear_k adr fr func tag base arg (f1 + 1)
          ((fr + (2 ^ 64 - K % 2 ^ 64)) % 2 ^ 64) t = t := by
      intro t
      unfold update_k_loop
      rw [hKm, ptrdiff_t_small fr hin]
      by_cases hc : K ≤ fr
      · have e : (fr + (2 ^ 64 - K)) % 2 ^ 64 = fr - K := by omega
        rw [e, ptrdiff_t_small (fr - K) (by omega), if_neg (by omega)]
      · have e : (fr + (2 ^ 64 - K)) % 2 ^ 64 = fr + (2 ^ 64 - K) := by omega
        have hneg := ptrdiff_t_neg (fr + (2 ^ 64 - K)) (by omega) (by omega)
        rw [e, if_neg (by omega)]
    unfold update_k_loop update_k_descend
    rw [if_pos (le_refl _)]
    simp only []
    split
    · exact hlast _
    · rfl
  | succ m ih =>
    intro fuel s hin hfuel
    obtain ⟨f1, rfl⟩ : ∃ f1, fuel = f1 + 1 := ⟨fuel - 1, by omega⟩
    have hmul : (m + 1) * K = m * K + K := Nat.succ_mul m K
    have hfr : fr < 2 ^ 63 := by omega
    have hKm : K % 2 ^ 64 = K := Nat.mod_eq_of_lt (by omega)
    unfold update_k_loop update_k_descend
    rw [ptrdiff_t_small (fr + (m + 1) * K) hin, ptrdiff_t_small fr hfr]
    have edec : (fr + (m + 1) * K + (2 ^ 64 - K % 2 ^ 64)) % 2 ^ 64 = fr + m * K := by
      rw [hKm]
      omega
    rw [if_pos (by omega), edec]
    simp only []
    split
    · exact ih f1 _ (by omega) (by omega)
    · rfl

/-- The member `update_k` with `1 <= K <= 2^63` and a capped range below `2^63`, when the
range is not empty, makes the passes of `update_k_descend`. -/
theorem update_k_eq_descend (K : Nat) (linear_k : Bool) (s : sssp_solver Tag)
    (adr fr to_ : Nat) (func : Nat → Nat) (tag : Tag) (arg : Nat) (hK : 1 ≤ K)
    (hK2 : K ≤ 2 ^ 63)
    (hto : min to_ (if s.size > adr then s.size - 1 - adr else 0) < 2 ^ 63) :
    update_k K linear_k s adr fr to_ func tag arg =
      if min to_ (if s.size > adr then s.size - 1 - adr else 0) < fr then s
      else update_k_descend K linear_k adr fr func tag (s.get adr).cost arg
        ((min to_ (if s.size > adr then s.size - 1 - adr else 0) - fr) / K) s := by
  unfold update_k
  simp only []
  generalize min to_ (if s.size > adr then s.size - 1 - adr else 0) = cap at hto ⊢
  by_cases hlt : cap < fr
  · rw [if_pos hlt, if_pos hlt]
  · rw [if_neg hlt, if_neg hlt]
    have h2 := Nat.div_mul_le_self (cap - fr) K
    have h3 : (cap - fr) / K ≤ cap - fr := Nat.div_le_self _ _
    exact update_k_loop_eq K linear_k adr fr func tag _ arg hK hK2 ((cap - fr) / K) (2 ^ 64) s
      (by omega) (by omega)

theorem update_loop_const_aux (s0 : sssp_solver Tag) (adr lo hi c base arg : Nat) (tag : Tag)
    (hlo : 1 ≤ lo) (hsz : adr + hi < s0.size) (hw : base + c < 2 ^ 64)
    (hprune : ∀ m, lo ≤ m → m ≤ hi → (s0.get (adr + m)).cost ≤ base + c →
      ((s0.get (adr + m)).type == tag) = true →
      ∀ l, lo ≤ l → l < m → (s0.get (adr + l)).cost ≤ base + c) :
    ∀ m, m ≤ hi → ∀ s : sssp_solver Tag, s.size = s0.size →
      (∀ v, v ≤ adr + m → s.get v = s0.get v) →
      (∀ v, s.get v = s0.get v ∨ (adr + lo ≤ v ∧ v ≤ adr + hi ∧
        s.get v = ⟨base + c, v - adr, arg, tag⟩ ∧ base + c < (s0.get v).cost)) →
      (∀ l, m < l → l ≤ hi → (s.get (adr + l)).cost ≤ base + c) →
      RangeDone s0 (update_descend .greater_equal true adr lo (fun _ => c) tag base arg m s)
        adr lo hi (base + c) arg tag := by
  have hsz64 := size_lt s0
  intro m
  induction m with
  | zero =>
    intro _ s hs hlow hfr hdone
    have : update_descend .greater_equal true adr lo (fun _ => c) tag base arg 0 s = s := by
      simp [update_descend]; omega
    rw [this]
    refine ⟨hs, hfr, ?_⟩
    intro l h1 h2
    exact hdone l (by omega) h2
  | succ m ih =>
    intro hm s hs hlow hfr hdone
    unfold update_descend
    by_cases hlt : m + 1 < lo
    · simp only [hlt, if_true]
      refine ⟨hs, hfr, ?_⟩
      intro l h1 h2
      exact hdone l (by omega) h2
    · simp only [hlt, if_false]
      rcases relax_cases true adr (fun _ => c) tag base arg (m + 1) s hw (by omega)
        with ⟨hc, hr⟩ | ⟨hc, hr⟩
      · rw [hr]
        by_cases hty : ((s.get (adr + (m + 1))).type == tag) = true
        · -- break
          simp only [hty, Bool.and_self, Bool.not_true, Bool.false_eq_true, if_false]
          refine ⟨hs, hfr, ?_⟩
          intro l h1 h2
          rcases Nat.lt_trichotomy l (m + 1) with h | h | h
          · have e1 := hlow (adr + (m + 1)) (le_refl _)
            have e2 := hlow (adr + l) (by omega)
            rw [e2]
            apply hprune (m + 1) (by omega) hm _ _ l h1 h
            · rw [← e1]; exact hc
            · rw [← e1]; exact hty
          · subst h; exact hc
          · exact hdone l h h2
        · simp only [hty, Bool.and_false, Bool.not_false, if_true]
          apply ih (by omega) s hs (fun v hv => hlow v (by omega)) hfr
          intro l h1 h2
          rcases Nat.eq_or_lt_of_le (Nat.succ_le_of_lt h1) with h | h
          · rw [← h]; exact hc
          · exact hdone l h h2
      · rw [hr]
        simp only [if_true]
        have hin : adr + (m + 1) < s.size := by rw [hs]; omega
        apply ih (by omega) _ (by rw [size_set]; exact hs)
        · intro v hv
          rw [get_set_ne _ _ _ _ (by omega)]
          exact hlow v (by omega)
        · intro v
          by_cases hv : v = adr + (m + 1)
          · subst hv
            right
            refine ⟨by omega, by omega, ?_, ?_⟩
            · rw [get_set_eq _ _ _ hin]
              simp
            · rw [← hlow (adr + (m + 1)) (le_refl _)]; exact hc
          · rw [get_set_ne _ _ _ _ (Ne.symm hv)]
            exact hfr v
        · intro l h1 h2
          rcases Nat.eq_or_lt_of_le (Nat.succ_le_of_lt h1) with h | h
          · rw [← h, get_set_eq _ _ _ hin]
          · rw [get_set_ne _ _ _ _ (by omega)]
            exact hdone l h h2

theorem update_const (s0 : sssp_solver Tag) (adr lo to_ c arg : Nat) (tag : Tag)
    (hlo : 1 ≤ lo) (hadr : adr < s0.size) (hlo63 : lo < 2 ^ 63) (hsz63 : s0.size ≤ 2 ^ 63)
    (hw : (s0.get adr).cost + c < 2 ^ 64)
    (hprune : ∀ m, lo ≤ m → m ≤ min to_ (s0.size - 1 - adr) →
      (s0.get (adr + m)).cost ≤ (s0.get adr).cost + c →
      ((s0.get (adr + m)).type == tag) = true →
      ∀ l, lo ≤ l → l < m → (s0.get (adr + l)).cost ≤ (s0.get adr).cost + c) :
    RangeDone s0 (update .greater_equal true s0 adr lo to_ (Constant c) tag unspecified arg)
      adr lo (min to_ (s0.size - 1 - adr)) ((s0.get adr).cost + c) arg tag := by
  have hC : Constant c = fun _ => c := by funext i; exact Constant_apply c i (by omega)
  have hcap : (if s0.size > adr then s0.size - 1 - adr else 0) = s0.size - 1 - adr :=
    if_pos hadr
  have hmin : min to_ (s0.size - 1 - adr) ≤ s0.size - 1 - adr := Nat.min_le_right _ _
  rw [update_eq_descend _ _ _ _ _ _ _ _ _ _ hlo63 (by rw [hcap]; omega)]
  simp only [hC, if_true, hcap]
  apply update_loop_const_aux s0 adr lo _ c _ arg tag hlo _ hw hprune _ (le_refl _) s0 rfl
  · intro v _; rfl
  · intro v; left; rfl
  · intro l h1 h2; omega
  · omega

end sssp_solver
end sfc_comp

namespace sfc_comp
open encode sssp_solver
namespace estpolis_biography

theorem path_append (input : List Nat) (find_s find_l : Nat → lz_data) (t : Nat) (e : edge)
    (he : edge_ok find_s find_l t e = true) :
    ∀ (p : List edge) (i : Nat), path_ok find_s find_l t i p = true →
      path_ok find_s find_l (t + e.len) i (p ++ [e]) = true ∧
      path_cost input i (p ++ [e]) = path_cost input i p + edge_cost input t e := by
  intro p
  induction p with
  | nil =>
    intro i h
    simp only [path_ok, decide_eq_true_eq] at h
    subst h
    simp [path_ok, path_cost, he]
  | cons a p ih =>
    intro i h
    simp only [path_ok, Bool.and_eq_true] at h
    obtain ⟨h1, h2⟩ := ih (i + a.len) h.2
    refine ⟨?_, ?_⟩
    · rw [List.cons_append]; unfold path_ok; rw [h.1, h1]; rfl
    · rw [List.cons_append]; unfold path_cost; rw [h2]; omega

theorem edge_len_pos (find_s find_l : Nat → lz_data) (i : Nat) (e : edge)
    (he : edge_ok find_s find_l i e = true) : 1 ≤ e.len := by
  unfold edge_ok at he
  cases hk : e.kind <;> simp [hk] at he <;> omega

theorem inf_val : infinite_cost = 9223372036854775807 := by
  norm_num [infinite_cost]

theorem Good_of_RangeDone (input : List Nat) (find_s find_l : Nat → lz_data) (i : Nat)
    (s0 s1 : sssp_solver tag) (lo hi c arg : Nat) (tg : tag)
    (hG : Good input find_s find_l i s0) (hi_lt : i < input.length)
    (hN : input.length ≤ 0x10000) (hlo : 1 ≤ lo) (hc : c ≤ 25)
    (hR : RangeDone s0 s1 i lo hi ((s0.get i).cost + c) arg tg)
    (hedge : ∀ l, lo ≤ l → l ≤ hi → ∃ e, edge_ok find_s find_l i e = true ∧ e.len = l ∧
      edge_cost input i e = c)
    (hkind : (is_lz tg = true ∧ lo = 3) ∨ (is_lz tg = false ∧ hi ≤ 2)) :
    Good input find_s find_l i s1 ∧ (∀ v, (s1.get v).cost ≤ (s0.get v).cost) ∧
      (∀ v, v ≤ i → s1.get v = s0.get v) := by
  have hmono : ∀ v, (s1.get v).cost ≤ (s0.get v).cost := by
    intro v
    rcases hR.frame v with h | ⟨_, _, h, h4⟩
    · rw [h]
    · rw [h]; exact le_of_lt h4
  have hlow : ∀ v, v ≤ i → s1.get v = s0.get v := by
    intro v hv
    rcases hR.frame v with h | ⟨h1, _, _, _⟩
    · exact h
    · omega
  refine ⟨⟨?_, ?_, ?_, ?_, ?_, ?_⟩, hmono, hlow⟩
  · rw [hR.size, hG.size]
  · rw [hlow 0 (Nat.zero_le _)]; exact hG.zero
  · intro v hv hfin
    rcases hR.frame v with h | ⟨h1, h2, h3, h4⟩
    · rw [h] at hfin ⊢
      exact hG.reach v hv hfin
    · have hb : (s0.get i).cost < infinite_cost := by
        have := hG.small i (le_refl _) (le_of_lt hi_lt)
        rw [inf_val]; omega
      obtain ⟨p, hp1, hp2⟩ := hG.reach i (le_of_lt hi_lt) hb
      obtain ⟨e, he1, he2, he3⟩ := hedge (v - i) (by omega) (by omega)
      obtain ⟨q1, q2⟩ := path_append input find_s find_l i e he1 p 0 hp1
      refine ⟨p ++ [e], ?_, ?_⟩
      · have : i + e.len = v := by omega
        rw [← this]; exact q1
      · rw [q2, hp2, he3, h3]
  · intro v hv hv2
    rw [hlow v hv]; exact hG.small v hv hv2
  · intro u e hu he hue
    rw [hlow u (le_of_lt hu)]
    exact le_trans (hmono _) (hG.relaxed u e hu he hue)
  · intro v hv hfin
    rcases hR.frame v with h | ⟨h1, h2, h3, h4⟩
    · rw [h] at hfin ⊢
      obtain ⟨j1, j2⟩ := hG.jump v hv hfin
      refine ⟨j1, ?_⟩
      intro h3
      obtain ⟨k1, k2, k3⟩ := j2 h3
      refine ⟨k1, k2, ?_⟩
      intro x hx1 hx2
      exact le_trans (hmono _) (k3 x hx1 hx2)
    · rw [h3]
      simp only
      rcases hkind with ⟨hk, hk2⟩ | ⟨hk, hk2⟩
      · refine ⟨fun _ => by omega, fun _ => ⟨by omega, by omega, ?_⟩⟩
        intro x hx1 hx2
        have : v - (v - i) + x = i + x := by omega
        rw [this]
        exact hR.done x (by omega) (by omega)
      · refine ⟨fun h => by rw [hk] at h; exact absurd h (by simp), fun h => by omega⟩

end estpolis_biography
end sfc_comp

namespace sfc_comp
open encode sssp_solver
namespace sssp_solver
variable {Tag : Type} [Inhabited Tag] [BEq Tag]

theorem get_replicate (n : Nat) (x : Vertex Tag) (h : (List.replicate n x).length < 2 ^ 64)
    (v : Nat) :
    (⟨List.replicate n x, h⟩ : sssp_solver Tag).get v = if v < n then x else default := by
  simp only [sssp_solver.get, List.getD_eq_getElem?_getD, List.getElem?_replicate]
  split <;> simp

theorem size_mk_solver (n b : Nat) (hn : n + 1 < 2 ^ 64) :
    (mk_solver n b : sssp_solver Tag).size = n + 1 := by
  unfold mk_solver
  simp only [Nat.mod_eq_of_lt hn]
  split <;> simp [sssp_solver.size, sssp_solver.set]

theorem get_mk_solver (n b v : Nat) (hn : n + 1 < 2 ^ 64) :
    (mk_solver n b : sssp_solver Tag).get v =
      if v = b ∧ b ≤ n then ⟨0, 0, 0, default⟩
      else if v ≤ n then ⟨infinite_cost, 0, 0, default⟩ else default := by
  unfold mk_solver
  simp only [Nat.mod_eq_of_lt hn]
  by_cases hb : b ≤ n
  · simp only [hb, if_true, and_true]
    by_cases hv : v = b
    · subst hv
      rw [get_set_eq _ _ _ (by simp [size]; omega), get_replicate]
      simp [Nat.lt_succ_of_le hb]
      exact ⟨rfl, rfl, rfl⟩
    · rw [get_set_ne _ _ _ _ (Ne.symm hv), get_replicate]
      simp only [hv, if_false]
      by_cases hv2 : v ≤ n
      · simp [hv2, Nat.lt_succ_of_le hv2]; exact ⟨rfl, rfl, rfl⟩
      · have : ¬ v < n + 1 := by omega
        simp [hv2, this]
  · simp only [hb, if_false, and_false]
    rw [get_replicate]
    by_cases hv2 : v ≤ n
    · simp [hv2, Nat.lt_succ_of_le hv2]; exact ⟨rfl, rfl, rfl⟩
    · have : ¬ v < n + 1 := by omega
      simp [hv2, this]

end sssp_solver

namespace estpolis_biography

theorem prune_ok (input : List Nat) (find_s find_l : Nat → lz_data) (i : Nat)
    (s : sssp_solver tag) (c hi : Nat) (tg : tag)
    (hG : Good input find_s find_l i s) (hi_lt : i + hi ≤ input.length)
    (hN : input.length ≤ 0x10000) (hc : c ≤ 25) (htg : is_lz tg = true) :
    ∀ m, 3 ≤ m → m ≤ hi → (s.get (i + m)).cost ≤ (s.get i).cost + c →
      ((s.get (i + m)).type == tg) = true →
      ∀ l, 3 ≤ l → l < m → (s.get (i + l)).cost ≤ (s.get i).cost + c := by
  intro m hm1 hm2 hcost hbeq l hl1 hl2
  have hty : (s.get (i + m)).type = tg := eq_of_beq hbeq
  have hb := hG.small i (le_refl _) (by omega)
  have hfin : (s.get (i + m)).cost < infinite_cost := by rw [inf_val]; omega
  obtain ⟨j1, j2⟩ := hG.jump (i + m) (by omega) hfin
  rw [hty] at j1
  obtain ⟨k1, k2, k3⟩ := j2 (j1 htg)
  have := k3 (i + l - (i + m - (s.get (i + m)).len)) (by omega) (by omega)
  have e : i + m - (s.get (i + m)).len + (i + l - (i + m - (s.get (i + m)).len)) = i + l := by
    omega
  rw [e] at this
  omega

theorem Good_init (input : List Nat) (find_s find_l : Nat → lz_data)
    (hN : input.length ≤ 0x10000) :
    Good input find_s find_l 0 (sssp_solver.mk_solver input.length 0) := by
  have hn : input.length + 1 < 2 ^ 64 := by omega
  have hget := fun v => @get_mk_solver tag _ _ input.length 0 v hn
  have hfin : ∀ v, v ≤ input.length →
      ((sssp_solver.mk_solver input.length 0 : sssp_solver tag).get v).cost < infinite_cost →
      v = 0 := by
    intro v hv h
    by_contra hne
    rw [hget v] at h
    simp [hne, hv] at h
  refine ⟨?_, ?_, ?_, ?_, ?_, ?_⟩
  · exact size_mk_solver _ _ hn
  · rw [hget 0]; simp
  · intro v hv h
    have := hfin v hv h
    subst this
    refine ⟨[], by simp [path_ok], ?_⟩
    rw [hget 0]; simp [path_cost]
  · intro v hv _
    have : v = 0 := by omega
    subst this
    rw [hget 0]; simp
  · intro u e hu; omega
  · intro v hv h
    have := hfin v hv h
    subst this
    rw [hget 0]
    simp [is_lz]

end estpolis_biography
end sfc_comp

namespace sfc_comp
open encode sssp_solver
namespace estpolis_biography

theorem Good_step (input : List Nat) (find_s find_l : Nat → lz_data) (i : Nat)
    (s : sssp_solver tag) (hG : Good input find_s find_l i s) (hi_lt : i < input.length)
    (hN : input.length ≤ 0x10000) :
    Good input find_s find_l (i + 1) (step input i (find_s i) (find_l i) s) := by
  -- the literal edge
  obtain ⟨cl, tl, hcl, htl, hs1⟩ : ∃ (cl : Nat) (tl : tag),
      cl = edge_cost input i ⟨.literal, 1⟩ ∧ is_lz tl = false ∧
      step input i (find_s i) (find_l i) s =
        update_lz .greater_equal true
          (update_lz .greater_equal true
            (update .greater_equal true s i 1 1 (Constant cl) tl unspecified 0)
            i 3 0x11 (find_s i) (Constant 17) .lzs unspecified)
          i 3 0x42 (find_l i) (Constant 25) .lzl unspecified := by
    by_cases hb : Nat.land (input.getD i 0) 0x80 ≠ 0
    · refine ⟨9, .uncomp1, ?_, rfl, ?_⟩
      · simp only [edge_cost, if_pos hb]
      · unfold step; simp only [if_pos hb]; rfl
    · refine ⟨8, .uncomp0, ?_, rfl, ?_⟩
      · simp only [edge_cost, if_neg hb]
      · unfold step; simp only [if_neg hb]; rfl
  rw [hs1]
  have hcl9 : cl ≤ 9 := by
    rw [hcl]; unfold edge_cost; simp only; split <;> omega
  have hsz0 := hG.size
  have hsmall := hG.small i (le_refl _) (le_of_lt hi_lt)
  -- first update
  have R1 := update_const s i 1 1 cl 0 tl (le_refl _) (by omega) (by omega) (by omega)
    (by omega)
    (by intro m h1 h2 _ _ l h3 h4
        have : m ≤ 1 := le_trans h2 (Nat.min_le_left _ _)
        omega)
  obtain ⟨G1, mono1, low1⟩ := Good_of_RangeDone input find_s find_l i s _ 1 _ cl 0 tl hG hi_lt hN
    (le_refl _) (by omega) R1
    (by intro l h1 h2
        have : l ≤ 1 := le_trans h2 (Nat.min_le_left _ _)
        exact ⟨⟨.literal, 1⟩, by simp [edge_ok], by simp; omega, hcl.symm⟩)
    (Or.inr ⟨htl, le_trans (Nat.min_le_left _ _) (by omega)⟩)
  generalize update .greater_equal true s i 1 1 (Constant cl) tl unspecified 0 = s1 at *
  have hsz1 := G1.size
  have hsmall1 := G1.small i (le_refl _) (le_of_lt hi_lt)
  -- second update
  unfold update_lz
  have R2 := update_const s1 i 3 (min 0x11 (find_s i).len) 17 (find_s i).ofs .lzs (by omega)
    (by omega) (by omega) (by omega) (by omega)
    (prune_ok input find_s find_l i s1 17 _ .lzs G1
      (by have := Nat.min_le_right (min 0x11 (find_s i).len) (s1.size - 1 - i); omega)
      hN (by omega) rfl)
  obtain ⟨G2, mono2, low2⟩ := Good_of_RangeDone input find_s find_l i s1 _ 3 _ 17 _ .lzs G1 hi_lt
    hN (by omega) (by omega) R2
    (by intro l h1 h2
        have := Nat.le_min.mp h2
        exact ⟨⟨.short_match, l⟩, by simp [edge_ok, h1]; omega, rfl, rfl⟩)
    (Or.inl ⟨rfl, rfl⟩)
  generalize update .greater_equal true s1 i 3 (min 0x11 (find_s i).len) (Constant 17) .lzs
    unspecified (find_s i).ofs = s2 at *
  have hsz2 := G2.size
  have hsmall2 := G2.small i (le_refl _) (le_of_lt hi_lt)
  -- third update
  have R3 := update_const s2 i 3 (min 0x42 (find_l i).len) 25 (find_l i).ofs .lzl (by omega)
    (by omega) (by omega) (by omega) (by omega)
    (prune_ok input find_s find_l i s2 25 _ .lzl G2
      (by have := Nat.min_le_right (min 0x42 (find_l i).len) (s2.size - 1 - i); omega)
      hN (by omega) rfl)
  obtain ⟨G3, mono3, low3⟩ := Good_of_RangeDone input find_s find_l i s2 _ 3 _ 25 _ .lzl G2 hi_lt
    hN (by omega) (by omega) R3
    (by intro l h1 h2
        have := Nat.le_min.mp h2
        exact ⟨⟨.long_match, l⟩, by simp [edge_ok, h1]; omega, rfl, rfl⟩)
    (Or.inl ⟨rfl, rfl⟩)
  generalize update .greater_equal true s2 i 3 (min 0x42 (find_l i).len) (Constant 25) .lzl
    unspecified (find_l i).ofs = s3 at *
  have hbase3 : s3.get i = s.get i := by
    rw [low3 i (le_refl _), low2 i (le_refl _), low1 i (le_refl _)]
  have hbase2 : s2.get i = s.get i := by
    rw [low2 i (le_refl _), low1 i (le_refl _)]
  have hbase1 : s1.get i = s.get i := low1 i (le_refl _)
  refine ⟨G3.size, G3.zero, G3.reach, ?_, ?_, ?_⟩
  · intro v hv hv2
    rcases Nat.eq_or_lt_of_le hv with h | h
    · subst h
      have d1 := R1.done 1 (le_refl _) (by
        apply Nat.le_min.mpr; omega)
      have := hG.small i (le_refl _) (by omega)
      have := mono2 (i + 1)
      have := mono3 (i + 1)
      omega
    · exact G3.small v (by omega) hv2
  · intro u e hu he hue
    rcases Nat.eq_or_lt_of_le (Nat.le_of_lt_succ hu) with h | h
    · subst h
      rw [hbase3]
      unfold edge_ok at he
      cases hk : e.kind
      · -- literal
        simp only [hk, decide_eq_true_eq] at he
        have d1 := R1.done 1 (le_refl _) (by apply Nat.le_min.mpr; omega)
        have e1 : edge_cost input u e = cl := by
          rw [hcl]; unfold edge_cost; simp [hk]
        rw [e1, he]
        have := mono2 (u + 1)
        have := mono3 (u + 1)
        omega
      · simp only [hk, Bool.and_eq_true, decide_eq_true_eq] at he
        have d2 := R2.done e.len he.1 (by apply Nat.le_min.mpr; omega)
        have e1 : edge_cost input u e = 17 := by unfold edge_cost; simp [hk]
        rw [e1]
        rw [hbase1] at d2
        have := mono3 (u + e.len)
        omega
      · simp only [hk, Bool.and_eq_true, decide_eq_true_eq] at he
        have d3 := R3.done e.len he.1 (by apply Nat.le_min.mpr; omega)
        have e1 : edge_cost input u e = 25 := by unfold edge_cost; simp [hk]
        rw [e1]
        rw [hbase2] at d3
        exact d3
    · exact G3.relaxed u e h he hue
  · intro v hv hfin
    obtain ⟨j1, j2⟩ := G3.jump v hv hfin
    refine ⟨j1, fun h => ?_⟩
    obtain ⟨k1, k2, k3⟩ := j2 h
    exact ⟨k1, by omega, k3⟩

theorem Good_dp_after (input : List Nat) (find_s find_l : Nat → lz_data)
    (hN : input.length ≤ 0x10000) :
    ∀ i, i ≤ input.length → Good input find_s find_l i (dp_after input find_s find_l i) := by
  intro i
  induction i with
  | zero => intro _; exact Good_init input find_s find_l hN
  | succ i ih =>
    intro hi
    exact Good_step input find_s find_l i _ (ih (by omega)) (by omega) hN

theorem path_le (find_s find_l : Nat → lz_data) (t : Nat) :
    ∀ (p : List edge) (i : Nat), path_ok find_s find_l t i p = true → i ≤ t := by
  intro p
  induction p with
  | nil => intro i h; simp [path_ok] at h; omega
  | cons e es ih =>
    intro i h
    simp only [path_ok, Bool.and_eq_true] at h
    have := ih _ h.2
    omega

theorem lower_bound (input : List Nat) (find_s find_l : Nat → lz_data) (s : sssp_solver tag)
    (hG : Good input find_s find_l input.length s) :
    ∀ (p : List edge) (u : Nat), path_ok find_s find_l input.length u p = true →
      (s.get input.length).cost ≤ (s.get u).cost + path_cost input u p := by
  intro p
  induction p with
  | nil =>
    intro u h
    simp only [path_ok, decide_eq_true_eq] at h
    subst h; simp [path_cost]
  | cons e es ih =>
    intro u h
    simp only [path_ok, Bool.and_eq_true] at h
    have h1 := ih _ h.2
    have h2 := path_le find_s find_l _ _ _ h.2
    have h3 := edge_len_pos find_s find_l u e h.1
    have h4 := hG.relaxed u e (by omega) h.1 h2
    simp only [path_cost]
    omega

end estpolis_biography
end sfc_comp

namespace sfc_comp
open encode sssp_solver
namespace sssp_solver
variable {Tag : Type} [Inhabited Tag] [BEq Tag]

theorem relax_skip_cases (skip : Skip) (lin : Bool) (adr : Nat) (func : Nat → Nat) (tag : Tag)
    (base arg i : Nat) (s : sssp_solver Tag) (hw : base + func i < 2 ^ 64)
    (hx : adr + i < 2 ^ 64) :
    (relax skip lin adr func tag base arg i s).1 = s ∨
    (base + func i ≤ (s.get (adr + i)).cost ∧
      (relax skip lin adr func tag base arg i s).1 =
        s.set (adr + i) ⟨base + func i, i, arg, tag⟩) := by
  rw [relax_fst _ _ _ _ _ _ _ _ _ hw hx]
  by_cases h : skip.test (base + func i) (s.get (adr + i)).cost = true
  · left; simp [h]
  · right
    simp only [h]
    refine ⟨?_, by simp⟩
    cases skip <;> simp [Skip.test] at h <;> omega

theorem update_descend_preserves (P : sssp_solver Tag → Prop) (skip : Skip) (linear : Bool)
    (adr fr : Nat) (func : Nat → Nat) (tag : Tag) (base arg hi : Nat)
    (hstep : ∀ l s, fr ≤ l → l ≤ hi → P s → P (relax skip linear adr func tag base arg l s).1) :
    ∀ m, m ≤ hi → ∀ s, P s → P (update_descend skip linear adr fr func tag base arg m s) := by
  intro m
  induction m with
  | zero =>
    intro h s hs
    unfold update_descend
    split
    · exact hs
    · exact hstep 0 s (by omega) h hs
  | succ m ih =>
    intro h s hs
    unfold update_descend
    split
    · exact hs
    · have := hstep (m + 1) s (by omega) h hs
      simp only
      split
      · exact ih (by omega) _ this
      · exact this

theorem update_k_descend_preserves (P : sssp_solver Tag → Prop) (K : Nat) (linear : Bool)
    (adr fr : Nat) (func : Nat → Nat) (tag : Tag) (base arg hi : Nat)
    (hstep : ∀ l s, fr ≤ l → l ≤ hi → P s →
      P (relax .greater_equal linear adr func tag base arg l s).1) :
    ∀ m, fr + m * K ≤ hi → ∀ s, P s →
      P (update_k_descend K linear adr fr func tag base arg m s) := by
  intro m
  induction m with
  | zero =>
    intro h s hs
    unfold update_k_descend
    exact hstep fr s (le_refl _) (by omega) hs
  | succ m ih =>
    intro h s hs
    unfold update_k_descend
    have := hstep (fr + (m + 1) * K) s (by omega) h hs
    simp only
    split
    · apply ih _ _ this
      have : m * K ≤ (m + 1) * K := Nat.mul_le_mul_right K (by omega)
      omega
    · exact this

theorem Chained_relax (n begin : Nat) (skip : Skip) (lin : Bool) (adr : Nat) (func : Nat → Nat)
    (tag : Tag) (base arg l : Nat) (s : sssp_solver Tag)
    (hadr : begin ≤ adr) (hl : 1 ≤ l) (hln : adr + l ≤ n) (hf : func l ≤ 2 ^ 63)
    (h : Chained n begin s ∧ (s.get adr).cost = base) :
    Chained n begin (relax skip lin adr func tag base arg l s).1 ∧
      ((relax skip lin adr func tag base arg l s).1.get adr).cost = base := by
  obtain ⟨hC, hb⟩ := h
  have hsz := size_lt s
  have hbase : base ≤ infinite_cost := by rw [← hb]; exact hC.bounded adr
  have hw : base + func l < 2 ^ 64 := by
    have : infinite_cost = 2 ^ 63 - 1 := by decide
    omega
  rcases relax_skip_cases skip lin adr func tag base arg l s hw (by rw [hC.size] at hsz; omega)
    with h | ⟨h1, h2⟩
  · rw [h]; exact ⟨hC, hb⟩
  · rw [h2]
    have hin : adr + l < s.size := by rw [hC.size]; omega
    have hmono : ∀ v, ((s.set (adr + l) ⟨base + func l, l, arg, tag⟩).get v).cost ≤
        (s.get v).cost := by
      intro v
      by_cases hv : v = adr + l
      · subst hv; rw [get_set_eq _ _ _ hin]; exact h1
      · rw [get_set_ne _ _ _ _ (Ne.symm hv)]
    refine ⟨⟨?_, ?_, ?_⟩, ?_⟩
    · rw [size_set]; exact hC.size
    · intro v; exact le_trans (hmono v) (hC.bounded v)
    · intro v hv hfin
      by_cases hve : v = adr + l
      · subst hve
        rw [get_set_eq _ _ _ hin] at hfin ⊢
        simp only at hfin ⊢
        right
        refine ⟨hl, by omega, ?_⟩
        have : adr + l - l = adr := by omega
        rw [this]
        have := hmono adr
        omega
      · rw [get_set_ne _ _ _ _ (Ne.symm hve)] at hfin ⊢
        rcases hC.back v hv hfin with h | ⟨b1, b2, b3⟩
        · left; exact h
        · right
          exact ⟨b1, b2, lt_of_le_of_lt (hmono _) b3⟩
    · rw [get_set_ne _ _ _ _ (by omega)]; exact hb

theorem cap_bound (s : sssp_solver Tag) (n adr to_ l : Nat) (hs : s.size = n + 1) (h1 : 1 ≤ l)
    (h2 : l ≤ min to_ (if s.size > adr then s.size - 1 - adr else 0)) : adr + l ≤ n := by
  have := (Nat.le_min.mp h2).2
  split at this <;> omega

theorem cap_lt (s : sssp_solver Tag) (n adr to_ : Nat) (hs : s.size = n + 1) (hn : n < 2 ^ 63) :
    min to_ (if s.size > adr then s.size - 1 - adr else 0) < 2 ^ 63 := by
  have : (if s.size > adr then s.size - 1 - adr else 0) ≤ n := by
    split <;> omega
  have := Nat.min_le_right to_ (if s.size > adr then s.size - 1 - adr else 0)
  omega

theorem Chained_update (n begin : Nat) (skip : Skip) (linear : Bool) (s : sssp_solver Tag)
    (adr fr to_ : Nat) (func : Nat → Nat) (tag : Tag) (arg : Nat)
    (hC : Chained n begin s) (hn : n < 2 ^ 63) (hadr : begin ≤ adr) (hfr : 1 ≤ fr)
    (hfr2 : fr < 2 ^ 63) (hf : ∀ l, func l ≤ 2 ^ 63) :
    Chained n begin (sssp_solver.update skip linear s adr fr to_ func tag unspecified arg) := by
  rw [update_eq_descend _ _ _ _ _ _ _ _ _ _ hfr2 (cap_lt s n adr to_ hC.size hn)]
  simp only [if_true]
  refine (update_descend_preserves
    (fun t => Chained n begin t ∧ (t.get adr).cost = (s.get adr).cost)
    skip linear adr fr func tag _ arg _ ?_ _ (le_refl _) s ⟨hC, rfl⟩).1
  intro l t h1 h2 ht
  exact Chained_relax n begin skip linear adr func tag _ arg l t hadr (by omega)
    (cap_bound s n adr to_ l hC.size (by omega) h2) (hf l) ht

theorem Chained_update_k (n begin : Nat) (K : Nat) (linear : Bool) (s : sssp_solver Tag)
    (adr fr to_ : Nat) (func : Nat → Nat) (tag : Tag) (arg : Nat)
    (hC : Chained n begin s) (hn : n < 2 ^ 63) (hK : 1 ≤ K) (hK2 : K ≤ 2 ^ 63)
    (hadr : begin ≤ adr) (hfr : 1 ≤ fr) (hf : ∀ l, func l ≤ 2 ^ 63) :
    Chained n begin (sssp_solver.update_k K linear s adr fr to_ func tag arg) := by
  rw [update_k_eq_descend _ _ _ _ _ _ _ _ _ hK hK2 (cap_lt s n adr to_ hC.size hn)]
  by_cases hto : min to_ (if s.size > adr then s.size - 1 - adr else 0) < fr
  · simp only [hto, if_true]; exact hC
  · simp only [hto, if_false]
    refine (update_k_descend_preserves
      (fun t => Chained n begin t ∧ (t.get adr).cost = (s.get adr).cost)
      K linear adr fr func tag _ arg
      (min to_ (if s.size > adr then s.size - 1 - adr else 0)) ?_ _ ?_ s ⟨hC, rfl⟩).1
    · intro l t h1 h2 ht
      exact Chained_relax n begin .greater_equal linear adr func tag _ arg l t hadr (by omega)
        (cap_bound s n adr to_ l hC.size (by omega) h2) (hf l) ht
    · have := Nat.div_mul_le_self
        (min to_ (if s.size > adr then s.size - 1 - adr else 0) - fr) K
      omega

theorem Chained_mk_solver (n begin : Nat) (hn : n + 1 < 2 ^ 64) :
    Chained n begin (mk_solver n begin : sssp_solver Tag) := by
  refine ⟨size_mk_solver n begin hn, ?_, ?_⟩
  · intro v
    rw [get_mk_solver _ _ _ hn]
    split
    · simp
    · split
      · simp
      · show (0 : Nat) ≤ _; simp
  · intro v hv hfin
    rw [get_mk_solver _ _ _ hn] at hfin
    by_cases h : v = begin ∧ begin ≤ n
    · left; exact h.1
    · simp [h, hv] at hfin

theorem Chained_of_Relaxed (n begin : Nat) (hn : n < 2 ^ 63) (s : sssp_solver Tag)
    (h : Relaxed n begin s) : Chained n begin s := by
  induction h with
  | init => exact Chained_mk_solver n begin (by omega)
  | update skip linear s adr fr to_ func tag arg _ h1 h2 h3 h4 ih =>
    exact Chained_update n begin skip linear s adr fr to_ func tag arg ih hn h1 h2 h3 h4
  | update_lz skip linear s adr fr to_ lz func tag _ h1 h2 h3 h4 ih =>
    exact Chained_update n begin skip linear s adr fr _ func tag _ ih hn h1 h2 h3 h4
  | update_k K linear s adr fr to_ func tag arg _ h0 h0' h1 h2 h3 ih =>
    exact Chained_update_k n begin K linear s adr fr to_ func tag arg ih hn h0 h0' h1 h2 h3

theorem commands_loop_chain (n begin : Nat) (s : sssp_solver Tag) (hC : Chained n begin s) :
    ∀ (fuel adr : Nat) (ret : List (Vertex Tag)), adr ≤ n → (s.get adr).cost < infinite_cost →
      adr < begin + fuel →
      ∃ chain : List (Vertex Tag),
        commands_loop s (begin : Int) fuel (adr : Int) ret = .ok (ret ++ chain).reverse ∧
        (∀ c ∈ chain, 1 ≤ c.len) ∧ (chain.map (fun c => c.len)).sum + begin = adr := by
  intro fuel
  induction fuel with
  | zero =>
    intro adr ret h1 h2 h3
    rcases hC.back adr h1 h2 with h | ⟨_, h, _⟩ <;> omega
  | succ fuel ih =>
    intro adr ret h1 h2 h3
    unfold commands_loop
    rcases hC.back adr h1 h2 with h | ⟨b1, b2, b3⟩
    · subst h
      refine ⟨[], ?_, by simp, by simp⟩
      simp
    · have hgt : (adr : Int) > (begin : Int) := by omega
      simp only [hgt, if_true, Int.toNat_ofNat]
      have hne : ¬ (s.get adr).len = 0 := by omega
      simp only [hne, if_false]
      have hcast : (adr : Int) - ((s.get adr).len : Int) = ((adr - (s.get adr).len : Nat) : Int) := by
        omega
      rw [hcast]
      obtain ⟨chain, c1, c2, c3⟩ := ih (adr - (s.get adr).len) (ret ++ [s.get adr]) (by omega) b3
        (by omega)
      refine ⟨s.get adr :: chain, ?_, ?_, ?_⟩
      · rw [c1]; simp
      · intro c hc
        rcases List.mem_cons.mp hc with h | h
        · rw [h]; exact b1
        · exact c2 c h
      · simp only [List.map_cons, List.sum_cons]
        omega

end sssp_solver
end sfc_comp

namespace sfc_comp
open encode sssp_solver

/-- C1 (shortest-path optimality of the estpolis_biography DP).  For every input accepted by
`check_size` (length at most `0x10000`) and every outcome `find_s`, `find_l` of the two match
queries, the cost `dp.optimal_cost()` read after the loop is the cost of some edge sequence
from 0 to N over the declared edges, and no edge sequence from 0 to N over the declared edges
is cheaper. -/
theorem estpolis_biography_optimal (input : List Nat) (find_s find_l : Nat → lz_data)
    (hN : input.length ≤ 0x10000) :
    (∃ p, estpolis_biography.path_ok find_s find_l input.length 0 p = true ∧
      estpolis_biography.path_cost input 0 p =
        (estpolis_biography.dp_after input find_s find_l input.length).optimal_cost) ∧
    ∀ p, estpolis_biography.path_ok find_s find_l input.length 0 p = true →
      (estpolis_biography.dp_after input find_s find_l input.length).optimal_cost ≤
        estpolis_biography.path_cost input 0 p := by
  have hG := estpolis_biography.Good_dp_after input find_s find_l hN input.length (le_refl _)
  have hopt : (estpolis_biography.dp_after input find_s find_l input.length).optimal_cost =
      ((estpolis_biography.dp_after input find_s find_l input.length).get input.length).cost := by
    unfold optimal_cost
    rw [hG.size]
    simp
  rw [hopt]
  constructor
  · apply hG.reach input.length (le_refl _)
    have := hG.small input.length (le_refl _) (le_refl _)
    rw [estpolis_biography.inf_val]
    omega
  · intro p hp
    have := estpolis_biography.lower_bound input find_s find_l _ hG p 0 hp
    rw [hG.zero] at this
    omega

/-- Witness for C1: nine bytes with one short match of length 6 offered at position 3. -/
theorem estpolis_biography_optimal_witness :
    ([1, 200, 3, 1, 200, 3, 1, 200, 3] : List Nat).length ≤ 0x10000 ∧
    ((∃ p, estpolis_biography.path_ok (fun i => if i = 3 then ⟨0, 6⟩ else ⟨0, 0⟩)
        (fun _ => ⟨0, 0⟩) 9 0 p = true ∧
      estpolis_biography.path_cost [1, 200, 3, 1, 200, 3, 1, 200, 3] 0 p =
        (estpolis_biography.dp_after [1, 200, 3, 1, 200, 3, 1, 200, 3]
          (fun i => if i = 3 then ⟨0, 6⟩ else ⟨0, 0⟩) (fun _ => ⟨0, 0⟩) 9).optimal_cost) ∧
    ∀ p, estpolis_biography.path_ok (fun i => if i = 3 then ⟨0, 6⟩ else ⟨0, 0⟩)
        (fun _ => ⟨0, 0⟩) 9 0 p = true →
      (estpolis_biography.dp_after [1, 200, 3, 1, 200, 3, 1, 200, 3]
          (fun i => if i = 3 then ⟨0, 6⟩ else ⟨0, 0⟩) (fun _ => ⟨0, 0⟩) 9).optimal_cost ≤
        estpolis_biography.path_cost [1, 200, 3, 1, 200, 3, 1, 200, 3] 0 p) :=
  ⟨by decide, estpolis_biography_optimal [1, 200, 3, 1, 200, 3, 1, 200, 3]
    (fun i => if i = 3 then ⟨0, 6⟩ else ⟨0, 0⟩) (fun _ => ⟨0, 0⟩) (by decide)⟩

end sfc_comp

namespace sfc_comp
open encode sssp_solver
namespace encode
namespace lz

theorem fold_min_le_max (f : Nat → Nat) : ∀ n a,
    fold_range (range_min uint32_max) f a n ≤ uint32_max := by
  intro n
  induction n with
  | zero => intro a; simp [fold_range, range_min]
  | succ n ih =>
    intro a
    simp only [fold_range, range_min]
    exact le_trans (Nat.min_le_right _ _) (ih (a + 1))

theorem fold_min_split (f : Nat → Nat) : ∀ n a m,
    fold_range (range_min uint32_max) f a (n + m) =
      min (fold_range (range_min uint32_max) f a n)
        (fold_range (range_min uint32_max) f (a + n) m) := by
  intro n
  induction n with
  | zero =>
    intro a m
    have := fold_min_le_max f m a
    simp only [Nat.zero_add, Nat.add_zero, fold_range]
    show _ = min uint32_max _
    omega
  | succ n ih =>
    intro a m
    have e : n + 1 + m = (n + m) + 1 := by omega
    rw [e]
    simp only [fold_range, range_min]
    have := ih (a + 1) m
    simp only [range_min] at this
    rw [this]
    have e2 : a + 1 + n = a + (n + 1) := by omega
    rw [e2, Nat.min_assoc]

theorem fold_min_one (f : Nat → Nat) (a : Nat) (h : f a ≤ uint32_max) :
    fold_range (range_min uint32_max) f a 1 = f a := by
  simp only [fold_range, range_min]
  omega

theorem fold_min_mono (f : Nat → Nat) (j mid i : Nat) (h1 : j ≤ mid) (h2 : mid ≤ i) :
    fold_range (range_min uint32_max) f j (i - j) ≤
      fold_range (range_min uint32_max) f mid (i - mid) := by
  have e : i - j = (mid - j) + (i - mid) := by omega
  rw [e, fold_min_split]
  have e2 : j + (mid - j) = mid := by omega
  rw [e2]
  exact Nat.min_le_right _ _

theorem fold_min_mono_right (f : Nat → Nat) (i mid j : Nat) (h1 : i ≤ mid) (h2 : mid ≤ j) :
    fold_range (range_min uint32_max) f i (j - i) ≤
      fold_range (range_min uint32_max) f i (mid - i) := by
  have e : j - i = (mid - i) + (j - mid) := by omega
  rw [e, fold_min_split]
  exact Nat.min_le_left _ _

theorem last_found_none (p : Nat → Bool) : ∀ i, (∀ j, j < i → p j = false) →
    last_found_below p i = none := by
  intro i
  induction i with
  | zero => intro _; rfl
  | succ i ih =>
    intro h
    simp only [last_found_below, h i (Nat.lt_succ_self i)]
    exact ih (fun j hj => h j (by omega))

theorem last_found_skip (p : Nat → Bool) (a : Nat) : ∀ i, a ≤ i →
    (∀ j, a ≤ j → j < i → p j = false) → last_found_below p i = last_found_below p a := by
  intro i
  induction i with
  | zero => intro h _; have : a = 0 := by omega
            subst this; rfl
  | succ i ih =>
    intro h1 h2
    rcases Nat.eq_or_lt_of_le h1 with h | h
    · rw [h]
    · simp only [last_found_below, h2 i (by omega) (Nat.lt_succ_self i)]
      exact ih (by omega) (fun j hj1 hj2 => h2 j hj1 (by omega))

theorem last_found_some (p : Nat → Bool) (j i : Nat) (hj : j < i) (hp : p j = true)
    (h : ∀ t, j < t → t < i → p t = false) : last_found_below p i = some j := by
  rw [last_found_skip p (j + 1) i (by omega) (fun t h1 h2 => h t (by omega) h2)]
  simp [last_found_below, hp]

theorem last_found_spec (p : Nat → Bool) : ∀ i j, last_found_below p i = some j →
    j < i ∧ p j = true ∧ ∀ t, j < t → t < i → p t = false := by
  intro i
  induction i with
  | zero => intro j h; simp [last_found_below] at h
  | succ i ih =>
    intro j h
    simp only [last_found_below] at h
    by_cases hp : p i = true
    · simp only [hp, if_true, Option.some.injEq] at h
      subst h
      exact ⟨Nat.lt_succ_self _, hp, fun t h1 h2 => by omega⟩
    · simp only [hp, if_false] at h
      obtain ⟨h1, h2, h3⟩ := ih j h
      refine ⟨by omega, h2, fun t ht1 ht2 => ?_⟩
      rcases Nat.eq_or_lt_of_le (Nat.le_of_lt_succ ht2) with e | e
      · subst e; simpa using hp
      · exact h3 t ht1 e

theorem first_found_none (p : Nat → Bool) : ∀ n i, (∀ j, i ≤ j → j < i + n → p j = false) →
    first_found_from p i n = none := by
  intro n
  induction n with
  | zero => intro i _; rfl
  | succ n ih =>
    intro i h
    simp only [first_found_from, h i (le_refl _) (by omega)]
    exact ih (i + 1) (fun j h1 h2 => h j (by omega) (by omega))

theorem first_found_some (p : Nat → Bool) : ∀ n i j, i ≤ j → j < i + n → p j = true →
    (∀ t, i ≤ t → t < j → p t = false) → first_found_from p i n = some j := by
  intro n
  induction n with
  | zero => intro i j h1 h2; omega
  | succ n ih =>
    intro i j h1 h2 hp h
    rcases Nat.eq_or_lt_of_le h1 with e | e
    · subst e; simp [first_found_from, hp]
    · simp only [first_found_from, h i (le_refl _) e]
      exact ih (i + 1) j (by omega) (by omega) hp (fun t ht1 ht2 => h t (by omega) ht2)

theorem first_found_spec (p : Nat → Bool) : ∀ n i j, first_found_from p i n = some j →
    i ≤ j ∧ j < i + n ∧ p j = true ∧ ∀ t, i ≤ t → t < j → p t = false := by
  intro n
  induction n with
  | zero => intro i j h; simp [first_found_from] at h
  | succ n ih =>
    intro i j h
    simp only [first_found_from] at h
    by_cases hp : p i = true
    · simp only [hp, if_true, Option.some.injEq] at h
      subst h
      exact ⟨le_refl _, by omega, hp, fun t h1 h2 => by omega⟩
    · simp only [hp, if_false] at h
      obtain ⟨h1, h2, h3, h4⟩ := ih (i + 1) j h
      refine ⟨by omega, by omega, h3, fun t ht1 ht2 => ?_⟩
      rcases Nat.eq_or_lt_of_le ht1 with e | e
      · subst e; simpa using hp
      · exact h4 t e ht2

end lz
end encode
end sfc_comp

namespace sfc_comp
open encode sssp_solver
namespace encode
namespace lz

theorem ptrdiff_size_t (x : Int) (h1 : -(2 ^ 63) ≤ x) (h2 : x < 2 ^ 63) :
    ptrdiff_t (size_t x) = x := by
  unfold ptrdiff_t size_t
  have e : ((x % 2 ^ 64).toNat % 2 ^ 64 : Nat) = (x % 2 ^ 64).toNat := by
    apply Nat.mod_eq_of_lt
    omega
  rw [e]
  split <;> omega

/-- The distance test when the sum does not leave `ptrdiff_t`. -/
theorem found_eq (ofs_node : span Int) (adr d k : Nat)
    (h : -(2 ^ 63) ≤ ofs_node.get k + ptrdiff_t d ∧ ofs_node.get k + ptrdiff_t d < 2 ^ 63) :
    found ofs_node adr d k = decide (ofs_node.get k + ptrdiff_t d ≥ ptrdiff_t adr) := by
  unfold found
  rw [ptrdiff_size_t _ h.1 h.2]

theorem found_children (lcp_node : span Nat) (ofs_node : span Int) (W : Nat)
    (hv : valid_trees lcp_node ofs_node W) (adr d : Nat) (hfit : sum_fits ofs_node W d)
    (k : Nat) (h1 : 1 ≤ k) (h2 : k < W) :
    found ofs_node adr d k =
      (found ofs_node adr d (2 * k) || found ofs_node adr d (2 * k + 1)) := by
  rw [found_eq _ _ _ _ (hfit (2 * k) (by omega)), found_eq _ _ _ _ (hfit (2 * k + 1) (by omega))]
  have hk := hfit k (by omega)
  unfold found
  rw [ptrdiff_size_t _ hk.1 hk.2]
  rw [hv.hmax k h1 h2]
  rcases le_total (ofs_node.get (2 * k)) (ofs_node.get (2 * k + 1)) with h | h
  · rw [max_eq_right h]
    by_cases c1 : ofs_node.get (2 * k + 1) + ptrdiff_t d ≥ ptrdiff_t adr
    · simp [c1]
    · have c2 : ¬ ofs_node.get (2 * k) + ptrdiff_t d ≥ ptrdiff_t adr := by omega
      simp [c1, c2]
  · rw [max_eq_left h]
    by_cases c1 : ofs_node.get (2 * k) + ptrdiff_t d ≥ ptrdiff_t adr
    · simp [c1]
    · have c2 : ¬ ofs_node.get (2 * k + 1) + ptrdiff_t d ≥ ptrdiff_t adr := by omega
      simp [c1, c2]

theorem node_lt_width (H a h q : Nat) (hah : a + (h + 1) = H) (hq : q < 2 ^ a) :
    1 ≤ 2 ^ a + q ∧ 2 ^ a + q < 2 ^ H := by
  have h1 : 1 ≤ 2 ^ a := Nat.one_le_two_pow
  have h2 : 2 ^ (a + 1) ≤ 2 ^ H := Nat.pow_le_pow_right (by omega) (by omega)
  have h3 : 2 ^ (a + 1) = 2 * 2 ^ a := by rw [pow_succ]; omega
  omega

theorem found_node (lcp_node : span Nat) (ofs_node : span Int) (W H : Nat) (hW : W = 2 ^ H)
    (hv : valid_trees lcp_node ofs_node W) (adr d : Nat) (hfit : sum_fits ofs_node W d) :
    ∀ h a q, a + h = H → q < 2 ^ a →
      (found ofs_node adr d (2 ^ a + q) = true ↔
        ∃ j, q * 2 ^ h ≤ j ∧ j < q * 2 ^ h + 2 ^ h ∧ found ofs_node adr d (W + j) = true) := by
  intro h
  induction h with
  | zero =>
    intro a q hah hq
    have : a = H := by omega
    subst this
    simp only [pow_zero, Nat.mul_one]
    constructor
    · intro hf; exact ⟨q, le_refl _, by omega, by rw [hW]; exact hf⟩
    · rintro ⟨j, h1, h2, h3⟩
      have : j = q := by omega
      subst this; rw [hW] at h3; exact h3
  | succ h ih =>
    intro a q hah hq
    obtain ⟨k1, k2⟩ := node_lt_width H a h q hah hq
    rw [found_children lcp_node ofs_node W hv adr d hfit _ k1 (by rw [hW]; exact k2)]
    have e0 : 2 ^ (a + 1) = 2 * 2 ^ a := by rw [pow_succ]; omega
    have e1 : 2 * (2 ^ a + q) = 2 ^ (a + 1) + 2 * q := by omega
    have e2 : 2 ^ (a + 1) + 2 * q + 1 = 2 ^ (a + 1) + (2 * q + 1) := by omega
    rw [e1, e2, Bool.or_eq_true, ih (a + 1) (2 * q) (by omega) (by omega),
      ih (a + 1) (2 * q + 1) (by omega) (by omega)]
    have e3 : 2 ^ (h + 1) = 2 * 2 ^ h := by rw [pow_succ]; omega
    have e4 : 2 * q * 2 ^ h = 2 * (q * 2 ^ h) := by ring
    have e5 : (2 * q + 1) * 2 ^ h = 2 * (q * 2 ^ h) + 2 ^ h := by ring
    have e6 : q * 2 ^ (h + 1) = 2 * (q * 2 ^ h) := by rw [e3]; ring
    rw [e4, e5, e6, e3]
    constructor
    · rintro (⟨j, h1, h2, h3⟩ | ⟨j, h1, h2, h3⟩)
      · exact ⟨j, h1, by omega, h3⟩
      · exact ⟨j, by omega, by omega, h3⟩
    · rintro ⟨j, h1, h2, h3⟩
      by_cases c : j < 2 * (q * 2 ^ h) + 2 ^ h
      · left; exact ⟨j, h1, c, h3⟩
      · right; exact ⟨j, by omega, by omega, h3⟩

theorem lcp_node_eq (lcp_node : span Nat) (ofs_node : span Int) (W H : Nat) (hW : W = 2 ^ H)
    (hv : valid_trees lcp_node ofs_node W) :
    ∀ h a q, a + h = H → q < 2 ^ a →
      lcp_node.get (2 ^ a + q) =
        fold_range (range_min uint32_max) (fun t => lcp_node.get (W + t)) (q * 2 ^ h) (2 ^ h) := by
  intro h
  induction h with
  | zero =>
    intro a q hah hq
    have : a = H := by omega
    subst this
    simp only [pow_zero, Nat.mul_one]
    have := fold_min_one (fun t => lcp_node.get (W + t)) q (hv.hle q (by rw [hW]; exact hq))
    rw [this, hW]
  | succ h ih =>
    intro a q hah hq
    obtain ⟨k1, k2⟩ := node_lt_width H a h q hah hq
    rw [hv.hmin _ k1 (by rw [hW]; exact k2)]
    have e0 : 2 ^ (a + 1) = 2 * 2 ^ a := by rw [pow_succ]; omega
    have e1 : 2 * (2 ^ a + q) = 2 ^ (a + 1) + 2 * q := by omega
    have e2 : 2 ^ (a + 1) + 2 * q + 1 = 2 ^ (a + 1) + (2 * q + 1) := by omega
    rw [e1, e2, ih (a + 1) (2 * q) (by omega) (by omega),
      ih (a + 1) (2 * q + 1) (by omega) (by omega)]
    have e3 : 2 ^ (h + 1) = 2 ^ h + 2 ^ h := by rw [pow_succ]; omega
    have e4 : 2 * q * 2 ^ h = q * 2 ^ (h + 1) := by rw [pow_succ]; ring
    have e5 : (2 * q + 1) * 2 ^ h = q * 2 ^ (h + 1) + 2 ^ h := by rw [pow_succ]; ring
    rw [e4, e5]
    conv_rhs => rw [e3, fold_min_split]
    rw [e3]

theorem not_found_node (lcp_node : span Nat) (ofs_node : span Int) (W H : Nat) (hW : W = 2 ^ H)
    (hv : valid_trees lcp_node ofs_node W) (adr d : Nat) (hfit : sum_fits ofs_node W d)
    (h a q : Nat) (hah : a + h = H)
    (hq : q < 2 ^ a) (hf : found ofs_node adr d (2 ^ a + q) = false) :
    ∀ j, q * 2 ^ h ≤ j → j < q * 2 ^ h + 2 ^ h → found ofs_node adr d (W + j) = false := by
  intro j h1 h2
  by_contra hc
  have hc2 : found ofs_node adr d (W + j) = true := by simpa using hc
  have := (found_node lcp_node ofs_node W H hW hv adr d hfit h a q hah hq).mpr ⟨j, h1, h2, hc2⟩
  rw [hf] at this
  exact Bool.false_ne_true this

end lz
end encode
end sfc_comp

namespace sfc_comp
open encode sssp_solver
namespace encode
namespace lz

theorem quit_fst (lcp_node : span Nat) (min_len k lcp : Nat) :
    (quit lcp_node min_len k lcp).1 = min lcp (lcp_node.get k) := by
  unfold quit
  split <;> simp <;> omega

theorem quit_snd (lcp_node : span Nat) (min_len k lcp : Nat) :
    (quit lcp_node min_len k lcp).2 = true ↔ lcp_node.get k < lcp ∧ lcp_node.get k < min_len := by
  unfold quit
  split <;> simp <;> omega

theorem quit_snd_false (lcp_node : span Nat) (min_len k lcp : Nat)
    (h : ¬ (quit lcp_node min_len k lcp).2 = true) (hl : min_len ≤ lcp ∨ lcp = uint32_max)
    (hk : lcp_node.get k ≤ uint32_max) :
    min_len ≤ min lcp (lcp_node.get k) ∨ min lcp (lcp_node.get k) = uint32_max := by
  rw [quit_snd] at h
  by_cases c : lcp_node.get k < lcp
  · left
    have : ¬ lcp_node.get k < min_len := fun h2 => h ⟨c, h2⟩
    rw [Nat.min_eq_right (le_of_lt c)]; omega
  · rw [Nat.min_eq_left (by omega)]; exact hl

theorem left_spec_empty_of_small (lcp_node : span Nat) (ofs_node : span Int)
    (W adr i d min_len x : Nat) (hx : x ≤ i)
    (hnf : ∀ j, x ≤ j → j < i → found ofs_node adr d (W + j) = false)
    (h1 : fold_range (range_min uint32_max) (fun t => lcp_node.get (W + t)) x (i - x) < min_len)
    (h2 : fold_range (range_min uint32_max) (fun t => lcp_node.get (W + t)) x (i - x) <
      uint32_max) :
    left_spec lcp_node ofs_node W adr i d min_len = empty := by
  unfold left_spec
  cases hl : last_found_below (fun j => found ofs_node adr d (W + j)) i with
  | none => rfl
  | some j =>
    obtain ⟨a1, a2, a3⟩ := last_found_spec _ _ _ hl
    have hjx : j < x := by
      by_contra hc
      have := hnf j (by omega) a1
      rw [this] at a2
      exact Bool.false_ne_true a2
    have := fold_min_mono (fun t => lcp_node.get (W + t)) j x i (by omega) hx
    simp only
    rw [if_pos ⟨by omega, by omega⟩]

theorem find_left_descend_spec (lcp_node : span Nat) (ofs_node : span Int) (W H : Nat)
    (hW : W = 2 ^ H) (hv : valid_trees lcp_node ofs_node W) (adr d min_len i : Nat)
    (hfit : sum_fits ofs_node W d) :
    ∀ h a q lcp fuel lo hi k, a + h = H → q < 2 ^ a → lo = q * 2 ^ h → hi = lo + 2 ^ h →
      k = 2 ^ a + q → h < fuel → found ofs_node adr d k = true → hi ≤ i →
      (∀ j, hi ≤ j → j < i → found ofs_node adr d (W + j) = false) →
      lcp = fold_range (range_min uint32_max) (fun t => lcp_node.get (W + t)) hi (i - hi) →
      (min_len ≤ lcp ∨ lcp = uint32_max) →
      find_left_finish lcp_node ofs_node min_len
        (find_left_descend lcp_node ofs_node adr d min_len W fuel lo hi k lcp) =
        some (left_spec lcp_node ofs_node W adr i d min_len) := by
  intro h
  induction h with
  | zero =>
    intro a q lcp fuel lo hi k hah hq hlo hhi hk hfuel hfound hhi_le hnf hlcp hcond
    have haH : a = H := by omega
    subst haH
    simp only [pow_zero, Nat.mul_one] at hlo hhi
    obtain ⟨f, rfl⟩ : ∃ f, fuel = f + 1 := ⟨fuel - 1, by omega⟩
    have hkW : ¬ k < W := by omega
    unfold find_left_descend
    simp only [hkW, if_false]
    unfold find_left_finish
    simp only
    have hkq : k = W + q := by omega
    rw [hkq] at hfound
    have hlast : last_found_below (fun j => found ofs_node adr d (W + j)) i = some q :=
      last_found_some _ q i (by omega) hfound (fun t h1 h2 => hnf t (by omega) h2)
    have hm : fold_range (range_min uint32_max) (fun t => lcp_node.get (W + t)) q (i - q) =
        min lcp (lcp_node.get k) := by
      have e : i - q = 1 + (i - hi) := by omega
      have e1 := fold_min_one (fun t => lcp_node.get (W + t)) q (hv.hle q (by omega))
      have e2 : q + 1 = hi := by omega
      rw [e, fold_min_split, e1, e2, ← hlcp, hkq, Nat.min_comm]
    unfold left_spec
    rw [hlast]
    simp only
    rw [hm, hv.size, quit_fst]
    have hmax := fold_min_le_max (fun t => lcp_node.get (W + t)) (i - hi) hi
    rw [← hlcp] at hmax
    have hloW : lo + W = W + q := by omega
    rw [hloW]
    by_cases hq2 : (quit lcp_node min_len k lcp).2 = true
    · simp only [hq2, if_true]
      rw [quit_snd] at hq2
      have hc : min lcp (lcp_node.get k) < min_len ∧ min lcp (lcp_node.get k) < uint32_max := by
        rw [Nat.min_eq_right (le_of_lt hq2.1)]
        exact ⟨hq2.2, by omega⟩
      rw [if_pos hc]
    · simp only [hq2, if_false]
      have := quit_snd_false lcp_node min_len k lcp hq2 hcond
        (by rw [hkq]; exact hv.hle q (by omega))
      have hc : ¬ (min lcp (lcp_node.get k) < min_len ∧
          min lcp (lcp_node.get k) < uint32_max) := by omega
      rw [if_neg hc]
      simp
  | succ h ih =>
    intro a q lcp fuel lo hi k hah hq hlo hhi hk hfuel hfound hhi_le hnf hlcp hcond
    obtain ⟨f, rfl⟩ : ∃ f, fuel = f + 1 := ⟨fuel - 1, by omega⟩
    obtain ⟨k1, k2⟩ := node_lt_width H a h q hah hq
    have hkW : k < W := by omega
    have e0 : 2 ^ (a + 1) = 2 * 2 ^ a := by rw [pow_succ]; omega
    have e3 : 2 ^ (h + 1) = 2 * 2 ^ h := by rw [pow_succ]; omega
    have e4 : 2 * q * 2 ^ h = 2 * (q * 2 ^ h) := by ring
    have e5 : (2 * q + 1) * 2 ^ h = 2 * (q * 2 ^ h) + 2 ^ h := by ring
    have e6 : q * 2 ^ (h + 1) = 2 * (q * 2 ^ h) := by rw [e3]; ring
    unfold find_left_descend
    simp only [hkW, if_true]
    by_cases hr : found ofs_node adr d (2 * k + 1) = true
    · rw [if_pos hr]
      exact ih (a + 1) (2 * q + 1) lcp f _ hi (2 * k + 1) (by omega) (by omega) (by omega)
        (by omega) (by omega) (by omega) hr hhi_le hnf hlcp hcond
    · rw [if_neg hr]
      have hrf : found ofs_node adr d (2 ^ (a + 1) + (2 * q + 1)) = false := by
        have : 2 * k + 1 = 2 ^ (a + 1) + (2 * q + 1) := by omega
        rw [← this]; simpa using hr
      have hnf2 := not_found_node lcp_node ofs_node W H hW hv adr d hfit h (a + 1) (2 * q + 1)
        (by omega) (by omega) hrf
      have hnode := lcp_node_eq lcp_node ofs_node W H hW hv h (a + 1) (2 * q + 1)
        (by omega) (by omega)
      have hkk : 2 * k + 1 = 2 ^ (a + 1) + (2 * q + 1) := by omega
      have hmid : (lo + hi) / 2 = (2 * q + 1) * 2 ^ h := by omega
      have hnf3 : ∀ j, (lo + hi) / 2 ≤ j → j < i → found ofs_node adr d (W + j) = false := by
        intro j h1 h2
        by_cases c : j < hi
        · exact hnf2 j (by omega) (by omega)
        · exact hnf j (by omega) h2
      have hfold : fold_range (range_min uint32_max) (fun t => lcp_node.get (W + t))
          ((lo + hi) / 2) (i - (lo + hi) / 2) = min lcp (lcp_node.get (2 * k + 1)) := by
        have e : i - (lo + hi) / 2 = 2 ^ h + (i - hi) := by omega
        have e' : (lo + hi) / 2 + 2 ^ h = hi := by omega
        rw [e, fold_min_split, e', ← hlcp, hkk, hnode, hmid, Nat.min_comm]
      have hmax := fold_min_le_max (fun t => lcp_node.get (W + t)) (i - hi) hi
      rw [← hlcp] at hmax
      by_cases hq2 : (quit lcp_node min_len (2 * k + 1) lcp).2 = true
      · rw [if_pos hq2]
        unfold find_left_finish
        rw [quit_snd] at hq2
        have hE := left_spec_empty_of_small lcp_node ofs_node W adr i d min_len ((lo + hi) / 2)
          (by omega) hnf3
          (by rw [hfold, Nat.min_eq_right (le_of_lt hq2.1)]; exact hq2.2)
          (by rw [hfold, Nat.min_eq_right (le_of_lt hq2.1)]; omega)
        rw [hE]
      · rw [if_neg hq2]
        have hleaf : lcp_node.get (2 * k + 1) ≤ uint32_max := by
          rw [hkk, hnode]; exact fold_min_le_max _ _ _
        have hc2 := quit_snd_false lcp_node min_len (2 * k + 1) lcp hq2 hcond hleaf
        have hl : found ofs_node adr d (2 * k) = true := by
          have := found_children lcp_node ofs_node W hv adr d hfit k (by omega) hkW
          rw [this] at hfound
          simp only [Bool.or_eq_true] at hfound
          rcases hfound with h | h
          · exact h
          · exact absurd h hr
        rw [quit_fst]
        exact ih (a + 1) (2 * q) _ f lo _ (k * 2) (by omega) (by omega) (by omega)
          (by omega) (by omega) (by omega) (by rw [Nat.mul_comm]; exact hl) (by omega) hnf3
          hfold.symm hc2

end lz
end encode
end sfc_comp

namespace sfc_comp
open encode sssp_solver
namespace encode
namespace lz

theorem height_lt_width (H a h : Nat) (hah : a + h = H) : h < 2 ^ H + 1 := by
  have := @Nat.lt_two_pow H
  omega

theorem find_left_climb_spec (lcp_node : span Nat) (ofs_node : span Int) (W H : Nat)
    (hW : W = 2 ^ H) (hv : valid_trees lcp_node ofs_node W) (adr d min_len i : Nat)
    (hfit : sum_fits ofs_node W d) :
    ∀ fuel a h q lcp lo hi k, a + h = H → q < 2 ^ a → lo = q * 2 ^ h → hi = lo + 2 ^ h →
      k = 2 ^ a + q → lo < fuel → hi ≤ i →
      (∀ j, hi ≤ j → j < i → found ofs_node adr d (W + j) = false) →
      lcp = fold_range (range_min uint32_max) (fun t => lcp_node.get (W + t)) hi (i - hi) →
      (min_len ≤ lcp ∨ lcp = uint32_max) →
      find_left_tail lcp_node ofs_node adr d min_len
        (find_left_climb lcp_node ofs_node adr d min_len fuel lo hi k lcp) =
        some (left_spec lcp_node ofs_node W adr i d min_len) := by
  intro fuel
  induction fuel with
  | zero => intro a h q lcp lo hi k _ _ _ _ _ hf; omega
  | succ fuel ih =>
    intro a h q lcp lo hi k hah hq hlo hhi hk hfuel hhi_le hnf hlcp hcond
    have hs1 : 1 ≤ 2 ^ h := Nat.one_le_two_pow
    have ha1 : 1 ≤ 2 ^ a := Nat.one_le_two_pow
    have hmax := fold_min_le_max (fun t => lcp_node.get (W + t)) (i - hi) hi
    rw [← hlcp] at hmax
    have hnode := lcp_node_eq lcp_node ofs_node W H hW hv h a q hah hq
    rw [← hk, ← hlo] at hnode
    unfold find_left_climb
    by_cases hc : lo > 0 ∧ found ofs_node adr d k = false
    · rw [if_pos hc]
      obtain ⟨hlo0, hkf⟩ := hc
      have hnf2 := not_found_node lcp_node ofs_node W H hW hv adr d hfit h a q hah hq
        (by rw [← hk]; exact hkf)
      rw [← hlo] at hnf2
      have hnf3 : ∀ j, lo ≤ j → j < i → found ofs_node adr d (W + j) = false := by
        intro j h1 h2
        by_cases c : j < hi
        · exact hnf2 j h1 (by omega)
        · exact hnf j (by omega) h2
      have hfold : fold_range (range_min uint32_max) (fun t => lcp_node.get (W + t))
          lo (i - lo) = min lcp (lcp_node.get k) := by
        have e : i - lo = 2 ^ h + (i - hi) := by omega
        have e' : lo + 2 ^ h = hi := by omega
        rw [e, fold_min_split, e', ← hlcp, hnode, Nat.min_comm]
      by_cases hq2 : (quit lcp_node min_len k lcp).2 = true
      · rw [if_pos hq2]
        unfold find_left_tail
        rw [quit_snd] at hq2
        have hE := left_spec_empty_of_small lcp_node ofs_node W adr i d min_len lo
          (by omega) hnf3
          (by rw [hfold, Nat.min_eq_right (le_of_lt hq2.1)]; exact hq2.2)
          (by rw [hfold, Nat.min_eq_right (le_of_lt hq2.1)]; omega)
        rw [hE]
      · rw [if_neg hq2]
        have hleaf : lcp_node.get k ≤ uint32_max := by
          rw [hnode]; exact fold_min_le_max _ _ _
        have hc2 := quit_snd_false lcp_node min_len k lcp hq2 hcond hleaf
        rw [quit_fst]
        -- the node is not the root
        have hq1 : 1 ≤ q := by
          rcases Nat.eq_zero_or_pos q with h0 | h0
          · rw [h0] at hlo; omega
          · exact h0
        obtain ⟨a', rfl⟩ : ∃ a', a = a' + 1 := by
          rcases a with _ | a'
          · simp at hq; omega
          · exact ⟨a', rfl⟩
        have ha2 : 1 ≤ 2 ^ a' := Nat.one_le_two_pow
        have e0 : 2 ^ (a' + 1) = 2 * 2 ^ a' := by rw [pow_succ]; omega
        have e3 : 2 ^ (h + 1) = 2 * 2 ^ h := by rw [pow_succ]; omega
        by_cases hpar : k % 2 = 0
        · rw [if_pos hpar]
          obtain ⟨m, rfl⟩ : ∃ m, q = 2 * (m + 1) := ⟨q / 2 - 1, by omega⟩
          have e4 : 2 * (m + 1) * 2 ^ h = 2 * (m * 2 ^ h) + 2 * 2 ^ h := by ring
          have e5 : m * 2 ^ (h + 1) = 2 * (m * 2 ^ h) := by rw [e3]; ring
          exact ih a' (h + 1) m _ _ lo _ (by omega) (by omega) (by omega) (by omega) (by omega)
            (by omega) (by omega) hnf3 hfold.symm hc2
        · rw [if_neg hpar]
          obtain ⟨m, rfl⟩ : ∃ m, q = m + 1 := ⟨q - 1, by omega⟩
          have e4 : (m + 1) * 2 ^ h = m * 2 ^ h + 2 ^ h := by ring
          exact ih (a' + 1) h m _ _ _ (k - 1) (by omega) (by omega) (by omega) (by omega)
            (by omega) (by omega) (by omega)
            (by have : hi - (hi - lo) = lo := by omega
                rw [this]; exact hnf3)
            (by have : hi - (hi - lo) = lo := by omega
                rw [this]; exact hfold.symm) hc2
    · rw [if_neg hc]
      unfold find_left_tail
      simp only
      by_cases hc2 : lo = 0 ∧ found ofs_node adr d k = false
      · rw [if_pos hc2]
        have hnf2 := not_found_node lcp_node ofs_node W H hW hv adr d hfit h a q hah hq
          (by rw [← hk]; exact hc2.2)
        rw [← hlo] at hnf2
        have hnone : last_found_below (fun j => found ofs_node adr d (W + j)) i = none := by
          apply last_found_none
          intro j hj
          by_cases c : j < hi
          · exact hnf2 j (by omega) (by omega)
          · exact hnf j (by omega) hj
        unfold left_spec
        rw [hnone]
      · rw [if_neg hc2]
        have hf : found ofs_node adr d k = true := by
          by_contra hcon
          have hcon' : found ofs_node adr d k = false := by simpa using hcon
          rcases Nat.eq_zero_or_pos lo with h0 | h0
          · exact hc2 ⟨h0, hcon'⟩
          · exact hc ⟨h0, hcon'⟩
        rw [hv.size]
        exact find_left_descend_spec lcp_node ofs_node W H hW hv adr d min_len i hfit h a q lcp
          (W + 1) lo hi k hah hq hlo hhi hk (by rw [hW]; exact height_lt_width H a h hah) hf
          hhi_le hnf hlcp hcond

/-- The walk of `find_left` on valid trees of width `W = 2^H`, for a rank `i <= W`: it
returns, and its result is `left_spec`. -/
theorem find_left_eq (lcp_node : span Nat) (ofs_node : span Int) (W H : Nat)
    (hW : W = 2 ^ H) (hv : valid_trees lcp_node ofs_node W) (adr d min_len i : Nat)
    (hfit : sum_fits ofs_node W d) (hi : i ≤ W) :
    find_left adr i d min_len lcp_node ofs_node =
      some (left_spec lcp_node ofs_node W adr i d min_len) := by
  unfold find_left
  by_cases h0 : i = 0
  · rw [if_pos h0]
    subst h0
    rfl
  · rw [if_neg h0, hv.size]
    exact find_left_climb_spec lcp_node ofs_node W H hW hv adr d min_len i hfit (i + 1) H 0 (i - 1)
      uint32_max (i - 1) i (i - 1 + W) (by omega) (by omega) (by simp) (by simp; omega)
      (by omega) (by omega) (le_refl _) (fun j h1 h2 => by omega)
      (by simp [fold_range, range_min]) (Or.inr rfl)

end lz
end encode
end sfc_comp

namespace sfc_comp
open encode sssp_solver
namespace encode
namespace lz

theorem node_hi_le (H a h q : Nat) (hah : a + h = H) (hq : q < 2 ^ a) :
    q * 2 ^ h + 2 ^ h ≤ 2 ^ H := by
  have e : 2 ^ H = 2 ^ a * 2 ^ h := by rw [← hah, pow_add]
  have h1 : (q + 1) * 2 ^ h ≤ 2 ^ a * 2 ^ h := Nat.mul_le_mul_right _ hq
  have e2 : (q + 1) * 2 ^ h = q * 2 ^ h + 2 ^ h := by ring
  omega

theorem node_hi_eq (H a h q : Nat) (hah : a + h = H) (hq : q + 1 = 2 ^ a) :
    q * 2 ^ h + 2 ^ h = 2 ^ H := by
  have e : 2 ^ H = 2 ^ a * 2 ^ h := by rw [← hah, pow_add]
  have e2 : (q + 1) * 2 ^ h = q * 2 ^ h + 2 ^ h := by ring
  rw [e, ← hq, e2]

theorem right_spec_empty_of_small (lcp_node : span Nat) (ofs_node : span Int)
    (W adr i d min_len x : Nat) (hx : i ≤ x)
    (hnf : ∀ j, i ≤ j → j < x → found ofs_node adr d (W + j) = false)
    (h1 : fold_range (range_min uint32_max) (fun t => lcp_node.get (W + t)) i (x - i) < min_len)
    (h2 : fold_range (range_min uint32_max) (fun t => lcp_node.get (W + t)) i (x - i) <
      uint32_max) :
    right_spec lcp_node ofs_node W adr i d min_len = empty := by
  unfold right_spec
  cases hl : first_found_from (fun j => found ofs_node adr d (W + j)) i (W - i) with
  | none => rfl
  | some j =>
    obtain ⟨a1, a2, a3, a4⟩ := first_found_spec _ _ _ _ hl
    have hjx : x ≤ j := by
      by_contra hc
      have := hnf j a1 (by omega)
      rw [this] at a3
      exact Bool.false_ne_true a3
    have := fold_min_mono_right (fun t => lcp_node.get (W + t)) i x j hx hjx
    simp only
    rw [if_pos ⟨by omega, by omega⟩]

theorem find_right_descend_spec (lcp_node : span Nat) (ofs_node : span Int) (W H : Nat)
    (hW : W = 2 ^ H) (hv : valid_trees lcp_node ofs_node W) (adr d min_len i : Nat)
    (hfit : sum_fits ofs_node W d) :
    ∀ h a q lcp fuel lo hi k, a + h = H → q < 2 ^ a → lo = q * 2 ^ h → hi = lo + 2 ^ h →
      k = 2 ^ a + q → h < fuel → found ofs_node adr d k = true → i ≤ lo →
      (∀ j, i ≤ j → j < lo → found ofs_node adr d (W + j) = false) →
      lcp = fold_range (range_min uint32_max) (fun t => lcp_node.get (W + t)) i (lo - i) →
      (min_len ≤ lcp ∨ lcp = uint32_max) →
      find_right_finish lcp_node ofs_node
        (find_right_descend lcp_node ofs_node adr d min_len W fuel lo hi k lcp) =
        some (right_spec lcp_node ofs_node W adr i d min_len) := by
  intro h
  induction h with
  | zero =>
    intro a q lcp fuel lo hi k hah hq hlo hhi hk hfuel hfound hile hnf hlcp hcond
    have haH : a = H := by omega
    subst haH
    simp only [pow_zero, Nat.mul_one] at hlo hhi
    obtain ⟨f, rfl⟩ : ∃ f, fuel = f + 1 := ⟨fuel - 1, by omega⟩
    have hkW : ¬ k < W := by omega
    unfold find_right_descend
    rw [if_neg hkW]
    unfold find_right_finish
    simp only
    have hkq : k = W + lo := by omega
    rw [hkq] at hfound
    have hfirst : first_found_from (fun j => found ofs_node adr d (W + j)) i (W - i) =
        some lo :=
      first_found_some _ _ i lo hile (by omega) hfound hnf
    unfold right_spec
    rw [hfirst]
    simp only
    rw [← hlcp, hv.size]
    have hc : ¬ (lcp < min_len ∧ lcp < uint32_max) := by omega
    rw [if_neg hc, Nat.add_comm lo W]
  | succ h ih =>
    intro a q lcp fuel lo hi k hah hq hlo hhi hk hfuel hfound hile hnf hlcp hcond
    obtain ⟨f, rfl⟩ : ∃ f, fuel = f + 1 := ⟨fuel - 1, by omega⟩
    obtain ⟨k1, k2⟩ := node_lt_width H a h q hah hq
    have hs1 : 1 ≤ 2 ^ h := Nat.one_le_two_pow
    have ha1 : 1 ≤ 2 ^ a := Nat.one_le_two_pow
    have hkW : k < W := by omega
    have e0 : 2 ^ (a + 1) = 2 * 2 ^ a := by rw [pow_succ]; omega
    have e3 : 2 ^ (h + 1) = 2 * 2 ^ h := by rw [pow_succ]; omega
    have e4 : 2 * q * 2 ^ h = 2 * (q * 2 ^ h) := by ring
    have e5 : (2 * q + 1) * 2 ^ h = 2 * (q * 2 ^ h) + 2 ^ h := by ring
    have e6 : q * 2 ^ (h + 1) = 2 * (q * 2 ^ h) := by rw [e3]; ring
    unfold find_right_descend
    rw [if_pos hkW]
    by_cases hl : found ofs_node adr d (2 * k) = true
    · rw [if_pos hl]
      exact ih (a + 1) (2 * q) lcp f lo _ (2 * k) (by omega) (by omega) (by omega)
        (by omega) (by omega) (by omega) hl hile hnf hlcp hcond
    · rw [if_neg hl]
      have hlf : found ofs_node adr d (2 ^ (a + 1) + 2 * q) = false := by
        have : 2 * k = 2 ^ (a + 1) + 2 * q := by omega
        rw [← this]; simpa using hl
      have hnf2 := not_found_node lcp_node ofs_node W H hW hv adr d hfit h (a + 1) (2 * q)
        (by omega) (by omega) hlf
      have hnode := lcp_node_eq lcp_node ofs_node W H hW hv h (a + 1) (2 * q)
        (by omega) (by omega)
      have hkk : 2 * k = 2 ^ (a + 1) + 2 * q := by omega
      have hmid : (lo + hi) / 2 = lo + 2 ^ h := by omega
      have hlo2 : lo = 2 * q * 2 ^ h := by omega
      have hnf3 : ∀ j, i ≤ j → j < (lo + hi) / 2 → found ofs_node adr d (W + j) = false := by
        intro j h1 h2
        by_cases c : j < lo
        · exact hnf j h1 c
        · exact hnf2 j (by omega) (by omega)
      have hfold : fold_range (range_min uint32_max) (fun t => lcp_node.get (W + t))
          i ((lo + hi) / 2 - i) = min lcp (lcp_node.get (2 * k)) := by
        have e : (lo + hi) / 2 - i = (lo - i) + 2 ^ h := by omega
        have e' : i + (lo - i) = lo := by omega
        rw [e, fold_min_split, e', ← hlcp, hkk, hnode, ← hlo2]
      have hmax := fold_min_le_max (fun t => lcp_node.get (W + t)) (lo - i) i
      rw [← hlcp] at hmax
      by_cases hq2 : (quit lcp_node min_len (2 * k) lcp).2 = true
      · rw [if_pos hq2]
        unfold find_right_finish
        rw [quit_snd] at hq2
        have hE := right_spec_empty_of_small lcp_node ofs_node W adr i d min_len
          ((lo + hi) / 2) (by omega) hnf3
          (by rw [hfold, Nat.min_eq_right (le_of_lt hq2.1)]; exact hq2.2)
          (by rw [hfold, Nat.min_eq_right (le_of_lt hq2.1)]; omega)
        rw [hE]
      · rw [if_neg hq2]
        have hleaf : lcp_node.get (2 * k) ≤ uint32_max := by
          rw [hkk, hnode]; exact fold_min_le_max _ _ _
        have hc2 := quit_snd_false lcp_node min_len (2 * k) lcp hq2 hcond hleaf
        have hr : found ofs_node adr d (2 * k + 1) = true := by
          have := found_children lcp_node ofs_node W hv adr d hfit k (by omega) hkW
          rw [this] at hfound
          simp only [Bool.or_eq_true] at hfound
          rcases hfound with h | h
          · exact absurd h hl
          · exact h
        rw [quit_fst]
        exact ih (a + 1) (2 * q + 1) _ f _ hi (2 * k + 1) (by omega) (by omega) (by omega)
          (by omega) (by omega) (by omega) hr (by omega) hnf3 hfold.symm hc2

theorem find_right_climb_spec (lcp_node : span Nat) (ofs_node : span Int) (W H : Nat)
    (hW : W = 2 ^ H) (hv : valid_trees lcp_node ofs_node W) (adr d min_len i : Nat)
    (hfit : sum_fits ofs_node W d) :
    ∀ fuel a h q lcp lo hi k, a + h = H → q < 2 ^ a → lo = q * 2 ^ h → hi = lo + 2 ^ h →
      k = 2 ^ a + q → W < hi + fuel → i ≤ lo →
      (∀ j, i ≤ j → j < lo → found ofs_node adr d (W + j) = false) →
      lcp = fold_range (range_min uint32_max) (fun t => lcp_node.get (W + t)) i (lo - i) →
      (min_len ≤ lcp ∨ lcp = uint32_max) →
      find_right_tail lcp_node ofs_node adr d min_len
        (find_right_climb lcp_node ofs_node adr d min_len W fuel lo hi k lcp) =
        some (right_spec lcp_node ofs_node W adr i d min_len) := by
  intro fuel
  induction fuel with
  | zero =>
    intro a h q lcp lo hi k hah hq hlo hhi _ hf
    have := node_hi_le H a h q hah hq
    omega
  | succ fuel ih =>
    intro a h q lcp lo hi k hah hq hlo hhi hk hfuel hile hnf hlcp hcond
    have hs1 : 1 ≤ 2 ^ h := Nat.one_le_two_pow
    have ha1 : 1 ≤ 2 ^ a := Nat.one_le_two_pow
    have hhiW : hi ≤ W := by
      have := node_hi_le H a h q hah hq
      omega
    have hmax := fold_min_le_max (fun t => lcp_node.get (W + t)) (lo - i) i
    rw [← hlcp] at hmax
    have hnode := lcp_node_eq lcp_node ofs_node W H hW hv h a q hah hq
    rw [← hk, ← hlo] at hnode
    unfold find_right_climb
    by_cases hc : hi < W ∧ found ofs_node adr d k = false
    · rw [if_pos hc]
      obtain ⟨hlt, hkf⟩ := hc
      have hnf2 := not_found_node lcp_node ofs_node W H hW hv adr d hfit h a q hah hq
        (by rw [← hk]; exact hkf)
      rw [← hlo] at hnf2
      have hnf3 : ∀ j, i ≤ j → j < hi → found ofs_node adr d (W + j) = false := by
        intro j h1 h2
        by_cases c : j < lo
        · exact hnf j h1 c
        · exact hnf2 j (by omega) (by omega)
      have hfold : fold_range (range_min uint32_max) (fun t => lcp_node.get (W + t))
          i (hi - i) = min lcp (lcp_node.get k) := by
        have e : hi - i = (lo - i) + 2 ^ h := by omega
        have e' : i + (lo - i) = lo := by omega
        rw [e, fold_min_split, e', ← hlcp, hnode]
      by_cases hq2 : (quit lcp_node min_len k lcp).2 = true
      · rw [if_pos hq2]
        unfold find_right_tail
        rw [quit_snd] at hq2
        have hE := right_spec_empty_of_small lcp_node ofs_node W adr i d min_len hi
          (by omega) hnf3
          (by rw [hfold, Nat.min_eq_right (le_of_lt hq2.1)]; exact hq2.2)
          (by rw [hfold, Nat.min_eq_right (le_of_lt hq2.1)]; omega)
        rw [hE]
      · rw [if_neg hq2]
        have hleaf : lcp_node.get k ≤ uint32_max := by
          rw [hnode]; exact fold_min_le_max _ _ _
        have hc2 := quit_snd_false lcp_node min_len k lcp hq2 hcond hleaf
        rw [quit_fst]
        have hq1 : q + 1 < 2 ^ a := by
          by_contra hcon
          have := node_hi_eq H a h q hah (by omega)
          omega
        obtain ⟨a', rfl⟩ : ∃ a', a = a' + 1 := by
          rcases a with _ | a'
          · simp at hq1
          · exact ⟨a', rfl⟩
        have ha2 : 1 ≤ 2 ^ a' := Nat.one_le_two_pow
        have e0 : 2 ^ (a' + 1) = 2 * 2 ^ a' := by rw [pow_succ]; omega
        have e3 : 2 ^ (h + 1) = 2 * 2 ^ h := by rw [pow_succ]; omega
        by_cases hpar : k % 2 = 1
        · rw [if_pos hpar]
          obtain ⟨m, rfl⟩ : ∃ m, q = 2 * m + 1 := ⟨q / 2, by omega⟩
          have e4 : (2 * m + 1) * 2 ^ h = 2 * (m * 2 ^ h) + 2 ^ h := by ring
          have e5 : (m + 1) * 2 ^ (h + 1) = 2 * (m * 2 ^ h) + 2 * 2 ^ h := by rw [e3]; ring
          exact ih a' (h + 1) (m + 1) _ hi _ ((k + 1) / 2) (by omega) (by omega) (by omega)
            (by omega) (by omega) (by omega) (by omega) hnf3 hfold.symm hc2
        · rw [if_neg hpar]
          have e4 : (q + 1) * 2 ^ h = q * 2 ^ h + 2 ^ h := by ring
          exact ih (a' + 1) h (q + 1) _ _ _ (k + 1) (by omega) (by omega) (by omega)
            (by omega) (by omega) (by omega) (by omega)
            (by have : lo + (hi - lo) = hi := by omega
                rw [this]; exact hnf3)
            (by have : lo + (hi - lo) = hi := by omega
                rw [this]; exact hfold.symm) hc2
    · rw [if_neg hc]
      unfold find_right_tail
      simp only
      by_cases hc2 : hi = lcp_node.size / 2 ∧ found ofs_node adr d k = false
      · rw [if_pos hc2]
        have hnf2 := not_found_node lcp_node ofs_node W H hW hv adr d hfit h a q hah hq
          (by rw [← hk]; exact hc2.2)
        rw [← hlo] at hnf2
        have hhi2 : hi = W := by rw [← hv.size]; exact hc2.1
        have hnone : first_found_from (fun j => found ofs_node adr d (W + j)) i (W - i) =
            none := by
          apply first_found_none
          intro j h1 h2
          by_cases c : j < lo
          · exact hnf j h1 c
          · exact hnf2 j (by omega) (by omega)
        unfold right_spec
        rw [hnone]
      · rw [if_neg hc2]
        have hf : found ofs_node adr d k = true := by
          by_contra hcon
          have hcon' : found ofs_node adr d k = false := by simpa using hcon
          by_cases c : hi < W
          · exact hc ⟨c, hcon'⟩
          · exact hc2 ⟨by rw [hv.size]; omega, hcon'⟩
        rw [hv.size]
        exact find_right_descend_spec lcp_node ofs_node W H hW hv adr d min_len i hfit h a q lcp
          (W + 1) lo hi k hah hq hlo hhi hk (by rw [hW]; exact height_lt_width H a h hah) hf
          hile hnf hlcp hcond

/-- The walk of `find_right` on valid trees of width `W = 2^H`, for a rank `i < W`: it
returns, and its result is `right_spec`. -/
theorem find_right_eq (lcp_node : span Nat) (ofs_node : span Int) (W H : Nat)
    (hW : W = 2 ^ H) (hv : valid_trees lcp_node ofs_node W) (adr d min_len i : Nat)
    (hfit : sum_fits ofs_node W d) (hi : i < W) :
    find_right adr i d min_len lcp_node ofs_node =
      some (right_spec lcp_node ofs_node W adr i d min_len) := by
  unfold find_right
  rw [hv.size]
  exact find_right_climb_spec lcp_node ofs_node W H hW hv adr d min_len i hfit (W + 1) H 0 i
    uint32_max i (i + 1) (i + W) (by omega) (by omega) (by simp) (by simp)
    (by omega) (by omega) (le_refl _) (fun j h1 h2 => by omega)
    (by simp [fold_range, range_min]) (Or.inr rfl)

end lz
end encode
end sfc_comp

namespace sfc_comp
open encode sssp_solver

theorem next_pow2_from_spec (n : Nat) : ∀ f, ∃ H, next_pow2_from n f = 2 ^ H ∧
    (n ≤ next_pow2_from n f ∨ 2 ^ f ≤ next_pow2_from n f) := by
  intro f
  induction f with
  | zero => exact ⟨0, rfl, Or.inr (le_refl _)⟩
  | succ f ih =>
    obtain ⟨H, h1, h2⟩ := ih
    simp only [next_pow2_from]
    by_cases c : next_pow2_from n f < n
    · rw [if_pos c]
      refine ⟨H + 1, by rw [h1, pow_succ]; omega, Or.inr ?_⟩
      have : 2 ^ (f + 1) = 2 * 2 ^ f := by rw [pow_succ]; omega
      omega
    · rw [if_neg c]
      exact ⟨H, h1, Or.inl (by omega)⟩

theorem next_pow2_spec (n : Nat) : ∃ H, next_pow2 n = 2 ^ H ∧ n ≤ next_pow2 n := by
  obtain ⟨H, h1, h2⟩ := next_pow2_from_spec n n
  refine ⟨H, h1, ?_⟩
  rcases h2 with h | h
  · exact h
  · have := @Nat.lt_two_pow n
    unfold next_pow2
    omega

theorem tree_node_fuel {α : Type} (M : monoid_ops α) (W : Nat) (leaf : Nat → α) :
    ∀ f1 f2 k, 1 ≤ k → W ≤ k + f1 → W ≤ k + f2 →
      tree_node M W leaf f1 k = tree_node M W leaf f2 k := by
  intro f1
  induction f1 with
  | zero =>
    intro f2 k h1 h2 h3
    have hk : W ≤ k := by omega
    cases f2 <;> simp [tree_node, hk]
  | succ f1 ih =>
    intro f2 k h1 h2 h3
    by_cases hk : W ≤ k
    · cases f2 <;> simp [tree_node, hk]
    · obtain ⟨f2', rfl⟩ : ∃ f2', f2 = f2' + 1 := ⟨f2 - 1, by omega⟩
      simp only [tree_node, hk, if_false]
      rw [ih f2' (2 * k) (by omega) (by omega) (by omega),
        ih f2' (2 * k + 1) (by omega) (by omega) (by omega)]

theorem tree_node_inner {α : Type} (M : monoid_ops α) (W : Nat) (leaf : Nat → α) (k : Nat)
    (h1 : 1 ≤ k) (h2 : k < W) :
    tree_node M W leaf W k =
      M.op (tree_node M W leaf W (2 * k)) (tree_node M W leaf W (2 * k + 1)) := by
  obtain ⟨f, rfl⟩ : ∃ f, W = f + 1 := ⟨W - 1, by omega⟩
  conv_lhs => unfold tree_node
  rw [if_neg (by omega)]
  rw [tree_node_fuel M (f + 1) leaf f (f + 1) (2 * k) (by omega) (by omega) (by omega),
    tree_node_fuel M (f + 1) leaf f (f + 1) (2 * k + 1) (by omega) (by omega) (by omega)]

theorem tree_node_leaf {α : Type} (M : monoid_ops α) (W : Nat) (leaf : Nat → α) (f j : Nat) :
    tree_node M W leaf f (W + j) = leaf j := by
  cases f <;> simp [tree_node]

/-- Every cell of a position tree lies in the range of its leaves and of the identity. -/
theorem tree_node_range (W : Nat) (leaf : Nat → Int) (lo hi : Int)
    (hiden : lo ≤ int32_min ∧ int32_min < hi) (hleaf : ∀ j, lo ≤ leaf j ∧ leaf j < hi) :
    ∀ f k, lo ≤ tree_node (range_max int32_min) W leaf f k ∧
      tree_node (range_max int32_min) W leaf f k < hi := by
  intro f
  induction f with
  | zero =>
    intro k
    unfold tree_node
    split
    · exact hleaf _
    · exact hiden
  | succ f ih =>
    intro k
    unfold tree_node
    split
    · exact hleaf _
    · have a := ih (2 * k)
      have b := ih (2 * k + 1)
      show lo ≤ max _ _ ∧ max _ _ < hi
      exact ⟨le_trans a.1 (le_max_left _ _), max_lt a.2 b.2⟩

namespace segment_tree

theorem nodes_leaf {α : Type} (M : monoid_ops α) (t : segment_tree α) (j : Nat) :
    (t.nodes M).get (t.width + j) = t.leaf M j := by
  simp only [nodes]
  exact tree_node_leaf M _ _ _ j

theorem nodes_valid (lcp : segment_tree Nat) (seg : segment_tree Int) (hn : lcp.n = seg.n)
    (hle : ∀ j, lcp.leaf (range_min uint32_max) j ≤ uint32_max) :
    lz.valid_trees (lcp.nodes (range_min uint32_max)) (seg.nodes (range_max int32_min))
      seg.width := by
  have hw : lcp.width = seg.width := by simp [width, hn]
  refine ⟨?_, ?_, ?_, ?_⟩
  · simp only [nodes, hw]; omega
  · intro k h1 h2
    simp only [nodes]
    exact tree_node_inner (range_max int32_min) seg.width _ k h1 h2
  · intro k h1 h2
    simp only [nodes, hw]
    exact tree_node_inner (range_min uint32_max) seg.width _ k h1 h2
  · intro j _
    rw [← hw, nodes_leaf]
    exact hle j

theorem leaf_update {α : Type} (M : monoid_ops α) (t : segment_tree α) (i : Nat) (v : α)
    (j : Nat) :
    (t.update i v).leaf M j = if i = j ∧ j < t.n ∧ j < t.cell.length then v else t.leaf M j := by
  simp only [leaf, update]
  by_cases hj : j < t.n
  · simp only [hj, if_true, true_and]
    rw [List.getD_eq_getElem?_getD, List.getD_eq_getElem?_getD, List.getElem?_set]
    by_cases hij : i = j
    · subst hij
      by_cases hl : i < t.cell.length
      · simp [hl]
      · have : t.cell[i]? = none := List.getElem?_eq_none (by omega)
        simp [hl, this]
    · simp [hij]
  · simp [hj]

theorem width_update {α : Type} (t : segment_tree α) (i : Nat) (v : α) :
    (t.update i v).width = t.width := rfl

theorem leaf_of_size {α : Type} (M : monoid_ops α) (n j : Nat) :
    (of_size M n).leaf M j = M.iden := by
  simp only [leaf, of_size]
  split
  · rw [List.getD_eq_getElem?_getD, List.getElem?_replicate]
    split <;> simp
  · rfl

end segment_tree
end sfc_comp

namespace sfc_comp
open encode sssp_solver

theorem lex_lt_irrefl : ∀ x : List Int, lex_lt x x = false := by
  intro x
  induction x with
  | nil => rfl
  | cons a as ih => simp [lex_lt, ih]

theorem lex_lt_trans : ∀ x y z : List Int, lex_lt x y = true → lex_lt y z = true →
    lex_lt x z = true := by
  intro x
  induction x with
  | nil =>
    intro y z h1 h2
    cases y with
    | nil => simp [lex_lt] at h1
    | cons b bs =>
      cases z with
      | nil => simp [lex_lt] at h2
      | cons c cs => rfl
  | cons a as ih =>
    intro y z h1 h2
    cases y with
    | nil => simp [lex_lt] at h1
    | cons b bs =>
      cases z with
      | nil => simp [lex_lt] at h2
      | cons c cs =>
        simp only [lex_lt, Bool.or_eq_true, Bool.and_eq_true, decide_eq_true_eq] at h1 h2 ⊢
        rcases h1 with h1 | ⟨h1, h1'⟩
        · rcases h2 with h2 | ⟨h2, h2'⟩
          · left; omega
          · left; omega
        · rcases h2 with h2 | ⟨h2, h2'⟩
          · left; omega
          · right; exact ⟨by omega, ih bs cs h1' h2'⟩

theorem lex_lt_total : ∀ x y : List Int, x ≠ y → lex_lt x y = true ∨ lex_lt y x = true := by
  intro x
  induction x with
  | nil =>
    intro y h
    cases y with
    | nil => exact absurd rfl h
    | cons b bs => left; rfl
  | cons a as ih =>
    intro y h
    cases y with
    | nil => right; rfl
    | cons b bs =>
      simp only [lex_lt, Bool.or_eq_true, Bool.and_eq_true, decide_eq_true_eq]
      rcases lt_trichotomy a b with c | c | c
      · left; left; exact c
      · subst c
        have : as ≠ bs := fun e => h (by rw [e])
        rcases ih bs this with h1 | h1
        · left; right; exact ⟨rfl, h1⟩
        · right; right; exact ⟨rfl, h1⟩
      · right; left; exact c

theorem lex_lt_asymm (x y : List Int) (h : lex_lt x y = true) : lex_lt y x = false := by
  by_contra hc
  have h2 : lex_lt y x = true := by simpa using hc
  have := lex_lt_trans x y x h h2
  rw [lex_lt_irrefl] at this
  exact Bool.false_ne_true this

theorem common_prefix_min : ∀ x y z : List Int, lex_lt x y = true → lex_lt y z = true →
    common_prefix_length x z = min (common_prefix_length x y) (common_prefix_length y z) := by
  intro x
  induction x with
  | nil =>
    intro y z _ _
    simp [common_prefix_length]
  | cons a as ih =>
    intro y z h1 h2
    cases y with
    | nil => simp [lex_lt] at h1
    | cons b bs =>
      cases z with
      | nil => simp [lex_lt] at h2
      | cons c cs =>
        simp only [lex_lt, Bool.or_eq_true, Bool.and_eq_true, decide_eq_true_eq] at h1 h2
        simp only [common_prefix_length]
        rcases h1 with h1 | ⟨h1, h1'⟩
        · have e1 : ¬ a = b := by omega
          have e2 : ¬ a = c := by
            rcases h2 with h2 | ⟨h2, _⟩ <;> omega
          simp [e1, e2]
        · subst h1
          rcases h2 with h2 | ⟨h2, h2'⟩
          · have e2 : ¬ a = c := by omega
            simp [e2]
          · subst h2
            simp only [if_true]
            rw [ih bs cs h1' h2']
            omega

theorem common_prefix_le : ∀ x y : List Int,
    common_prefix_length x y ≤ x.length ∧ common_prefix_length x y ≤ y.length := by
  intro x
  induction x with
  | nil => intro y; simp [common_prefix_length]
  | cons a as ih =>
    intro y
    cases y with
    | nil => simp [common_prefix_length]
    | cons b bs =>
      simp only [common_prefix_length, List.length_cons]
      split
      · have := ih bs; omega
      · omega

theorem common_prefix_get : ∀ (x y : List Int) (t : Nat), t < common_prefix_length x y →
    x.getD t 0 = y.getD t 0 := by
  intro x
  induction x with
  | nil => intro y t h; simp [common_prefix_length] at h
  | cons a as ih =>
    intro y t h
    cases y with
    | nil => simp [common_prefix_length] at h
    | cons b bs =>
      simp only [common_prefix_length] at h
      by_cases c : a = b
      · subst c
        simp only [if_true] at h
        cases t with
        | zero => simp
        | succ t =>
          simp only [List.getD_cons_succ]
          exact ih bs t (by omega)
      · simp [c] at h

theorem common_prefix_stop : ∀ (x y : List Int), common_prefix_length x y < x.length →
    common_prefix_length x y < y.length →
    x.getD (common_prefix_length x y) 0 ≠ y.getD (common_prefix_length x y) 0 := by
  intro x
  induction x with
  | nil => intro y h; simp at h
  | cons a as ih =>
    intro y h1 h2
    cases y with
    | nil => simp at h2
    | cons b bs =>
      simp only [common_prefix_length] at h1 h2 ⊢
      by_cases c : a = b
      · subst c
        simp only [if_true, List.length_cons] at h1 h2 ⊢
        simp only [List.getD_cons_succ]
        exact ih bs (by omega) (by omega)
      · simp only [c, if_false]
        simpa using c

theorem common_prefix_comm : ∀ x y : List Int, common_prefix_length x y = common_prefix_length y x := by
  intro x
  induction x with
  | nil => intro y; cases y <;> simp [common_prefix_length]
  | cons a as ih =>
    intro y
    cases y with
    | nil => simp [common_prefix_length]
    | cons b bs =>
      simp only [common_prefix_length]
      by_cases c : a = b
      · subst c; simp [ih bs]
      · have : ¬ b = a := fun e => c e.symm
        simp [c, this]

end sfc_comp

namespace sfc_comp
open encode sssp_solver

theorem countP_lt_of_imp {α : Type} (p q : α → Bool) : ∀ l : List α,
    (∀ x ∈ l, p x = true → q x = true) → (∃ x ∈ l, q x = true ∧ p x = false) →
    l.countP p < l.countP q := by
  intro l
  induction l with
  | nil => intro _ h; obtain ⟨x, hx, _⟩ := h; simp at hx
  | cons a l ih =>
    intro himp hex
    have hmono : l.countP p ≤ l.countP q :=
      List.countP_mono_left (fun x hx h => himp x (List.mem_cons_of_mem _ hx) h)
    obtain ⟨x, hx, hq, hp⟩ := hex
    rcases List.mem_cons.mp hx with e | e
    · subst e
      rw [List.countP_cons_of_pos _ _ hq, List.countP_cons_of_neg _ _ (by simp [hp])]
      omega
    · have := ih (fun x hx h => himp x (List.mem_cons_of_mem _ hx) h) ⟨x, e, hq, hp⟩
      by_cases ha : p a = true
      · rw [List.countP_cons_of_pos _ _ ha,
          List.countP_cons_of_pos _ _ (himp a (List.mem_cons_self _ _) ha)]
        omega
      · rw [List.countP_cons_of_neg _ _ ha]
        by_cases hqa : q a = true
        · rw [List.countP_cons_of_pos _ _ hqa]; omega
        · rw [List.countP_cons_of_neg _ _ hqa]; exact this

theorem drop_ne_drop (s : List Int) (i j : Nat) (hi : i < s.length) (hj : j < s.length)
    (h : i ≠ j) : s.drop i ≠ s.drop j := by
  intro e
  have := congrArg List.length e
  simp only [List.length_drop] at this
  omega

theorem suffix_rank_lt (s : List Int) (i j : Nat) (hi : i < s.length) (hj : j < s.length)
    (h : lex_lt (s.drop i) (s.drop j) = true) : suffix_rank s i < suffix_rank s j := by
  unfold suffix_rank
  apply countP_lt_of_imp
  · intro x _ hx
    exact lex_lt_trans _ _ _ hx h
  · exact ⟨i, List.mem_range.mpr hi, h, lex_lt_irrefl _⟩

theorem suffix_rank_bound (s : List Int) (i : Nat) (hi : i < s.length) :
    suffix_rank s i < s.length := by
  have := countP_lt_of_imp (fun j => lex_lt (s.drop j) (s.drop i)) (fun _ => true)
    (List.range s.length) (fun _ _ _ => rfl) ⟨i, List.mem_range.mpr hi, rfl, lex_lt_irrefl _⟩
  simpa [suffix_rank] using this

theorem suffix_rank_inj (s : List Int) (i j : Nat) (hi : i < s.length) (hj : j < s.length)
    (h : suffix_rank s i = suffix_rank s j) : i = j := by
  by_contra hne
  rcases lex_lt_total _ _ (drop_ne_drop s i j hi hj hne) with c | c
  · have := suffix_rank_lt s i j hi hj c; omega
  · have := suffix_rank_lt s j i hj hi c; omega

theorem suffix_rank_surj (s : List Int) (r : Nat) (hr : r < s.length) :
    ∃ i, i < s.length ∧ suffix_rank s i = r := by
  have hsub : (Finset.range s.length).image (suffix_rank s) ⊆ Finset.range s.length := by
    intro x hx
    obtain ⟨i, hi, rfl⟩ := Finset.mem_image.mp hx
    exact Finset.mem_range.mpr (suffix_rank_bound s i (Finset.mem_range.mp hi))
  have hcard : ((Finset.range s.length).image (suffix_rank s)).card = s.length := by
    rw [Finset.card_image_of_injOn, Finset.card_range]
    intro i hi j hj h
    exact suffix_rank_inj s i j (Finset.mem_range.mp hi) (Finset.mem_range.mp hj) h
  have heq := Finset.eq_of_subset_of_card_le hsub (by rw [hcard, Finset.card_range])
  have : r ∈ (Finset.range s.length).image (suffix_rank s) := by
    rw [heq]; exact Finset.mem_range.mpr hr
  obtain ⟨i, hi, h⟩ := Finset.mem_image.mp this
  exact ⟨i, Finset.mem_range.mp hi, h⟩

theorem suffix_sa_spec (s : List Int) (r : Nat) (hr : r < s.length) :
    suffix_sa s r < s.length ∧ suffix_rank s (suffix_sa s r) = r := by
  obtain ⟨i, hi, h⟩ := suffix_rank_surj s r hr
  unfold suffix_sa
  cases hf : (List.range s.length).find? (fun i => suffix_rank s i == r) with
  | none =>
    rw [List.find?_eq_none] at hf
    have := hf i (List.mem_range.mpr hi)
    simp [h] at this
  | some x =>
    have h1 := List.find?_some hf
    have h2 := List.mem_of_find?_eq_some hf
    simp only [Option.getD_some]
    exact ⟨List.mem_range.mp h2, by simpa using h1⟩

theorem suffix_sa_rank (s : List Int) (i : Nat) (hi : i < s.length) :
    suffix_sa s (suffix_rank s i) = i := by
  obtain ⟨h1, h2⟩ := suffix_sa_spec s _ (suffix_rank_bound s i hi)
  exact suffix_rank_inj s _ _ h1 hi h2

theorem suffix_sa_sorted (s : List Int) (r r' : Nat) (h : r < r') (hr : r' < s.length) :
    lex_lt (s.drop (suffix_sa s r)) (s.drop (suffix_sa s r')) = true := by
  obtain ⟨a1, a2⟩ := suffix_sa_spec s r (by omega)
  obtain ⟨b1, b2⟩ := suffix_sa_spec s r' hr
  have hne : suffix_sa s r ≠ suffix_sa s r' := by
    intro e; rw [e] at a2; omega
  rcases lex_lt_total _ _ (drop_ne_drop s _ _ a1 b1 hne) with c | c
  · exact c
  · have := suffix_rank_lt s _ _ b1 a1 c
    omega

/-- The minimum of the adjacent common-prefix lengths between two ranks is the common-prefix
length of the two suffixes. -/
theorem fold_lcp_eq (s : List Int) (Lf : Nat → Nat) (hs : s.length ≤ uint32_max)
    (hL : ∀ r, r + 1 < s.length →
      Lf r = common_prefix_length (s.drop (suffix_sa s r)) (s.drop (suffix_sa s (r + 1)))) :
    ∀ n x, x + n + 1 < s.length →
      fold_range (range_min uint32_max) Lf x (n + 1) =
        common_prefix_length (s.drop (suffix_sa s x)) (s.drop (suffix_sa s (x + n + 1))) := by
  intro n
  induction n with
  | zero =>
    intro x hx
    have h1 := hL x (by omega)
    have h2 := (common_prefix_le (s.drop (suffix_sa s x)) (s.drop (suffix_sa s (x + 1)))).1
    simp only [List.length_drop] at h2
    rw [lz.fold_min_one Lf x (by omega), h1]
  | succ n ih =>
    intro x hx
    have e : n + 1 + 1 = (n + 1) + 1 := rfl
    rw [e, lz.fold_min_split, ih x (by omega)]
    have h1 := hL (x + (n + 1)) (by omega)
    have h2 := (common_prefix_le (s.drop (suffix_sa s (x + (n + 1))))
      (s.drop (suffix_sa s (x + (n + 1) + 1)))).1
    simp only [List.length_drop] at h2
    rw [lz.fold_min_one Lf _ (by omega), h1]
    have e2 : x + n + 1 = x + (n + 1) := by omega
    rw [e2]
    exact (common_prefix_min _ _ _ (suffix_sa_sorted s _ _ (by omega) (by omega))
      (suffix_sa_sorted s _ _ (by omega) (by omega))).symm

end sfc_comp

namespace sfc_comp
open encode sssp_solver

theorem signed_index_small (x : Nat) (h : x < 2 ^ 31) : signed_index x = (x : Int) := by
  unfold signed_index
  have : x % 2 ^ 32 = x := Nat.mod_eq_of_lt (by omega)
  rw [this, if_pos h]

theorem size_t_nat (x : Nat) (h : x < 2 ^ 64) : size_t (x : Int) = x := by
  unfold size_t
  have : ((x : Int) % 2 ^ 64) = (x : Int) := Int.emod_eq_of_lt (by omega) (by omega)
  rw [this]; simp

theorem uint32_max_val : uint32_max = 4294967295 := by norm_num [uint32_max]

theorem int32_min_val : int32_min = -2147483648 := by norm_num [int32_min]

namespace encode
namespace lz

theorem fold_min_le_elem (f : Nat → Nat) (a n t : Nat) (h1 : a ≤ t) (h2 : t < a + n) :
    fold_range (range_min uint32_max) f a n ≤ f t := by
  have e : n = (t - a) + ((n - (t - a) - 1) + 1) := by omega
  rw [e, fold_min_split]
  have e2 : a + (t - a) = t := by omega
  rw [e2]
  refine le_trans (Nat.min_le_right _ _) ?_
  simp only [fold_range, range_min]
  exact Nat.min_le_left _ _

end lz
end encode

/-- The position test on a leaf of the position tree: a leaf passes exactly when it stores a
position `a` with `pos <= a + d`; the "not present" value never passes while
`d < pos + 2^31`. -/
theorem found_leaf_iff (seg : segment_tree Int) (M pos d j : Nat) (hpos : pos < 2 ^ 31)
    (hd : d < pos + 2 ^ 31)
    (hleaf : ∀ j, seg.leaf (range_max int32_min) j = int32_min ∨
      ∃ a : Nat, a < 2 ^ 31 ∧ seg.leaf (range_max int32_min) j = (a : Int) ∧ j < M) :
    lz.found (seg.nodes (range_max int32_min)) pos d (seg.width + j) = true ↔
      ∃ a : Nat, a < 2 ^ 31 ∧ seg.leaf (range_max int32_min) j = (a : Int) ∧ j < M ∧
        pos ≤ a + d := by
  rw [lz.found_eq _ _ _ _ (by
    rw [segment_tree.nodes_leaf, ptrdiff_t_small d (by omega)]
    rcases hleaf j with e | ⟨a, h1, h2, _⟩
    · rw [e, int32_min_val]; omega
    · rw [h2]; omega)]
  rw [segment_tree.nodes_leaf, ptrdiff_t_small d (by omega), ptrdiff_t_small pos (by omega),
    decide_eq_true_eq]
  constructor
  · intro h
    rcases hleaf j with e | ⟨a, h1, h2, h3⟩
    · rw [e, int32_min_val] at h; omega
    · exact ⟨a, h1, h2, h3, by rw [h2] at h; omega⟩
  · rintro ⟨a, h1, h2, h3, h4⟩
    rw [h2]; omega

end sfc_comp

namespace sfc_comp
open encode sssp_solver

namespace encode
namespace lz

theorem last_found_none_inv (p : Nat → Bool) : ∀ i, last_found_below p i = none →
    ∀ j, j < i → p j = false := by
  intro i
  induction i with
  | zero => intro _ j hj; omega
  | succ i ih =>
    intro h j hj
    simp only [last_found_below] at h
    by_cases hp : p i = true
    · simp [hp] at h
    · simp only [hp, if_false] at h
      rcases Nat.eq_or_lt_of_le (Nat.le_of_lt_succ hj) with e | e
      · subst e; simpa using hp
      · exact ih h j e

theorem first_found_none_inv (p : Nat → Bool) : ∀ n i, first_found_from p i n = none →
    ∀ j, i ≤ j → j < i + n → p j = false := by
  intro n
  induction n with
  | zero => intro i _ j h1 h2; omega
  | succ n ih =>
    intro i h j h1 h2
    simp only [first_found_from] at h
    by_cases hp : p i = true
    · simp [hp] at h
    · simp only [hp, if_false] at h
      rcases Nat.eq_or_lt_of_le h1 with e | e
      · subst e; simpa using hp
      · exact ih (i + 1) h j e (by omega)

end lz
end encode

theorem span_min_below (lcp : segment_tree Nat) (i j : Nat) (h : j < i) :
    span_min lcp i j =
      fold_range (range_min uint32_max) (lcp.leaf (range_min uint32_max)) j (i - j) := by
  unfold span_min
  rw [Nat.min_eq_right (le_of_lt h), Nat.max_eq_left (le_of_lt h)]

theorem span_min_above (lcp : segment_tree Nat) (i j : Nat) (h : i < j) :
    span_min lcp i j =
      fold_range (range_min uint32_max) (lcp.leaf (range_min uint32_max)) i (j - i) := by
  unfold span_min
  rw [Nat.min_eq_left (le_of_lt h), Nat.max_eq_right (le_of_lt h)]

theorem found_leaf_of (seg : segment_tree Int) (M pos d : Nat) (hpos : pos < 2 ^ 31)
    (hd : d < pos + 2 ^ 31)
    (hleaf : ∀ j, seg.leaf (range_max int32_min) j = int32_min ∨
      ∃ a : Nat, a < 2 ^ 31 ∧ seg.leaf (range_max int32_min) j = (a : Int) ∧ j < M)
    (j b : Nat) (hb : seg.leaf (range_max int32_min) j = (b : Int)) (hdist : pos ≤ b + d) :
    lz.found (seg.nodes (range_max int32_min)) pos d (seg.width + j) = true := by
  rw [found_leaf_iff seg M pos d j hpos hd hleaf]
  rcases hleaf j with e | ⟨a', k1, k2, k3⟩
  · rw [e, int32_min_val] at hb; omega
  · have hab : a' = b := by
      rw [k2] at hb
      exact_mod_cast hb
    subst hab
    exact ⟨a', k1, k2, k3, hdist⟩

theorem left_side_ok (lcpT : segment_tree Nat) (seg : segment_tree Int)
    (M pos i d min_len : Nat) (hM : M < 2 ^ 31) (hlcpn : lcpT.n = M) (hsegn : seg.n = M)
    (hi : i < M) (hpos : pos < 2 ^ 31) (hd : d < pos + 2 ^ 31)
    (hLb : ∀ t, t < M → lcpT.leaf (range_min uint32_max) t ≤ M)
    (hleaf : ∀ j, seg.leaf (range_max int32_min) j = int32_min ∨
      ∃ a : Nat, a < 2 ^ 31 ∧ seg.leaf (range_max int32_min) j = (a : Int) ∧ j < M) :
    side_ok lcpT seg M pos i d min_len (fun j => j < i)
      (lz.left_spec (lcpT.nodes (range_min uint32_max)) (seg.nodes (range_max int32_min))
        seg.width pos i d min_len) := by
  have hw : lcpT.width = seg.width := by simp [segment_tree.width, hlcpn, hsegn]
  have hfun : (fun t => (lcpT.nodes (range_min uint32_max)).get (seg.width + t)) =
      lcpT.leaf (range_min uint32_max) := by
    funext t
    rw [← hw, segment_tree.nodes_leaf]
  have hfnd := fun j => found_leaf_iff seg M pos d j hpos hd hleaf
  unfold lz.left_spec
  rw [hfun]
  cases hl : lz.last_found_below
      (fun j => lz.found (seg.nodes (range_max int32_min)) pos d (seg.width + j)) i with
  | none =>
    left
    refine ⟨rfl, ?_⟩
    intro j b hji hjM hb hdist
    have hnf := lz.last_found_none_inv _ _ hl j hji
    have := found_leaf_of seg M pos d hpos hd hleaf j b hb hdist
    rw [hnf] at this
    exact absurd this Bool.false_ne_true
  | some j =>
    obtain ⟨a1, a2, a3⟩ := lz.last_found_spec _ _ _ hl
    obtain ⟨a, h1, h2, h3, h4⟩ := (hfnd j).mp a2
    have hsm := span_min_below lcpT i j a1
    have hle : span_min lcpT i j ≤ M := by
      rw [hsm]
      exact le_trans (lz.fold_min_le_elem _ j (i - j) j (le_refl _) (by omega)) (hLb j h3)
    have hothers : ∀ (j' b : Nat), j' < i → j' < M →
        seg.leaf (range_max int32_min) j' = (b : Int) → pos ≤ b + d →
        span_min lcpT i j' ≤ span_min lcpT i j := by
      intro j' b hj'i hj'M hb hdist
      have hf := found_leaf_of seg M pos d hpos hd hleaf j' b hb hdist
      have hj'j : j' ≤ j := by
        by_contra hc
        have := a3 j' (by omega) hj'i
        rw [this] at hf
        exact absurd hf Bool.false_ne_true
      rw [hsm, span_min_below lcpT i j' hj'i]
      exact lz.fold_min_mono _ j' j i hj'j (le_of_lt a1)
    simp only
    rw [← hsm]
    by_cases hc : span_min lcpT i j < min_len
    · rw [if_pos ⟨hc, by rw [uint32_max_val]; omega⟩]
      left
      refine ⟨rfl, ?_⟩
      intro j' b hj'i hj'M hb hdist
      exact lt_of_le_of_lt (hothers j' b hj'i hj'M hb hdist) hc
    · rw [if_neg (fun h => hc h.1)]
      right
      refine ⟨j, a, a1, h3, h1, h2, h4, ?_, by omega, hothers⟩
      rw [segment_tree.nodes_leaf, h2, size_t_nat a (by omega)]

theorem right_side_ok (lcpT : segment_tree Nat) (seg : segment_tree Int)
    (M pos i d min_len : Nat) (hM : M < 2 ^ 31) (hlcpn : lcpT.n = M) (hsegn : seg.n = M)
    (hi : i < M) (hpos : pos < 2 ^ 31) (hd : d < pos + 2 ^ 31) (hMW : M ≤ seg.width)
    (hLb : ∀ t, t < M → lcpT.leaf (range_min uint32_max) t ≤ M)
    (hleaf : ∀ j, seg.leaf (range_max int32_min) j = int32_min ∨
      ∃ a : Nat, a < 2 ^ 31 ∧ seg.leaf (range_max int32_min) j = (a : Int) ∧ j < M)
    (hself : seg.leaf (range_max int32_min) i = int32_min) :
    side_ok lcpT seg M pos i d min_len (fun j => i < j)
      (lz.right_spec (lcpT.nodes (range_min uint32_max)) (seg.nodes (range_max int32_min))
        seg.width pos i d min_len) := by
  have hw : lcpT.width = seg.width := by simp [segment_tree.width, hlcpn, hsegn]
  have hfun : (fun t => (lcpT.nodes (range_min uint32_max)).get (seg.width + t)) =
      lcpT.leaf (range_min uint32_max) := by
    funext t
    rw [← hw, segment_tree.nodes_leaf]
  have hfnd := fun j => found_leaf_iff seg M pos d j hpos hd hleaf
  have hfound_of := found_leaf_of seg M pos d hpos hd hleaf
  unfold lz.right_spec
  rw [hfun]
  cases hl : lz.first_found_from
      (fun j => lz.found (seg.nodes (range_max int32_min)) pos d (seg.width + j)) i
      (seg.width - i) with
  | none =>
    left
    refine ⟨rfl, ?_⟩
    intro j b hji hjM hb hdist
    have hnf := lz.first_found_none_inv _ _ _ hl j (le_of_lt hji) (by omega)
    have := hfound_of j b hb hdist
    rw [hnf] at this
    exact absurd this Bool.false_ne_true
  | some j =>
    obtain ⟨a1, a2, a3, a4⟩ := lz.first_found_spec _ _ _ _ hl
    obtain ⟨a, h1, h2, h3, h4⟩ := (hfnd j).mp a3
    have hij : i < j := by
      rcases Nat.eq_or_lt_of_le a1 with e | e
      · subst e; rw [hself, int32_min_val] at h2; omega
      · exact e
    have hsm := span_min_above lcpT i j hij
    have hle : span_min lcpT i j ≤ M := by
      rw [hsm]
      exact le_trans (lz.fold_min_le_elem _ i (j - i) i (le_refl _) (by omega)) (hLb i hi)
    have hothers : ∀ (j' b : Nat), i < j' → j' < M →
        seg.leaf (range_max int32_min) j' = (b : Int) → pos ≤ b + d →
        span_min lcpT i j' ≤ span_min lcpT i j := by
      intro j' b hj'i hj'M hb hdist
      have hf := hfound_of j' b hb hdist
      have hj'j : j ≤ j' := by
        by_contra hc
        have := a4 j' (le_of_lt hj'i) (by omega)
        rw [this] at hf
        exact absurd hf Bool.false_ne_true
      rw [hsm, span_min_above lcpT i j' hj'i]
      exact lz.fold_min_mono_right _ i j j' (le_of_lt hij) hj'j
    simp only
    rw [← hsm]
    by_cases hc : span_min lcpT i j < min_len
    · rw [if_pos ⟨hc, by rw [uint32_max_val]; omega⟩]
      left
      refine ⟨rfl, ?_⟩
      intro j' b hj'i hj'M hb hdist
      exact lt_of_le_of_lt (hothers j' b hj'i hj'M hb hdist) hc
    · rw [if_neg (fun h => hc h.1)]
      right
      refine ⟨j, a, hij, h3, h1, h2, h4, ?_, by omega, hothers⟩
      rw [segment_tree.nodes_leaf, h2, size_t_nat a (by omega)]

end sfc_comp

namespace sfc_comp
open encode sssp_solver

theorem lcp_leaf_le_max (lcpT : segment_tree Nat) (M : Nat) (hM : M < 2 ^ 31)
    (hlcpn : lcpT.n = M) (hLb : ∀ t, t < M → lcpT.leaf (range_min uint32_max) t ≤ M) :
    ∀ j, lcpT.leaf (range_min uint32_max) j ≤ uint32_max := by
  intro j
  by_cases hj : j < M
  · have := hLb j hj
    have hu := uint32_max_val
    omega
  · have : lcpT.leaf (range_min uint32_max) j = uint32_max := by
      simp only [segment_tree.leaf, hlcpn, hj, if_false]
      rfl
    rw [this]

/-- The search `encode::lz::find` on a position tree and an lcp tree of the same logical size
`M < 2^31`, from rank `i` whose own leaf is vacant, with `max_dist < pos + 2^31` and
`min_len >= 1`: it returns, and either returns the empty record while every stored position
within distance has a span minimum below `min_len`, or returns a stored position within
distance together with its span minimum, which is at least `min_len` and the largest among
the stored positions within distance. -/
theorem find_on_trees (lcpT : segment_tree Nat) (seg : segment_tree Int)
    (M pos i d min_len : Nat) (hM : M < 2 ^ 31) (hlcpn : lcpT.n = M) (hsegn : seg.n = M)
    (hi : i < M) (hpos : pos < 2 ^ 31) (hd : d < pos + 2 ^ 31) (hmin : 1 ≤ min_len)
    (hLb : ∀ t, t < M → lcpT.leaf (range_min uint32_max) t ≤ M)
    (hleaf : ∀ j, seg.leaf (range_max int32_min) j = int32_min ∨
      ∃ a : Nat, a < 2 ^ 31 ∧ seg.leaf (range_max int32_min) j = (a : Int) ∧ j < M)
    (hself : seg.leaf (range_max int32_min) i = int32_min) :
    ∃ r, lz.find pos i d min_len (lcpT.nodes (range_min uint32_max))
        (seg.nodes (range_max int32_min)) = some r ∧
      side_ok lcpT seg M pos i d min_len (fun j => j ≠ i) r := by
  obtain ⟨H, hW, hnW⟩ := next_pow2_spec seg.n
  have hMW : M ≤ seg.width := by rw [← hsegn]; exact hnW
  have hv := segment_tree.nodes_valid lcpT seg (by rw [hlcpn, hsegn])
    (lcp_leaf_le_max lcpT M hM hlcpn hLb)
  have hfit : lz.sum_fits (seg.nodes (range_max int32_min)) seg.width d := by
    intro k _
    have hr := tree_node_range seg.width (seg.leaf (range_max int32_min)) (-(2 ^ 31)) (2 ^ 31)
      (by rw [int32_min_val]; omega)
      (by
        intro j
        rcases hleaf j with e | ⟨a, h1, h2, _⟩
        · rw [e, int32_min_val]; omega
        · rw [h2]; omega) seg.width k
    simp only [segment_tree.nodes]
    rw [ptrdiff_t_small d (by omega)]
    omega
  have hL := lz.find_left_eq _ _ seg.width H hW hv pos d min_len i hfit (by omega)
  have hR := lz.find_right_eq _ _ seg.width H hW hv pos d min_len i hfit (by omega)
  have PL := left_side_ok lcpT seg M pos i d min_len hM hlcpn hsegn hi hpos hd hLb hleaf
  have PR := right_side_ok lcpT seg M pos i d min_len hM hlcpn hsegn hi hpos hd hMW hLb hleaf
    hself
  unfold lz.find
  rw [hL, hR]
  simp only
  generalize lz.left_spec (lcpT.nodes (range_min uint32_max)) (seg.nodes (range_max int32_min))
    seg.width pos i d min_len = L at PL
  generalize lz.right_spec (lcpT.nodes (range_min uint32_max)) (seg.nodes (range_max int32_min))
    seg.width pos i d min_len = R at PR
  refine ⟨_, rfl, ?_⟩
  have hsplit : ∀ j, j ≠ i → j < i ∨ i < j := fun j h => by omega
  rcases PL with ⟨hLe, hLo⟩ | ⟨jl, al, l1, l2, l3, l4, l5, l6, l7, l8⟩
  · rcases PR with ⟨hRe, hRo⟩ | ⟨jr, ar, r1, r2, r3, r4, r5, r6, r7, r8⟩
    · left
      subst hLe; subst hRe
      refine ⟨by simp [lz.empty], ?_⟩
      intro j b hj hjM hb hdist
      rcases hsplit j hj with c | c
      · exact hLo j b c hjM hb hdist
      · exact hRo j b c hjM hb hdist
    · right
      subst hLe; subst r6
      have hlen : ¬ (lz.empty.len ≥ span_min lcpT i jr) := by
        simp only [lz.empty]; omega
      rw [if_neg hlen]
      refine ⟨jr, ar, by omega, r2, r3, r4, r5, rfl, r7, ?_⟩
      intro j b hj hjM hb hdist
      rcases hsplit j hj with c | c
      · have := hLo j b c hjM hb hdist; omega
      · exact r8 j b c hjM hb hdist
  · rcases PR with ⟨hRe, hRo⟩ | ⟨jr, ar, r1, r2, r3, r4, r5, r6, r7, r8⟩
    · right
      subst hRe; subst l6
      have hlen : span_min lcpT i jl ≥ lz.empty.len := by simp [lz.empty]
      rw [if_pos hlen]
      refine ⟨jl, al, by omega, l2, l3, l4, l5, rfl, l7, ?_⟩
      intro j b hj hjM hb hdist
      rcases hsplit j hj with c | c
      · exact l8 j b c hjM hb hdist
      · have := hRo j b c hjM hb hdist; omega
    · right
      subst l6; subst r6
      simp only
      by_cases hlen : span_min lcpT i jl ≥ span_min lcpT i jr
      · rw [if_pos hlen]
        refine ⟨jl, al, by omega, l2, l3, l4, l5, rfl, l7, ?_⟩
        intro j b hj hjM hb hdist
        rcases hsplit j hj with c | c
        · exact l8 j b c hjM hb hdist
        · have := r8 j b c hjM hb hdist; omega
      · rw [if_neg hlen]
        refine ⟨jr, ar, by omega, r2, r3, r4, r5, rfl, r7, ?_⟩
        intro j b hj hjM hb hdist
        rcases hsplit j hj with c | c
        · have := l8 j b c hjM hb hdist; omega
        · exact r8 j b c hjM hb hdist

end sfc_comp

namespace sfc_comp
open encode sssp_solver

theorem common_prefix_le_length (x y : List Int) : common_prefix_length x y ≤ x.length :=
  (common_prefix_le x y).1

theorem index_ok_lcp_rank : index_ok lcp_rank := by
  intro s
  refine ⟨rfl, by simp [lcp_rank], ?_⟩
  intro x hx
  simp only [lcp_rank, List.mem_map, List.mem_range] at hx
  obtain ⟨r, hr, rfl⟩ := hx
  split
  · have := common_prefix_le_length (s.drop (suffix_sa s r)) (s.drop (suffix_sa s (r + 1)))
    simp only [List.length_drop] at this
    omega
  · omega

theorem index_ok_lcp_rank_spec : index_ok lcp_rank_spec := by
  intro s
  refine ⟨rfl, by simp [lcp_rank_spec], ?_⟩
  intro x hx
  simp only [lcp_rank_spec, List.mem_map, List.mem_range] at hx
  obtain ⟨r, hr, rfl⟩ := hx
  split
  · omega
  · have := common_prefix_le_length (s.drop (suffix_sa s (r - 1))) (s.drop (suffix_sa s r))
    simp only [List.length_drop] at this
    omega

theorem leaf_add_all (slot : Nat → Nat) (M : Nat) : ∀ (added : List Nat) (t : segment_tree Int),
    t.n = M → t.cell.length = M →
    (add_all t slot added).n = M ∧ (add_all t slot added).cell.length = M ∧
    (∀ j, (add_all t slot added).leaf (range_max int32_min) j = t.leaf (range_max int32_min) j ∨
      ∃ a ∈ added, slot a = j ∧ j < M ∧
        (add_all t slot added).leaf (range_max int32_min) j = signed_index a) ∧
    ((∀ a ∈ added, ∀ b ∈ added, slot a = slot b → a = b) →
      ∀ a ∈ added, slot a < M →
        (add_all t slot added).leaf (range_max int32_min) (slot a) = signed_index a) := by
  intro added
  induction added with
  | nil =>
    intro t h1 h2
    refine ⟨h1, h2, fun j => Or.inl rfl, fun _ a ha => ?_⟩
    simp at ha
  | cons x rest ih =>
    intro t h1 h2
    have hn' : (t.update (slot x) (signed_index x)).n = M := h1
    have hc' : (t.update (slot x) (signed_index x)).cell.length = M := by
      simp [segment_tree.update, h2]
    obtain ⟨i1, i2, i3, i4⟩ := ih (t.update (slot x) (signed_index x)) hn' hc'
    have hunf : add_all t slot (x :: rest) =
        add_all (t.update (slot x) (signed_index x)) slot rest := rfl
    rw [hunf]
    refine ⟨i1, i2, ?_, ?_⟩
    · intro j
      rcases i3 j with e | ⟨a, ha, e1, e2, e3⟩
      · rw [segment_tree.leaf_update] at e
        by_cases c : slot x = j ∧ j < t.n ∧ j < t.cell.length
        · rw [if_pos c] at e
          right
          exact ⟨x, List.mem_cons_self _ _, c.1, by omega, e⟩
        · rw [if_neg c] at e
          left; exact e
      · right
        exact ⟨a, List.mem_cons_of_mem _ ha, e1, e2, e3⟩
    · intro hinj a ha hslot
      rcases List.mem_cons.mp ha with e | e
      · subst e
        rcases i3 (slot a) with e | ⟨b, hb, e1, e2, e3⟩
        · rw [e, segment_tree.leaf_update, if_pos ⟨rfl, by omega, by omega⟩]
        · have := hinj b (List.mem_cons_of_mem _ hb) a (List.mem_cons_self _ _) e1
          rw [e3, this]
      · exact i4 (fun a ha b hb => hinj a (List.mem_cons_of_mem _ ha) b
          (List.mem_cons_of_mem _ hb)) a e hslot

theorem getD_map_range (f : Nat → Nat) (M i : Nat) (h : i < M) :
    ((List.range M).map f).getD i 0 = f i := by
  rw [List.getD_eq_getElem?_getD, List.getElem?_map, List.getElem?_range h]
  rfl

theorem lcp_leaf_bound (index : List Int → suffix_index) (hidx : index_ok index)
    (s : List Int) (t : Nat) (ht : t < s.length) :
    (segment_tree.of_vector (index s).lcp).leaf (range_min uint32_max) t ≤ s.length := by
  obtain ⟨_, h2, h3⟩ := hidx s
  simp only [segment_tree.leaf, segment_tree.of_vector, h2, ht, if_true]
  rw [List.getD_eq_getElem?_getD, List.getElem?_eq_getElem (by omega)]
  exact h3 _ (List.getElem_mem _)

end sfc_comp

namespace sfc_comp
open encode sssp_solver

theorem add_all_congr (slot slot' : Nat → Nat) : ∀ (added : List Nat) (t : segment_tree Int),
    (∀ a ∈ added, slot a = slot' a) → add_all t slot added = add_all t slot' added := by
  intro added
  induction added with
  | nil => intro t _; rfl
  | cons x rest ih =>
    intro t h
    show add_all (t.update (slot x) (signed_index x)) slot rest =
      add_all (t.update (slot' x) (signed_index x)) slot' rest
    rw [h x (List.mem_cons_self _ _)]
    exact ih _ (fun a ha => h a (List.mem_cons_of_mem _ ha))

/-- The search on the trees of a helper: the lcp tree of the index of the sequence `S`, and a
position tree in which every `a` of `added` sits at the rank of suffix `p a`; the query starts
from the rank of suffix `q`. -/
theorem find_added (index : List Int → suffix_index) (hidx : index_ok index) (S : List Int)
    (p : Nat → Nat) (added : List Nat) (pos q d min_len : Nat)
    (hS : S.length < 2 ^ 31) (hq : q < S.length) (hpos : pos < 2 ^ 31)
    (hadd : ∀ a ∈ added, a < 2 ^ 31 ∧ p a < S.length ∧ p a ≠ q)
    (hinj : ∀ a ∈ added, ∀ b ∈ added, p a = p b → a = b)
    (hd : d < pos + 2 ^ 31) (hmin : 1 ≤ min_len) :
    ∃ r, lz.find pos (suffix_rank S q) d min_len
        ((segment_tree.of_vector (index S).lcp).nodes (range_min uint32_max))
        ((add_all (segment_tree.of_size (range_max int32_min) S.length)
          (fun a => suffix_rank S (p a)) added).nodes (range_max int32_min)) = some r ∧
      ((r = lz.empty ∧ ∀ b ∈ added, pos ≤ b + d →
          span_min (segment_tree.of_vector (index S).lcp) (suffix_rank S q)
            (suffix_rank S (p b)) < min_len) ∨
       (∃ a ∈ added, pos ≤ a + d ∧
          r = ⟨a, span_min (segment_tree.of_vector (index S).lcp) (suffix_rank S q)
            (suffix_rank S (p a))⟩ ∧ min_len ≤ r.len ∧
          ∀ b ∈ added, pos ≤ b + d →
            span_min (segment_tree.of_vector (index S).lcp) (suffix_rank S q)
              (suffix_rank S (p b)) ≤ r.len)) := by
  obtain ⟨k1, k2, k3⟩ := hidx S
  have hsl : ∀ a ∈ added, ∀ b ∈ added,
      (fun a => suffix_rank S (p a)) a = (fun a => suffix_rank S (p a)) b → a = b := by
    intro a ha b hb h
    exact hinj a ha b hb (suffix_rank_inj S _ _ (hadd a ha).2.1 (hadd b hb).2.1 h)
  obtain ⟨l1, l2, l3, l4⟩ := leaf_add_all (fun a => suffix_rank S (p a)) S.length added
    (segment_tree.of_size (range_max int32_min) S.length) rfl
    (by simp [segment_tree.of_size])
  have l4' := l4 hsl
  generalize add_all (segment_tree.of_size (range_max int32_min) S.length)
    (fun a => suffix_rank S (p a)) added = seg at l1 l2 l3 l4'
  have hiden : (range_max int32_min).iden = int32_min := rfl
  have hleaf : ∀ j, seg.leaf (range_max int32_min) j = int32_min ∨
      ∃ a : Nat, a < 2 ^ 31 ∧ seg.leaf (range_max int32_min) j = (a : Int) ∧ j < S.length := by
    intro j
    rcases l3 j with e | ⟨a, ha, e1, e2, e3⟩
    · left; rw [e, segment_tree.leaf_of_size, hiden]
    · right
      exact ⟨a, (hadd a ha).1, by rw [e3, signed_index_small a (hadd a ha).1], e2⟩
  have hback : ∀ (j b : Nat), seg.leaf (range_max int32_min) j = (b : Int) →
      ∃ a ∈ added, suffix_rank S (p a) = j ∧ a = b := by
    intro j b hb
    rcases l3 j with e | ⟨a, ha, e1, e2, e3⟩
    · rw [e, segment_tree.leaf_of_size, hiden, int32_min_val] at hb; omega
    · refine ⟨a, ha, e1, ?_⟩
      rw [e3, signed_index_small a (hadd a ha).1] at hb
      exact_mod_cast hb
  have hself : seg.leaf (range_max int32_min) (suffix_rank S q) = int32_min := by
    rcases l3 (suffix_rank S q) with e | ⟨a, ha, e1, e2, e3⟩
    · rw [e, segment_tree.leaf_of_size, hiden]
    · exact absurd (suffix_rank_inj S _ _ (hadd a ha).2.1 hq e1) (hadd a ha).2.2
  have hfwd : ∀ b ∈ added, seg.leaf (range_max int32_min) (suffix_rank S (p b)) = (b : Int) ∧
      suffix_rank S (p b) < S.length ∧ suffix_rank S (p b) ≠ suffix_rank S q := by
    intro b hb
    have hlt := suffix_rank_bound S (p b) (hadd b hb).2.1
    refine ⟨?_, hlt, ?_⟩
    · rw [l4' b hb hlt, signed_index_small b (hadd b hb).1]
    · intro e
      exact (hadd b hb).2.2 (suffix_rank_inj S _ _ (hadd b hb).2.1 hq e)
  obtain ⟨r, hr, hside⟩ := find_on_trees (segment_tree.of_vector (index S).lcp) seg S.length
    pos (suffix_rank S q) d min_len hS
    (by simp [segment_tree.of_vector, k2]) l1 (suffix_rank_bound S q hq) hpos hd hmin
    (fun t ht => lcp_leaf_bound index hidx S t ht) hleaf hself
  refine ⟨r, hr, ?_⟩
  rcases hside with ⟨s1, s2⟩ | ⟨j, a, s1, s2, s3, s4, s5, s6, s7, s8⟩
  · left
    refine ⟨s1, ?_⟩
    intro b hb hdist
    obtain ⟨f1, f2, f3⟩ := hfwd b hb
    exact s2 _ b f3 f2 f1 hdist
  · right
    obtain ⟨a', ha', e1, e2⟩ := hback j a s4
    subst e2
    subst e1
    refine ⟨a', ha', s5, s6, by rw [s6]; exact s7, ?_⟩
    intro b hb hdist
    obtain ⟨f1, f2, f3⟩ := hfwd b hb
    rw [s6]
    exact s8 _ b f3 f2 f1 hdist

/-- With the `lcp` array that pairs rank `r` with rank `r + 1`, the span minimum between the
ranks of two suffixes is their common-prefix length. -/
theorem span_min_lcp_rank (S : List Int) (x y : Nat) (hS : S.length < 2 ^ 31)
    (hx : x < S.length) (hy : y < S.length) (hxy : x ≠ y) :
    span_min (segment_tree.of_vector (lcp_rank S).lcp) (suffix_rank S x) (suffix_rank S y) =
      common_prefix_length (S.drop x) (S.drop y) := by
  have hlen : (lcp_rank S).lcp.length = S.length := by simp [lcp_rank]
  have hL : ∀ r, r + 1 < S.length →
      (segment_tree.of_vector (lcp_rank S).lcp).leaf (range_min uint32_max) r =
        common_prefix_length (S.drop (suffix_sa S r)) (S.drop (suffix_sa S (r + 1))) := by
    intro r hr
    have hr' : r < S.length := by omega
    simp only [segment_tree.leaf, segment_tree.of_vector, hlen, hr', if_true]
    simp only [lcp_rank]
    rw [List.getD_eq_getElem?_getD, List.getElem?_map, List.getElem?_range hr']
    simp [hr]
  have hu := uint32_max_val
  have hbx := suffix_rank_bound S x hx
  have hby := suffix_rank_bound S y hy
  have hne : suffix_rank S x ≠ suffix_rank S y := fun e => hxy (suffix_rank_inj S x y hx hy e)
  rcases Nat.lt_or_gt_of_ne hne with c | c
  · rw [span_min_above _ _ _ c]
    obtain ⟨n, hn⟩ : ∃ n, suffix_rank S y - suffix_rank S x = n + 1 :=
      ⟨suffix_rank S y - suffix_rank S x - 1, by omega⟩
    rw [hn, fold_lcp_eq S _ (by omega) hL n (suffix_rank S x) (by omega)]
    have e : suffix_rank S x + n + 1 = suffix_rank S y := by omega
    rw [e, suffix_sa_rank S x hx, suffix_sa_rank S y hy]
  · rw [span_min_below _ _ _ c]
    obtain ⟨n, hn⟩ : ∃ n, suffix_rank S x - suffix_rank S y = n + 1 :=
      ⟨suffix_rank S x - suffix_rank S y - 1, by omega⟩
    rw [hn, fold_lcp_eq S _ (by omega) hL n (suffix_rank S y) (by omega)]
    have e : suffix_rank S y + n + 1 = suffix_rank S x := by omega
    rw [e, suffix_sa_rank S x hx, suffix_sa_rank S y hy, common_prefix_comm]

end sfc_comp

namespace sfc_comp
open encode sssp_solver

theorem bytes_length (input : List Nat) : (bytes input).length = input.length := by
  simp [bytes]

theorem lz_helper_fold : ∀ (added : List Nat) (h : lz_helper),
    added.foldl lz_helper.add_element h =
      { h with seg := add_all h.seg (fun a => h.rank.getD a 0) added } := by
  intro added
  induction added with
  | nil => intro h; rfl
  | cons x rest ih =>
    intro h
    rw [List.foldl_cons, ih]
    rfl

/-- The search of `lz_helper` after the positions of `added`, all below `pos`, were stored. -/
theorem lz_helper_find_added (index : List Int → suffix_index) (hidx : index_ok index)
    (input : List Nat) (added : List Nat) (pos d min_len : Nat)
    (hn : input.length < 2 ^ 31) (hpos : pos < input.length) (hadded : ∀ a ∈ added, a < pos)
    (hd : d < pos + 2 ^ 31) (hmin : 1 ≤ min_len) :
    ∃ r, (added.foldl lz_helper.add_element (lz_helper.create index input)).find pos d min_len =
        some r ∧
      ((r = lz.empty ∧ ∀ b ∈ added, pos ≤ b + d →
          span_min (segment_tree.of_vector (index (bytes input)).lcp)
            (suffix_rank (bytes input) pos) (suffix_rank (bytes input) b) < min_len) ∨
       (∃ a ∈ added, pos ≤ a + d ∧
          r = ⟨a, span_min (segment_tree.of_vector (index (bytes input)).lcp)
            (suffix_rank (bytes input) pos) (suffix_rank (bytes input) a)⟩ ∧ min_len ≤ r.len ∧
          ∀ b ∈ added, pos ≤ b + d →
            span_min (segment_tree.of_vector (index (bytes input)).lcp)
              (suffix_rank (bytes input) pos) (suffix_rank (bytes input) b) ≤ r.len)) := by
  have hlen := bytes_length input
  obtain ⟨k1, k2, k3⟩ := hidx (bytes input)
  rw [lz_helper_fold]
  unfold lz_helper.find
  simp only [lz_helper.create]
  rw [k1, hlen, getD_map_range _ _ _ hpos]
  have hcongr := add_all_congr
    (fun a => ((List.range input.length).map (suffix_rank (bytes input))).getD a 0)
    (fun a => suffix_rank (bytes input) a) added
    (segment_tree.of_size (range_max int32_min) input.length)
    (fun a ha => getD_map_range _ _ _ (by have := hadded a ha; omega))
  rw [hcongr]
  have := find_added index hidx (bytes input) (fun a => a) added pos pos d min_len
    (by rw [hlen]; exact hn) (by rw [hlen]; exact hpos) (by omega)
    (fun a ha => by
      have := hadded a ha
      refine ⟨by omega, ?_, ?_⟩
      · show a < (bytes input).length
        rw [hlen]; omega
      · show a ≠ pos
        omega)
    (fun a _ b _ h => h) hd hmin
  rw [hlen] at this
  exact this

end sfc_comp

namespace sfc_comp
open encode sssp_solver

theorem bytes_getD (input : List Nat) (k : Nat) :
    (bytes input).getD k 0 = Int.ofNat (input.getD k 0) := by
  unfold bytes
  rw [List.getD_eq_getElem?_getD, List.getD_eq_getElem?_getD, List.getElem?_map]
  cases input[k]? <;> rfl

theorem drop_getD (S : List Int) (k t : Nat) : (S.drop k).getD t 0 = S.getD (k + t) 0 := by
  rw [List.getD_eq_getElem?_getD, List.getD_eq_getElem?_getD, List.getElem?_drop]

/-- C3 (amended).  For every index function delivering the suffix ranks, every input shorter
than `2^31`, every `pos` inside the input, every `max_dist < pos + 2^31` and `min_len >= 1`,
when only positions below `pos` have been added with `add_element`: `find(pos, max_dist,
min_len)` returns, and its result is `{0,0}` or a record whose `ofs` is an added position with
`pos - max_dist <= ofs < pos` and `len >= min_len`. -/
theorem lz_helper_find_constraints (index : List Int → suffix_index) (hidx : index_ok index)
    (input : List Nat) (added : List Nat) (pos max_dist min_len : Nat)
    (hn : input.length < 2 ^ 31) (hpos : pos < input.length) (hadded : ∀ a ∈ added, a < pos)
    (hd : max_dist < pos + 2 ^ 31) (hmin : 1 ≤ min_len) :
    ∃ r, (added.foldl lz_helper.add_element (lz_helper.create index input)).find pos max_dist
        min_len = some r ∧
      (r = lz.empty ∨
        (r.ofs ∈ added ∧ pos ≤ r.ofs + max_dist ∧ r.ofs < pos ∧ min_len ≤ r.len)) := by
  obtain ⟨r, hr, h⟩ := lz_helper_find_added index hidx input added pos max_dist min_len hn hpos
    hadded hd hmin
  refine ⟨r, hr, ?_⟩
  rcases h with ⟨h1, _⟩ | ⟨a, ha, h1, h2, h3, _⟩
  · left; exact h1
  · right
    have e : r.ofs = a := by rw [h2]
    rw [e]
    exact ⟨ha, h1, hadded a ha, h3⟩

/-- Witness for C3: `"abcabcabc"` with the positions 0, 1, 2 added, queried at position 3 with
`max_dist = 3` and `min_len = 3`. -/
theorem lz_helper_find_constraints_witness :
    index_ok lcp_rank ∧ ([97, 98, 99, 97, 98, 99, 97, 98, 99] : List Nat).length < 2 ^ 31 ∧
    3 < ([97, 98, 99, 97, 98, 99, 97, 98, 99] : List Nat).length ∧
    (∀ a ∈ ([0, 1, 2] : List Nat), a < 3) ∧ 3 < 3 + 2 ^ 31 ∧ 1 ≤ 3 ∧
    ∃ r, (([0, 1, 2] : List Nat).foldl lz_helper.add_element
        (lz_helper.create lcp_rank [97, 98, 99, 97, 98, 99, 97, 98, 99])).find 3 3 3 = some r ∧
      (r = lz.empty ∨ (r.ofs ∈ ([0, 1, 2] : List Nat) ∧ 3 ≤ r.ofs + 3 ∧ r.ofs < 3 ∧ 3 ≤ r.len)) :=
  ⟨index_ok_lcp_rank, by decide, by decide, by decide, by decide, by decide,
    lz_helper_find_constraints lcp_rank index_ok_lcp_rank [97, 98, 99, 97, 98, 99, 97, 98, 99]
      [0, 1, 2] 3 3 3 (by decide) (by decide) (by decide) (by decide) (by decide)⟩

/-- Counterexample to C3 as stated: on the input `[0, 0]` with position 0 added, the query
`find(1, 2^31 + 1, 1)` returns the record `{2^64 - 2^31, 2^32 - 1}`: the leaf of the queried
rank still holds the "not present" value `INT32_MIN`, which passes the distance test once
`max_dist >= pos + 2^31`.  The result is not `{0,0}` and its `ofs` is not below `pos`. -/
theorem lz_helper_find_constraints_counterexample :
    ((lz_helper.create lcp_rank [0, 0]).add_element 0).find 1 (2 ^ 31 + 1) 1 =
        some ⟨18446744071562067968, 4294967295⟩ ∧
    ¬ ((⟨18446744071562067968, 4294967295⟩ : lz_data) = lz.empty ∨
      (18446744071562067968 ∈ ([0] : List Nat) ∧ 1 ≤ 18446744071562067968 + (2 ^ 31 + 1) ∧
        18446744071562067968 < 1 ∧ 1 ≤ 4294967295)) := by
  refine ⟨by decide, by decide⟩

/-- C4 (amended).  With the `lcp` array stored in the helper's tree indexed as `find_left` and
`find_right` read it (`lcp[i]` is the common-prefix length of the suffixes `sa[i]` and
`sa[i+1]`), for inputs shorter than `2^31`, positions added all below `pos`,
`max_dist < pos + 2^31` and `min_len >= 1`: `find(pos, max_dist, min_len)` returns, every
non-empty result `{ofs, len}` has `input[ofs + t] = input[pos + t]` for all `t < len`, `len` is
exactly the longest common prefix of the suffixes at `ofs` and `pos`, and no added position
within distance `max_dist` has a longer common prefix with `pos`. -/
theorem lz_helper_find_longest (input : List Nat) (added : List Nat)
    (pos max_dist min_len : Nat)
    (hn : input.length < 2 ^ 31) (hpos : pos < input.length) (hadded : ∀ a ∈ added, a < pos)
    (hd : max_dist < pos + 2 ^ 31) (hmin : 1 ≤ min_len) :
    ∃ r, (added.foldl lz_helper.add_element (lz_helper.create lcp_rank input)).find pos max_dist
        min_len = some r ∧
      (r = lz.empty ∨
        (r.ofs ∈ added ∧ pos ≤ r.ofs + max_dist ∧
          r.len = common_prefix_length ((bytes input).drop r.ofs) ((bytes input).drop pos) ∧
          pos + r.len ≤ input.length ∧
          (∀ t, t < r.len → input.getD (r.ofs + t) 0 = input.getD (pos + t) 0) ∧
          ∀ b ∈ added, pos ≤ b + max_dist →
            common_prefix_length ((bytes input).drop b) ((bytes input).drop pos) ≤ r.len)) := by
  have hlen := bytes_length input
  have hcp : ∀ b ∈ added,
      span_min (segment_tree.of_vector (lcp_rank (bytes input)).lcp)
        (suffix_rank (bytes input) pos) (suffix_rank (bytes input) b) =
      common_prefix_length ((bytes input).drop b) ((bytes input).drop pos) := by
    intro b hb
    have := hadded b hb
    rw [span_min_lcp_rank (bytes input) pos b (by rw [hlen]; exact hn) (by rw [hlen]; exact hpos)
      (by rw [hlen]; omega) (by omega), common_prefix_comm]
  obtain ⟨r, hr, h⟩ := lz_helper_find_added lcp_rank index_ok_lcp_rank input added pos max_dist
    min_len hn hpos hadded hd hmin
  refine ⟨r, hr, ?_⟩
  rcases h with ⟨h1, _⟩ | ⟨a, ha, h1, h2, h3, h4⟩
  · left; exact h1
  · right
    have e : r.ofs = a := by rw [h2]
    have e2 : r.len = common_prefix_length ((bytes input).drop a) ((bytes input).drop pos) := by
      rw [h2]; exact hcp a ha
    rw [e]
    refine ⟨ha, h1, e2, ?_, ?_, ?_⟩
    · have := (common_prefix_le ((bytes input).drop a) ((bytes input).drop pos)).2
      simp only [List.length_drop, hlen] at this
      omega
    · intro t ht
      have := common_prefix_get ((bytes input).drop a) ((bytes input).drop pos) t
        (by rw [← e2]; exact ht)
      rw [drop_getD, drop_getD, bytes_getD, bytes_getD] at this
      exact Int.ofNat.inj this
    · intro b hb hdist
      rw [← hcp b hb]
      exact h4 b hb hdist

/-- Witness for C4: `"abcabcabc"` with the positions 0, 1, 2 added; `find(3, 3, 3)` is
`{ofs 0, len 6}`. -/
theorem lz_helper_find_longest_witness :
    ([97, 98, 99, 97, 98, 99, 97, 98, 99] : List Nat).length < 2 ^ 31 ∧
    3 < ([97, 98, 99, 97, 98, 99, 97, 98, 99] : List Nat).length ∧
    (∀ a ∈ ([0, 1, 2] : List Nat), a < 3) ∧ 3 < 3 + 2 ^ 31 ∧ 1 ≤ 3 ∧
    (([0, 1, 2] : List Nat).foldl lz_helper.add_element
        (lz_helper.create lcp_rank [97, 98, 99, 97, 98, 99, 97, 98, 99])).find 3 3 3 =
      some ⟨0, 6⟩ ∧
    ∃ r, (([0, 1, 2] : List Nat).foldl lz_helper.add_element
        (lz_helper.create lcp_rank [97, 98, 99, 97, 98, 99, 97, 98, 99])).find 3 3 3 = some r ∧
      (r = lz.empty ∨
        (r.ofs ∈ ([0, 1, 2] : List Nat) ∧ 3 ≤ r.ofs + 3 ∧
          r.len = common_prefix_length ((bytes [97, 98, 99, 97, 98, 99, 97, 98, 99]).drop r.ofs)
            ((bytes [97, 98, 99, 97, 98, 99, 97, 98, 99]).drop 3) ∧
          3 + r.len ≤ ([97, 98, 99, 97, 98, 99, 97, 98, 99] : List Nat).length ∧
          (∀ t, t < r.len → ([97, 98, 99, 97, 98, 99, 97, 98, 99] : List Nat).getD (r.ofs + t) 0 =
            ([97, 98, 99, 97, 98, 99, 97, 98, 99] : List Nat).getD (3 + t) 0) ∧
          ∀ b ∈ ([0, 1, 2] : List Nat), 3 ≤ b + 3 →
            common_prefix_length ((bytes [97, 98, 99, 97, 98, 99, 97, 98, 99]).drop b)
              ((bytes [97, 98, 99, 97, 98, 99, 97, 98, 99]).drop 3) ≤ r.len)) :=
  ⟨by decide, by decide, by decide, by decide, by decide, by decide,
    lz_helper_find_longest [97, 98, 99, 97, 98, 99, 97, 98, 99] [0, 1, 2] 3 3 3
      (by decide) (by decide) (by decide) (by decide) (by decide)⟩

/-- Counterexample to C4 as stated.  First part: with the `lcp` array of the data model
(`lcp[i]` for the suffixes `sa[i-1]` and `sa[i]`, `lcp[0] = 0`) stored in the helper's tree,
`find(3, 3, 3)` on `"abcabcabc"` with the positions 0, 1, 2 added is `{ofs 0, len 3}`, although
the suffixes at 0 and 3 share 6 bytes.  Second part: with `max_dist = 2^31 + 3` the query
returns `{2^64 - 2^31, 2^32 - 1}`, whose `ofs` is not a position of the input. -/
theorem lz_helper_find_longest_counterexample :
    (([0, 1, 2] : List Nat).foldl lz_helper.add_element
        (lz_helper.create lcp_rank_spec [97, 98, 99, 97, 98, 99, 97, 98, 99])).find 3 3 3 =
      some ⟨0, 3⟩ ∧
    common_prefix_length ((bytes [97, 98, 99, 97, 98, 99, 97, 98, 99]).drop 0)
      ((bytes [97, 98, 99, 97, 98, 99, 97, 98, 99]).drop 3) = 6 ∧
    (([0, 1, 2] : List Nat).foldl lz_helper.add_element
        (lz_helper.create lcp_rank [97, 98, 99, 97, 98, 99, 97, 98, 99])).find 3 (2 ^ 31 + 3) 3 =
      some ⟨18446744071562067968, 4294967295⟩ := by
  refine ⟨by decide, by decide, by decide⟩

end sfc_comp

namespace sfc_comp
open encode sssp_solver

/-- The three parts of a glued sequence `X ++ [-1] ++ Y`. -/
theorem glued_getD (X Y : List Nat) :
    (bytes X ++ [-1] ++ bytes Y).length = X.length + 1 + Y.length ∧
    (∀ k, k < X.length → (bytes X ++ [-1] ++ bytes Y).getD k 0 = Int.ofNat (X.getD k 0)) ∧
    (bytes X ++ [-1] ++ bytes Y).getD X.length 0 = -1 ∧
    (∀ k, (bytes X ++ [-1] ++ bytes Y).getD (X.length + 1 + k) 0 = Int.ofNat (Y.getD k 0)) := by
  have hx := bytes_length X
  have hy := bytes_length Y
  refine ⟨by simp [hx, hy]; omega, ?_, ?_, ?_⟩
  · intro k hk
    rw [List.append_assoc, List.getD_append _ _ _ _ (by rw [hx]; exact hk), bytes_getD]
  · rw [List.append_assoc, List.getD_append_right _ _ _ _ (le_of_eq hx), hx, Nat.sub_self]
    rfl

  · intro k
    rw [List.getD_append_right _ _ _ _ (by simp [hx])]
    have : X.length + 1 + k - (bytes X ++ [-1]).length = k := by simp [hx]
    rw [this, bytes_getD]

/-- A common prefix of a suffix starting in `X` and a suffix starting in `Y` stops before the
`-1` between the two parts. -/
theorem glued_common_prefix_bound (X Y : List Nat) (pos q : Nat) (hpos : pos ≤ X.length)
    (hq : q ≤ Y.length) :
    pos + common_prefix_length ((bytes X ++ [-1] ++ bytes Y).drop pos)
        ((bytes X ++ [-1] ++ bytes Y).drop (X.length + 1 + q)) ≤ X.length ∧
    q + common_prefix_length ((bytes X ++ [-1] ++ bytes Y).drop pos)
        ((bytes X ++ [-1] ++ bytes Y).drop (X.length + 1 + q)) ≤ Y.length ∧
    ∀ t, t < common_prefix_length ((bytes X ++ [-1] ++ bytes Y).drop pos)
        ((bytes X ++ [-1] ++ bytes Y).drop (X.length + 1 + q)) →
      X.getD (pos + t) 0 = Y.getD (q + t) 0 := by
  obtain ⟨g1, g2, g3, g4⟩ := glued_getD X Y
  generalize hS : bytes X ++ [-1] ++ bytes Y = S at *
  have hb := (common_prefix_le (S.drop pos) (S.drop (X.length + 1 + q))).2
  have hg := common_prefix_get (S.drop pos) (S.drop (X.length + 1 + q))
  generalize common_prefix_length (S.drop pos) (S.drop (X.length + 1 + q)) = L at *
  rw [List.length_drop, g1] at hb
  have h1 : pos + L ≤ X.length := by
    by_contra hc
    have := hg (X.length - pos) (by omega)
    rw [drop_getD, drop_getD] at this
    have e1 : pos + (X.length - pos) = X.length := by omega
    have e2 : X.length + 1 + q + (X.length - pos) = X.length + 1 + (q + (X.length - pos)) := by
      omega
    rw [e1, e2, g3, g4] at this
    have h0 : (0 : Int) ≤ Int.ofNat (Y.getD (q + (X.length - pos)) 0) := Int.ofNat_nonneg _
    omega
  refine ⟨h1, by omega, ?_⟩
  intro t ht
  have := hg t ht
  rw [drop_getD, drop_getD] at this
  have e2 : X.length + 1 + q + t = X.length + 1 + (q + t) := by omega
  rw [e2, g2 _ (by omega), g4] at this
  exact Int.ofNat.inj this

theorem lz_helper_c_fold : ∀ (added : List Nat) (h : lz_helper_c),
    added.foldl lz_helper_c.add_element h =
      { h with
        seg := add_all h.seg (fun a => h.rank.getD a 0) added
        seg_c := add_all h.seg_c (fun a => h.rank.getD (a + h.n + 1) 0) added } := by
  intro added
  induction added with
  | nil => intro h; rfl
  | cons x rest ih =>
    intro h
    rw [List.foldl_cons, ih]
    rfl

theorem complement_appended_length (input : List Nat) :
    (lz_helper_c.complement_appended input).length = 2 * input.length + 1 := by
  unfold lz_helper_c.complement_appended
  rw [(glued_getD _ _).1, List.length_map]
  omega

/-- The search `find_c` of `lz_helper_c` after the positions of `added` were stored. -/
theorem lz_helper_c_find_c_added (index : List Int → suffix_index) (hidx : index_ok index)
    (input : List Nat) (added : List Nat) (pos d min_len : Nat)
    (hn : 2 * input.length + 1 < 2 ^ 31) (hpos : pos < input.length)
    (hadded : ∀ a ∈ added, a < input.length)
    (hd : d < pos + 2 ^ 31) (hmin : 1 ≤ min_len) :
    ∃ r, (added.foldl lz_helper_c.add_element (lz_helper_c.create index input)).find_c pos d
        min_len = some r ∧
      ((r = lz.empty ∧ ∀ b ∈ added, pos ≤ b + d →
          span_min (segment_tree.of_vector (index (lz_helper_c.complement_appended input)).lcp)
            (suffix_rank (lz_helper_c.complement_appended input) pos)
            (suffix_rank (lz_helper_c.complement_appended input) (b + input.length + 1))
              < min_len) ∨
       (∃ a ∈ added, pos ≤ a + d ∧
          r = ⟨a, span_min
            (segment_tree.of_vector (index (lz_helper_c.complement_appended input)).lcp)
            (suffix_rank (lz_helper_c.complement_appended input) pos)
            (suffix_rank (lz_helper_c.complement_appended input) (a + input.length + 1))⟩ ∧
          min_len ≤ r.len ∧
          ∀ b ∈ added, pos ≤ b + d →
            span_min (segment_tree.of_vector (index (lz_helper_c.complement_appended input)).lcp)
              (suffix_rank (lz_helper_c.complement_appended input) pos)
              (suffix_rank (lz_helper_c.complement_appended input) (b + input.length + 1))
                ≤ r.len)) := by
  have hlen := complement_appended_length input
  obtain ⟨k1, k2, k3⟩ := hidx (lz_helper_c.complement_appended input)
  rw [lz_helper_c_fold]
  unfold lz_helper_c.find_c
  simp only [lz_helper_c.create]
  rw [k1, List.length_map, List.length_range, hlen, getD_map_range _ _ _ (by omega)]
  have hcongr := add_all_congr
    (fun a => ((List.range (2 * input.length + 1)).map
      (suffix_rank (lz_helper_c.complement_appended input))).getD (a + input.length + 1) 0)
    (fun a => suffix_rank (lz_helper_c.complement_appended input) (a + input.length + 1)) added
    (segment_tree.of_size (range_max int32_min) (2 * input.length + 1))
    (fun a ha => getD_map_range _ _ _ (by have := hadded a ha; omega))
  rw [hcongr]
  have := find_added index hidx (lz_helper_c.complement_appended input)
    (fun a => a + input.length + 1) added pos pos d min_len
    (by rw [hlen]; exact hn) (by rw [hlen]; omega) (by omega)
    (fun a ha => by
      have := hadded a ha
      refine ⟨by omega, ?_, ?_⟩
      · show a + input.length + 1 < (lz_helper_c.complement_appended input).length
        rw [hlen]; omega
      · show a + input.length + 1 ≠ pos
        omega)
    (fun a _ b _ h => by
      have h' : a + input.length + 1 = b + input.length + 1 := h
      omega) hd hmin
  rw [hlen] at this
  exact this

end sfc_comp

namespace sfc_comp
open encode sssp_solver

theorem getD_map_xor (input : List Nat) (k : Nat) (hk : k < input.length) :
    (input.map (fun b => Nat.xor b 0xff)).getD k 0 = Nat.xor (input.getD k 0) 0xff := by
  rw [List.getD_eq_getElem?_getD, List.getD_eq_getElem?_getD, List.getElem?_map,
    List.getElem?_eq_getElem hk]
  rfl

/-- C7 (amended).  `lz_helper_c` indexes the sequence `input ++ [-1] ++ [b xor 0xff | b in
input]` of length `2n+1`, and `add_element(i)` records `i` at the rank of suffix `i` in one tree
and at the rank of suffix `i+n+1` in the complement tree.  With the `lcp` array indexed as the
search reads it (`lcp[i]` for the suffixes `sa[i]` and `sa[i+1]`), `2n+1 < 2^31`, `pos < n`,
added positions below `n`, `max_dist < pos + 2^31` and `min_len >= 1`: `find_c(pos, max_dist,
min_len)` returns; it is `{0,0}` only when no added position within distance reaches `min_len`;
and every other result `{ofs, len}` has `ofs` added, `len >= min_len`, `pos + len <= n`,
`ofs + len <= n`, `input[pos+t] = input[ofs+t] xor 0xff` for every `t < len`, and `len` is the
largest common-prefix length among the added positions within distance. -/
theorem lz_helper_c_find_c_complement (input : List Nat) (added : List Nat)
    (pos max_dist min_len : Nat)
    (hn : 2 * input.length + 1 < 2 ^ 31) (hpos : pos < input.length)
    (hadded : ∀ a ∈ added, a < input.length)
    (hd : max_dist < pos + 2 ^ 31) (hmin : 1 ≤ min_len) :
    (lz_helper_c.complement_appended input).length = 2 * input.length + 1 ∧
    (∀ i, i < input.length →
      ((lz_helper_c.create lcp_rank input).add_element i).seg =
        (lz_helper_c.create lcp_rank input).seg.update
          (suffix_rank (lz_helper_c.complement_appended input) i) (signed_index i) ∧
      ((lz_helper_c.create lcp_rank input).add_element i).seg_c =
        (lz_helper_c.create lcp_rank input).seg_c.update
          (suffix_rank (lz_helper_c.complement_appended input) (i + input.length + 1))
          (signed_index i)) ∧
    ∃ r, (added.foldl lz_helper_c.add_element (lz_helper_c.create lcp_rank input)).find_c pos
        max_dist min_len = some r ∧
      ((r = lz.empty ∧ ∀ b ∈ added, pos ≤ b + max_dist →
          common_prefix_length ((lz_helper_c.complement_appended input).drop pos)
            ((lz_helper_c.complement_appended input).drop (b + input.length + 1)) < min_len) ∨
        (r.ofs ∈ added ∧ pos ≤ r.ofs + max_dist ∧ min_len ≤ r.len ∧
          pos + r.len ≤ input.length ∧ r.ofs + r.len ≤ input.length ∧
          (∀ t, t < r.len →
            input.getD (pos + t) 0 = Nat.xor (input.getD (r.ofs + t) 0) 0xff) ∧
          r.len = common_prefix_length ((lz_helper_c.complement_appended input).drop pos)
            ((lz_helper_c.complement_appended input).drop (r.ofs + input.length + 1)) ∧
          ∀ b ∈ added, pos ≤ b + max_dist →
            common_prefix_length ((lz_helper_c.complement_appended input).drop pos)
              ((lz_helper_c.complement_appended input).drop (b + input.length + 1)) ≤
                r.len)) := by
  have hlen := complement_appended_length input
  have hrank : ∀ k, k < 2 * input.length + 1 →
      (lz_helper_c.create lcp_rank input).rank.getD k 0 =
        suffix_rank (lz_helper_c.complement_appended input) k := by
    intro k hk
    exact getD_map_range _ _ _ (by rw [hlen]; exact hk)
  refine ⟨hlen, ?_, ?_⟩
  · intro i hi
    constructor
    · show segment_tree.update _ ((lz_helper_c.create lcp_rank input).rank.getD i 0) _ = _
      rw [hrank i (by omega)]
    · show segment_tree.update _
        ((lz_helper_c.create lcp_rank input).rank.getD (i + input.length + 1) 0) _ = _
      rw [hrank _ (by omega)]
  have hcp : ∀ b ∈ added,
      span_min (segment_tree.of_vector (lcp_rank (lz_helper_c.complement_appended input)).lcp)
        (suffix_rank (lz_helper_c.complement_appended input) pos)
        (suffix_rank (lz_helper_c.complement_appended input) (b + input.length + 1)) =
      common_prefix_length ((lz_helper_c.complement_appended input).drop pos)
        ((lz_helper_c.complement_appended input).drop (b + input.length + 1)) := by
    intro b hb
    have := hadded b hb
    exact span_min_lcp_rank _ pos (b + input.length + 1) (by rw [hlen]; exact hn)
      (by rw [hlen]; omega) (by rw [hlen]; omega) (by omega)
  have hglue : ∀ b ∈ added,
      pos + common_prefix_length ((lz_helper_c.complement_appended input).drop pos)
        ((lz_helper_c.complement_appended input).drop (b + input.length + 1)) ≤ input.length ∧
      b + common_prefix_length ((lz_helper_c.complement_appended input).drop pos)
        ((lz_helper_c.complement_appended input).drop (b + input.length + 1)) ≤ input.length ∧
      ∀ t, t < common_prefix_length ((lz_helper_c.complement_appended input).drop pos)
        ((lz_helper_c.complement_appended input).drop (b + input.length + 1)) →
        input.getD (pos + t) 0 = Nat.xor (input.getD (b + t) 0) 0xff := by
    intro b hb
    have hb' := hadded b hb
    have g := glued_common_prefix_bound input (input.map (fun b => Nat.xor b 0xff)) pos b (by omega)
      (by rw [List.length_map]; omega)
    have e : input.length + 1 + b = b + input.length + 1 := by omega
    rw [e, List.length_map] at g
    refine ⟨g.1, g.2.1, ?_⟩
    intro t ht
    rw [g.2.2 t ht, getD_map_xor _ _ (by have := g.2.1; unfold lz_helper_c.complement_appended at ht; omega)]
  obtain ⟨r, hr, h⟩ := lz_helper_c_find_c_added lcp_rank index_ok_lcp_rank input added pos
    max_dist min_len hn hpos hadded hd hmin
  refine ⟨r, hr, ?_⟩
  rcases h with ⟨h1, h2⟩ | ⟨a, ha, h1, h2, h3, h4⟩
  · left
    refine ⟨h1, ?_⟩
    intro b hb hdist
    rw [← hcp b hb]
    exact h2 b hb hdist
  · right
    have e : r.ofs = a := by rw [h2]
    have e2 : r.len = common_prefix_length ((lz_helper_c.complement_appended input).drop pos)
        ((lz_helper_c.complement_appended input).drop (a + input.length + 1)) := by
      rw [h2]; exact hcp a ha
    obtain ⟨g1, g2, g3⟩ := hglue a ha
    rw [e]
    refine ⟨ha, h1, h3, ?_, ?_, ?_, e2, ?_⟩
    · rw [e2]; exact g1
    · rw [e2]; exact g2
    · intro t ht
      exact g3 t (by rw [← e2]; exact ht)
    · intro b hb hdist
      rw [← hcp b hb]
      exact h4 b hb hdist

end sfc_comp

namespace sfc_comp
open encode sssp_solver

set_option maxRecDepth 100000 in
/-- Witness for C7: for 100 bytes `0x00` followed by 100 bytes `0xff` with the positions
`0..99` added, `find_c(100, 100, 3)` is `{ofs 0, len 100}`. -/
theorem lz_helper_c_find_c_complement_witness :
    2 * complement_scenario.length + 1 < 2 ^ 31 ∧ 100 < complement_scenario.length ∧
    (∀ a ∈ List.range 100, a < complement_scenario.length) ∧ 100 < 100 + 2 ^ 31 ∧ 1 ≤ 3 ∧
    ((List.range 100).foldl lz_helper_c.add_element
      (lz_helper_c.create lcp_rank complement_scenario)).find_c 100 100 3 = some ⟨0, 100⟩ := by
  have hlen : complement_scenario.length = 200 := by decide
  have h1 : 2 * complement_scenario.length + 1 < 2 ^ 31 := by rw [hlen]; decide
  have h2 : 100 < complement_scenario.length := by rw [hlen]; decide
  have h3 : ∀ a ∈ List.range 100, a < complement_scenario.length := by
    intro a ha
    rw [hlen]
    exact lt_trans (List.mem_range.mp ha) (by decide)
  have h4 : 100 < 100 + 2 ^ 31 := by decide
  have h5 : 1 ≤ 3 := by decide
  refine ⟨h1, h2, h3, h4, h5, ?_⟩
  obtain ⟨_, _, r, hr, h⟩ :=
    lz_helper_c_find_c_complement complement_scenario (List.range 100) 100 100 3 h1 h2 h3 h4 h5
  have cp0 : common_prefix_length ((lz_helper_c.complement_appended complement_scenario).drop 100)
      ((lz_helper_c.complement_appended complement_scenario).drop
        (0 + complement_scenario.length + 1)) = 100 := by decide
  have hg : ∀ k, k < 200 → complement_scenario.getD k 0 = if k < 100 then 0 else 255 := by
    decide
  have m0 : 0 ∈ List.range 100 := List.mem_range.mpr (by decide)
  rw [hr]
  rcases h with ⟨_, e2⟩ | ⟨ha, _, _, hp, _, hx, _, hmax⟩
  · have := e2 0 m0 (by decide)
    rw [cp0] at this
    omega
  · have h100 := hmax 0 m0 (by decide)
    rw [cp0] at h100
    rw [hlen] at hp
    have ha' := List.mem_range.mp ha
    have hl : r.len = 100 := by omega
    have ho : r.ofs = 0 := by
      by_contra hne
      have := hx (100 - r.ofs) (by omega)
      have e1 : r.ofs + (100 - r.ofs) = 100 := by omega
      rw [e1, hg _ (by omega), hg 100 (by decide), if_neg (by omega), if_neg (by decide)] at this
      exact absurd this (by decide)
    cases r with
    | mk ofs len =>
      simp only at hl ho
      rw [hl, ho]

/-- Counterexample to C7 as stated.  First part: with the `lcp` array of the data model
(`lcp[i]` for the suffixes `sa[i-1]` and `sa[i]`) in the LCP tree, on the input `[0xff, 0xff]`
with position 0 added, `find_c(1, 1, 1)` is `{ofs 0, len 1}` although `input[1] = 0xff` is not
`input[0] xor 0xff`.  Second part: on `[0x00, 0xff]` with position 0 added,
`find_c(1, 2^31 + 1, 1)` returns `{2^64 - 2^31, 2^32 - 1}`, whose `ofs` was never added. -/
theorem lz_helper_c_find_c_complement_counterexample :
    ((([0] : List Nat).foldl lz_helper_c.add_element
        (lz_helper_c.create lcp_rank_spec [255, 255])).find_c 1 1 1 = some ⟨0, 1⟩ ∧
      ([255, 255] : List Nat).getD (1 + 0) 0 ≠
        Nat.xor (([255, 255] : List Nat).getD (0 + 0) 0) 0xff) ∧
    ((([0] : List Nat).foldl lz_helper_c.add_element
        (lz_helper_c.create lcp_rank [0, 255])).find_c 1 (2 ^ 31 + 1) 1 =
        some ⟨18446744071562067968, 4294967295⟩ ∧
      18446744071562067968 ∉ ([0] : List Nat)) := by
  refine ⟨⟨by decide, by decide⟩, ⟨by decide, by decide⟩⟩

end sfc_comp

namespace sfc_comp
open encode sssp_solver

theorem lz_helper_kirby_fold : ∀ (added : List Nat) (h : lz_helper_kirby),
    added.foldl lz_helper_kirby.add_element h =
      { h with
        seg := add_all h.seg (fun a => h.rank_h.getD a 0) added
        seg_h := add_all h.seg_h (fun a => h.rank_h.getD (a + h.n + 1) 0) added
        seg_v := add_all h.seg_v (fun a => h.rank_v.getD (2 * h.n - a) 0) added } := by
  intro added
  induction added with
  | nil => intro h; rfl
  | cons x rest ih =>
    intro h
    rw [List.foldl_cons, ih]
    rfl

theorem vflip_appended_length (input : List Nat) :
    (lz_helper_kirby.vflip_appended input).length = 2 * input.length + 1 := by
  unfold lz_helper_kirby.vflip_appended
  rw [(glued_getD _ _).1, List.length_map, List.length_range]
  omega

theorem vflip_appended_reverse (input : List Nat) :
    lz_helper_kirby.vflip_appended input = bytes input ++ [-1] ++ bytes input.reverse := by
  unfold lz_helper_kirby.vflip_appended
  congr 2
  apply List.ext_getElem
  · simp
  · intro i h1 h2
    simp only [List.length_map, List.length_range] at h1
    rw [List.getElem_map, List.getElem_range, List.getElem_reverse,
      List.getD_eq_getElem _ _ (by omega)]

/-- The search `find_v` of `lz_helper_kirby` after the positions of `added` were stored, with
the `lcp` array indexed as the search reads it. -/
theorem lz_helper_kirby_find_v_added (input : List Nat) (added : List Nat) (pos d min_len : Nat)
    (hn : 2 * input.length + 1 < 2 ^ 31) (hpos : pos < input.length)
    (hadded : ∀ a ∈ added, a < input.length)
    (hd : d < pos + 2 ^ 31) (hmin : 1 ≤ min_len) :
    ∃ r, (added.foldl lz_helper_kirby.add_element (lz_helper_kirby.create lcp_rank input)).find_v
        pos d min_len = some r ∧
      ((r = lz.empty ∧ ∀ b ∈ added, pos ≤ b + d →
          common_prefix_length ((lz_helper_kirby.vflip_appended input).drop pos)
            ((lz_helper_kirby.vflip_appended input).drop (2 * input.length - b)) < min_len) ∨
       (r.ofs ∈ added ∧ pos ≤ r.ofs + d ∧ min_len ≤ r.len ∧
          r.len = common_prefix_length ((lz_helper_kirby.vflip_appended input).drop pos)
            ((lz_helper_kirby.vflip_appended input).drop (2 * input.length - r.ofs)) ∧
          ∀ b ∈ added, pos ≤ b + d →
            common_prefix_length ((lz_helper_kirby.vflip_appended input).drop pos)
              ((lz_helper_kirby.vflip_appended input).drop (2 * input.length - b)) ≤
                r.len)) := by
  have hlen := vflip_appended_length input
  have hcp : ∀ b ∈ added,
      span_min (segment_tree.of_vector (lcp_rank (lz_helper_kirby.vflip_appended input)).lcp)
        (suffix_rank (lz_helper_kirby.vflip_appended input) pos)
        (suffix_rank (lz_helper_kirby.vflip_appended input) (2 * input.length - b)) =
      common_prefix_length ((lz_helper_kirby.vflip_appended input).drop pos)
        ((lz_helper_kirby.vflip_appended input).drop (2 * input.length - b)) := by
    intro b hb
    have := hadded b hb
    exact span_min_lcp_rank _ pos (2 * input.length - b) (by rw [hlen]; exact hn)
      (by rw [hlen]; omega) (by rw [hlen]; omega) (by omega)
  obtain ⟨k1, k2, k3⟩ := index_ok_lcp_rank (lz_helper_kirby.vflip_appended input)
  rw [lz_helper_kirby_fold]
  unfold lz_helper_kirby.find_v
  simp only [lz_helper_kirby.create]
  rw [k1, List.length_map, List.length_range, hlen, getD_map_range _ _ _ (by omega)]
  have hcongr := add_all_congr
    (fun a => ((List.range (2 * input.length + 1)).map
      (suffix_rank (lz_helper_kirby.vflip_appended input))).getD (2 * input.length - a) 0)
    (fun a => suffix_rank (lz_helper_kirby.vflip_appended input) (2 * input.length - a)) added
    (segment_tree.of_size (range_max int32_min) (2 * input.length + 1))
    (fun a ha => getD_map_range _ _ _ (by have := hadded a ha; omega))
  rw [hcongr]
  have := find_added lcp_rank index_ok_lcp_rank (lz_helper_kirby.vflip_appended input)
    (fun a => 2 * input.length - a) added pos pos d min_len
    (by rw [hlen]; exact hn) (by rw [hlen]; omega) (by omega)
    (fun a ha => by
      have := hadded a ha
      refine ⟨by omega, ?_, ?_⟩
      · show 2 * input.length - a < (lz_helper_kirby.vflip_appended input).length
        rw [hlen]; omega
      · show 2 * input.length - a ≠ pos
        omega)
    (fun a ha b hb h => by
      have h' : 2 * input.length - a = 2 * input.length - b := h
      have := hadded a ha
      have := hadded b hb
      omega) hd hmin
  rw [hlen] at this
  obtain ⟨r, hr, h⟩ := this
  refine ⟨r, hr, ?_⟩
  rcases h with ⟨h1, h2⟩ | ⟨a, ha, h1, h2, h3, h4⟩
  · left
    refine ⟨h1, ?_⟩
    intro b hb hdist
    rw [← hcp b hb]
    exact h2 b hb hdist
  · right
    have e : r.ofs = a := by rw [h2]
    rw [e]
    refine ⟨ha, h1, h3, ?_, ?_⟩
    · rw [h2]; exact hcp a ha
    · intro b hb hdist
      rw [← hcp b hb]
      exact h4 b hb hdist

end sfc_comp

namespace sfc_comp
open encode sssp_solver

theorem vflip_appended_drop (input : List Nat) (i : Nat) (hi : i < input.length) :
    (lz_helper_kirby.vflip_appended input).drop (2 * input.length - i) =
      bytes (input.take (i + 1)).reverse := by
  rw [vflip_appended_reverse]
  have e : 2 * input.length - i = (bytes input ++ [-1]).length + (input.length - 1 - i) := by
    simp [bytes_length]; omega
  rw [e, List.drop_append]
  unfold bytes
  rw [← List.map_drop, List.drop_reverse]
  have e2 : input.length - (input.length - 1 - i) = i + 1 := by omega
  rw [e2]

end sfc_comp

namespace sfc_comp
open encode sssp_solver

/-- C8 (amended).  The v-index of `lz_helper_kirby` is built over `input ++ [-1] ++
reverse(input)`, and `add_element(i)` records `i` at the rank of the augmented suffix `2n - i`,
which reads `input[i], input[i-1], ..., input[0]`.  With the `lcp` array indexed as the search
reads it (`lcp[i]` for the suffixes `sa[i]` and `sa[i+1]`), `2n+1 < 2^31`, `pos < n`, added
positions below `n`, `max_dist < pos + 2^31` and `min_len >= 1`: `find_v(pos, max_dist,
min_len)` returns, and every non-empty result `{ofs, len}` has `ofs` added, `len >= min_len`,
`len <= ofs + 1`, `pos + len <= n` and `input[pos+t] = input[ofs - t]` for every `t < len`. -/
theorem lz_helper_kirby_find_v_reverse (input : List Nat) (added : List Nat)
    (pos max_dist min_len : Nat)
    (hn : 2 * input.length + 1 < 2 ^ 31) (hpos : pos < input.length)
    (hadded : ∀ a ∈ added, a < input.length)
    (hd : max_dist < pos + 2 ^ 31) (hmin : 1 ≤ min_len) :
    lz_helper_kirby.vflip_appended input = bytes input ++ [-1] ++ bytes input.reverse ∧
    (∀ i, i < input.length →
      ((lz_helper_kirby.create lcp_rank input).add_element i).seg_v =
        (lz_helper_kirby.create lcp_rank input).seg_v.update
          (suffix_rank (lz_helper_kirby.vflip_appended input) (2 * input.length - i))
          (signed_index i) ∧
      (lz_helper_kirby.vflip_appended input).drop (2 * input.length - i) =
        bytes (input.take (i + 1)).reverse) ∧
    ∃ r, (added.foldl lz_helper_kirby.add_element (lz_helper_kirby.create lcp_rank input)).find_v
        pos max_dist min_len = some r ∧
      (r = lz.empty ∨
        (r.ofs ∈ added ∧ pos ≤ r.ofs + max_dist ∧ min_len ≤ r.len ∧ r.len ≤ r.ofs + 1 ∧
          pos + r.len ≤ input.length ∧
          ∀ t, t < r.len → input.getD (pos + t) 0 = input.getD (r.ofs - t) 0)) := by
  have hlen := vflip_appended_length input
  refine ⟨vflip_appended_reverse input, ?_, ?_⟩
  · intro i hi
    refine ⟨?_, vflip_appended_drop input i hi⟩
    have hrank : (lz_helper_kirby.create lcp_rank input).rank_v.getD (2 * input.length - i) 0 =
        suffix_rank (lz_helper_kirby.vflip_appended input) (2 * input.length - i) :=
      getD_map_range _ _ _ (by rw [hlen]; omega)
    show segment_tree.update _
      ((lz_helper_kirby.create lcp_rank input).rank_v.getD (2 * input.length - i) 0) _ = _
    rw [hrank]
  obtain ⟨r, hr, h⟩ := lz_helper_kirby_find_v_added input added pos max_dist min_len hn hpos
    hadded hd hmin
  refine ⟨r, hr, ?_⟩
  rcases h with ⟨h1, _⟩ | ⟨ha, h1, h3, e2, _⟩
  · left; exact h1
  · right
    have ha' := hadded _ ha
    have g := glued_common_prefix_bound input
      ((List.range input.length).map (fun i => input.getD (input.length - 1 - i) 0)) pos
      (input.length - 1 - r.ofs) (by omega) (by rw [List.length_map, List.length_range]; omega)
    have e : input.length + 1 + (input.length - 1 - r.ofs) = 2 * input.length - r.ofs := by
      omega
    rw [e, List.length_map, List.length_range] at g
    unfold lz_helper_kirby.vflip_appended at e2
    rw [← e2] at g
    refine ⟨ha, h1, h3, by omega, g.1, ?_⟩
    intro t ht
    rw [g.2.2 t ht, getD_map_range _ _ _ (by omega)]
    congr 1
    omega

/-- Witness for C8: `"abcba"` with the positions 0, 1, 2 added, queried at position 3 with
`max_dist = 3` and `min_len = 2`; the result is `{ofs 1, len 2}`. -/
theorem lz_helper_kirby_find_v_reverse_witness :
    2 * ([97, 98, 99, 98, 97] : List Nat).length + 1 < 2 ^ 31 ∧
    3 < ([97, 98, 99, 98, 97] : List Nat).length ∧
    (∀ a ∈ ([0, 1, 2] : List Nat), a < ([97, 98, 99, 98, 97] : List Nat).length) ∧
    3 < 3 + 2 ^ 31 ∧ 1 ≤ 2 ∧
    (([0, 1, 2] : List Nat).foldl lz_helper_kirby.add_element
      (lz_helper_kirby.create lcp_rank [97, 98, 99, 98, 97])).find_v 3 3 2 = some ⟨1, 2⟩ ∧
    ∃ r, (([0, 1, 2] : List Nat).foldl lz_helper_kirby.add_element
        (lz_helper_kirby.create lcp_rank [97, 98, 99, 98, 97])).find_v 3 3 2 = some r ∧
      (r = lz.empty ∨
        (r.ofs ∈ ([0, 1, 2] : List Nat) ∧ 3 ≤ r.ofs + 3 ∧ 2 ≤ r.len ∧ r.len ≤ r.ofs + 1 ∧
          3 + r.len ≤ ([97, 98, 99, 98, 97] : List Nat).length ∧
          ∀ t, t < r.len → ([97, 98, 99, 98, 97] : List Nat).getD (3 + t) 0 =
            ([97, 98, 99, 98, 97] : List Nat).getD (r.ofs - t) 0)) :=
  ⟨by decide, by decide, by decide, by decide, by decide, by decide,
    (lz_helper_kirby_find_v_reverse [97, 98, 99, 98, 97] [0, 1, 2] 3 3 2
      (by decide) (by decide) (by decide) (by decide) (by decide)).2.2⟩

/-- Counterexample to C8 as stated.  First part: with the `lcp` array of the data model
(`lcp[i]` for the suffixes `sa[i-1]` and `sa[i]`) in the LCP tree, on the input `[1, 0, 0]`
with position 0 added, `find_v(1, 1, 1)` is `{ofs 0, len 1}` although `input[1] = 0` is not
`input[0] = 1`.  Second part: on `[0, 0]` with position 0 added, `find_v(1, 2^31 + 1, 1)`
returns `{2^64 - 2^31, 2^32 - 1}`, whose `len` runs past the end of the input. -/
theorem lz_helper_kirby_find_v_reverse_counterexample :
    ((([0] : List Nat).foldl lz_helper_kirby.add_element
        (lz_helper_kirby.create lcp_rank_spec [1, 0, 0])).find_v 1 1 1 = some ⟨0, 1⟩ ∧
      ([1, 0, 0] : List Nat).getD (1 + 0) 0 ≠ ([1, 0, 0] : List Nat).getD (0 - 0) 0) ∧
    ((([0] : List Nat).foldl lz_helper_kirby.add_element
        (lz_helper_kirby.create lcp_rank [0, 0])).find_v 1 (2 ^ 31 + 1) 1 =
        some ⟨18446744071562067968, 4294967295⟩ ∧
      ¬ (1 + 4294967295 ≤ ([0, 0] : List Nat).length)) := by
  refine ⟨⟨by decide, by decide⟩, ⟨by decide, by decide⟩⟩

end sfc_comp

namespace sfc_comp
open encode sssp_solver

/-- C9 (amended).  For the input `"abcba"` with the v-flip helper and the positions 0, 1, 2
added, `find_v(3, d, 2)` with any `3 <= d < 3 + 2^31` returns the non-empty match
`{ofs 1, len 2}` (`input[3], input[4]` mirror `input[1], input[0]`), and `find_v(3, d, 3)`
returns the empty match `{0,0}`: no mirrored match at position 3 is longer than 2. -/
theorem lz_helper_kirby_palindrome (d : Nat) (h3 : 3 ≤ d) (hd : d < 3 + 2 ^ 31) :
    (([0, 1, 2] : List Nat).foldl lz_helper_kirby.add_element
      (lz_helper_kirby.create lcp_rank [97, 98, 99, 98, 97])).find_v 3 d 2 = some ⟨1, 2⟩ ∧
    (([0, 1, 2] : List Nat).foldl lz_helper_kirby.add_element
      (lz_helper_kirby.create lcp_rank [97, 98, 99, 98, 97])).find_v 3 d 3 = some lz.empty := by
  have c0 : common_prefix_length ((lz_helper_kirby.vflip_appended [97, 98, 99, 98, 97]).drop 3)
      ((lz_helper_kirby.vflip_appended [97, 98, 99, 98, 97]).drop
        (2 * ([97, 98, 99, 98, 97] : List Nat).length - 0)) = 0 := by decide
  have c1 : common_prefix_length ((lz_helper_kirby.vflip_appended [97, 98, 99, 98, 97]).drop 3)
      ((lz_helper_kirby.vflip_appended [97, 98, 99, 98, 97]).drop
        (2 * ([97, 98, 99, 98, 97] : List Nat).length - 1)) = 2 := by decide
  have c2 : common_prefix_length ((lz_helper_kirby.vflip_appended [97, 98, 99, 98, 97]).drop 3)
      ((lz_helper_kirby.vflip_appended [97, 98, 99, 98, 97]).drop
        (2 * ([97, 98, 99, 98, 97] : List Nat).length - 2)) = 0 := by decide
  constructor
  · obtain ⟨r, hr, h⟩ := lz_helper_kirby_find_v_added [97, 98, 99, 98, 97] [0, 1, 2] 3 d 2
      (by decide) (by decide) (by decide) hd (by decide)
    rw [hr]
    rcases h with ⟨_, e⟩ | ⟨ha, _, hm, hl, _⟩
    · have := e 1 (by decide) (by omega)
      rw [c1] at this
      omega
    · cases r with
      | mk ofs len =>
        simp only at ha hm hl
        simp only [List.mem_cons, List.mem_singleton, List.not_mem_nil, or_false] at ha
        rcases ha with rfl | rfl | rfl
        · rw [c0] at hl; omega
        · rw [c1] at hl; rw [hl]
        · rw [c2] at hl; omega
  · obtain ⟨r, hr, h⟩ := lz_helper_kirby_find_v_added [97, 98, 99, 98, 97] [0, 1, 2] 3 d 3
      (by decide) (by decide) (by decide) hd (by decide)
    rw [hr]
    rcases h with ⟨e, _⟩ | ⟨ha, _, hm, hl, _⟩
    · rw [e]
    · cases r with
      | mk ofs len =>
        simp only at ha hm hl
        simp only [List.mem_cons, List.mem_singleton, List.not_mem_nil, or_false] at ha
        rcases ha with rfl | rfl | rfl
        · rw [c0] at hl; omega
        · rw [c1] at hl; omega
        · rw [c2] at hl; omega

/-- Witness for C9: the distance `d = 3`. -/
theorem lz_helper_kirby_palindrome_witness :
    3 ≤ 3 ∧ 3 < 3 + 2 ^ 31 ∧
    (([0, 1, 2] : List Nat).foldl lz_helper_kirby.add_element
      (lz_helper_kirby.create lcp_rank [97, 98, 99, 98, 97])).find_v 3 3 2 = some ⟨1, 2⟩ ∧
    (([0, 1, 2] : List Nat).foldl lz_helper_kirby.add_element
      (lz_helper_kirby.create lcp_rank [97, 98, 99, 98, 97])).find_v 3 3 3 = some lz.empty :=
  ⟨by decide, by decide, lz_helper_kirby_palindrome 3 (by decide) (by decide)⟩

/-- Counterexample to C9 as stated: for `"abcba"` with the positions 0, 1, 2 added,
`find_v(3, 3, 3)` is the empty match `{0,0}`, whichever of the two `lcp` conventions fills the
LCP tree. -/
theorem lz_helper_kirby_palindrome_counterexample :
    (([0, 1, 2] : List Nat).foldl lz_helper_kirby.add_element
      (lz_helper_kirby.create lcp_rank [97, 98, 99, 98, 97])).find_v 3 3 3 = some ⟨0, 0⟩ ∧
    (([0, 1, 2] : List Nat).foldl lz_helper_kirby.add_element
      (lz_helper_kirby.create lcp_rank_spec [97, 98, 99, 98, 97])).find_v 3 3 3 = some ⟨0, 0⟩ := by
  refine ⟨by decide, by decide⟩

end sfc_comp

namespace sfc_comp
open encode sssp_solver

theorem size_t_sub (a b : Nat) (h : b ≤ a) (ha : a < 2 ^ 64) :
    size_t ((a : Int) - (b : Int)) = a - b := by
  have e : (a : Int) - (b : Int) = ((a - b : Nat) : Int) := by omega
  rw [e, size_t_nat _ (by omega)]

theorem size_t_add (a b : Nat) (h : a + b < 2 ^ 64) :
    size_t ((a : Int) + (b : Int)) = a + b := by
  have e : (a : Int) + (b : Int) = ((a + b : Nat) : Int) := by omega
  rw [e, size_t_nat _ h]

namespace encode
namespace lz

/-- The loop of `find_non_overlapping` for positions below `2^63`: it ends within
`len_hi - ret.len + 1` rounds, keeps every property `V` that the clipped query results have,
and ends with a result at least as long as a bound `h` with `U h`, where `U` is any property
of the upper bound that a short query result establishes. -/
theorem find_non_overlapping_loop_spec (adr : Nat) (find_lz : Nat → lz_data)
    (V : lz_data → Prop) (U : Nat → Prop) (hadr : adr < 2 ^ 63)
    (hstep : ∀ len, 1 ≤ len → len ≤ adr →
      V (if overlapped adr (find_lz (adr - (len - 1))) then
          ⟨(find_lz (adr - (len - 1))).ofs, size_t ((adr : Int) -
            ((find_lz (adr - (len - 1))).ofs : Int))⟩
        else find_lz (adr - (len - 1))) ∧
      ((if overlapped adr (find_lz (adr - (len - 1))) then
          (⟨(find_lz (adr - (len - 1))).ofs, size_t ((adr : Int) -
            ((find_lz (adr - (len - 1))).ofs : Int))⟩ : lz_data)
        else find_lz (adr - (len - 1))).len < len → U (len - 1))) :
    ∀ (fuel : Nat) (ret : lz_data) (len_hi : Nat), len_hi ≤ adr → len_hi - ret.len < fuel →
      V ret → U len_hi →
      ∃ res, find_non_overlapping_loop adr find_lz fuel ret len_hi = some res ∧ V res ∧
        ∃ h, U h ∧ h ≤ res.len := by
  intro fuel
  induction fuel with
  | zero => intro ret len_hi _ h; omega
  | succ fuel ih =>
    intro ret len_hi hle hfuel hV hU
    unfold find_non_overlapping_loop
    by_cases hc : ret.len < len_hi
    · rw [if_pos hc]
      have e1 : size_t ((ret.len : Int) + (len_hi : Int) + 1) = ret.len + len_hi + 1 := by
        have e : (ret.len : Int) + (len_hi : Int) + 1 = ((ret.len + len_hi + 1 : Nat) : Int) := by
          omega
        rw [e, size_t_nat _ (by omega)]
      have hlen1 : 1 ≤ (ret.len + len_hi + 1) / 2 := by omega
      have hlen2 : (ret.len + len_hi + 1) / 2 ≤ len_hi := by omega
      have hlen3 : ret.len < (ret.len + len_hi + 1) / 2 := by omega
      have e2 : size_t ((((ret.len + len_hi + 1) / 2 : Nat) : Int) - 1) =
          (ret.len + len_hi + 1) / 2 - 1 := by
        have := size_t_sub ((ret.len + len_hi + 1) / 2) 1 hlen1 (by omega)
        rw [← this]
        rfl
      have e3 : size_t ((adr : Int) - (((ret.len + len_hi + 1) / 2 - 1 : Nat) : Int)) =
          adr - ((ret.len + len_hi + 1) / 2 - 1) :=
        size_t_sub adr _ (by omega) (by omega)
      simp only [e1, e2, e3]
      obtain ⟨s1, s2⟩ := hstep ((ret.len + len_hi + 1) / 2) hlen1 (by omega)
      generalize (if overlapped adr (find_lz (adr - ((ret.len + len_hi + 1) / 2 - 1))) then
          (⟨(find_lz (adr - ((ret.len + len_hi + 1) / 2 - 1))).ofs, size_t ((adr : Int) -
            ((find_lz (adr - ((ret.len + len_hi + 1) / 2 - 1))).ofs : Int))⟩ : lz_data)
        else find_lz (adr - ((ret.len + len_hi + 1) / 2 - 1))) = lz at s1 s2 ⊢
      by_cases hs : lz.len < (ret.len + len_hi + 1) / 2
      · rw [if_pos hs]
        apply ih
        · omega
        · by_cases hg : lz.gt ret = true
          · rw [if_pos hg]
            simp only [lz_data.gt, Bool.or_eq_true, Bool.and_eq_true, decide_eq_true_eq] at hg
            omega
          · rw [if_neg hg]; omega
        · by_cases hg : lz.gt ret = true
          · rw [if_pos hg]; exact s1
          · rw [if_neg hg]; exact hV
        · exact s2 hs
      · rw [if_neg hs]
        have hg : lz.gt ret = true := by
          simp only [lz_data.gt, Bool.or_eq_true, Bool.and_eq_true, decide_eq_true_eq]
          left; omega
        rw [if_pos hg]
        apply ih
        · exact hle
        · omega
        · exact s1
        · exact hU
    · rw [if_neg hc]
      exact ⟨ret, rfl, hV, len_hi, hU, by omega⟩

end lz
end encode

end sfc_comp

namespace sfc_comp
open encode sssp_solver

namespace encode
namespace lz

theorem overlapped_false (adr : Nat) (z : lz_data) (hfit : z.ofs + z.len < 2 ^ 64)
    (h : overlapped adr z = false) : z.len = 0 ∨ z.ofs + z.len ≤ adr := by
  unfold overlapped at h
  rw [size_t_add _ _ hfit] at h
  simp only [Bool.and_eq_false_iff, decide_eq_false_iff_not] at h
  omega

theorem overlapped_true (adr : Nat) (z : lz_data) (hfit : z.ofs + z.len < 2 ^ 64)
    (h : overlapped adr z = true) : 0 < z.len ∧ adr < z.ofs + z.len := by
  unfold overlapped at h
  rw [size_t_add _ _ hfit] at h
  simp only [Bool.and_eq_true, decide_eq_true_eq] at h
  omega

/-- The first query position of `find_non_overlapping` when `prev.len <= adr + 1`. -/
theorem first_query (adr : Nat) (prev : lz_data) (hadr : adr < 2 ^ 63)
    (hprev : prev.len ≤ adr + 1) :
    size_t ((adr : Int) - (size_t ((max (if prev.len ≥ 1 then
        (⟨size_t ((prev.ofs : Int) + 1), size_t ((prev.len : Int) - 1)⟩ : lz_data)
      else prev).len 1 : Nat) - 1 : Int) : Int)) = adr - (max (prev.len - 1) 1 - 1) := by
  have e0 : (if prev.len ≥ 1 then
        (⟨size_t ((prev.ofs : Int) + 1), size_t ((prev.len : Int) - 1)⟩ : lz_data)
      else prev).len = prev.len - 1 := by
    by_cases h : prev.len ≥ 1
    · rw [if_pos h]
      exact size_t_sub prev.len 1 h (by omega)
    · rw [if_neg h]; omega
  rw [e0]
  have e1 : size_t ((max (prev.len - 1) 1 : Nat) - 1 : Int) = max (prev.len - 1) 1 - 1 :=
    size_t_sub _ 1 (by omega) (by omega)
  rw [e1]
  exact size_t_sub adr _ (by omega) (by omega)

end lz
end encode

/-- C5 (amended).  For every `adr < 2^63`, every `adr_l <= adr`, every `prev` with
`prev.len <= adr + 1`, and every query function `find_lz` whose non-empty result for argument
`r` has its source start below `r` and whose results have `ofs + len < 2^64`:
`find_non_overlapping(adr_l, adr, find_lz, prev)` returns, and the record `{ofs, len}` it
returns has `len = 0` or `ofs + len <= adr`. -/
theorem find_non_overlapping_no_overlap (adr_l adr : Nat) (find_lz : Nat → lz_data)
    (prev : lz_data) (hadr : adr < 2 ^ 63) (hl : adr_l ≤ adr) (hprev : prev.len ≤ adr + 1)
    (hsrc : ∀ r, (find_lz r).len = 0 ∨ (find_lz r).ofs < r)
    (hfit : ∀ r, (find_lz r).ofs + (find_lz r).len < 2 ^ 64) :
    ∃ res, lz.find_non_overlapping adr_l adr find_lz prev = some res ∧
      (res.len = 0 ∨ res.ofs + res.len ≤ adr) := by
  have hclip : ∀ r, r ≤ adr →
      (fun z : lz_data => z.len = 0 ∨ z.ofs + z.len ≤ adr)
        (if lz.overlapped adr (find_lz r) then
          ⟨(find_lz r).ofs, size_t ((adr : Int) - ((find_lz r).ofs : Int))⟩
        else find_lz r) := by
    intro r hr
    by_cases ho : lz.overlapped adr (find_lz r) = true
    · rw [if_pos ho]
      have := lz.overlapped_true adr _ (hfit r) ho
      have hs := hsrc r
      have e : size_t ((adr : Int) - ((find_lz r).ofs : Int)) = adr - (find_lz r).ofs :=
        size_t_sub adr _ (by omega) (by omega)
      show _ ∨ (find_lz r).ofs + size_t ((adr : Int) - ((find_lz r).ofs : Int)) ≤ adr
      rw [e]
      omega
    · rw [if_neg ho]
      exact lz.overlapped_false adr _ (hfit r) (by simpa using ho)
  unfold lz.find_non_overlapping
  simp only []
  rw [lz.first_query adr prev hadr hprev]
  generalize hk : adr - (max (prev.len - 1) 1 - 1) = k
  have hkle : k ≤ adr := by omega
  by_cases ho : lz.overlapped adr (find_lz k) = false
  · rw [if_pos ho]
    exact ⟨_, rfl, lz.overlapped_false adr _ (hfit k) ho⟩
  · rw [if_neg ho]
    have e : size_t ((adr : Int) - (adr_l : Int)) = adr - adr_l :=
      size_t_sub adr adr_l hl (by omega)
    rw [e]
    have hinit := hclip k hkle
    rw [if_pos (by simpa using ho)] at hinit
    obtain ⟨res, h1, h2, _⟩ := lz.find_non_overlapping_loop_spec adr find_lz
      (fun z : lz_data => z.len = 0 ∨ z.ofs + z.len ≤ adr) (fun _ => True) hadr
      (fun len h1 h2 => ⟨hclip _ (by omega), fun _ => trivial⟩)
      (min (adr - adr_l) (find_lz k).len + 1)
      ⟨(find_lz k).ofs, size_t ((adr : Int) - ((find_lz k).ofs : Int))⟩
      (min (adr - adr_l) (find_lz k).len) (by omega) (by omega) hinit trivial
    exact ⟨res, h1, h2⟩

/-- Witness for C5: `adr = 5`, `adr_l = 0`, an empty `prev`, and the query function answering
`{0, 10}` for every `r > 0`; the result is `{0, 5}`. -/
theorem find_non_overlapping_no_overlap_witness :
    (5 : Nat) < 2 ^ 63 ∧ (0 : Nat) ≤ 5 ∧ (lz.empty).len ≤ 5 + 1 ∧
    (∀ r, ((fun r => if r = 0 then lz.empty else ⟨0, 10⟩ : Nat → lz_data) r).len = 0 ∨
      ((fun r => if r = 0 then lz.empty else ⟨0, 10⟩ : Nat → lz_data) r).ofs < r) ∧
    (∀ r, ((fun r => if r = 0 then lz.empty else ⟨0, 10⟩ : Nat → lz_data) r).ofs +
      ((fun r => if r = 0 then lz.empty else ⟨0, 10⟩ : Nat → lz_data) r).len < 2 ^ 64) ∧
    lz.find_non_overlapping 0 5 (fun r => if r = 0 then lz.empty else ⟨0, 10⟩) lz.empty =
      some ⟨0, 5⟩ ∧
    ∃ res, lz.find_non_overlapping 0 5 (fun r => if r = 0 then lz.empty else ⟨0, 10⟩)
        lz.empty = some res ∧ (res.len = 0 ∨ res.ofs + res.len ≤ 5) := by
  have a1 : ∀ r, ((fun r => if r = 0 then lz.empty else ⟨0, 10⟩ : Nat → lz_data) r).len = 0 ∨
      ((fun r => if r = 0 then lz.empty else ⟨0, 10⟩ : Nat → lz_data) r).ofs < r := by
    intro r
    by_cases h : r = 0
    · left; simp [h, lz.empty]
    · right; simp only [if_neg h]; omega
  have a2 : ∀ r, ((fun r => if r = 0 then lz.empty else ⟨0, 10⟩ : Nat → lz_data) r).ofs +
      ((fun r => if r = 0 then lz.empty else ⟨0, 10⟩ : Nat → lz_data) r).len < 2 ^ 64 := by
    intro r
    by_cases h : r = 0
    · simp [h, lz.empty]
    · simp only [if_neg h]; decide
  exact ⟨by decide, by decide, by decide, a1, a2, by decide,
    find_non_overlapping_no_overlap 0 5 _ lz.empty (by decide) (by decide) (by decide) a1 a2⟩

/-- Counterexample to C5 as stated.  First part: `adr = adr_l = 0`, `prev = {0, 3}` and the
query function answering `{r - 1, 1}` for `r > 0`: the first query position
`adr - (prev.len - 2)` wraps to `2^64 - 1`, and the result `{2^64 - 2, 2}` has `len > 0` and
`ofs + len > adr`.  Second part: `adr = 5`, an empty `prev`, and a query function answering
`{1, 2^64 - 1}` for `r > 1`: `ofs + len` wraps to 0, the record counts as not overlapping and
is returned. -/
theorem find_non_overlapping_no_overlap_counterexample :
    (lz.find_non_overlapping 0 0 (fun r => if r = 0 then lz.empty else ⟨r - 1, 1⟩) ⟨0, 3⟩ =
        some ⟨18446744073709551614, 2⟩ ∧
      (∀ r, ((fun r => if r = 0 then lz.empty else ⟨r - 1, 1⟩ : Nat → lz_data) r).len = 0 ∨
        ((fun r => if r = 0 then lz.empty else ⟨r - 1, 1⟩ : Nat → lz_data) r).ofs < r) ∧
      ¬ ((2 : Nat) = 0 ∨ 18446744073709551614 + 2 ≤ 0)) ∧
    (lz.find_non_overlapping 0 5
        (fun r => if r ≤ 1 then lz.empty else ⟨1, 18446744073709551615⟩) lz.empty =
        some ⟨1, 18446744073709551615⟩ ∧
      (∀ r, ((fun r => if r ≤ 1 then lz.empty else ⟨1, 18446744073709551615⟩ :
          Nat → lz_data) r).len = 0 ∨
        ((fun r => if r ≤ 1 then lz.empty else ⟨1, 18446744073709551615⟩ :
          Nat → lz_data) r).ofs < r) ∧
      ¬ ((18446744073709551615 : Nat) = 0 ∨ 1 + 18446744073709551615 ≤ 5)) := by
  refine ⟨⟨by decide, ?_, by decide⟩, ⟨by decide, ?_, by decide⟩⟩
  · intro r
    by_cases h : r = 0
    · left; simp [h, lz.empty]
    · right; simp only [if_neg h]; omega
  · intro r
    by_cases h : r ≤ 1
    · left; simp [h, lz.empty]
    · right; simp only [if_neg h]; omega

end sfc_comp

namespace sfc_comp
open encode sssp_solver

theorem common_prefix_tail (x y : List Int) :
    common_prefix_length x y ≤ common_prefix_length x.tail y.tail + 1 := by
  cases x with
  | nil => simp [common_prefix_length]
  | cons a as =>
    cases y with
    | nil => simp [common_prefix_length]
    | cons b bs =>
      have e : common_prefix_length (a :: as) (b :: bs) =
          if a = b then common_prefix_length as bs + 1 else 0 := rfl
      show common_prefix_length (a :: as) (b :: bs) ≤ common_prefix_length as bs + 1
      rw [e]
      split <;> omega

theorem common_prefix_shift (s : List Int) (a b : Nat) :
    common_prefix_length (s.drop a) (s.drop b) ≤ common_prefix_length (s.drop (a + 1)) (s.drop (b + 1)) + 1 := by
  have := common_prefix_tail (s.drop a) (s.drop b)
  rw [List.tail_drop, List.tail_drop] at this
  exact this

namespace encode
namespace lz

/-- The result of `find_non_overlapping` for an abstract match-length function `c`: when every
query answers with a longest source of its range and `prev` announces a source that is still
usable one position later, the result is a source of largest clipped length. -/
theorem find_non_overlapping_max (c : Nat → Nat) (B adr_l adr : Nat) (find_lz : Nat → lz_data)
    (prev : lz_data) (hadr : adr < 2 ^ 63) (hB : B < 2 ^ 63) (hc : ∀ o, c o ≤ B)
    (hl : adr_l ≤ adr)
    (hfind : ∀ r, r ≤ adr →
      (∀ o, adr_l ≤ o → o < r → c o ≤ (find_lz r).len) ∧
      ((find_lz r).len = 0 ∨
        (adr_l ≤ (find_lz r).ofs ∧ (find_lz r).ofs < r ∧ (find_lz r).len = c (find_lz r).ofs)))
    (hprev : prev.len ≤ 1 ∨
      ∃ o, adr_l ≤ o ∧ o + (prev.len - 1) ≤ adr ∧ prev.len - 1 ≤ c o) :
    ∃ res, find_non_overlapping adr_l adr find_lz prev = some res ∧
      (∀ o, adr_l ≤ o → o < adr → min (c o) (adr - o) ≤ res.len) ∧
      (res.len = 0 ∨
        (adr_l ≤ res.ofs ∧ res.ofs < adr ∧ res.len = min (c res.ofs) (adr - res.ofs))) := by
  have hov : ∀ r, r ≤ adr → (find_lz r).len ≠ 0 →
      (overlapped adr (find_lz r) = true ↔ adr < (find_lz r).ofs + (find_lz r).len) := by
    intro r hr hne
    obtain ⟨_, h2⟩ := hfind r hr
    rcases h2 with h2 | ⟨a1, a2, a3⟩
    · exact absurd h2 hne
    · have := hc (find_lz r).ofs
      unfold overlapped
      rw [size_t_add _ _ (by omega)]
      simp only [Bool.and_eq_true, decide_eq_true_eq]
      omega
  have hov0 : ∀ r, (find_lz r).len = 0 → overlapped adr (find_lz r) = false := by
    intro r h0
    unfold overlapped
    simp [h0]
  have hclip : ∀ r, r ≤ adr →
      (fun z : lz_data => z.len = 0 ∨
        (adr_l ≤ z.ofs ∧ z.ofs < adr ∧ z.len = min (c z.ofs) (adr - z.ofs)))
        (if overlapped adr (find_lz r) then
          ⟨(find_lz r).ofs, size_t ((adr : Int) - ((find_lz r).ofs : Int))⟩
        else find_lz r) ∧
      (1 ≤ r → adr - (r - 1) ≤ (find_lz r).len →
        adr - (r - 1) ≤ (if overlapped adr (find_lz r) then
          (⟨(find_lz r).ofs, size_t ((adr : Int) - ((find_lz r).ofs : Int))⟩ : lz_data)
        else find_lz r).len) := by
    intro r hr
    by_cases h0 : (find_lz r).len = 0
    · have := hov0 r h0
      rw [this]
      simp only [Bool.false_eq_true, if_false]
      exact ⟨Or.inl h0, fun _ h => h⟩
    · obtain ⟨_, h2⟩ := hfind r hr
      rcases h2 with h2 | ⟨a1, a2, a3⟩
      · exact absurd h2 h0
      · by_cases ho : overlapped adr (find_lz r) = true
        · have h4 := (hov r hr h0).mp ho
          rw [if_pos ho]
          have e : size_t ((adr : Int) - ((find_lz r).ofs : Int)) = adr - (find_lz r).ofs :=
            size_t_sub adr _ (by omega) (by omega)
          constructor
          · right
            show adr_l ≤ (find_lz r).ofs ∧ (find_lz r).ofs < adr ∧
              size_t ((adr : Int) - ((find_lz r).ofs : Int)) =
                min (c (find_lz r).ofs) (adr - (find_lz r).ofs)
            rw [e, ← a3]
            omega
          · intro h1 _
            show _ ≤ size_t ((adr : Int) - ((find_lz r).ofs : Int))
            rw [e]
            omega
        · have h4 : ¬ adr < (find_lz r).ofs + (find_lz r).len := fun h =>
            ho ((hov r hr h0).mpr h)
          rw [if_neg ho]
          constructor
          · right
            refine ⟨a1, by omega, ?_⟩
            rw [← a3]
            omega
          · intro _ h; exact h
  have hp1 : prev.len ≤ adr + 1 := by
    rcases hprev with h | ⟨o, _, h, _⟩
    · omega
    · omega
  unfold find_non_overlapping
  simp only []
  rw [first_query adr prev hadr hp1]
  generalize hk : adr - (max (prev.len - 1) 1 - 1) = k
  have hkle : k ≤ adr := by omega
  have hub : ∀ o, adr_l ≤ o → o < adr → min (c o) (adr - o) ≤ (find_lz k).len := by
    intro o ho1 ho2
    by_cases hok : o < k
    · have := (hfind k hkle).1 o ho1 hok
      omega
    · rcases hprev with h | ⟨o', q1, q2, q3⟩
      · omega
      · have := (hfind k hkle).1 o' q1 (by omega)
        omega
  by_cases ho : overlapped adr (find_lz k) = false
  · rw [if_pos ho]
    refine ⟨_, rfl, hub, ?_⟩
    have := (hclip k hkle).1
    rw [ho] at this
    simpa using this
  · rw [if_neg ho]
    have ho' : overlapped adr (find_lz k) = true := by simpa using ho
    have e : size_t ((adr : Int) - (adr_l : Int)) = adr - adr_l :=
      size_t_sub adr adr_l hl (by omega)
    rw [e]
    have hinit := (hclip k hkle).1
    rw [if_pos ho'] at hinit
    obtain ⟨res, h1, h2, h, h3, h4⟩ := find_non_overlapping_loop_spec adr find_lz
      (fun z : lz_data => z.len = 0 ∨
        (adr_l ≤ z.ofs ∧ z.ofs < adr ∧ z.len = min (c z.ofs) (adr - z.ofs)))
      (fun h => ∀ o, adr_l ≤ o → o < adr → min (c o) (adr - o) ≤ h) hadr
      (fun len l1 l2 => ⟨(hclip _ (by omega)).1, by
        intro hlt o ho1 ho2
        by_contra hcon
        have hcl := (hclip (adr - (len - 1)) (by omega)).2 (by omega)
        have hf := (hfind (adr - (len - 1)) (by omega)).1 o ho1 (by omega)
        have e : adr - (adr - (len - 1) - 1) = len := by omega
        rw [e] at hcl
        have := hcl (by omega)
        omega⟩)
      (min (adr - adr_l) (find_lz k).len + 1)
      ⟨(find_lz k).ofs, size_t ((adr : Int) - ((find_lz k).ofs : Int))⟩
      (min (adr - adr_l) (find_lz k).len) (by omega) (by omega) hinit
      (by
        intro o ho1 ho2
        have := hub o ho1 ho2
        omega)
    refine ⟨res, h1, ?_, h2⟩
    intro o ho1 ho2
    have := h3 o ho1 ho2
    omega

end lz
end encode

end sfc_comp

namespace sfc_comp
open encode sssp_solver

/-- C6.  `find_non_overlapping` returns the longest non-overlapping match.  For an input `s`
shorter than `2^63`, a position `adr < 2^63`, `adr_l = max(0, adr - max_dist)`, a query function
whose answer for every `r <= adr` is a source in `[adr_l, r)` whose common prefix with the
suffix at `adr` is longest (length 0 if there is none), and `prev` empty or a non-overlapping
match for position `adr - 1` under the same `max_dist` (as the best one is): the function
returns, the length of its result is at least `min(common prefix of ofs and adr, adr - ofs)`
for every source `ofs` in `[adr_l, adr)`, and it is 0 or attained by the source it names. -/
theorem find_non_overlapping_longest (s : List Int) (adr max_dist adr_l adr_p : Nat)
    (find_lz : Nat → lz_data) (prev : lz_data)
    (hs : s.length < 2 ^ 63) (hadr : adr < 2 ^ 63)
    (hl : adr_l = if adr < max_dist then 0 else adr - max_dist)
    (hp : adr_p = if adr - 1 < max_dist then 0 else adr - 1 - max_dist)
    (hfind : ∀ r, r ≤ adr →
      (∀ o, adr_l ≤ o → o < r →
        common_prefix_length (s.drop o) (s.drop adr) ≤ (find_lz r).len) ∧
      ((find_lz r).len = 0 ∨
        (adr_l ≤ (find_lz r).ofs ∧ (find_lz r).ofs < r ∧
          (find_lz r).len = common_prefix_length (s.drop (find_lz r).ofs) (s.drop adr))))
    (hprev : prev.len = 0 ∨
      (1 ≤ adr ∧ adr_p ≤ prev.ofs ∧ prev.ofs + prev.len ≤ adr - 1 ∧
        prev.len ≤ common_prefix_length (s.drop prev.ofs) (s.drop (adr - 1)))) :
    ∃ res, lz.find_non_overlapping adr_l adr find_lz prev = some res ∧
      (∀ o, adr_l ≤ o → o < adr →
        min (common_prefix_length (s.drop o) (s.drop adr)) (adr - o) ≤ res.len) ∧
      (res.len = 0 ∨
        (adr_l ≤ res.ofs ∧ res.ofs < adr ∧
          res.len = min (common_prefix_length (s.drop res.ofs) (s.drop adr)) (adr - res.ofs))) := by
  apply lz.find_non_overlapping_max (fun o => common_prefix_length (s.drop o) (s.drop adr)) s.length
    adr_l adr find_lz prev hadr hs
  · intro o
    have := (common_prefix_le (s.drop o) (s.drop adr)).1
    rw [List.length_drop] at this
    show common_prefix_length (s.drop o) (s.drop adr) ≤ s.length
    omega
  · rw [hl]; split <;> omega
  · exact hfind
  · rcases hprev with h | ⟨h1, h2, h3, h4⟩
    · left; omega
    · by_cases h5 : prev.len ≤ 1
      · left; exact h5
      · right
        refine ⟨prev.ofs + 1, ?_, by omega, ?_⟩
        · rw [hl]
          rw [hp] at h2
          split <;> split at h2 <;> omega
        · have := common_prefix_shift s prev.ofs (adr - 1)
          have e : adr - 1 + 1 = adr := by omega
          rw [e] at this
          show prev.len - 1 ≤ common_prefix_length (s.drop (prev.ofs + 1)) (s.drop adr)
          omega

/-- Witness for C6: six equal bytes, `adr = 3`, `max_dist = 3`, the query function answering
with the nearest source `{r - 1, 3}`, and `prev = {0, 2}`, the best non-overlapping match at
position 2; the binary search ends with `{0, 3}`. -/
theorem find_non_overlapping_longest_witness :
    ([1, 1, 1, 1, 1, 1] : List Int).length < 2 ^ 63 ∧ (3 : Nat) < 2 ^ 63 ∧
    (0 : Nat) = (if 3 < 3 then 0 else 3 - 3) ∧ (0 : Nat) = (if 3 - 1 < 3 then 0 else 3 - 1 - 3) ∧
    (∀ r, r ≤ 3 →
      (∀ o, 0 ≤ o → o < r →
        common_prefix_length (([1, 1, 1, 1, 1, 1] : List Int).drop o)
          (([1, 1, 1, 1, 1, 1] : List Int).drop 3) ≤
          ((fun r => if r = 0 then lz.empty else ⟨r - 1, 3⟩ : Nat → lz_data) r).len) ∧
      (((fun r => if r = 0 then lz.empty else ⟨r - 1, 3⟩ : Nat → lz_data) r).len = 0 ∨
        (0 ≤ ((fun r => if r = 0 then lz.empty else ⟨r - 1, 3⟩ : Nat → lz_data) r).ofs ∧
          ((fun r => if r = 0 then lz.empty else ⟨r - 1, 3⟩ : Nat → lz_data) r).ofs < r ∧
          ((fun r => if r = 0 then lz.empty else ⟨r - 1, 3⟩ : Nat → lz_data) r).len =
            common_prefix_length (([1, 1, 1, 1, 1, 1] : List Int).drop
              ((fun r => if r = 0 then lz.empty else ⟨r - 1, 3⟩ : Nat → lz_data) r).ofs)
              (([1, 1, 1, 1, 1, 1] : List Int).drop 3)))) ∧
    ((⟨0, 2⟩ : lz_data).len = 0 ∨
      (1 ≤ 3 ∧ 0 ≤ (⟨0, 2⟩ : lz_data).ofs ∧
        (⟨0, 2⟩ : lz_data).ofs + (⟨0, 2⟩ : lz_data).len ≤ 3 - 1 ∧
        (⟨0, 2⟩ : lz_data).len ≤ common_prefix_length
          (([1, 1, 1, 1, 1, 1] : List Int).drop (⟨0, 2⟩ : lz_data).ofs)
          (([1, 1, 1, 1, 1, 1] : List Int).drop (3 - 1)))) ∧
    lz.find_non_overlapping 0 3 (fun r => if r = 0 then lz.empty else ⟨r - 1, 3⟩) ⟨0, 2⟩ =
      some ⟨0, 3⟩ ∧
    ∃ res, lz.find_non_overlapping 0 3 (fun r => if r = 0 then lz.empty else ⟨r - 1, 3⟩)
        ⟨0, 2⟩ = some res ∧
      (∀ o, 0 ≤ o → o < 3 →
        min (common_prefix_length (([1, 1, 1, 1, 1, 1] : List Int).drop o)
          (([1, 1, 1, 1, 1, 1] : List Int).drop 3)) (3 - o) ≤ res.len) ∧
      (res.len = 0 ∨
        (0 ≤ res.ofs ∧ res.ofs < 3 ∧
          res.len = min (common_prefix_length (([1, 1, 1, 1, 1, 1] : List Int).drop res.ofs)
            (([1, 1, 1, 1, 1, 1] : List Int).drop 3)) (3 - res.ofs))) := by
  have a1 : ∀ r, r ≤ 3 →
      (∀ o, 0 ≤ o → o < r →
        common_prefix_length (([1, 1, 1, 1, 1, 1] : List Int).drop o)
          (([1, 1, 1, 1, 1, 1] : List Int).drop 3) ≤
          ((fun r => if r = 0 then lz.empty else ⟨r - 1, 3⟩ : Nat → lz_data) r).len) ∧
      (((fun r => if r = 0 then lz.empty else ⟨r - 1, 3⟩ : Nat → lz_data) r).len = 0 ∨
        (0 ≤ ((fun r => if r = 0 then lz.empty else ⟨r - 1, 3⟩ : Nat → lz_data) r).ofs ∧
          ((fun r => if r = 0 then lz.empty else ⟨r - 1, 3⟩ : Nat → lz_data) r).ofs < r ∧
          ((fun r => if r = 0 then lz.empty else ⟨r - 1, 3⟩ : Nat → lz_data) r).len =
            common_prefix_length (([1, 1, 1, 1, 1, 1] : List Int).drop
              ((fun r => if r = 0 then lz.empty else ⟨r - 1, 3⟩ : Nat → lz_data) r).ofs)
              (([1, 1, 1, 1, 1, 1] : List Int).drop 3))) := by decide
  have a2 : (⟨0, 2⟩ : lz_data).len = 0 ∨
      (1 ≤ 3 ∧ 0 ≤ (⟨0, 2⟩ : lz_data).ofs ∧
        (⟨0, 2⟩ : lz_data).ofs + (⟨0, 2⟩ : lz_data).len ≤ 3 - 1 ∧
        (⟨0, 2⟩ : lz_data).len ≤ common_prefix_length
          (([1, 1, 1, 1, 1, 1] : List Int).drop (⟨0, 2⟩ : lz_data).ofs)
          (([1, 1, 1, 1, 1, 1] : List Int).drop (3 - 1))) := by decide
  exact ⟨by decide, by decide, by decide, by decide, a1, a2, by decide,
    find_non_overlapping_longest [1, 1, 1, 1, 1, 1] 3 3 0 0 _ ⟨0, 2⟩ (by decide) (by decide)
      (by decide) (by decide) a1 a2⟩

end sfc_comp

namespace sfc_comp
open encode sssp_solver

theorem indexed_cost_lt_iff (a b : indexed_cost) :
    a.lt b = true ↔ (a.cost < b.cost ∨ (a.cost = b.cost ∧ a.index < b.index)) := by
  simp [indexed_cost.lt]

/-- The fold of `range_min<indexed_cost>`: the identity or a cell of the range, and no cell of
the range nor the identity is smaller. -/
theorem fold_range_indexed (iden : indexed_cost) (f : Nat → indexed_cost) :
    ∀ (len a : Nat),
      (fold_range (range_min_indexed iden) f a len = iden ∨
        ∃ j, a ≤ j ∧ j < a + len ∧ fold_range (range_min_indexed iden) f a len = f j) ∧
      (∀ j, a ≤ j → j < a + len →
        (f j).lt (fold_range (range_min_indexed iden) f a len) = false) ∧
      iden.lt (fold_range (range_min_indexed iden) f a len) = false := by
  intro len
  induction len with
  | zero =>
    intro a
    refine ⟨Or.inl rfl, fun j h1 h2 => by omega, ?_⟩
    show iden.lt iden = false
    simp [indexed_cost.lt]
  | succ len ih =>
    intro a
    obtain ⟨h1, h2, h3⟩ := ih (a + 1)
    show (((range_min_indexed iden).op (f a) (fold_range (range_min_indexed iden) f (a + 1) len)
        = iden) ∨ ∃ j, a ≤ j ∧ j < a + (len + 1) ∧
        (range_min_indexed iden).op (f a) (fold_range (range_min_indexed iden) f (a + 1) len)
          = f j) ∧
      (∀ j, a ≤ j → j < a + (len + 1) → (f j).lt ((range_min_indexed iden).op (f a)
        (fold_range (range_min_indexed iden) f (a + 1) len)) = false) ∧
      iden.lt ((range_min_indexed iden).op (f a)
        (fold_range (range_min_indexed iden) f (a + 1) len)) = false
    generalize fold_range (range_min_indexed iden) f (a + 1) len = R at h1 h2 h3
    show ((if R.lt (f a) then R else f a) = iden ∨ ∃ j, a ≤ j ∧ j < a + (len + 1) ∧
        (if R.lt (f a) then R else f a) = f j) ∧
      (∀ j, a ≤ j → j < a + (len + 1) → (f j).lt (if R.lt (f a) then R else f a) = false) ∧
      iden.lt (if R.lt (f a) then R else f a) = false
    by_cases hR : R.lt (f a) = true
    · rw [if_pos hR]
      refine ⟨?_, ?_, h3⟩
      · rcases h1 with h1 | ⟨j, j1, j2, j3⟩
        · left; exact h1
        · right; exact ⟨j, by omega, by omega, j3⟩
      · intro j j1 j2
        by_cases hj : j = a
        · subst hj
          have := (indexed_cost_lt_iff R (f j)).mp hR
          rw [Bool.eq_false_iff]
          intro hc
          have := (indexed_cost_lt_iff (f j) R).mp hc
          omega
        · exact h2 j (by omega) (by omega)
    · rw [if_neg hR]
      have hR' : ¬ (R.cost < (f a).cost ∨ (R.cost = (f a).cost ∧ R.index < (f a).index)) :=
        fun h => hR ((indexed_cost_lt_iff _ _).mpr h)
      refine ⟨Or.inr ⟨a, by omega, by omega, rfl⟩, ?_, ?_⟩
      · intro j j1 j2
        rw [Bool.eq_false_iff]
        intro hc
        have hc' := (indexed_cost_lt_iff _ _).mp hc
        by_cases hj : j = a
        · subst hj; omega
        · have := h2 j (by omega) (by omega)
          rw [Bool.eq_false_iff] at this
          have : ¬ ((f j).cost < R.cost ∨ ((f j).cost = R.cost ∧ (f j).index < R.index)) :=
            fun h => this ((indexed_cost_lt_iff _ _).mpr h)
          omega
      · rw [Bool.eq_false_iff]
        intro hc
        have hc' := (indexed_cost_lt_iff _ _).mp hc
        rw [Bool.eq_false_iff] at h3
        have : ¬ (iden.cost < R.cost ∨ (iden.cost = R.cost ∧ iden.index < R.index)) :=
          fun h => h3 ((indexed_cost_lt_iff _ _).mpr h)
        omega

namespace uncomp_call

theorem last_append (calls : List uncomp_call) (o : uncomp_call) (j : Nat) :
    last (calls ++ [o]) j =
      match o with
      | update i x => if i = j then some x else last calls j
      | reset i => if i = j then none else last calls j := by
  unfold last
  rw [List.foldl_append]
  rfl

/-- The leaves of the tree after a sequence of calls on positions below `n`: leaf `j` holds
the stored cost of the last `update` on `j`, or the identity. -/
theorem leaf_run (n s : Nat) : ∀ (calls : List uncomp_call), (∀ o ∈ calls, o.index < n) →
    (calls.foldl run (uncomp_helper.create n s)).n = n ∧
    (calls.foldl run (uncomp_helper.create n s)).slope_ = s ∧
    (calls.foldl run (uncomp_helper.create n s)).tree_.n = n ∧
    (calls.foldl run (uncomp_helper.create n s)).tree_.cell.length = n ∧
    ∀ j, (calls.foldl run (uncomp_helper.create n s)).tree_.leaf
        (range_min_indexed uncomp_helper.iden) j =
      match last calls j with
      | some x => ⟨size_t ((x : Int) + ((n : Int) - (j : Int)) * (s : Int)), j⟩
      | none => uncomp_helper.iden := by
  intro calls
  induction calls using List.reverseRecOn with
  | nil =>
    intro _
    refine ⟨rfl, rfl, rfl, by simp [uncomp_helper.create, segment_tree.of_size], ?_⟩
    intro j
    exact segment_tree.leaf_of_size _ _ _
  | append_singleton calls o ih =>
    intro hall
    obtain ⟨i1, i2, i3, i4, i5⟩ := ih (fun o ho => hall o (List.mem_append_left _ ho))
    have ho := hall o (List.mem_append_right _ (List.mem_singleton.mpr rfl))
    rw [List.foldl_append]
    simp only [List.foldl_cons, List.foldl_nil]
    generalize calls.foldl run (uncomp_helper.create n s) = h at i1 i2 i3 i4 i5
    cases o with
    | update i x =>
      have ho' : i < n := ho
      refine ⟨i1, i2, i3, ?_, ?_⟩
      · show (h.tree_.update i _).cell.length = n
        simp [segment_tree.update, i4]
      · intro j
        show (h.tree_.update i _).leaf _ j = _
        rw [segment_tree.leaf_update, last_append, i1, i2]
        by_cases hij : i = j
        · subst hij
          simp [i3, i4, ho']
        · simp only [hij, false_and, if_false]
          exact i5 j
    | reset i =>
      have ho' : i < n := ho
      refine ⟨i1, i2, i3, ?_, ?_⟩
      · show (h.tree_.update i _).cell.length = n
        simp [segment_tree.update, i4]
      · intro j
        show (h.tree_.update i _).leaf _ j = _
        rw [segment_tree.leaf_update, last_append]
        by_cases hij : i = j
        · subst hij
          simp [i3, i4, ho']
        · simp only [hij, false_and, if_false]
          exact i5 j

end uncomp_call

end sfc_comp

namespace sfc_comp
open encode sssp_solver

theorem stored_cost_eq (n s j x : Nat) (hj : j ≤ n) (hfit : x + (n - j) * s < 2 ^ 64) :
    size_t ((x : Int) + ((n : Int) - (j : Int)) * (s : Int)) = x + (n - j) * s := by
  have e : (x : Int) + ((n : Int) - (j : Int)) * (s : Int) = ((x + (n - j) * s : Nat) : Int) := by
    push_cast [Nat.cast_sub hj]
    ring
  rw [e, size_t_nat _ hfit]

theorem returned_cost_eq (n s i j x : Nat) (hj : j ≤ i) (hi : i ≤ n)
    (hfit : x + (n - j) * s < 2 ^ 64) :
    size_t (((x + (n - j) * s : Nat) : Int) - ((n : Int) - (i : Int)) * (s : Int)) =
      x + (i - j) * s ∧ x + (n - j) * s = x + (i - j) * s + (n - i) * s := by
  have e2 : x + (n - j) * s = x + (i - j) * s + (n - i) * s := by
    have : n - j = (i - j) + (n - i) := by omega
    rw [this, Nat.add_mul]
    omega
  refine ⟨?_, e2⟩
  have e : ((x + (n - j) * s : Nat) : Int) - ((n : Int) - (i : Int)) * (s : Int) =
      ((x + (i - j) * s : Nat) : Int) := by
    rw [e2]
    push_cast [Nat.cast_sub hi]
    ring
  rw [e, size_t_nat _ (by omega)]

/-- The result of `uncomp_helper::find` in terms of the tree leaves of the range. -/
theorem uncomp_helper_find_leaves (n s : Nat) (calls : List uncomp_call) (i lo hi : Nat)
    (hn : n < 2 ^ 64) (hcalls : ∀ o ∈ calls, o.index < n) (hin : i ≤ n) (hlo : ¬ i < lo)
    (hfit : ∀ j x, uncomp_call.last calls j = some x → x + (n - j) * s < 2 ^ 64) :
    ((calls.foldl uncomp_call.run (uncomp_helper.create n s)).find i lo hi =
        ⟨nlen, infinite_cost⟩ ∧
      ∀ j x, i - hi ≤ j → j ≤ i - lo → uncomp_call.last calls j = some x →
        infinite_cost ≤ x + (n - j) * s) ∨
    (∃ j0 x0, i - hi ≤ j0 ∧ j0 ≤ i - lo ∧ uncomp_call.last calls j0 = some x0 ∧
      x0 + (n - j0) * s < infinite_cost ∧
      (calls.foldl uncomp_call.run (uncomp_helper.create n s)).find i lo hi =
        ⟨i - j0, x0 + (i - j0) * s⟩ ∧
      ∀ j x, i - hi ≤ j → j ≤ i - lo → uncomp_call.last calls j = some x →
        (x0 + (i - j0) * s < x + (i - j) * s ∨
          (x0 + (i - j0) * s = x + (i - j) * s ∧ j0 ≤ j))) := by
  obtain ⟨h1, h2, h3, h4, h5⟩ := uncomp_call.leaf_run n s calls hcalls
  have hleaf : ∀ j x, j ≤ n → uncomp_call.last calls j = some x →
      (calls.foldl uncomp_call.run (uncomp_helper.create n s)).tree_.leaf
        (range_min_indexed uncomp_helper.iden) j = ⟨x + (n - j) * s, j⟩ := by
    intro j x hj hl
    have := h5 j
    rw [hl] at this
    rw [this]
    show (⟨size_t ((x : Int) + ((n : Int) - (j : Int)) * (s : Int)), j⟩ : indexed_cost) = _
    rw [stored_cost_eq n s j x hj (hfit j x hl)]
  have hnone : ∀ j, uncomp_call.last calls j = none →
      (calls.foldl uncomp_call.run (uncomp_helper.create n s)).tree_.leaf
        (range_min_indexed uncomp_helper.iden) j = uncomp_helper.iden := by
    intro j hl
    have := h5 j
    rw [hl] at this
    exact this
  unfold uncomp_helper.find
  rw [if_neg hlo, h1, h2]
  simp only [segment_tree.fold]
  obtain ⟨f1, f2, f3⟩ := fold_range_indexed uncomp_helper.iden
    ((calls.foldl uncomp_call.run (uncomp_helper.create n s)).tree_.leaf
      (range_min_indexed uncomp_helper.iden)) (i - lo + 1 - (i - min i hi)) (i - min i hi)
  generalize fold_range (range_min_indexed uncomp_helper.iden)
    ((calls.foldl uncomp_call.run (uncomp_helper.create n s)).tree_.leaf
      (range_min_indexed uncomp_helper.iden)) (i - min i hi) (i - lo + 1 - (i - min i hi)) = R
    at f1 f2 f3 ⊢
  have hiden : uncomp_helper.iden.cost = infinite_cost := rfl
  have hge : ∀ j x, i - hi ≤ j → j ≤ i - lo → uncomp_call.last calls j = some x →
      (R.cost < x + (n - j) * s ∨ (R.cost = x + (n - j) * s ∧ R.index ≤ j)) := by
    intro j x j1 j2 hl
    have := f2 j (by omega) (by omega)
    rw [hleaf j x (by omega) hl, Bool.eq_false_iff] at this
    have : ¬ (x + (n - j) * s < R.cost ∨ (x + (n - j) * s = R.cost ∧ j < R.index)) :=
      fun h => this ((indexed_cost_lt_iff _ _).mpr h)
    omega
  by_cases hR : R.cost ≥ infinite_cost
  · left
    rw [if_pos hR]
    refine ⟨rfl, ?_⟩
    intro j x j1 j2 hl
    have := hge j x j1 j2 hl
    omega
  · right
    rw [if_neg hR]
    rcases f1 with f1 | ⟨j0, a1, a2, a3⟩
    · rw [f1] at hR; omega
    · cases hl0 : uncomp_call.last calls j0 with
      | none =>
        rw [hnone j0 hl0] at a3
        rw [a3] at hR; omega
      | some x0 =>
        rw [hleaf j0 x0 (by omega) hl0] at a3
        have r1 : R.cost = x0 + (n - j0) * s := by rw [a3]
        have r2 : R.index = j0 := by rw [a3]
        obtain ⟨q1, q2⟩ := returned_cost_eq n s i j0 x0 (by omega) hin (hfit j0 x0 hl0)
        refine ⟨j0, x0, by omega, by omega, hl0, by omega, ?_, ?_⟩
        · rw [r1, r2, q1, size_t_sub i j0 (by omega) (by omega)]
        · intro j x j1 j2 hl
          have := hge j x j1 j2 hl
          obtain ⟨_, q3⟩ := returned_cost_eq n s i j x (by omega) hin (hfit j x hl)
          omega

end sfc_comp

namespace sfc_comp
open encode sssp_solver

/-- C10 (amended).  For a helper of size `n < 2^64` and slope `s` on which `update(j, c_j)` was
last called for some positions `j < n` (the others never set, or reset), every stored cost
`c_j + (n - j)·s` being below `2^64`, and for every `i <= n`, `lo` and `hi`: `find(i, lo, hi)`
returns the none value (`len = SIZE_MAX`, `cost = infinity`) exactly when `i < lo` or no set
position `j` with `max(0, i - hi) <= j <= i - lo` has its stored cost `c_j + (n - j)·s` below
infinity; otherwise it returns `(i - j*, c_j* + (i - j*)·s)` where `j*` is such a position that
minimises `c_j + (i - j)·s` over the set positions of that range, the smallest such `j` among
equal minima. -/
theorem uncomp_helper_find_spec (n s : Nat) (calls : List uncomp_call) (i lo hi : Nat)
    (hn : n < 2 ^ 64) (hcalls : ∀ o ∈ calls, o.index < n) (hin : i ≤ n)
    (hfit : ∀ j x, uncomp_call.last calls j = some x → x + (n - j) * s < 2 ^ 64) :
    ((calls.foldl uncomp_call.run (uncomp_helper.create n s)).find i lo hi =
        ⟨nlen, infinite_cost⟩ ↔
      (i < lo ∨ ∀ j x, i - hi ≤ j → j ≤ i - lo → uncomp_call.last calls j = some x →
        infinite_cost ≤ x + (n - j) * s)) ∧
    ((calls.foldl uncomp_call.run (uncomp_helper.create n s)).find i lo hi ≠
        ⟨nlen, infinite_cost⟩ →
      ∃ j0 x0, i - hi ≤ j0 ∧ j0 ≤ i - lo ∧ uncomp_call.last calls j0 = some x0 ∧
        x0 + (n - j0) * s < infinite_cost ∧
        (calls.foldl uncomp_call.run (uncomp_helper.create n s)).find i lo hi =
          ⟨i - j0, x0 + (i - j0) * s⟩ ∧
        ∀ j x, i - hi ≤ j → j ≤ i - lo → uncomp_call.last calls j = some x →
          (x0 + (i - j0) * s < x + (i - j) * s ∨
            (x0 + (i - j0) * s = x + (i - j) * s ∧ j0 ≤ j))) := by
  by_cases hlo : i < lo
  · have e : (calls.foldl uncomp_call.run (uncomp_helper.create n s)).find i lo hi =
        ⟨nlen, infinite_cost⟩ := by
      unfold uncomp_helper.find
      rw [if_pos hlo]
    exact ⟨⟨fun _ => Or.inl hlo, fun _ => e⟩, fun h => absurd e h⟩
  · rcases uncomp_helper_find_leaves n s calls i lo hi hn hcalls hin hlo hfit with
      ⟨e, h⟩ | ⟨j0, x0, a1, a2, a3, a4, a5, a6⟩
    · exact ⟨⟨fun _ => Or.inr h, fun _ => e⟩, fun h => absurd e h⟩
    · have hval := (returned_cost_eq n s i j0 x0 (by omega) hin (hfit j0 x0 a3)).2
      have hne : (calls.foldl uncomp_call.run (uncomp_helper.create n s)).find i lo hi ≠
          ⟨nlen, infinite_cost⟩ := by
        rw [a5]
        intro hc
        have : x0 + (i - j0) * s = infinite_cost := congrArg len_cost.cost hc
        omega
      refine ⟨⟨fun h => absurd h hne, ?_⟩, fun _ => ⟨j0, x0, a1, a2, a3, a4, a5, a6⟩⟩
      intro h
      rcases h with h | h
      · exact absurd h hlo
      · have := h j0 x0 a1 a2 a3
        omega

/-- Witness for C10: size 4, slope 1, costs 5, 6, 7 set at the positions 0, 1, 2; the three
candidates for `find(3, 1, 16)` all cost 8 and the smallest position wins: `(3, 8)`. -/
theorem uncomp_helper_find_spec_witness :
    (4 : Nat) < 2 ^ 64 ∧
    (∀ o ∈ [uncomp_call.update 0 5, uncomp_call.update 1 6, uncomp_call.update 2 7],
      o.index < 4) ∧ (3 : Nat) ≤ 4 ∧
    (∀ j x, uncomp_call.last
      [uncomp_call.update 0 5, uncomp_call.update 1 6, uncomp_call.update 2 7] j = some x →
      x + (4 - j) * 1 < 2 ^ 64) ∧
    ([uncomp_call.update 0 5, uncomp_call.update 1 6, uncomp_call.update 2 7].foldl
      uncomp_call.run (uncomp_helper.create 4 1)).find 3 1 16 = ⟨3, 8⟩ ∧
    (([uncomp_call.update 0 5, uncomp_call.update 1 6, uncomp_call.update 2 7].foldl
        uncomp_call.run (uncomp_helper.create 4 1)).find 3 1 16 = ⟨nlen, infinite_cost⟩ ↔
      (3 < 1 ∨ ∀ j x, 3 - 16 ≤ j → j ≤ 3 - 1 → uncomp_call.last
        [uncomp_call.update 0 5, uncomp_call.update 1 6, uncomp_call.update 2 7] j = some x →
        infinite_cost ≤ x + (4 - j) * 1)) := by
  have a2 : ∀ j x, uncomp_call.last
      [uncomp_call.update 0 5, uncomp_call.update 1 6, uncomp_call.update 2 7] j = some x →
      x + (4 - j) * 1 < 2 ^ 64 := by
    intro j x h
    simp only [uncomp_call.last, List.foldl_cons, List.foldl_nil] at h
    split_ifs at h with h1 h2 h3
    · cases h; subst h1; decide
    · cases h; subst h2; decide
    · cases h; subst h3; decide
  exact ⟨by decide, by decide, by decide, a2, by decide,
    (uncomp_helper_find_spec 4 1
      [uncomp_call.update 0 5, uncomp_call.update 1 6, uncomp_call.update 2 7] 3 1 16
      (by decide) (by decide) (by decide) a2).1⟩

/-- Counterexample to C10 as stated, on a helper of size 1 and slope 1.  First part: after
`update(0, infinity - 1)` the position 0 has a finite cost and lies in the range of
`find(1, 1, 1)`, yet the none value is returned, because the stored cost
`c_0 + (n - 0)·s = infinity` is what is tested.  Second part: after `update(0, SIZE_MAX)` no
position has a finite cost, yet `find(1, 1, 1)` returns `(1, 0)`, because the stored cost wraps
to 0. -/
theorem uncomp_helper_find_spec_counterexample :
    (([uncomp_call.update 0 (infinite_cost - 1)].foldl uncomp_call.run
        (uncomp_helper.create 1 1)).find 1 1 1 = ⟨nlen, infinite_cost⟩ ∧
      uncomp_call.last [uncomp_call.update 0 (infinite_cost - 1)] 0 =
        some (infinite_cost - 1) ∧
      infinite_cost - 1 < infinite_cost ∧ 1 - 1 ≤ 0 ∧ 0 ≤ 1 - 1) ∧
    (([uncomp_call.update 0 (2 ^ 64 - 1)].foldl uncomp_call.run
        (uncomp_helper.create 1 1)).find 1 1 1 = ⟨1, 0⟩ ∧
      uncomp_call.last [uncomp_call.update 0 (2 ^ 64 - 1)] 0 = some (2 ^ 64 - 1) ∧
      ¬ (2 ^ 64 - 1 < infinite_cost)) := by
  refine ⟨⟨by decide, by decide, by decide, by decide, by decide⟩,
    ⟨by decide, by decide, by decide⟩⟩

end sfc_comp

namespace sfc_comp
open encode sssp_solver

/-- C11.  Single-edge relaxation policies.  For every solver state, every vertex `adr` of it
and every `len`, `tag`, `cost`, `arg`: when `adr >= len`, `update(adr, len, tag, cost, arg)`
makes vertex `adr` equal to `(cost, len, arg, tag)` if `cost < vertex[adr].cost` and leaves the
solver as it is otherwise, while `update_u` does so if `cost <= vertex[adr].cost` and leaves the
solver as it is otherwise; in both cases the new `vertex[adr].cost` is `min(old cost, cost)`;
every other vertex and the size are unchanged; and when `adr < len` nothing changes at all. -/
theorem update_edge_policies {Tag : Type} [Inhabited Tag] [BEq Tag]
    (s : sssp_solver Tag) (adr len : Nat) (tag : Tag) (cost arg : Nat) (hadr : adr < s.size) :
    (len ≤ adr →
      (cost < (s.get adr).cost →
        (update_edge .greater_equal s adr len tag cost arg).get adr = ⟨cost, len, arg, tag⟩) ∧
      (¬ cost < (s.get adr).cost → update_edge .greater_equal s adr len tag cost arg = s) ∧
      (cost ≤ (s.get adr).cost →
        (update_u s adr len tag cost arg).get adr = ⟨cost, len, arg, tag⟩) ∧
      (¬ cost ≤ (s.get adr).cost → update_u s adr len tag cost arg = s) ∧
      ((update_edge .greater_equal s adr len tag cost arg).get adr).cost =
        min (s.get adr).cost cost ∧
      ((update_u s adr len tag cost arg).get adr).cost = min (s.get adr).cost cost) ∧
    (∀ v, v ≠ adr →
      (update_edge .greater_equal s adr len tag cost arg).get v = s.get v ∧
      (update_u s adr len tag cost arg).get v = s.get v) ∧
    (update_edge .greater_equal s adr len tag cost arg).size = s.size ∧
    (update_u s adr len tag cost arg).size = s.size ∧
    (adr < len →
      update_edge .greater_equal s adr len tag cost arg = s ∧
      update_u s adr len tag cost arg = s) := by
  have e1 : update_edge .greater_equal s adr len tag cost arg =
      if adr < len then s else if cost ≥ (s.get adr).cost then s
        else s.set adr ⟨cost, len, arg, tag⟩ := by
    simp [update_edge, Skip.test]
  have e2 : update_u s adr len tag cost arg =
      if adr < len then s else if cost > (s.get adr).cost then s
        else s.set adr ⟨cost, len, arg, tag⟩ := by
    simp [update_u, update_edge, Skip.test]
  rw [e1, e2]
  refine ⟨?_, ?_, ?_, ?_, ?_⟩
  · intro hlen
    have hn : ¬ adr < len := by omega
    simp only [hn, if_false]
    refine ⟨?_, ?_, ?_, ?_, ?_, ?_⟩
    · intro h
      rw [if_neg (by omega), get_set_eq _ _ _ hadr]
    · intro h
      rw [if_pos (by omega)]
    · intro h
      rw [if_neg (by omega), get_set_eq _ _ _ hadr]
    · intro h
      rw [if_pos (by omega)]
    · by_cases h : cost ≥ (s.get adr).cost
      · rw [if_pos h]; omega
      · rw [if_neg h, get_set_eq _ _ _ hadr]
        show cost = _
        omega
    · by_cases h : cost > (s.get adr).cost
      · rw [if_pos h]; omega
      · rw [if_neg h, get_set_eq _ _ _ hadr]
        show cost = _
        omega
  · intro v hv
    constructor
    · split
      · rfl
      · split
        · rfl
        · exact get_set_ne _ _ _ _ (Ne.symm hv)
    · split
      · rfl
      · split
        · rfl
        · exact get_set_ne _ _ _ _ (Ne.symm hv)
  · split
    · rfl
    · split
      · rfl
      · exact size_set _ _ _
  · split
    · rfl
    · split
      · rfl
      · exact size_set _ _ _
  · intro h
    simp only [h, if_true, and_self]

/-- Witness for C11: a fresh solver with three vertices, the edge of length 1 into vertex 1 at
cost 5. -/
theorem update_edge_policies_witness :
    (1 : Nat) < (mk_solver 2 0 : sssp_solver estpolis_biography.tag).size ∧
    (update_edge .greater_equal (mk_solver 2 0 : sssp_solver estpolis_biography.tag) 1 1
      .lzs 5 7).get 1 = ⟨5, 1, 7, .lzs⟩ ∧
    (update_edge .greater_equal (mk_solver 2 0 : sssp_solver estpolis_biography.tag) 1 1
      .lzs 5 7).size = (mk_solver 2 0 : sssp_solver estpolis_biography.tag).size :=
  ⟨by decide, by decide,
    (update_edge_policies (mk_solver 2 0 : sssp_solver estpolis_biography.tag) 1 1 .lzs 5 7
      (by decide)).2.2.1⟩

end sfc_comp

namespace sfc_comp
open encode sssp_solver
namespace sssp_solver
variable {Tag : Type} [Inhabited Tag] [BEq Tag]

theorem relax_nonlinear (adr : Nat) (func : Nat → Nat) (tag : Tag) (base arg i : Nat)
    (s : sssp_solver Tag) (hw : base + func i < 2 ^ 64) (hx : adr + i < 2 ^ 64) :
    relax .greater_equal false adr func tag base arg i s =
      (if base + func i < (s.get (adr + i)).cost then
        s.set (adr + i) ⟨base + func i, i, arg, tag⟩ else s, true) := by
  rcases relax_cases false adr func tag base arg i s hw hx with ⟨h1, h2⟩ | ⟨h1, h2⟩
  · rw [h2, if_neg (by omega)]
    rfl
  · rw [h2, if_pos h1]

/-- The passes of the range `update` without the prune, entered at `m`, with sums that stay
in `size_t`: every length `lo .. m` is relaxed against the state met on entry, and nothing
else changes. -/
theorem update_descend_full (adr lo : Nat) (func : Nat → Nat) (tag : Tag) (base arg hi : Nat)
    (hw : ∀ l, lo ≤ l → l ≤ hi → base + func l < 2 ^ 64) :
    ∀ (m : Nat) (s : sssp_solver Tag), m ≤ hi → adr + m < s.size →
      (update_descend .greater_equal false adr lo func tag base arg m s).size = s.size ∧
      ∀ v, (update_descend .greater_equal false adr lo func tag base arg m s).get v =
        if adr + lo ≤ v ∧ v ≤ adr + m ∧ base + func (v - adr) < (s.get v).cost then
          ⟨base + func (v - adr), v - adr, arg, tag⟩
        else s.get v := by
  intro m
  induction m with
  | zero =>
    intro s hm hs
    unfold update_descend
    by_cases h : 0 < lo
    · rw [if_pos h]
      refine ⟨rfl, ?_⟩
      intro v
      rw [if_neg (by omega)]
    · have hlo : lo = 0 := by omega
      subst hlo
      have hsz := size_lt s
      rw [if_neg h, relax_nonlinear _ _ _ _ _ _ _ (hw 0 (le_refl _) hm) (by omega)]
      simp only [Nat.add_zero]
      by_cases hc : base + func 0 < (s.get adr).cost
      · rw [if_pos hc]
        refine ⟨size_set _ _ _, ?_⟩
        intro v
        by_cases hv : v = adr
        · subst hv
          have hs' : v < s.size := hs
          rw [get_set_eq _ _ _ hs', if_pos ⟨le_refl _, le_refl _, by rw [Nat.sub_self]; exact hc⟩,
            Nat.sub_self]
        · rw [get_set_ne _ _ _ _ (Ne.symm hv), if_neg (by omega)]
      · rw [if_neg hc]
        refine ⟨rfl, ?_⟩
        intro v
        by_cases hv : v = adr
        · subst hv
          rw [if_neg (by rw [Nat.sub_self]; omega)]
        · rw [if_neg (by omega)]
  | succ m ih =>
    intro s hm hs
    have hsz := size_lt s
    unfold update_descend
    by_cases h : m + 1 < lo
    · rw [if_pos h]
      refine ⟨rfl, ?_⟩
      intro v
      rw [if_neg (by omega)]
    · rw [if_neg h, relax_nonlinear _ _ _ _ _ _ _ (hw (m + 1) (by omega) hm) (by omega)]
      simp only [if_true]
      by_cases hc : base + func (m + 1) < (s.get (adr + (m + 1))).cost
      · rw [if_pos hc]
        obtain ⟨i1, i2⟩ := ih (s.set (adr + (m + 1)) ⟨base + func (m + 1), m + 1, arg, tag⟩)
          (by omega) (by rw [size_set]; omega)
        refine ⟨by rw [i1, size_set], ?_⟩
        intro v
        rw [i2 v]
        by_cases hv : v = adr + (m + 1)
        · subst hv
          have e : adr + (m + 1) - adr = m + 1 := by omega
          rw [if_neg (by omega), get_set_eq _ _ _ hs, if_pos ⟨by omega, le_refl _, by rw [e]; exact hc⟩, e]
        · rw [get_set_ne _ _ _ _ (Ne.symm hv)]
          by_cases hin : adr + lo ≤ v ∧ v ≤ adr + m ∧ base + func (v - adr) < (s.get v).cost
          · rw [if_pos hin, if_pos ⟨hin.1, by omega, hin.2.2⟩]
          · rw [if_neg hin, if_neg (by
              intro hh
              exact hin ⟨hh.1, by omega, hh.2.2⟩)]
      · rw [if_neg hc]
        obtain ⟨i1, i2⟩ := ih s (by omega) (by omega)
        refine ⟨i1, ?_⟩
        intro v
        rw [i2 v]
        by_cases hv : v = adr + (m + 1)
        · subst hv
          have e : adr + (m + 1) - adr = m + 1 := by omega
          rw [if_neg (by omega), if_neg (by rw [e]; omega)]
        · by_cases hin : adr + lo ≤ v ∧ v ≤ adr + m ∧ base + func (v - adr) < (s.get v).cost
          · rw [if_pos hin, if_pos ⟨hin.1, by omega, hin.2.2⟩]
          · rw [if_neg hin, if_neg (by
              intro hh
              exact hin ⟨hh.1, by omega, hh.2.2⟩)]

end sssp_solver

/-- C12 (amended).  Range relaxation post-condition.  For every solver state with
`N + 1 <= 2^63` vertices, `adr <= N`, `lo < 2^63` (where the signed loop test is the
comparison of the lengths), a cost function not flagged affine, and a base cost for which
`base + cost_fn(l)` stays in `size_t` on the lengths `lo <= l <= min(hi, N - adr)`:
`update(adr, lo, hi, cost_fn, tag, base_cost, arg)` keeps the size and leaves, for every such
`l`, `vertex[adr+l].cost = min(old cost, base + cost_fn(l))`, where `base` is `base_cost`, or
`vertex[adr].cost` when `base_cost` is unspecified; the vertex is `(base + cost_fn(l), l, arg,
tag)` exactly where the cost strictly decreased and is the old vertex elsewhere; and every
vertex outside `adr+lo .. adr+min(hi, N-adr)` is unchanged. -/
theorem update_range_postcondition {Tag : Type} [Inhabited Tag] [BEq Tag]
    (s : sssp_solver Tag) (N adr lo hi : Nat) (cost_fn : Nat → Nat) (tag : Tag)
    (base_cost arg : Nat) (hs : s.size = N + 1) (hN : N < 2 ^ 63) (hadr : adr ≤ N)
    (hlo : lo < 2 ^ 63)
    (hfit : ∀ l, lo ≤ l → l ≤ min hi (N - adr) →
      (if base_cost = unspecified then (s.get adr).cost else base_cost) + cost_fn l < 2 ^ 64) :
    (update .greater_equal false s adr lo hi cost_fn tag base_cost arg).size = s.size ∧
    (∀ l, lo ≤ l → l ≤ min hi (N - adr) →
      ((update .greater_equal false s adr lo hi cost_fn tag base_cost arg).get (adr + l)).cost =
        min (s.get (adr + l)).cost
          ((if base_cost = unspecified then (s.get adr).cost else base_cost) + cost_fn l) ∧
      ((if base_cost = unspecified then (s.get adr).cost else base_cost) + cost_fn l <
          (s.get (adr + l)).cost →
        (update .greater_equal false s adr lo hi cost_fn tag base_cost arg).get (adr + l) =
          ⟨(if base_cost = unspecified then (s.get adr).cost else base_cost) + cost_fn l, l,
            arg, tag⟩) ∧
      (¬ (if base_cost = unspecified then (s.get adr).cost else base_cost) + cost_fn l <
          (s.get (adr + l)).cost →
        (update .greater_equal false s adr lo hi cost_fn tag base_cost arg).get (adr + l) =
          s.get (adr + l))) ∧
    (∀ v, ¬ (adr + lo ≤ v ∧ v ≤ adr + min hi (N - adr)) →
      (update .greater_equal false s adr lo hi cost_fn tag base_cost arg).get v = s.get v) := by
  have hcap : (if s.size > adr then s.size - 1 - adr else 0) = N - adr := by
    rw [if_pos (by omega), hs]
    omega
  have hmin := Nat.min_le_right hi (N - adr)
  rw [sssp_solver.update_eq_descend _ _ _ _ _ _ _ _ _ _ hlo (by rw [hcap]; omega)]
  simp only [hcap]
  generalize (if base_cost = unspecified then (s.get adr).cost else base_cost) = base at hfit ⊢
  obtain ⟨h1, h2⟩ := sssp_solver.update_descend_full adr lo cost_fn tag base arg
    (min hi (N - adr)) hfit (min hi (N - adr)) s (le_refl _) (by omega)
  refine ⟨h1, ?_, ?_⟩
  · intro l l1 l2
    have e : adr + l - adr = l := by omega
    rw [h2 (adr + l), e]
    by_cases hc : base + cost_fn l < (s.get (adr + l)).cost
    · rw [if_pos ⟨by omega, by omega, hc⟩]
      refine ⟨?_, fun _ => rfl, fun h => absurd hc h⟩
      show base + cost_fn l = _
      omega
    · rw [if_neg (fun h => hc h.2.2)]
      refine ⟨by omega, fun h => absurd h hc, fun _ => rfl⟩
  · intro v hv
    rw [h2 v, if_neg (fun h => hv ⟨h.1, h.2.1⟩)]

/-- Witness for C12: a fresh solver with five vertices, lengths `1 .. 9` from position 1 with
the quotient cost `(3 l + 1) / 2`, capped at `N - adr = 3`. -/
theorem update_range_postcondition_witness :
    (mk_solver 4 1 : sssp_solver estpolis_biography.tag).size = 4 + 1 ∧ (4 : Nat) < 2 ^ 63 ∧
    (1 : Nat) ≤ 4 ∧ (1 : Nat) < 2 ^ 63 ∧
    (update .greater_equal false (mk_solver 4 1 : sssp_solver estpolis_biography.tag) 1 1 9
      (LinearQ 3 1 2) .lzs unspecified 7).get 4 = ⟨5, 3, 7, .lzs⟩ ∧
    (update .greater_equal false (mk_solver 4 1 : sssp_solver estpolis_biography.tag) 1 1 9
      (LinearQ 3 1 2) .lzs unspecified 7).size =
      (mk_solver 4 1 : sssp_solver estpolis_biography.tag).size :=
  ⟨by decide, by decide, by decide, by decide, by decide,
    (update_range_postcondition (mk_solver 4 1 : sssp_solver estpolis_biography.tag) 4 1 1 9
      (LinearQ 3 1 2) .lzs unspecified 7 (by decide) (by decide) (by decide) (by decide)
      (by
        intro l h1 h2
        have h3 : l ≤ 3 := le_trans h2 (by decide)
        interval_cases l <;> decide)).1⟩

/-- Counterexample to C12 as stated, in two parts.  First part, `lo >= 2^63`: on
`sssp_solver(2, 0)` the call `update(2, SIZE_MAX, 0, LinearQ<0, 2, 2>, lzs, 5, 7)` has no
length `l` with `lo <= l <= min(hi, N - adr)`, yet the loop test
`ptrdiff_t(i) >= ptrdiff_t(fr)` compares with `-1`: the pass at `i = 0` is made, the counter
wraps to `SIZE_MAX`, which passes the test again, and the index `2 + SIZE_MAX` is vertex 1,
which receives `(6, SIZE_MAX, 7, lzs)`.  Second part, the cost sum: on `sssp_solver(1, 0)`
the call `update(0, 1, 1, LinearQ<0, 2^64 - 2, 2>, lzs, 2^63 + 1, 0)` forms
`base + cost_fn(1) = (2^63 + 1) + (2^63 - 1)`, which wraps to 0, and vertex 1 receives the
cost 0 instead of keeping `min(infinity, 2^64) = infinity`. -/
theorem update_range_postcondition_counterexample :
    is_linear_LinearQ 0 2 2 = false ∧
    ¬ (∃ l, 2 ^ 64 - 1 ≤ l ∧ l ≤ min 0 (2 - 2)) ∧
    (update .greater_equal (is_linear_LinearQ 0 2 2)
      (mk_solver 2 0 : sssp_solver estpolis_biography.tag) 2 (2 ^ 64 - 1) 0 (LinearQ 0 2 2)
      .lzs 5 7).get 1 = ⟨6, 2 ^ 64 - 1, 7, .lzs⟩ ∧
    (mk_solver 2 0 : sssp_solver estpolis_biography.tag).get 1 = ⟨infinite_cost, 0, 0, .uncomp0⟩ ∧
    is_linear_LinearQ 0 (2 ^ 64 - 2) 2 = false ∧
    (update .greater_equal (is_linear_LinearQ 0 (2 ^ 64 - 2) 2)
      (mk_solver 1 0 : sssp_solver estpolis_biography.tag) 0 1 1 (LinearQ 0 (2 ^ 64 - 2) 2)
      .lzs (2 ^ 63 + 1) 0).get 1 = ⟨0, 1, 0, .lzs⟩ ∧
    min ((mk_solver 1 0 : sssp_solver estpolis_biography.tag).get 1).cost
      ((2 ^ 63 + 1) + LinearQ 0 (2 ^ 64 - 2) 2 1) = infinite_cost := by
  refine ⟨by decide, ?_, by decide, by decide, by decide, by decide, by decide⟩
  rintro ⟨l, h1, h2⟩
  have : min 0 (2 - 2) = 0 := by decide
  omega

end sfc_comp

namespace sfc_comp
open encode sssp_solver
namespace sssp_solver
variable {Tag : Type} [Inhabited Tag] [BEq Tag]

theorem Linear_apply (A B l : Nat) (h : A * l + B < 2 ^ 64) : Linear A B l = A * l + B := by
  unfold Linear LinearQ
  rw [Nat.mod_eq_of_lt h, Nat.div_one]

theorem relax_fst_linear (skip : Skip) (adr : Nat) (func : Nat → Nat) (tag : Tag)
    (base arg i : Nat) (s : sssp_solver Tag) :
    (relax skip true adr func tag base arg i s).1 =
      (relax skip false adr func tag base arg i s).1 := by
  unfold relax
  simp only []
  split <;> rfl

/-- The unpruned passes change nothing when no length of `lo .. m` improves its target. -/
theorem update_descend_noop (adr lo : Nat) (func : Nat → Nat) (tag : Tag) (base arg hi : Nat)
    (s : sssp_solver Tag) (hx : adr + hi < 2 ^ 64)
    (hw : ∀ l, lo ≤ l → l ≤ hi → base + func l < 2 ^ 64) :
    ∀ m, m ≤ hi → (∀ l, lo ≤ l → l ≤ m → (s.get (adr + l)).cost ≤ base + func l) →
      update_descend .greater_equal false adr lo func tag base arg m s = s := by
  intro m
  induction m with
  | zero =>
    intro hm h
    unfold update_descend
    split
    · rfl
    · rcases relax_cases false adr func tag base arg 0 s (hw 0 (by omega) hm) (by omega)
        with ⟨_, h2⟩ | ⟨h1, _⟩
      · rw [h2]
      · have := h 0 (by omega) (le_refl _)
        omega
  | succ m ih =>
    intro hm h
    unfold update_descend
    split
    · rfl
    · rcases relax_cases false adr func tag base arg (m + 1) s (hw (m + 1) (by omega) hm)
        (by omega) with ⟨_, h2⟩ | ⟨h1, _⟩
      · rw [h2]
        simp only [Bool.false_and, Bool.not_false, if_true]
        exact ih (by omega) (fun l l1 l2 => h l l1 (by omega))
      · have := h (m + 1) (by omega) (le_refl _)
        omega

/-- The pruned and the unpruned passes agree when a stop at a vertex carrying the tag implies
that no smaller length improves its target in the state `s0` met on entry of the update. -/
theorem update_descend_prune_eq (adr lo : Nat) (func : Nat → Nat) (tag : Tag)
    (base arg hi : Nat) (s0 : sssp_solver Tag) (hx : adr + hi < 2 ^ 64)
    (hw : ∀ l, lo ≤ l → l ≤ hi → base + func l < 2 ^ 64)
    (hprune : ∀ l, lo ≤ l → l ≤ hi → ((s0.get (adr + l)).type == tag) = true →
      (s0.get (adr + l)).cost ≤ base + func l →
      ∀ l', lo ≤ l' → l' < l → (s0.get (adr + l')).cost ≤ base + func l') :
    ∀ (m : Nat) (s : sssp_solver Tag), m ≤ hi → (∀ v, v ≤ adr + m → s.get v = s0.get v) →
      update_descend .greater_equal true adr lo func tag base arg m s =
        update_descend .greater_equal false adr lo func tag base arg m s := by
  intro m
  induction m with
  | zero =>
    intro s _ _
    unfold update_descend
    split
    · rfl
    · exact relax_fst_linear _ _ _ _ _ _ _ _
  | succ m ih =>
    intro s hm hlow
    unfold update_descend
    split
    · rfl
    · rename_i hfr
      have hw1 := hw (m + 1) (by omega) hm
      have hx1 : adr + (m + 1) < 2 ^ 64 := by omega
      rcases relax_cases true adr func tag base arg (m + 1) s hw1 hx1 with ⟨h1, h2⟩ | ⟨h1, h2⟩
      · rcases relax_cases false adr func tag base arg (m + 1) s hw1 hx1 with ⟨_, h3⟩ | ⟨h4, _⟩
        · rw [h2, h3]
          simp only [Bool.false_and, Bool.not_false, if_true, Bool.true_and]
          by_cases hty : ((s.get (adr + (m + 1))).type == tag) = true
          · simp only [hty, Bool.not_true, Bool.false_eq_true, if_false]
            symm
            apply update_descend_noop adr lo func tag base arg hi s hx hw m (by omega)
            intro l l1 l2
            rw [hlow (adr + l) (by omega)]
            have e := hlow (adr + (m + 1)) (le_refl _)
            exact hprune (m + 1) (by omega) hm (by rw [← e]; exact hty) (by rw [← e]; exact h1)
              l l1 (by omega)
          · simp only [hty, Bool.not_false, if_true]
            exact ih s (by omega) (fun v hv => hlow v (by omega))
        · omega
      · rcases relax_cases false adr func tag base arg (m + 1) s hw1 hx1 with ⟨h4, _⟩ | ⟨_, h3⟩
        · omega
        · rw [h2, h3]
          simp only [if_true]
          apply ih _ (by omega)
          intro v hv
          rw [get_set_ne _ _ _ _ (by omega)]
          exact hlow v (by omega)

/-- A pass of the loop of `update` under any policy either leaves the state or writes, at one
index, a vertex with the incoming tag whose cost does not exceed the cost found there. -/
theorem relax_write (skip : Skip) (lin : Bool) (adr : Nat) (func : Nat → Nat) (tag : Tag)
    (base arg i : Nat) (s : sssp_solver Tag) :
    (relax skip lin adr func tag base arg i s).1 = s ∨
    ((base + func i) % 2 ^ 64 ≤ (s.get ((adr + i) % 2 ^ 64)).cost ∧
      (relax skip lin adr func tag base arg i s).1 =
        s.set ((adr + i) % 2 ^ 64) ⟨(base + func i) % 2 ^ 64, i, arg, tag⟩) := by
  unfold relax
  simp only []
  by_cases h : skip.test ((base + func i) % 2 ^ 64) (s.get ((adr + i) % 2 ^ 64)).cost = true
  · left
    rw [if_pos h]
  · right
    rw [if_neg h]
    refine ⟨?_, rfl⟩
    cases skip <;> simp only [Skip.test, decide_eq_true_eq] at h <;> omega

/-- The loop of `update` keeps what every pass keeps. -/
theorem update_loop_keeps (P : sssp_solver Tag → Prop) (skip : Skip) (linear : Bool)
    (adr fr : Nat) (func : Nat → Nat) (tag : Tag) (base arg : Nat)
    (hstep : ∀ i s, P s → P (relax skip linear adr func tag base arg i s).1) :
    ∀ fuel i s, P s → P (update_loop skip linear adr fr func tag base arg fuel i s) := by
  intro fuel
  induction fuel with
  | zero =>
    intro i s hs
    unfold update_loop
    exact hs
  | succ fuel ih =>
    intro i s hs
    unfold update_loop
    split
    · have := hstep i s hs
      simp only
      split
      · exact ih _ _ this
      · exact this
    · exact hs

theorem Run_set (n A lo : Nat) (tag : Tag) (p : Nat) (s : sssp_solver Tag) (w : Nat)
    (x : Vertex Tag) (hR : Run n A lo tag p s) (hc : x.cost ≤ (s.get w).cost)
    (ht : (x.type == tag) = false) : Run n A lo tag p (s.set w x) := by
  have hle : ∀ u, ((s.set w x).get u).cost ≤ (s.get u).cost := by
    intro u
    by_cases hu : u = w
    · subst hu
      by_cases hin : u < s.size
      · rw [get_set_eq _ _ _ hin]
        exact hc
      · rw [get_set_oob _ _ _ (by omega)]
    · rw [get_set_ne _ _ _ _ (Ne.symm hu)]
  refine ⟨by rw [size_set]; exact hR.size, fun v => le_trans (hle v) (hR.bounded v), ?_⟩
  intro v hv hty
  have hsz := hR.size
  by_cases hvw : v = w
  · subst hvw
    rw [get_set_eq _ _ _ (by omega)] at hty
    rw [ht] at hty
    exact absurd hty (by decide)
  · rw [get_set_ne _ _ _ _ (Ne.symm hvw)] at hty ⊢
    obtain ⟨r1, r2, r3⟩ := hR.run v hv hty
    refine ⟨r1, r2, ?_⟩
    intro y y1 y2
    exact le_trans (Nat.add_le_add_right (hle _) _) (r3 y y1 y2)

theorem Run_update (n A lo : Nat) (tag : Tag) (p : Nat) (skip : Skip) (linear : Bool)
    (s : sssp_solver Tag) (adr fr to_ : Nat) (func : Nat → Nat) (other : Tag)
    (base_cost arg : Nat) (hR : Run n A lo tag p s) (ht : (other == tag) = false) :
    Run n A lo tag p (update skip linear s adr fr to_ func other base_cost arg) := by
  unfold update
  apply update_loop_keeps (Run n A lo tag p) _ _ _ _ _ _ _ _ _ _ _ _ hR
  intro i t hR'
  rcases relax_write skip linear adr func other
    (if base_cost = unspecified then (s.get adr).cost else base_cost) arg i t with h | ⟨h1, h2⟩
  · rw [h]
    exact hR'
  · rw [h2]
    exact Run_set n A lo tag p t _ _ hR' h1 ht

theorem Run_update_edge (n A lo : Nat) (tag : Tag) (p : Nat) (skip : Skip)
    (s : sssp_solver Tag) (adr len : Nat) (other : Tag) (cost arg : Nat)
    (hR : Run n A lo tag p s) (ht : (other == tag) = false) :
    Run n A lo tag p (update_edge skip s adr len other cost arg) := by
  unfold update_edge
  split
  · exact hR
  · by_cases h : skip.test cost (s.get adr).cost = true
    · rw [if_pos h]
      exact hR
    · rw [if_neg h]
      apply Run_set n A lo tag p s adr _ hR _ ht
      show cost ≤ (s.get adr).cost
      cases skip <;> simp [Skip.test] at h <;> omega

theorem Run_mk_solver (n begin A lo : Nat) (tag : Tag) (hn : n < 2 ^ 63)
    (hdef : ((default : Tag) == tag) = false) :
    Run n A lo tag begin (mk_solver n begin : sssp_solver Tag) := by
  have hn2 : n + 1 < 2 ^ 64 := by omega
  refine ⟨size_mk_solver n begin hn2, ?_, ?_⟩
  · intro v
    rw [get_mk_solver n begin v hn2]
    split
    · exact Nat.zero_le _
    · split
      · exact le_refl _
      · exact Nat.zero_le _
  · intro v hv hty
    rw [get_mk_solver n begin v hn2] at hty
    have : ((default : Tag) == tag) = true := by
      by_cases h1 : v = begin ∧ begin ≤ n
      · rw [if_pos h1] at hty
        exact hty
      · rw [if_neg h1, if_pos hv] at hty
        exact hty
    rw [hdef] at this
    exact absurd this (by decide)

/-- One relaxation of the edge family on a state that satisfies the invariant: the stop of
the loop loses nothing, the pruned update is the unpruned one, and the invariant holds again
with the position of this relaxation. -/
theorem Run_family (n A B lo : Nat) (tag : Tag) (hn : n < 2 ^ 63) (hlo : lo < 2 ^ 63)
    (hAB : A * n + B ≤ 2 ^ 63) (p adr hi arg : Nat) (s : sssp_solver Tag)
    (hR : Run n A lo tag p s) (hp : p ≤ adr) (hadr : adr ≤ n) :
    (∀ l, lo ≤ l → l ≤ min hi (n - adr) → ((s.get (adr + l)).type == tag) = true →
      (s.get (adr + l)).cost ≤ (s.get adr).cost + Linear A B l →
      ∀ l', lo ≤ l' → l' < l → (s.get (adr + l')).cost ≤ (s.get adr).cost + Linear A B l') ∧
    update .greater_equal true s adr lo hi (Linear A B) tag unspecified arg =
      update .greater_equal false s adr lo hi (Linear A B) tag unspecified arg ∧
    Run n A lo tag adr
      (update .greater_equal true s adr lo hi (Linear A B) tag unspecified arg) := by
  have hs := hR.size
  have hcap : (if s.size > adr then s.size - 1 - adr else 0) = n - adr := by
    rw [if_pos (by omega), hs]
    omega
  have hmin := Nat.min_le_right hi (n - adr)
  have hbase := hR.bounded adr
  unfold infinite_cost at hbase
  have hmul : ∀ l, l ≤ n → A * l ≤ A * n := fun l hl => Nat.mul_le_mul_left A hl
  have hlin : ∀ l, l ≤ n → Linear A B l = A * l + B := by
    intro l hl
    have := hmul l hl
    exact Linear_apply A B l (by omega)
  have hsplit : ∀ a b, b ≤ a → A * a = A * b + A * (a - b) := by
    intro a b hab
    rw [← Nat.mul_add]
    congr 1
    omega
  have hw : ∀ l, lo ≤ l → l ≤ min hi (n - adr) →
      (s.get adr).cost + Linear A B l < 2 ^ 64 := by
    intro l _ l2
    have := hmul l (by omega)
    rw [hlin l (by omega)]
    omega
  have hprune : ∀ l, lo ≤ l → l ≤ min hi (n - adr) →
      ((s.get (adr + l)).type == tag) = true →
      (s.get (adr + l)).cost ≤ (s.get adr).cost + Linear A B l →
      ∀ l', lo ≤ l' → l' < l →
        (s.get (adr + l')).cost ≤ (s.get adr).cost + Linear A B l' := by
    intro l l1 l2 hty hc l' l3 l4
    obtain ⟨r1, r2, r3⟩ := hR.run (adr + l) (by omega) hty
    have := r3 (adr + l' - (adr + l - (s.get (adr + l)).len)) (by omega) (by omega)
    have e1 : adr + l - (s.get (adr + l)).len +
        (adr + l' - (adr + l - (s.get (adr + l)).len)) = adr + l' := by omega
    have e2 : (s.get (adr + l)).len - (adr + l' - (adr + l - (s.get (adr + l)).len)) =
        l - l' := by omega
    rw [e1, e2] at this
    rw [hlin l (by omega)] at hc
    rw [hlin l' (by omega)]
    have := hsplit l l' (by omega)
    omega
  have hunsp : (if unspecified = unspecified then (s.get adr).cost else unspecified) =
      (s.get adr).cost := if_pos rfl
  have heq : update .greater_equal true s adr lo hi (Linear A B) tag unspecified arg =
      update .greater_equal false s adr lo hi (Linear A B) tag unspecified arg := by
    rw [update_eq_descend _ _ _ _ _ _ _ _ _ _ hlo (by rw [hcap]; omega),
      update_eq_descend _ _ _ _ _ _ _ _ _ _ hlo (by rw [hcap]; omega)]
    simp only [hcap, hunsp]
    exact update_descend_prune_eq adr lo (Linear A B) tag _ arg (min hi (n - adr)) s
      (by omega) hw hprune (min hi (n - adr)) s (le_refl _) (fun _ _ => rfl)
  refine ⟨hprune, heq, ?_⟩
  suffices key : Run n A lo tag adr (update_descend .greater_equal false adr lo (Linear A B) tag
      (s.get adr).cost arg (min hi (n - adr)) s) by
    rw [heq, update_eq_descend _ _ _ _ _ _ _ _ _ _ hlo (by rw [hcap]; omega)]
    simp only [hcap, hunsp]
    exact key
  obtain ⟨h1, h2⟩ := update_descend_full adr lo (Linear A B) tag (s.get adr).cost arg
    (min hi (n - adr)) hw (min hi (n - adr)) s (le_refl _) (by omega)
  generalize update_descend .greater_equal false adr lo (Linear A B) tag (s.get adr).cost arg
    (min hi (n - adr)) s = s1 at h1 h2 ⊢
  have hle : ∀ u, (s1.get u).cost ≤ (s.get u).cost := by
    intro u
    rw [h2 u]
    split
    · rename_i hc
      exact Nat.le_of_lt hc.2.2
    · exact le_refl _
  have hdone : ∀ x, lo ≤ x → x ≤ min hi (n - adr) →
      (s1.get (adr + x)).cost ≤ (s.get adr).cost + Linear A B x := by
    intro x x1 x2
    have e : adr + x - adr = x := by omega
    rw [h2 (adr + x), e]
    by_cases hc : (s.get adr).cost + Linear A B x < (s.get (adr + x)).cost
    · rw [if_pos ⟨by omega, by omega, hc⟩]
    · rw [if_neg (fun h => hc h.2.2)]
      omega
  refine ⟨by rw [h1]; exact hs, fun v => le_trans (hle v) (hR.bounded v), ?_⟩
  intro v hv hty
  by_cases hc : adr + lo ≤ v ∧ v ≤ adr + min hi (n - adr) ∧
      (s.get adr).cost + Linear A B (v - adr) < (s.get v).cost
  · have ev : s1.get v = ⟨(s.get adr).cost + Linear A B (v - adr), v - adr, arg, tag⟩ := by
      rw [h2 v, if_pos hc]
    rw [ev]
    refine ⟨(by show v - adr ≤ v; omega), (by show v - (v - adr) ≤ adr; omega), ?_⟩
    intro x x1 x2
    have x2' : x < v - adr := x2
    have e : v - (v - adr) + x = adr + x := by omega
    show (s1.get (v - (v - adr) + x)).cost + A * (v - adr - x) ≤
      (s.get adr).cost + Linear A B (v - adr)
    rw [e, hlin (v - adr) (by omega)]
    have d := hdone x x1 (by omega)
    rw [hlin x (by omega)] at d
    have := hsplit (v - adr) x (by omega)
    omega
  · have ev : s1.get v = s.get v := by
      rw [h2 v, if_neg hc]
    rw [ev] at hty ⊢
    obtain ⟨r1, r2, r3⟩ := hR.run v hv hty
    refine ⟨r1, by omega, ?_⟩
    intro y y1 y2
    exact le_trans (Nat.add_le_add_right (hle _) _) (r3 y y1 y2)

theorem Run_of_Pruned (n begin A B lo : Nat) (tag : Tag) (hn : n < 2 ^ 63) (hlo : lo < 2 ^ 63)
    (hAB : A * n + B ≤ 2 ^ 63) (hdef : ((default : Tag) == tag) = false) (p : Nat)
    (s : sssp_solver Tag) (h : Pruned n begin A B lo tag p s) : Run n A lo tag p s := by
  induction h with
  | init => exact Run_mk_solver n begin A lo tag hn hdef
  | family p adr hi arg s _ hp hadr ih =>
    exact (Run_family n A B lo tag hn hlo hAB p adr hi arg s ih hp hadr).2.2
  | range p skip linear s adr fr to_ func other base_cost arg _ ht ih =>
    exact Run_update n A lo tag p skip linear s adr fr to_ func other base_cost arg ih ht
  | edge p skip s adr len other cost arg _ ht ih =>
    exact Run_update_edge n A lo tag p skip s adr len other cost arg ih ht

end sssp_solver

/-- C13 (amended).  Monotone prune is lossless in a parse that offers the affine family from
positions that never decrease.  Let `n < 2^63`, `lo < 2^63`, `A n + B <= 2^63`, and let `tag`
differ (under the `operator ==` of the tag type) from the value-initialised tag.  On every
solver obtained from `sssp_solver(n, begin)` by pruned relaxations
`update(adr, lo, hi, Linear<A, B>, tag)` with the default base cost at non-decreasing
positions, interleaved with range and single-edge relaxations under tags that are not `==`
to `tag`, the next relaxation of the family from a position `adr <= n` not before the last
one has these properties: `Linear<A, B>` is flagged affine; whenever the target `adr+l` is
not improved and carries the tag, no smaller length `l'` in `[lo, l)` improves its target
`adr+l'`; and the pruned update leaves the same solver state as relaxing every `l` in
`[lo, hi]`. -/
theorem monotone_prune_lossless {Tag : Type} [Inhabited Tag] [BEq Tag]
    (n begin A B lo : Nat) (tag : Tag) (hn : n < 2 ^ 63) (hlo : lo < 2 ^ 63)
    (hAB : A * n + B ≤ 2 ^ 63) (hdef : ((default : Tag) == tag) = false)
    (p : Nat) (s : sssp_solver Tag) (h : Pruned n begin A B lo tag p s)
    (adr hi arg : Nat) (hp : p ≤ adr) (hadr : adr ≤ n) :
    is_linear_LinearQ A B 1 = true ∧
    (∀ l, lo ≤ l → l ≤ min hi (n - adr) → ((s.get (adr + l)).type == tag) = true →
      (s.get (adr + l)).cost ≤ (s.get adr).cost + Linear A B l →
      ∀ l', lo ≤ l' → l' < l →
        (s.get (adr + l')).cost ≤ (s.get adr).cost + Linear A B l') ∧
    update .greater_equal (is_linear_LinearQ A B 1) s adr lo hi (Linear A B) tag unspecified
        arg =
      update .greater_equal false s adr lo hi (Linear A B) tag unspecified arg := by
  have hlin : is_linear_LinearQ A B 1 = true := by simp [is_linear_LinearQ]
  have hR := sssp_solver.Run_of_Pruned n begin A B lo tag hn hlo hAB hdef p s h
  obtain ⟨h1, h2, _⟩ := sssp_solver.Run_family n A B lo tag hn hlo hAB p adr hi arg s hR hp hadr
  refine ⟨hlin, h1, ?_⟩
  rw [hlin]
  exact h2

/-- Witness for C13: on a solver with four vertices the family `Linear<2, 3>` with tag `lzs`
is relaxed from position 0 for the lengths `1 .. 3`, leaving the costs 5, 7, 9.  The next
relaxation of the family, from position 1 for the lengths `1 .. 2`, stops at `l = 2`: the
target 3 has cost `9 <= 5 + 7` and carries the tag.  The length 1 that is skipped does not
improve vertex 2 (`7 <= 5 + 5`), and the pruned and the unpruned update agree. -/
theorem monotone_prune_lossless_witness :
    (3 : Nat) < 2 ^ 63 ∧ (1 : Nat) < 2 ^ 63 ∧ 2 * 3 + 3 ≤ 2 ^ 63 ∧
    ((default : estpolis_biography.tag) == estpolis_biography.tag.lzs) = false ∧
    (relax .greater_equal true 1 (Linear 2 3) estpolis_biography.tag.lzs 5 0 2
      (update .greater_equal true (mk_solver 3 0 : sssp_solver estpolis_biography.tag) 0 1 3
        (Linear 2 3) .lzs unspecified 0)).2 = false ∧
    update .greater_equal (is_linear_LinearQ 2 3 1)
        (update .greater_equal true (mk_solver 3 0 : sssp_solver estpolis_biography.tag) 0 1 3
          (Linear 2 3) .lzs unspecified 0) 1 1 2 (Linear 2 3) .lzs unspecified 0 =
      update .greater_equal false
        (update .greater_equal true (mk_solver 3 0 : sssp_solver estpolis_biography.tag) 0 1 3
          (Linear 2 3) .lzs unspecified 0) 1 1 2 (Linear 2 3) .lzs unspecified 0 :=
  ⟨by decide, by decide, by decide, by decide, by decide,
    (monotone_prune_lossless 3 0 2 3 1 estpolis_biography.tag.lzs (by decide) (by decide)
      (by decide) (by decide) 0 _
      (Pruned.family 0 0 3 0 _ Pruned.init (le_refl _) (by decide)) 1 2 0 (by decide)
      (by decide)).2.2⟩

/-- Counterexample to C13 as stated.  On a fresh solver with three vertices, the relaxation of
the single length 2 from position 0 at cost 1 with tag `lzs` leaves vertex 2 at cost 1 and
vertex 1 at infinity.  The next relaxation of the lengths `1 .. 2` at the constant cost 8 with
the same tag stops at `l = 2` (the target is not improved and carries the tag), although the
smaller length 1 would have improved vertex 1: the pruned update leaves it at infinity, the
relaxation of every length leaves it at 8. -/
theorem monotone_prune_lossless_counterexample :
    is_linear_Constant 8 = true ∧
    ((update .greater_equal (is_linear_Constant 1)
        (mk_solver 2 0 : sssp_solver estpolis_biography.tag) 0 2 2 (Constant 1) .lzs
        unspecified 0).get 2).type = .lzs ∧
    ((update .greater_equal (is_linear_Constant 1)
        (mk_solver 2 0 : sssp_solver estpolis_biography.tag) 0 2 2 (Constant 1) .lzs
        unspecified 0).get 2).cost ≤ 0 + Constant 8 2 ∧
    0 + Constant 8 1 < ((update .greater_equal (is_linear_Constant 1)
        (mk_solver 2 0 : sssp_solver estpolis_biography.tag) 0 2 2 (Constant 1) .lzs
        unspecified 0).get 1).cost ∧
    ((update .greater_equal (is_linear_Constant 8)
        (update .greater_equal (is_linear_Constant 1)
          (mk_solver 2 0 : sssp_solver estpolis_biography.tag) 0 2 2 (Constant 1) .lzs
          unspecified 0) 0 1 2 (Constant 8) .lzs unspecified 0).get 1).cost = infinite_cost ∧
    ((update .greater_equal false
        (update .greater_equal (is_linear_Constant 1)
          (mk_solver 2 0 : sssp_solver estpolis_biography.tag) 0 2 2 (Constant 1) .lzs
          unspecified 0) 0 1 2 (Constant 8) .lzs unspecified 0).get 1).cost = 8 := by
  refine ⟨by decide, by decide, by decide, by decide, by decide, by decide⟩

end sfc_comp

namespace sfc_comp
open encode sssp_solver
namespace sssp_solver
variable {Tag : Type} [Inhabited Tag] [BEq Tag]

/-- The passes of `update_k`, pruned or not: a vertex that differs afterwards is a target
`adr + fr + j K` with `j <= m`. -/
theorem update_k_descend_frame (K : Nat) (lin : Bool) (adr fr : Nat) (func : Nat → Nat)
    (tag : Tag) (base arg : Nat) :
    ∀ (m : Nat) (s : sssp_solver Tag), adr + (fr + m * K) < 2 ^ 64 →
      (update_k_descend K lin adr fr func tag base arg m s).size = s.size ∧
      ∀ v, (update_k_descend K lin adr fr func tag base arg m s).get v = s.get v ∨
        ∃ j, j ≤ m ∧ v = adr + (fr + j * K) := by
  intro m
  induction m with
  | zero =>
    intro s hx
    unfold update_k_descend
    rcases relax_write .greater_equal lin adr func tag base arg fr s with h | ⟨_, h⟩
    · rw [h]
      exact ⟨rfl, fun v => Or.inl rfl⟩
    · rw [h, Nat.mod_eq_of_lt (by omega)]
      refine ⟨size_set _ _ _, ?_⟩
      intro v
      by_cases hv : v = adr + fr
      · right; exact ⟨0, le_refl _, by omega⟩
      · left; exact get_set_ne _ _ _ _ (Ne.symm hv)
  | succ m ih =>
    intro s hx
    have hsucc : (m + 1) * K = m * K + K := Nat.succ_mul m K
    unfold update_k_descend
    simp only []
    have hr : (relax .greater_equal lin adr func tag base arg (fr + (m + 1) * K) s).1.size =
        s.size ∧ ∀ v, (relax .greater_equal lin adr func tag base arg (fr + (m + 1) * K) s).1.get v
          = s.get v ∨ v = adr + (fr + (m + 1) * K) := by
      rcases relax_write .greater_equal lin adr func tag base arg (fr + (m + 1) * K) s
        with h | ⟨_, h⟩
      · rw [h]
        exact ⟨rfl, fun v => Or.inl rfl⟩
      · rw [h, Nat.mod_eq_of_lt hx]
        refine ⟨size_set _ _ _, ?_⟩
        intro v
        by_cases hv : v = adr + (fr + (m + 1) * K)
        · right; exact hv
        · left; exact get_set_ne _ _ _ _ (Ne.symm hv)
    generalize relax .greater_equal lin adr func tag base arg (fr + (m + 1) * K) s = r at hr ⊢
    obtain ⟨r1, r2⟩ := hr
    split
    · obtain ⟨i1, i2⟩ := ih r.1 (by omega)
      refine ⟨by rw [i1, r1], ?_⟩
      intro v
      rcases i2 v with h | ⟨j, j1, j2⟩
      · rcases r2 v with h' | h'
        · left; rw [h, h']
        · right; exact ⟨m + 1, le_refl _, h'⟩
      · right; exact ⟨j, by omega, j2⟩
    · refine ⟨r1, ?_⟩
      intro v
      rcases r2 v with h' | h'
      · left; exact h'
      · right; exact ⟨m + 1, le_refl _, h'⟩

/-- The passes of `update_k` without the prune, with sums that stay in `size_t`: every target
`adr + fr + j K`, `j <= m`, is relaxed against the state met on entry. -/
theorem update_k_descend_full (K : Nat) (hK : 1 ≤ K) (adr fr : Nat) (func : Nat → Nat)
    (tag : Tag) (base arg : Nat) :
    ∀ (m : Nat) (s : sssp_solver Tag), adr + (fr + m * K) < s.size →
      (∀ j, j ≤ m → base + func (fr + j * K) < 2 ^ 64) →
      ∀ j, j ≤ m →
        (update_k_descend K false adr fr func tag base arg m s).get (adr + (fr + j * K)) =
          if base + func (fr + j * K) < (s.get (adr + (fr + j * K))).cost then
            ⟨base + func (fr + j * K), fr + j * K, arg, tag⟩
          else s.get (adr + (fr + j * K)) := by
  intro m
  induction m with
  | zero =>
    intro s hs hw j hj
    have hsz := size_lt s
    have hj0 : j = 0 := by omega
    subst hj0
    have hw0 := hw 0 (le_refl _)
    unfold update_k_descend
    simp only [Nat.zero_mul, Nat.add_zero] at hs hw0 ⊢
    rw [relax_nonlinear _ _ _ _ _ _ _ hw0 (by omega)]
    by_cases hc : base + func fr < (s.get (adr + fr)).cost
    · simp only [hc, if_true]
      exact get_set_eq _ _ _ hs
    · simp only [hc, if_false]
  | succ m ih =>
    intro s hs hw j hj
    have hsz := size_lt s
    have hmono : fr + m * K < fr + (m + 1) * K := by
      have : (m + 1) * K = m * K + K := Nat.succ_mul m K
      omega
    unfold update_k_descend
    simp only []
    rw [relax_nonlinear _ _ _ _ _ _ _ (hw (m + 1) (le_refl _)) (by omega)]
    simp only [if_true]
    by_cases hjm : j = m + 1
    · subst hjm
      obtain ⟨_, f2⟩ := update_k_descend_frame K false adr fr func tag base arg m
        (if base + func (fr + (m + 1) * K) < (s.get (adr + (fr + (m + 1) * K))).cost then
          s.set (adr + (fr + (m + 1) * K)) ⟨base + func (fr + (m + 1) * K), fr + (m + 1) * K,
            arg, tag⟩ else s) (by omega)
      rcases f2 (adr + (fr + (m + 1) * K)) with h | ⟨j', j1, j2⟩
      · rw [h]
        by_cases hc : base + func (fr + (m + 1) * K) < (s.get (adr + (fr + (m + 1) * K))).cost
        · simp only [hc, if_true]
          exact get_set_eq _ _ _ hs
        · simp only [hc, if_false]
      · have : j' * K ≤ m * K := Nat.mul_le_mul_right K j1
        omega
    · have hjle : j ≤ m := by omega
      have hjK : j * K ≤ m * K := Nat.mul_le_mul_right K hjle
      have hne : adr + (fr + (m + 1) * K) ≠ adr + (fr + j * K) := by omega
      by_cases hc : base + func (fr + (m + 1) * K) < (s.get (adr + (fr + (m + 1) * K))).cost
      · simp only [hc, if_true]
        rw [ih _ (by rw [size_set]; omega) (fun j' hj' => hw j' (by omega)) j hjle,
          get_set_ne _ _ _ _ hne]
      · simp only [hc, if_false]
        exact ih s (by omega) (fun j' hj' => hw j' (by omega)) j hjle

theorem residue_of_mod_eq (K lo l : Nat) (h1 : lo ≤ l) (h2 : l % K = lo % K) :
    l = lo + (l - lo) / K * K := by
  have h3 : (l - lo) % K = 0 := Nat.sub_mod_eq_zero_of_mod_eq h2
  have h4 := Nat.div_add_mod (l - lo) K
  rw [h3, Nat.add_zero, Nat.mul_comm] at h4
  omega

end sssp_solver

/-- C14 (amended).  `update_k<K>` only touches its residue class.  For every `1 <= K <= 2^63`
(where the step `i -= K` of the `size_t` counter goes downward under the signed loop test),
solver state with `N + 1 <= 2^63` vertices, `adr <= N`, `lo` and `hi`: `update_k<K>(adr, lo,
hi, cost_fn, tag, arg)`, pruned or not, keeps the size and changes only vertices `adr + l`
with `lo <= l <= min(hi, N - adr)` and `l ≡ lo (mod K)`; and when `cost_fn` is not flagged
affine for `K` and the sums `vertex[adr].cost + cost_fn(l)` at these lengths stay in
`size_t`, every such vertex ends with cost `min(old cost, vertex[adr].cost + cost_fn(l))`. -/
theorem update_k_residue_class {Tag : Type} [Inhabited Tag] [BEq Tag]
    (s : sssp_solver Tag) (N K adr lo hi : Nat) (cost_fn : Nat → Nat) (tag : Tag) (arg : Nat)
    (hs : s.size = N + 1) (hN : N < 2 ^ 63) (hadr : adr ≤ N) (hK : 1 ≤ K) (hK2 : K ≤ 2 ^ 63) :
    (∀ linear_k : Bool,
      (update_k K linear_k s adr lo hi cost_fn tag arg).size = s.size ∧
      ∀ v, (update_k K linear_k s adr lo hi cost_fn tag arg).get v ≠ s.get v →
        ∃ l, v = adr + l ∧ lo ≤ l ∧ l ≤ min hi (N - adr) ∧ l % K = lo % K) ∧
    ((∀ l, lo ≤ l → l ≤ min hi (N - adr) → l % K = lo % K →
        (s.get adr).cost + cost_fn l < 2 ^ 64) →
      ∀ l, lo ≤ l → l ≤ min hi (N - adr) → l % K = lo % K →
        ((update_k K false s adr lo hi cost_fn tag arg).get (adr + l)).cost =
          min (s.get (adr + l)).cost ((s.get adr).cost + cost_fn l)) := by
  have hcap : (if s.size > adr then s.size - 1 - adr else 0) = N - adr := by
    rw [if_pos (by omega), hs]
    omega
  have hmin := Nat.min_le_right hi (N - adr)
  have hdiv : ∀ t, lo ≤ t → lo + (t - lo) / K * K ≤ t := by
    intro t ht
    have := Nat.div_mul_le_self (t - lo) K
    omega
  constructor
  · intro linear_k
    rw [sssp_solver.update_k_eq_descend K linear_k s adr lo hi cost_fn tag arg hK hK2
      (by rw [hcap]; omega)]
    simp only [hcap]
    by_cases hto : min hi (N - adr) < lo
    · rw [if_pos hto]
      exact ⟨rfl, fun v hv => absurd rfl hv⟩
    · rw [if_neg hto]
      have hd := hdiv (min hi (N - adr)) (by omega)
      obtain ⟨f1, f2⟩ := sssp_solver.update_k_descend_frame K linear_k adr lo cost_fn tag
        (s.get adr).cost arg ((min hi (N - adr) - lo) / K) s (by omega)
      refine ⟨f1, ?_⟩
      intro v hv
      rcases f2 v with h | ⟨j, j1, j2⟩
      · exact absurd h hv
      · have hjK : j * K ≤ (min hi (N - adr) - lo) / K * K := Nat.mul_le_mul_right K j1
        refine ⟨lo + j * K, j2, by omega, by omega, ?_⟩
        rw [Nat.add_mul_mod_self_right]
  · intro hfit l l1 l2 l3
    rw [sssp_solver.update_k_eq_descend K false s adr lo hi cost_fn tag arg hK hK2
      (by rw [hcap]; omega)]
    simp only [hcap]
    rw [if_neg (by omega)]
    have hl := sssp_solver.residue_of_mod_eq K lo l l1 l3
    have hj : (l - lo) / K ≤ (min hi (N - adr) - lo) / K :=
      Nat.div_le_div_right (by omega)
    have hmK : (min hi (N - adr) - lo) / K * K ≤ min hi (N - adr) - lo :=
      Nat.div_mul_le_self _ _
    have := sssp_solver.update_k_descend_full K hK adr lo cost_fn tag (s.get adr).cost arg
      ((min hi (N - adr) - lo) / K) s (by rw [hs]; omega)
      (by
        intro j hj'
        have hjK : j * K ≤ (min hi (N - adr) - lo) / K * K := Nat.mul_le_mul_right K hj'
        exact hfit (lo + j * K) (by omega) (by omega) (by rw [Nat.add_mul_mod_self_right]))
      ((l - lo) / K) hj
    rw [← hl] at this
    rw [this]
    split
    · show (s.get adr).cost + cost_fn l = _
      omega
    · omega

/-- Witness for C14: a fresh solver with eight vertices, `K = 3`, lengths `1, 4` from
position 1 with the quotient cost `(3 l + 1) / 2`, which is not flagged affine for `K = 3`. -/
theorem update_k_residue_class_witness :
    (mk_solver 7 1 : sssp_solver estpolis_biography.tag).size = 7 + 1 ∧ (7 : Nat) < 2 ^ 63 ∧
    (1 : Nat) ≤ 7 ∧ (1 : Nat) ≤ 3 ∧ (3 : Nat) ≤ 2 ^ 63 ∧
    is_linear_k_LinearQ 3 1 2 3 = false ∧
    (update_k 3 (is_linear_k_LinearQ 3 1 2 3)
      (mk_solver 7 1 : sssp_solver estpolis_biography.tag) 1 1 6
      (LinearQ 3 1 2) .lzs 7).get 5 = ⟨6, 4, 7, .lzs⟩ ∧
    ((update_k 3 (is_linear_k_LinearQ 3 1 2 3)
      (mk_solver 7 1 : sssp_solver estpolis_biography.tag) 1 1 6
      (LinearQ 3 1 2) .lzs 7).get 4).cost = infinite_cost ∧
    (∀ v, (update_k 3 false (mk_solver 7 1 : sssp_solver estpolis_biography.tag) 1 1 6
        (LinearQ 3 1 2) .lzs 7).get v ≠
        (mk_solver 7 1 : sssp_solver estpolis_biography.tag).get v →
      ∃ l, v = 1 + l ∧ 1 ≤ l ∧ l ≤ min 6 (7 - 1) ∧ l % 3 = 1 % 3) :=
  ⟨by decide, by decide, by decide, by decide, by decide, by decide, by decide, by decide,
    ((update_k_residue_class (mk_solver 7 1 : sssp_solver estpolis_biography.tag) 7 3 1 1 6
      (LinearQ 3 1 2) .lzs 7 (by decide) (by decide) (by decide) (by decide) (by decide)).1
        false).2⟩

/-- Counterexample to C14 as stated, with `K = SIZE_MAX`.  On `sssp_solver(3, 0)` the length 3
is relaxed at cost 1 with tag `lzs`.  Then `update_k<SIZE_MAX>(0, 1, 1, Constant<5>, lzs)` has
the single length `l = 1` in its range, but the step `i -= K` of the `size_t` counter takes
`i = 1` to `i = 2`, which passes the loop test again: vertex 2 receives `(5, 2, 0, lzs)`
although `2 > min(hi, N - adr) = 1`.  The loop then stops at `i = 3` on the prune. -/
theorem update_k_residue_class_counterexample :
    (1 : Nat) ≤ 2 ^ 64 - 1 ∧
    (update .greater_equal true (mk_solver 3 0 : sssp_solver estpolis_biography.tag) 0 3 3
      (Constant 1) .lzs unspecified 0).size = 3 + 1 ∧
    (update_k (2 ^ 64 - 1) (is_linear_k_LinearQ 0 5 1 (2 ^ 64 - 1))
      (update .greater_equal true (mk_solver 3 0 : sssp_solver estpolis_biography.tag) 0 3 3
        (Constant 1) .lzs unspecified 0) 0 1 1 (Constant 5) .lzs 0).get 2 = ⟨5, 2, 0, .lzs⟩ ∧
    (update .greater_equal true (mk_solver 3 0 : sssp_solver estpolis_biography.tag) 0 3 3
      (Constant 1) .lzs unspecified 0).get 2 = ⟨infinite_cost, 0, 0, .uncomp0⟩ ∧
    ¬ (∃ l, 2 = 0 + l ∧ 1 ≤ l ∧ l ≤ min 1 (3 - 0)) := by
  refine ⟨by decide, by decide, by decide, by decide, ?_⟩
  rintro ⟨l, h1, h2, h3⟩
  have : min 1 (3 - 0) = 1 := by decide
  omega

end sfc_comp

namespace sfc_comp
open encode sssp_solver
namespace sssp_solver
variable {Tag : Type} [Inhabited Tag] [BEq Tag]

/-- The loop of `update` entered at a counter with the sign bit set, with `fr < 2^63`: the
signed test fails at once. -/
theorem update_loop_inert (skip : Skip) (linear : Bool) (adr fr : Nat) (func : Nat → Nat)
    (tag : Tag) (base arg : Nat) (hfr : fr < 2 ^ 63) (i : Nat) (h1 : 2 ^ 63 ≤ i)
    (h2 : i < 2 ^ 64) (fuel : Nat) (s : sssp_solver Tag) :
    update_loop skip linear adr fr func tag base arg fuel i s = s := by
  cases fuel with
  | zero =>
    unfold update_loop
    rfl
  | succ f =>
    unfold update_loop
    have := ptrdiff_t_neg i h1 h2
    have := ptrdiff_t_small fr hfr
    rw [if_neg (by omega)]

/-- The range `update` under every policy, pruned or not, with `fr < 2^63` and `adr` a
`size_t`: a vertex that differs afterwards is a target `adr + l` of the capped range and
holds `(base + func(l), l, arg, tag)`, the sum formed in `size_t`. -/
theorem update_frame (skip : Skip) (linear : Bool) (s : sssp_solver Tag) (adr fr to_ : Nat)
    (func : Nat → Nat) (tag : Tag) (base_cost arg : Nat) (hadr : adr < 2 ^ 64)
    (hfr : fr < 2 ^ 63) :
    (update skip linear s adr fr to_ func tag base_cost arg).size = s.size ∧
    ∀ v, (update skip linear s adr fr to_ func tag base_cost arg).get v = s.get v ∨
      ∃ l, fr ≤ l ∧ l ≤ min to_ (if s.size > adr then s.size - 1 - adr else 0) ∧ v = adr + l ∧
        (update skip linear s adr fr to_ func tag base_cost arg).get v =
          ⟨((if base_cost = unspecified then (s.get adr).cost else base_cost) + func l) % 2 ^ 64,
            l, arg, tag⟩ := by
  have hsz := size_lt s
  have hcap2 : adr + min to_ (if s.size > adr then s.size - 1 - adr else 0) < 2 ^ 64 := by
    by_cases h : s.size > adr
    · rw [if_pos h]
      have := Nat.min_le_right to_ (s.size - 1 - adr)
      omega
    · rw [if_neg h, Nat.min_zero]
      omega
  by_cases hcap : min to_ (if s.size > adr then s.size - 1 - adr else 0) < 2 ^ 63
  · rw [update_eq_descend _ _ _ _ _ _ _ _ _ _ hfr hcap]
    generalize (if base_cost = unspecified then (s.get adr).cost else base_cost) = base
    generalize min to_ (if s.size > adr then s.size - 1 - adr else 0) = hi at hcap2
    apply update_descend_preserves (fun t => t.size = s.size ∧ ∀ v, t.get v = s.get v ∨
        ∃ l, fr ≤ l ∧ l ≤ hi ∧ v = adr + l ∧ t.get v = ⟨(base + func l) % 2 ^ 64, l, arg, tag⟩)
      skip linear adr fr func tag base arg hi ?_ hi (le_refl _) s ⟨rfl, fun v => Or.inl rfl⟩
    intro l t l1 l2 ⟨p1, p2⟩
    rcases relax_write skip linear adr func tag base arg l t with h | ⟨_, h⟩
    · rw [h]; exact ⟨p1, p2⟩
    · rw [h, Nat.mod_eq_of_lt (by omega)]
      refine ⟨by rw [size_set, p1], ?_⟩
      intro v
      by_cases hv : v = adr + l
      · subst hv
        by_cases hin : adr + l < t.size
        · right
          exact ⟨l, l1, l2, rfl, get_set_eq _ _ _ hin⟩
        · rw [get_set_oob _ _ _ (by omega)]
          exact p2 _
      · rw [get_set_ne _ _ _ _ (Ne.symm hv)]
        exact p2 v
  · unfold update
    simp only []
    rw [update_loop_inert _ _ _ _ _ _ _ _ hfr _ (by omega) (by omega)]
    exact ⟨rfl, fun v => Or.inl rfl⟩

end sssp_solver

/-- C15 (amended).  `update_lz` is the range update capped by the match.  For every solver
state, policy and arguments with `adr` a `size_t` and `lo < 2^63` (where the signed loop test
is the comparison of the lengths): `update_lz(adr, lo, hi, lz, cost_fn, tag, base_cost)`
produces exactly the state produced by `update(adr, lo, min(hi, lz.len), cost_fn, tag,
base_cost, lz.ofs)`; every vertex it changes is a target `adr + len` with
`lo <= len <= lz.len` and the stored argument `lz.ofs`; and with the empty match `{0,0}` and
`lo >= 1` the solver is left unchanged. -/
theorem update_lz_capped {Tag : Type} [Inhabited Tag] [BEq Tag]
    (skip : Skip) (linear : Bool) (s : sssp_solver Tag) (adr lo hi : Nat) (res : lz_data)
    (cost_fn : Nat → Nat) (tag : Tag) (base_cost : Nat) (hadr : adr < 2 ^ 64)
    (hlo : lo < 2 ^ 63) :
    update_lz skip linear s adr lo hi res cost_fn tag base_cost =
      update skip linear s adr lo (min hi res.len) cost_fn tag base_cost res.ofs ∧
    (update_lz skip linear s adr lo hi res cost_fn tag base_cost).size = s.size ∧
    (∀ v, (update_lz skip linear s adr lo hi res cost_fn tag base_cost).get v ≠ s.get v →
      v = adr + ((update_lz skip linear s adr lo hi res cost_fn tag base_cost).get v).len ∧
      lo ≤ ((update_lz skip linear s adr lo hi res cost_fn tag base_cost).get v).len ∧
      ((update_lz skip linear s adr lo hi res cost_fn tag base_cost).get v).len ≤ res.len ∧
      ((update_lz skip linear s adr lo hi res cost_fn tag base_cost).get v).len ≤ hi ∧
      ((update_lz skip linear s adr lo hi res cost_fn tag base_cost).get v).lz_ofs = res.ofs ∧
      ((update_lz skip linear s adr lo hi res cost_fn tag base_cost).get v).type = tag) ∧
    (1 ≤ lo → update_lz skip linear s adr lo hi lz.empty cost_fn tag base_cost = s) := by
  refine ⟨rfl, ?_, ?_, ?_⟩
  · exact (sssp_solver.update_frame skip linear s adr lo (min hi res.len) cost_fn tag base_cost
      res.ofs hadr hlo).1
  · intro v hv
    rcases (sssp_solver.update_frame skip linear s adr lo (min hi res.len) cost_fn tag base_cost
      res.ofs hadr hlo).2 v with h | ⟨l, l1, l2, l3, l4⟩
    · exact absurd h hv
    · have e : (update_lz skip linear s adr lo hi res cost_fn tag base_cost).get v =
          ⟨((if base_cost = unspecified then (s.get adr).cost else base_cost) + cost_fn l) %
            2 ^ 64, l, res.ofs, tag⟩ := l4
      rw [e]
      have := Nat.le_min.mp (Nat.le_min.mp l2).1
      exact ⟨l3, l1, this.2, this.1, rfl, rfl⟩
  · intro h1
    have e : min (min hi lz.empty.len) (if s.size > adr then s.size - 1 - adr else 0) = 0 := by
      simp [lz.empty]
    unfold update_lz
    rw [sssp_solver.update_eq_descend _ _ _ _ _ _ _ _ _ _ hlo (by rw [e]; decide)]
    simp only [e]
    unfold update_descend
    exact if_pos (by omega)

/-- Witness for C15: a fresh solver with eight vertices and the match `{5, 4}` offered at
position 1 for the lengths `3 .. 17`. -/
theorem update_lz_capped_witness :
    (1 : Nat) < 2 ^ 64 ∧ (3 : Nat) < 2 ^ 63 ∧
    (update_lz .greater_equal true (mk_solver 7 1 : sssp_solver estpolis_biography.tag) 1 3 17
      ⟨5, 4⟩ (Constant 17) .lzs unspecified).get 5 = ⟨17, 4, 5, .lzs⟩ ∧
    (update_lz .greater_equal true (mk_solver 7 1 : sssp_solver estpolis_biography.tag) 1 3 17
      ⟨5, 4⟩ (Constant 17) .lzs unspecified).get 6 =
      (mk_solver 7 1 : sssp_solver estpolis_biography.tag).get 6 ∧
    (update_lz .greater_equal true (mk_solver 7 1 : sssp_solver estpolis_biography.tag) 1 3 17
      ⟨5, 4⟩ (Constant 17) .lzs unspecified).size =
      (mk_solver 7 1 : sssp_solver estpolis_biography.tag).size :=
  ⟨by decide, by decide, by decide, by decide,
    (update_lz_capped .greater_equal true (mk_solver 7 1 : sssp_solver estpolis_biography.tag)
      1 3 17 ⟨5, 4⟩ (Constant 17) .lzs unspecified (by decide) (by decide)).2.1⟩

/-- Counterexample to C15 as stated, with `lo = SIZE_MAX`.  On `sssp_solver(2, 0)` the length 2
is relaxed at cost 1 with tag `lzs`.  Then `update_lz(2, SIZE_MAX, 5, {0, 0}, Constant<1>,
lzl)` is given the empty match and `lo >= 1`, yet the loop test
`ptrdiff_t(i) >= ptrdiff_t(fr)` compares with `-1`: the pass at `i = 0` is made, the counter
wraps to `SIZE_MAX`, which passes the test again, and the index `2 + SIZE_MAX` is vertex 1,
which receives `(2, SIZE_MAX, 0, lzl)`: the solver is changed, and the vertex written has a
`len` above `lz.len = 0`. -/
theorem update_lz_capped_counterexample :
    (1 : Nat) ≤ 2 ^ 64 - 1 ∧
    (update_lz .greater_equal (is_linear_Constant 1)
      (update .greater_equal (is_linear_Constant 1)
        (mk_solver 2 0 : sssp_solver estpolis_biography.tag) 0 2 2 (Constant 1) .lzs
        unspecified 0)
      2 (2 ^ 64 - 1) 5 lz.empty (Constant 1) .lzl unspecified).get 1 =
      ⟨2, 2 ^ 64 - 1, 0, .lzl⟩ ∧
    (update .greater_equal (is_linear_Constant 1)
      (mk_solver 2 0 : sssp_solver estpolis_biography.tag) 0 2 2 (Constant 1) .lzs
      unspecified 0).get 1 = ⟨infinite_cost, 0, 0, .uncomp0⟩ ∧
    update_lz .greater_equal (is_linear_Constant 1)
      (update .greater_equal (is_linear_Constant 1)
        (mk_solver 2 0 : sssp_solver estpolis_biography.tag) 0 2 2 (Constant 1) .lzs
        unspecified 0)
      2 (2 ^ 64 - 1) 5 lz.empty (Constant 1) .lzl unspecified ≠
      update .greater_equal (is_linear_Constant 1)
        (mk_solver 2 0 : sssp_solver estpolis_biography.tag) 0 2 2 (Constant 1) .lzs
        unspecified 0 ∧
    ¬ (2 ^ 64 - 1 ≤ lz.empty.len) := by
  refine ⟨by decide, by decide, by decide, by decide, by decide⟩

/-- C20.  Search vacuity never propagates.  When `uncomp_helper.find` returns its none value
(`len = SIZE_MAX`, `cost = infinity`), the call `update_u(i+1, none.len, tag, none.cost + k)`
that `papuwa_comp` makes, for any solver, any `i + 1 <= N < SIZE_MAX`, any tag and any `k`,
takes the early return `adr < len`: the result is the solver it was given, every vertex
unchanged. -/
theorem none_value_is_ignored {Tag : Type} [Inhabited Tag] [BEq Tag]
    (s : sssp_solver Tag) (h : uncomp_helper) (N i fr to_ k arg : Nat) (tag : Tag)
    (hi : i + 1 ≤ N) (hN : N < 2 ^ 64 - 1)
    (hnone : h.find (i + 1) fr to_ = ⟨nlen, infinite_cost⟩) :
    update_u s (i + 1) (h.find (i + 1) fr to_).len tag ((h.find (i + 1) fr to_).cost + k) arg
      = s ∧
    ∀ v, (update_u s (i + 1) (h.find (i + 1) fr to_).len tag
      ((h.find (i + 1) fr to_).cost + k) arg).get v = s.get v := by
  have e : update_u s (i + 1) (h.find (i + 1) fr to_).len tag
      ((h.find (i + 1) fr to_).cost + k) arg = s := by
    rw [hnone]
    unfold update_u update_edge
    rw [if_pos (by show i + 1 < nlen; unfold nlen; omega)]
  exact ⟨e, fun v => by rw [e]⟩

/-- Witness for C20: the first pass of the loop of `papuwa_comp` on a two-byte input; the
query for the long literal runs, `find(1, 0x11, 0x11 + 0x3ff)`, has no candidate. -/
theorem none_value_is_ignored_witness :
    (0 : Nat) + 1 ≤ 2 ∧ (2 : Nat) < 2 ^ 64 - 1 ∧
    ((uncomp_helper.create 2 1).update 0 0).find (0 + 1) 0x11 (0x11 + 0x3ff) =
      ⟨nlen, infinite_cost⟩ ∧
    update_u (mk_solver 2 0 : sssp_solver estpolis_biography.tag) (0 + 1)
      (((uncomp_helper.create 2 1).update 0 0).find (0 + 1) 0x11 (0x11 + 0x3ff)).len .uncomp1
      ((((uncomp_helper.create 2 1).update 0 0).find (0 + 1) 0x11 (0x11 + 0x3ff)).cost + 2) 0 =
      (mk_solver 2 0 : sssp_solver estpolis_biography.tag) :=
  ⟨by decide, by decide, by decide,
    (none_value_is_ignored (mk_solver 2 0 : sssp_solver estpolis_biography.tag)
      ((uncomp_helper.create 2 1).update 0 0) 2 0 0x11 (0x11 + 0x3ff) 2 0 .uncomp1
      (by decide) (by decide) (by decide)).1⟩

end sfc_comp

namespace sfc_comp
open encode sssp_solver
namespace sssp_solver
variable {Tag : Type} [Inhabited Tag] [BEq Tag]

theorem forward_chain_snoc (s : sssp_solver Tag) (c : Vertex Tag) :
    ∀ (cs : List (Vertex Tag)) (a b : Int), forward_chain s a cs b →
      c = s.get (b + c.len).toNat → 1 ≤ c.len → forward_chain s a (cs ++ [c]) (b + c.len) := by
  intro cs
  induction cs with
  | nil =>
    intro a b h h1 h2
    have hab : a = b := h
    subst hab
    exact ⟨h1, h2, rfl⟩
  | cons x xs ih =>
    intro a b h h1 h2
    obtain ⟨q1, q2, q3⟩ := h
    exact ⟨q1, q2, ih _ _ q3 h1 h2⟩

/-- The outcome of the loop of `commands` standing at `adr`, with enough fuel, in terms of
the back-chain from `adr`. -/
theorem commands_loop_outcome (s : sssp_solver Tag) (start : Nat) :
    ∀ (fuel : Nat) (adr : Int) (ret : List (Vertex Tag)), (adr - start).toNat < fuel →
      (commands_loop s start fuel adr ret = .logic_error ∧
        ∃ a, reaches s start adr a ∧ a > start ∧ (s.get a.toNat).len = 0) ∨
      (commands_loop s start fuel adr ret = .assertion_failed ∧
        ∃ a, reaches s start adr a ∧ a < start) ∨
      (reaches s start adr start ∧ ∃ cs, commands_loop s start fuel adr ret =
        .ok (ret ++ cs).reverse ∧ forward_chain s start cs.reverse adr) := by
  intro fuel
  induction fuel with
  | zero => intro adr ret h; omega
  | succ fuel ih =>
    intro adr ret hf
    unfold commands_loop
    by_cases h1 : adr > (start : Int)
    · rw [if_pos h1]
      by_cases h2 : (s.get adr.toNat).len = 0
      · left
        simp only [h2, if_true, true_and]
        exact ⟨adr, reaches.here adr, h1, h2⟩
      · simp only [h2, if_false]
        have hlen : 1 ≤ (s.get adr.toNat).len := by omega
        rcases ih (adr - (s.get adr.toNat).len) (ret ++ [s.get adr.toNat]) (by omega) with
          ⟨e, a, r1, r2, r3⟩ | ⟨e, a, r1, r2⟩ | ⟨r, cs, e, fc⟩
        · left
          exact ⟨e, a, reaches.jump adr a h1 h2 r1, r2, r3⟩
        · right; left
          exact ⟨e, a, reaches.jump adr a h1 h2 r1, r2⟩
        · right; right
          refine ⟨reaches.jump adr _ h1 h2 r, s.get adr.toNat :: cs, ?_, ?_⟩
          · rw [e, List.append_assoc]
            rfl
          · rw [List.reverse_cons]
            have := forward_chain_snoc s (s.get adr.toNat) cs.reverse start
              (adr - (s.get adr.toNat).len) fc
              (by
                have : adr - ((s.get adr.toNat).len : Int) + ((s.get adr.toNat).len : Int) = adr := by
                  omega
                rw [this]) hlen
            have e2 : adr - ((s.get adr.toNat).len : Int) + ((s.get adr.toNat).len : Int) = adr := by
              omega
            rw [e2] at this
            exact this
    · rw [if_neg h1]
      by_cases h2 : adr = (start : Int)
      · right; right
        rw [if_pos h2]
        subst h2
        exact ⟨reaches.here _, [], by simp, rfl⟩
      · right; left
        rw [if_neg h2]
        exact ⟨rfl, adr, reaches.here adr, by omega⟩

/-- The back-chain is deterministic: from `adr` it cannot both stop at a zero length above
`start`, or below `start`, and stand at `start`, nor stop in two different ways. -/
theorem reaches_stop_unique (s : sssp_solver Tag) (start : Nat) :
    ∀ (adr a b : Int), reaches s start adr a → reaches s start adr b →
      (a ≤ start ∨ (s.get a.toNat).len = 0) → (b ≤ start ∨ (s.get b.toNat).len = 0) →
      a = b := by
  intro adr a b ha
  induction ha with
  | here x =>
    intro hb ta tb
    cases hb with
    | here => rfl
    | jump _ _ g1 g2 _ =>
      rcases ta with ta | ta
      · omega
      · exact absurd ta g2
  | jump x y g1 g2 _ ih =>
    intro hb ta tb
    cases hb with
    | here =>
      rcases tb with tb | tb
      · omega
      · exact absurd tb g2
    | jump _ _ _ _ r => exact ih r ta tb

end sssp_solver

/-- C2 (amended).  Command reconstruction.  For a solver built by `sssp_solver(n, begin)` with
`n < 2^63` and modified only by range relaxations (`update`, `update_lz`, `update_k<K>` with
`K <= 2^63`) with the default base cost, a lower length bound `1 <= lo < 2^63` and a cost
function whose values are at most `2^63`, issued from positions `>= begin`: when vertex `n`
has finite cost, `commands(begin)` returns normally, the returned list is the back-chain from
`n` (every command is the vertex its edge arrives at, and the next command starts there),
every returned command has `len >= 1`, and the lengths sum to `n - begin`. -/
theorem commands_reconstruct {Tag : Type} [Inhabited Tag] [BEq Tag] (n begin : Nat)
    (hn : n < 2 ^ 63) (s : sssp_solver Tag) (h : Relaxed n begin s)
    (hfin : (s.get n).cost < infinite_cost) :
    ∃ cmds, s.commands begin = .ok cmds ∧ (∀ c ∈ cmds, 1 ≤ c.len) ∧
      (cmds.map (fun c => c.len)).sum + begin = n ∧
      forward_chain s begin cmds n := by
  have hC := Chained_of_Relaxed n begin hn s h
  obtain ⟨chain, c1, c2, c3⟩ := commands_loop_chain n begin s hC (s.size + 1) n [] (le_refl _) hfin
    (by rw [hC.size]; omega)
  have hsz : ((s.size : Int) - 1) = (n : Int) := by rw [hC.size]; push_cast; omega
  have hout := sssp_solver.commands_loop_outcome s begin (s.size + 1) (n : Int) []
    (by rw [hC.size]; omega)
  refine ⟨chain.reverse, ?_, ?_, ?_, ?_⟩
  · unfold commands
    rw [hsz, c1]; simp
  · intro c hc
    exact c2 c (List.mem_reverse.mp hc)
  · rw [← c3]
    congr 1
    rw [List.map_reverse, List.sum_reverse]
  · rcases hout with ⟨e, _⟩ | ⟨e, _⟩ | ⟨_, cs, e, fc⟩
    · rw [c1] at e; cases e
    · rw [c1] at e; cases e
    · rw [c1] at e
      have : chain = cs := by simpa using e
      rw [this]
      exact fc

/-- Witness for C2: one range relaxation of lengths 1..2 from position 0 of a solver with
three vertices; `commands(0)` returns the single edge `0 -> 2`. -/
theorem commands_reconstruct_witness :
    (2 : Nat) < 2 ^ 63 ∧
    Relaxed 2 0 (sssp_solver.update .greater_equal true
      (mk_solver 2 0 : sssp_solver estpolis_biography.tag) 0 1 2 (Constant 8) .lzs unspecified 7) ∧
    ((sssp_solver.update .greater_equal true
      (mk_solver 2 0 : sssp_solver estpolis_biography.tag) 0 1 2 (Constant 8) .lzs
        unspecified 7).get 2).cost < infinite_cost ∧
    (sssp_solver.update .greater_equal true
      (mk_solver 2 0 : sssp_solver estpolis_biography.tag) 0 1 2 (Constant 8) .lzs
        unspecified 7).commands 0 = .ok [⟨8, 2, 7, .lzs⟩] ∧
    ∃ cmds, (sssp_solver.update .greater_equal true
      (mk_solver 2 0 : sssp_solver estpolis_biography.tag) 0 1 2 (Constant 8) .lzs
        unspecified 7).commands 0 = .ok cmds ∧ (∀ c ∈ cmds, 1 ≤ c.len) ∧
      (cmds.map (fun c => c.len)).sum + 0 = 2 ∧
      forward_chain (sssp_solver.update .greater_equal true
        (mk_solver 2 0 : sssp_solver estpolis_biography.tag) 0 1 2 (Constant 8) .lzs
          unspecified 7) ((0 : Nat) : Int) cmds ((2 : Nat) : Int) :=
  ⟨by decide,
    Relaxed.update _ _ _ _ _ _ _ _ _ Relaxed.init (by decide) (by decide) (by decide)
      (fun l => by rw [sssp_solver.Constant_apply 8 l (by decide)]; decide),
    by decide, by decide,
    commands_reconstruct 2 0 (by decide) _
      (Relaxed.update _ _ _ _ _ _ _ _ _ Relaxed.init (by decide) (by decide) (by decide)
        (fun l => by rw [sssp_solver.Constant_apply 8 l (by decide)]; decide)) (by decide)⟩

/-- Counterexample to C2 as stated: on `sssp_solver(2, 0)` the single range relaxation
`update(1, 1, 1, Constant<2^63 + 1>, lzs)` is issued from position `1 >= begin` with `lo = 1`
and the default base cost.  Vertex 1 is unreachable, its cost is infinity `2^63 - 1`, and the
`size_t` sum `base_cost + func(1)` wraps to 0: vertex 2 receives the finite cost 0 and
`len = 1`.  The back-chain from vertex 2 arrives at vertex 1, whose `len` is 0, and
`commands(0)` raises the logic error instead of returning. -/
theorem commands_reconstruct_counterexample :
    (0 : Nat) ≤ 1 ∧ (1 : Nat) ≤ 1 ∧
    (sssp_solver.update .greater_equal true
      (mk_solver 2 0 : sssp_solver estpolis_biography.tag) 1 1 1 (Constant (2 ^ 63 + 1)) .lzs
        unspecified 0).get 2 = ⟨0, 1, 0, .lzs⟩ ∧
    ((sssp_solver.update .greater_equal true
      (mk_solver 2 0 : sssp_solver estpolis_biography.tag) 1 1 1 (Constant (2 ^ 63 + 1)) .lzs
        unspecified 0).get 2).cost < infinite_cost ∧
    ((sssp_solver.update .greater_equal true
      (mk_solver 2 0 : sssp_solver estpolis_biography.tag) 1 1 1 (Constant (2 ^ 63 + 1)) .lzs
        unspecified 0).get 1).len = 0 ∧
    (sssp_solver.update .greater_equal true
      (mk_solver 2 0 : sssp_solver estpolis_biography.tag) 1 1 1 (Constant (2 ^ 63 + 1)) .lzs
        unspecified 0).commands 0 = .logic_error := by
  refine ⟨by decide, by decide, by decide, by decide, by decide, by decide⟩

/-- C18 (amended).  For every solver state with at most `2^63` vertices whose `len` fields
are below `2^63`, and every `start`: `commands(start)` raises the fatal logic error if and
only if the back-chain from vertex `N` visits a vertex with index above `start` whose `len` is
0 (in particular when `N > start` and vertex `N` has `len = 0`, as a vertex never relaxed
has); it fails the assertion `adr == start` if and only if the back-chain passes below
`start`; and otherwise, when the back-chain ends exactly at `start`, it returns the visited
vertices in forward order.  The loop always ends. -/
theorem commands_outcome {Tag : Type} [Inhabited Tag] [BEq Tag]
    (s : sssp_solver Tag) (start : Nat) (hsize : s.size ≤ 2 ^ 63)
    (hlen : ∀ v, (s.get v).len < 2 ^ 63) :
    (commands s start = .logic_error ↔
      ∃ a, reaches s start ((s.size : Int) - 1) a ∧ a > start ∧ (s.get a.toNat).len = 0) ∧
    ((start : Int) < (s.size : Int) - 1 → (s.get (s.size - 1)).len = 0 →
      commands s start = .logic_error) ∧
    (commands s start = .assertion_failed ↔
      ∃ a, reaches s start ((s.size : Int) - 1) a ∧ a < start) ∧
    ((∃ cmds, commands s start = .ok cmds) ↔ reaches s start ((s.size : Int) - 1) start) ∧
    (∀ cmds, commands s start = .ok cmds →
      forward_chain s start cmds ((s.size : Int) - 1)) ∧
    commands s start ≠ .fuel_exhausted := by
  have hout := sssp_solver.commands_loop_outcome s start (s.size + 1) ((s.size : Int) - 1) []
    (by omega)
  have huniq := sssp_solver.reaches_stop_unique s start ((s.size : Int) - 1)
  have hmain : commands s start = commands_loop s start (s.size + 1) ((s.size : Int) - 1) [] :=
    rfl
  rw [hmain]
  have p1 : commands_loop s start (s.size + 1) ((s.size : Int) - 1) [] = .logic_error ↔
      ∃ a, reaches s start ((s.size : Int) - 1) a ∧ a > start ∧ (s.get a.toNat).len = 0 := by
    constructor
    · intro h
      rcases hout with ⟨_, r⟩ | ⟨e, _⟩ | ⟨_, cs, e, _⟩
      · exact r
      · rw [h] at e; cases e
      · rw [h] at e; cases e
    · rintro ⟨a, r1, r2, r3⟩
      rcases hout with ⟨e, _⟩ | ⟨_, b, q1, q2⟩ | ⟨q, _⟩
      · exact e
      · have := huniq a b r1 q1 (Or.inr r3) (Or.inl (by omega))
        omega
      · have := huniq a start r1 q (Or.inr r3) (Or.inl (le_refl _))
        omega
  refine ⟨p1, ?_, ?_, ?_, ?_, ?_⟩
  · intro h1 h2
    apply p1.mpr
    refine ⟨(s.size : Int) - 1, reaches.here _, h1, ?_⟩
    have : ((s.size : Int) - 1).toNat = s.size - 1 := by omega
    rw [this]
    exact h2
  · constructor
    · intro h
      rcases hout with ⟨e, _⟩ | ⟨_, r⟩ | ⟨_, cs, e, _⟩
      · rw [h] at e; cases e
      · exact r
      · rw [h] at e; cases e
    · rintro ⟨a, r1, r2⟩
      rcases hout with ⟨_, b, q1, q2, q3⟩ | ⟨e, _⟩ | ⟨q, _⟩
      · have := huniq a b r1 q1 (Or.inl (by omega)) (Or.inr q3)
        omega
      · exact e
      · have := huniq a start r1 q (Or.inl (by omega)) (Or.inl (le_refl _))
        omega
  · constructor
    · rintro ⟨cmds, h⟩
      rcases hout with ⟨e, _⟩ | ⟨e, _⟩ | ⟨q, _⟩
      · rw [h] at e; cases e
      · rw [h] at e; cases e
      · exact q
    · intro r
      rcases hout with ⟨_, b, q1, q2, q3⟩ | ⟨_, b, q1, q2⟩ | ⟨_, cs, e, _⟩
      · have := huniq start b r q1 (Or.inl (le_refl _)) (Or.inr q3)
        omega
      · have := huniq start b r q1 (Or.inl (le_refl _)) (Or.inl (by omega))
        omega
      · exact ⟨_, e⟩
  · intro cmds h
    rcases hout with ⟨e, _⟩ | ⟨e, _⟩ | ⟨_, cs, e, fc⟩
    · rw [h] at e; cases e
    · rw [h] at e; cases e
    · rw [h] at e
      have : cmds = cs.reverse := by
        simpa using e
      rw [this]
      exact fc
  · intro h
    rcases hout with ⟨e, _⟩ | ⟨e, _⟩ | ⟨_, cs, e, _⟩ <;> rw [h] at e <;> cases e

end sfc_comp

namespace sfc_comp
open encode sssp_solver

namespace sssp_solver
variable {Tag : Type} [Inhabited Tag] [BEq Tag]

theorem get_oob (s : sssp_solver Tag) (v : Nat) (h : s.size ≤ v) : s.get v = default := by
  unfold sssp_solver.get
  rw [List.getD_eq_getElem?_getD, List.getElem?_eq_none h]
  rfl

end sssp_solver

/-- Witness for C18: three vertices, the edges `0 -> 1` and `1 -> 2` relaxed; `commands(0)`
returns the two vertices in forward order. -/
theorem commands_outcome_witness :
    (update_edge .greater_equal (update_edge .greater_equal
      (mk_solver 2 0 : sssp_solver estpolis_biography.tag) 1 1 .uncomp0 8 0) 2 1 .uncomp1 17
      0).size ≤ 2 ^ 63 ∧
    (∀ v, ((update_edge .greater_equal (update_edge .greater_equal
      (mk_solver 2 0 : sssp_solver estpolis_biography.tag) 1 1 .uncomp0 8 0) 2 1 .uncomp1 17
      0).get v).len < 2 ^ 63) ∧
    commands (update_edge .greater_equal (update_edge .greater_equal
      (mk_solver 2 0 : sssp_solver estpolis_biography.tag) 1 1 .uncomp0 8 0) 2 1 .uncomp1 17
      0) 0 = .ok [⟨8, 1, 0, .uncomp0⟩, ⟨17, 1, 0, .uncomp1⟩] ∧
    commands (update_edge .greater_equal (update_edge .greater_equal
      (mk_solver 2 0 : sssp_solver estpolis_biography.tag) 1 1 .uncomp0 8 0) 2 1 .uncomp1 17
      0) 0 ≠ .fuel_exhausted := by
  have h1 : (update_edge .greater_equal (update_edge .greater_equal
      (mk_solver 2 0 : sssp_solver estpolis_biography.tag) 1 1 .uncomp0 8 0) 2 1 .uncomp1 17
      0).size ≤ 2 ^ 63 := by decide
  have h2 : ∀ v, ((update_edge .greater_equal (update_edge .greater_equal
      (mk_solver 2 0 : sssp_solver estpolis_biography.tag) 1 1 .uncomp0 8 0) 2 1 .uncomp1 17
      0).get v).len < 2 ^ 63 := by
    intro v
    by_cases hv : v < 3
    · interval_cases v <;> decide
    · rw [sssp_solver.get_oob _ _ (by
        have : (update_edge .greater_equal (update_edge .greater_equal
          (mk_solver 2 0 : sssp_solver estpolis_biography.tag) 1 1 .uncomp0 8 0) 2 1 .uncomp1
          17 0).size = 3 := by decide
        omega)]
      decide
  exact ⟨h1, h2, by decide, (commands_outcome _ 0 h1 h2).2.2.2.2.2⟩

/-- Counterexample to C18 as stated: three vertices, the edge `0 -> 2` of length 2 relaxed,
and `start = 1`.  The back-chain visits vertex 2 only, whose `len` is 2, and arrives at index
0, below `start`: `commands(1)` neither raises the logic error nor returns, it fails the
assertion `adr == start`. -/
theorem commands_outcome_counterexample :
    commands (update_edge .greater_equal
      (mk_solver 2 0 : sssp_solver estpolis_biography.tag) 2 2 .lzs 17 0) 1 =
        .assertion_failed ∧
    ((update_edge .greater_equal
      (mk_solver 2 0 : sssp_solver estpolis_biography.tag) 2 2 .lzs 17 0).get 2).len = 2 ∧
    ¬ ∃ a, reaches (update_edge .greater_equal
        (mk_solver 2 0 : sssp_solver estpolis_biography.tag) 2 2 .lzs 17 0) 1 2 a ∧
      a > ((1 : Nat) : Int) ∧
      ((update_edge .greater_equal
        (mk_solver 2 0 : sssp_solver estpolis_biography.tag) 2 2 .lzs 17 0).get a.toNat).len
          = 0 := by
  refine ⟨by decide, by decide, ?_⟩
  rintro ⟨a, r, h1, h2⟩
  cases r with
  | here => exact absurd h2 (by decide)
  | jump _ _ g1 g2 r' =>
    have e : (2 : Int) - (((update_edge .greater_equal
        (mk_solver 2 0 : sssp_solver estpolis_biography.tag) 2 2 .lzs 17 0).get
          (2 : Int).toNat).len : Int) = 0 := by decide
    rw [e] at r'
    cases r' with
    | here => omega
    | jump _ _ g3 _ _ => omega

end sfc_comp

namespace sfc_comp
open encode sssp_solver
namespace sssp_solver
variable {Tag : Type} [Inhabited Tag] [BEq Tag]

theorem matrix_class_spec (offsets : List vrange) (d : Nat) :
    ∀ n, -1 ≤ matrix_class offsets d n ∧ matrix_class offsets d n < (n : Int) ∧
      (0 ≤ matrix_class offsets d n →
        (offsets.getD (matrix_class offsets d n).toNat default).min ≤ d) ∧
      (∀ k : Nat, matrix_class offsets d n < (k : Int) → k < n →
        d < (offsets.getD k default).min) := by
  intro n
  induction n with
  | zero =>
    unfold matrix_class
    exact ⟨le_refl _, by omega, fun h => by omega, fun k _ h => by omega⟩
  | succ n ih =>
    unfold matrix_class
    by_cases h : d < (offsets.getD n default).min
    · rw [if_pos h]
      obtain ⟨i1, i2, i3, i4⟩ := ih
      refine ⟨i1, by omega, i3, ?_⟩
      intro k k1 k2
      by_cases hk : k = n
      · subst hk; exact h
      · exact i4 k k1 (by omega)
    · rw [if_neg h]
      refine ⟨by omega, by omega, ?_, ?_⟩
      · intro _
        simp only [Int.toNat_ofNat]
        omega
      · intro k k1 k2
        omega

theorem matrix_skip_spec (lens : List vrange) (max_len : Nat) :
    ∀ n, -1 ≤ matrix_skip lens max_len n ∧ matrix_skip lens max_len n < (n : Int) := by
  intro n
  induction n with
  | zero =>
    unfold matrix_skip
    exact ⟨le_refl _, by omega⟩
  | succ n ih =>
    unfold matrix_skip
    split
    · exact ⟨ih.1, by omega⟩
    · exact ⟨by omega, by omega⟩

/-- A range `update` keeps the property "every vertex that differs from `s0` satisfies `P`"
when the vertices it can write satisfy `P`. -/
theorem update_keeps_written (P : Vertex Tag → Nat → Prop) (s0 t : sssp_solver Tag)
    (skip : Skip) (linear : Bool) (adr fr to_ : Nat) (func : Nat → Nat) (tag : Tag)
    (base arg : Nat) (hadr : adr < 2 ^ 64) (hfr : fr < 2 ^ 63)
    (hW : t.size = s0.size ∧ ∀ v, t.get v = s0.get v ∨ P (t.get v) v)
    (hnew : ∀ l, fr ≤ l → l ≤ to_ →
      P ⟨((if base = unspecified then (t.get adr).cost else base) + func l) % 2 ^ 64, l, arg,
        tag⟩ (adr + l)) :
    (update skip linear t adr fr to_ func tag base arg).size = s0.size ∧
    ∀ v, (update skip linear t adr fr to_ func tag base arg).get v = s0.get v ∨
      P ((update skip linear t adr fr to_ func tag base arg).get v) v := by
  obtain ⟨f1, f2⟩ := update_frame skip linear t adr fr to_ func tag base arg hadr hfr
  refine ⟨by rw [f1, hW.1], ?_⟩
  intro v
  rcases f2 v with h | ⟨l, l1, l2, l3, l4⟩
  · rw [h]; exact hW.2 v
  · right
    rw [l4, l3]
    exact hnew l l1 (Nat.le_min.mp l2).1

/-- The second loop of the lambda `f`: it keeps the property "every vertex that differs from
`s0` satisfies `P`" when the vertices that class `li` can write satisfy `P`, and it returns an
index below the one it was entered with. -/
theorem matrix_relax_spec (P : Vertex Tag → Nat → Prop) (s0 : sssp_solver Tag) (adr : Nat)
    (offsets lens : List vrange) (tag : Nat → Nat → Tag) (c base_cost : Nat)
    (oi min_len max_len : Nat) (best_lz : lz_data)
    (hadr : adr < 2 ^ 64) (hml : min_len < 2 ^ 63)
    (hmin : ∀ li, (lens.getD li default).min < 2 ^ 63)
    (hcost : ∀ li, base_cost + ((offsets.getD oi default).bitlen +
      (lens.getD li default).bitlen + c) < unspecified)
    (N : Nat)
    (hnew : ∀ li l, li < N → (lens.getD li default).min ≤ l → l ≤ (lens.getD li default).max →
      min_len ≤ l → l ≤ max_len → l ≤ best_lz.len →
      P ⟨base_cost + ((offsets.getD oi default).bitlen + (lens.getD li default).bitlen + c),
        l, best_lz.ofs, tag oi li⟩ (adr + l)) :
    ∀ (n : Nat) (t : sssp_solver Tag), n ≤ N →
      (t.size = s0.size ∧ ∀ v, t.get v = s0.get v ∨ P (t.get v) v) →
      ((matrix_relax adr offsets lens tag c base_cost oi min_len max_len best_lz n t).1.size =
          s0.size ∧
        ∀ v, (matrix_relax adr offsets lens tag c base_cost oi min_len max_len best_lz n t).1.get
            v = s0.get v ∨
          P ((matrix_relax adr offsets lens tag c base_cost oi min_len max_len best_lz n t).1.get
            v) v) ∧
      -1 ≤ (matrix_relax adr offsets lens tag c base_cost oi min_len max_len best_lz n t).2 ∧
      (matrix_relax adr offsets lens tag c base_cost oi min_len max_len best_lz n t).2 <
        (n : Int) := by
  intro n
  induction n with
  | zero =>
    intro t _ hW
    unfold matrix_relax
    exact ⟨hW, le_refl _, by omega⟩
  | succ n ih =>
    intro t hn hW
    unfold matrix_relax
    by_cases h1 : min_len ≤ (lens.getD n default).max
    · rw [if_pos h1]
      simp only []
      have hc := hcost n
      have hc2 : base_cost + ((offsets.getD oi default).bitlen +
          (lens.getD n default).bitlen + c) < 2 ^ 64 := by
        unfold unspecified at hc
        omega
      rw [Nat.mod_eq_of_lt hc2]
      have hfr : max min_len (lens.getD n default).min < 2 ^ 63 :=
        max_lt hml (hmin n)
      have hstep : (update_lz .greater_equal (is_linear_Constant 0) t adr
            (max min_len (lens.getD n default).min) (min max_len (lens.getD n default).max)
            best_lz (Constant 0) (tag oi n)
            (base_cost + ((offsets.getD oi default).bitlen + (lens.getD n default).bitlen +
              c))).size = s0.size ∧
          ∀ v, (update_lz .greater_equal (is_linear_Constant 0) t adr
            (max min_len (lens.getD n default).min) (min max_len (lens.getD n default).max)
            best_lz (Constant 0) (tag oi n)
            (base_cost + ((offsets.getD oi default).bitlen + (lens.getD n default).bitlen +
              c))).get v = s0.get v ∨
            P ((update_lz .greater_equal (is_linear_Constant 0) t adr
              (max min_len (lens.getD n default).min) (min max_len (lens.getD n default).max)
              best_lz (Constant 0) (tag oi n)
              (base_cost + ((offsets.getD oi default).bitlen + (lens.getD n default).bitlen +
                c))).get v) v :=
        update_keeps_written P s0 t .greater_equal (is_linear_Constant 0) adr
        (max min_len (lens.getD n default).min)
        (min (min max_len (lens.getD n default).max) best_lz.len) (Constant 0) (tag oi n)
        (base_cost + ((offsets.getD oi default).bitlen + (lens.getD n default).bitlen + c))
        best_lz.ofs hadr hfr hW (by
          intro l l1 l2
          rw [if_neg (Nat.ne_of_lt hc), Constant_apply 0 l (by decide), Nat.add_zero,
            Nat.mod_eq_of_lt hc2]
          have a1 := Nat.le_min.mp l2
          have a2 := Nat.le_min.mp a1.1
          exact hnew n l (by omega) (le_trans (Nat.le_max_right _ _) l1) a2.2
            (le_trans (Nat.le_max_left _ _) l1) a2.1 a1.2)
      by_cases h2 : min_len > (lens.getD n default).min
      · rw [if_pos h2]
        exact ⟨hstep, by omega, by omega⟩
      · rw [if_neg h2]
        obtain ⟨i1, i2, i3⟩ := ih _ (by omega) hstep
        exact ⟨i1, i2, by omega⟩
    · rw [if_neg h1]
      exact ⟨hW, by omega, by omega⟩

/-- The loop of `update_lz_matrix_`: with enough fuel it returns, and it keeps every property
`W` of the solver that the callback keeps whenever the pair `(best_oi, best_lz)` it is given
satisfies `Q` or holds the empty match together with a lower bound `>= 1`; `Q` holds for every
match that is long enough, at the class the inner loop finds for it. -/
theorem update_lz_matrix_loop_spec (W : sssp_solver Tag → Prop) (Q : Nat → lz_data → Prop)
    (L : Nat) (adr lz_min_len : Nat) (offsets : List vrange) (find_lz : Nat → lz_data)
    (update : Int → Nat → Nat → Nat → lz_data → sssp_solver Tag → sssp_solver Tag × Int)
    (hlen : ∀ k, (find_lz k).len + 1 < 2 ^ 63)
    (hupd : ∀ (li : Int) (oi min_len max_len : Nat) (best_lz : lz_data) (t : sssp_solver Tag),
      li < (L : Int) → min_len < 2 ^ 63 →
      (Q oi best_lz ∨ (best_lz.len = 0 ∧ 1 ≤ min_len)) → W t →
      W (update li oi min_len max_len best_lz t).1 ∧
        (update li oi min_len max_len best_lz t).2 < (L : Int))
    (hclass : ∀ k, k < offsets.length → lz_min_len ≤ (find_lz k).len →
      0 ≤ matrix_class offsets (size_t ((adr : Int) - ((find_lz k).ofs : Int))) (k + 1) →
      Q (matrix_class offsets (size_t ((adr : Int) - ((find_lz k).ofs : Int))) (k + 1)).toNat
        (find_lz k)) :
    ∀ (fuel : Nat) (oi li : Int) (res_lz : lz_data) (best_oi : Int) (best_lz : lz_data)
      (best_bitlen : Nat) (t : sssp_solver Tag),
      (oi + 1).toNat < fuel → 0 ≤ oi → oi < (offsets.length : Int) →
      res_lz = find_lz oi.toNat → li < (L : Int) →
      (Q best_oi.toNat best_lz ∨ best_lz.len = 0) → W t →
      ∃ t', update_lz_matrix_loop adr lz_min_len offsets find_lz update fuel oi li res_lz
          best_oi best_lz best_bitlen t = some t' ∧ W t' := by
  intro fuel
  induction fuel with
  | zero => intro oi li res_lz best_oi best_lz best_bitlen t h; omega
  | succ fuel ih =>
    intro oi li res_lz best_oi best_lz best_bitlen t hf h0 h1 hres hli hbest hW
    unfold update_lz_matrix_loop
    by_cases hshort : res_lz.len < lz_min_len
    · rw [if_pos hshort]
      exact ⟨t, rfl, hW⟩
    · rw [if_neg hshort]
      simp only []
      have hk : (oi + 1).toNat = oi.toNat + 1 := by omega
      obtain ⟨c1, c2, c3, c4⟩ := matrix_class_spec offsets
        (size_t ((adr : Int) - (res_lz.ofs : Int))) (oi + 1).toNat
      by_cases hneg : matrix_class offsets (size_t ((adr : Int) - (res_lz.ofs : Int)))
          (oi + 1).toNat < 0
      · rw [if_pos hneg]
        exact ⟨t, rfl, hW⟩
      · rw [if_neg hneg]
        have hQ : Q (matrix_class offsets (size_t ((adr : Int) - (res_lz.ofs : Int)))
            (oi + 1).toNat).toNat res_lz := by
          have := hclass oi.toNat (by omega) (by rw [← hres]; omega)
          rw [← hres, ← hk] at this
          exact this (by omega)
        generalize matrix_class offsets (size_t ((adr : Int) - (res_lz.ofs : Int)))
          (oi + 1).toNat = oi1 at c1 c2 c3 c4 hneg hQ ⊢
        have hbest1 : Q (if decide ((offsets.getD oi1.toNat default).bitlen ≤ best_bitlen) = true
              then oi1 else best_oi).toNat
            (if decide ((offsets.getD oi1.toNat default).bitlen ≤ best_bitlen) = true
              then res_lz else best_lz) ∨
            (if decide ((offsets.getD oi1.toNat default).bitlen ≤ best_bitlen) = true
              then res_lz else best_lz).len = 0 := by
          by_cases hb : decide ((offsets.getD oi1.toNat default).bitlen ≤ best_bitlen) = true
          · simp only [hb, if_true]
            left; exact hQ
          · simp only [hb, if_false]
            exact hbest
        generalize (if decide ((offsets.getD oi1.toNat default).bitlen ≤ best_bitlen) = true
          then oi1 else best_oi) = boi at hbest1 ⊢
        generalize (if decide ((offsets.getD oi1.toNat default).bitlen ≤ best_bitlen) = true
          then res_lz else best_lz) = blz at hbest1 ⊢
        generalize (if decide ((offsets.getD oi1.toNat default).bitlen ≤ best_bitlen) = true
          then (offsets.getD oi1.toNat default).bitlen else best_bitlen) = bbl
        obtain ⟨u1, u2⟩ := hupd li boi.toNat
          ((if oi1 = 0 then (⟨0, 0⟩ : lz_data) else find_lz (oi1 - 1).toNat).len + 1) res_lz.len
          blz t hli (by
            by_cases h0 : oi1 = 0
            · rw [if_pos h0]
              decide
            · rw [if_neg h0]
              exact hlen _) (by
            rcases hbest1 with h | h
            · left; exact h
            · right; exact ⟨h, by omega⟩) hW
        by_cases hlast : oi1 - 1 < 0
        · rw [if_pos hlast]
          exact ⟨_, rfl, u1⟩
        · rw [if_neg hlast]
          have hne : ¬ oi1 = 0 := by omega
          simp only [hne, if_false] at u1 u2 ⊢
          exact ih (oi1 - 1) _ _ boi blz bbl _ (by omega) (by omega) (by omega) rfl u2 hbest1 u1

end sssp_solver
end sfc_comp

namespace sfc_comp
open encode sssp_solver
namespace sssp_solver
variable {Tag : Type} [Inhabited Tag] [BEq Tag]

/-- The lambda `f` of `update_lz_matrix`: it keeps the property "every vertex that differs
from `s0` satisfies `P`" when the vertices that the length classes can write satisfy `P`, and
it returns an index below `lens.size()`. -/
theorem matrix_update_spec (P : Vertex Tag → Nat → Prop) (s0 : sssp_solver Tag) (adr : Nat)
    (offsets lens : List vrange) (tag : Nat → Nat → Tag) (c base_cost : Nat) (li : Int)
    (oi min_len max_len : Nat) (best_lz : lz_data)
    (hadr : adr < 2 ^ 64) (hml : min_len < 2 ^ 63)
    (hmin : ∀ li, (lens.getD li default).min < 2 ^ 63)
    (hcost : ∀ li, base_cost + ((offsets.getD oi default).bitlen +
      (lens.getD li default).bitlen + c) < unspecified)
    (hli : li < (lens.length : Int))
    (hnew : ∀ li l, li < lens.length → (lens.getD li default).min ≤ l →
      l ≤ (lens.getD li default).max → min_len ≤ l → l ≤ max_len → l ≤ best_lz.len →
      P ⟨base_cost + ((offsets.getD oi default).bitlen + (lens.getD li default).bitlen + c),
        l, best_lz.ofs, tag oi li⟩ (adr + l))
    (t : sssp_solver Tag)
    (hW : t.size = s0.size ∧ ∀ v, t.get v = s0.get v ∨ P (t.get v) v) :
    ((matrix_update adr offsets lens tag c base_cost li oi min_len max_len best_lz t).1.size =
        s0.size ∧
      ∀ v, (matrix_update adr offsets lens tag c base_cost li oi min_len max_len best_lz t).1.get
          v = s0.get v ∨
        P ((matrix_update adr offsets lens tag c base_cost li oi min_len max_len best_lz t).1.get
          v) v) ∧
    (matrix_update adr offsets lens tag c base_cost li oi min_len max_len best_lz t).2 <
      (lens.length : Int) := by
  unfold matrix_update
  obtain ⟨k1, k2⟩ := matrix_skip_spec lens max_len (li + 1).toNat
  obtain ⟨r1, r2, r3⟩ := matrix_relax_spec P s0 adr offsets lens tag c base_cost oi min_len
    max_len best_lz hadr hml hmin hcost lens.length hnew
    (matrix_skip lens max_len (li + 1).toNat + 1).toNat t (by omega) hW
  exact ⟨r1, by omega⟩

/-- The member `update_lz_matrix` with offset classes that leave no gap and matches within
the cap of their class: it returns, and every vertex that differs afterwards holds a
class-consistent edge. -/
theorem update_lz_matrix_written (s : sssp_solver Tag) (adr : Nat)
    (offsets lens : List vrange) (find_lz : Nat → lz_data) (tag : Nat → Nat → Tag)
    (c base_cost : Nat)
    (hadr : adr < 2 ^ 64)
    (hcont : ∀ k, k + 1 < offsets.length →
      (offsets.getD (k + 1) default).min ≤ (offsets.getD k default).max + 1)
    (hfind : ∀ k, k < offsets.length → (lens.getD 0 default).min ≤ (find_lz k).len →
      (find_lz k).ofs ≤ adr ∧ adr - (find_lz k).ofs ≤ (offsets.getD k default).max)
    (hlen : ∀ k, (find_lz k).len + 1 < 2 ^ 63)
    (hmin : ∀ li, (lens.getD li default).min < 2 ^ 63)
    (hcost : ∀ oi li, (if base_cost = unspecified then (s.get adr).cost else base_cost) +
      ((offsets.getD oi default).bitlen + (lens.getD li default).bitlen + c) < unspecified) :
    ∃ s1, update_lz_matrix s adr offsets lens find_lz tag c base_cost = some s1 ∧
      s1.size = s.size ∧
      ∀ v, s1.get v = s.get v ∨
        class_consistent adr offsets lens find_lz tag c
          (if base_cost = unspecified then (s.get adr).cost else base_cost) (s1.get v) v := by
  unfold update_lz_matrix
  by_cases he : (lens.isEmpty || offsets.isEmpty) = true
  · rw [if_pos he]
    exact ⟨s, rfl, rfl, fun v => Or.inl rfl⟩
  · rw [if_neg he]
    unfold update_lz_matrix_
    have hl : 0 < lens.length ∧ 0 < offsets.length := by
      cases lens <;> cases offsets <;> simp at he ⊢
    generalize hb : (if base_cost = unspecified then (s.get adr).cost else base_cost) = base
      at hcost ⊢
    have key := update_lz_matrix_loop_spec
      (fun t : sssp_solver Tag => t.size = s.size ∧ ∀ v, t.get v = s.get v ∨
        class_consistent adr offsets lens find_lz tag c base (t.get v) v)
      (fun oi lz => oi < offsets.length ∧ lz.ofs ≤ adr ∧
        (offsets.getD oi default).min ≤ adr - lz.ofs ∧
        adr - lz.ofs ≤ (offsets.getD oi default).max ∧
        ∃ k, k < offsets.length ∧ find_lz k = lz)
      lens.length adr (lens.getD 0 default).min offsets find_lz
      (matrix_update adr offsets lens tag c base) hlen
      (by
        intro li oi min_len max_len best_lz t hli hml hq hW
        refine matrix_update_spec (class_consistent adr offsets lens find_lz tag c base) s adr
          offsets lens tag c base li oi min_len max_len best_lz hadr hml hmin
          (hcost oi) hli ?_ t hW
        intro li1 l h1 h2 h3 h4 h5 h6
        rcases hq with ⟨q1, q2, q3, q4, k, k1, k2⟩ | ⟨z1, z2⟩
        · exact ⟨oi, li1, q1, h1, rfl, rfl, h2, h3, q2, q3, q4,
            ⟨k, k1, by rw [k2], by rw [k2]; exact h6⟩, rfl⟩
        · omega)
      (by
        intro k hk hlong h0
        obtain ⟨f1, f2⟩ := hfind k hk hlong
        rw [size_t_sub adr (find_lz k).ofs f1 hadr] at h0 ⊢
        obtain ⟨c1, c2, c3, c4⟩ := matrix_class_spec offsets (adr - (find_lz k).ofs) (k + 1)
        generalize matrix_class offsets (adr - (find_lz k).ofs) (k + 1) = r at c1 c2 c3 c4 h0 ⊢
        refine ⟨by omega, f1, c3 h0, ?_, k, hk, rfl⟩
        by_cases hr : r.toNat = k
        · rw [hr]; exact f2
        · have h1 := c4 (r.toNat + 1) (by omega) (by omega)
          have h2 := hcont r.toNat (by omega)
          omega)
      (offsets.length + 1) ((offsets.length : Int) - 1) ((lens.length : Int) - 1)
      (find_lz (offsets.length - 1)) (-1) ⟨0, 0⟩ (2 ^ 64 - 1) s
      (by omega) (by omega) (by omega)
      (by
        have e : ((offsets.length : Int) - 1).toNat = offsets.length - 1 := by omega
        rw [e])
      (by omega) (Or.inr rfl) ⟨rfl, fun v => Or.inl rfl⟩
    obtain ⟨t1, e1, w1, w2⟩ := key
    exact ⟨t1, e1, w1, w2⟩

end sssp_solver

/-- C16: `update_lz_matrix` relaxes only class-consistent edges.  For an address below
`2^64`, offset classes that leave no gap (`offsets[k + 1].min <= offsets[k].max + 1`), a
`find_lz` whose matches of length `>= lens[0].min` lie at a distance `<= offsets[k].max`,
lengths and class minima below `2^63`, and edge costs below `unspecified`, the call returns,
the vertex table keeps its size, and every vertex `v` whose content changed is `adr + l` for
its stored length `l`, carries `tag(oi, li)` for an offset class `oi` and a length class `li`
with `lens[li].min <= l <= lens[li].max`, stores an offset at a distance from `adr` within
`offsets[oi].min .. offsets[oi].max` that belongs to a match returned by `find_lz` of length
`>= l`, and has the cost `base + (offsets[oi].bitlen + lens[li].bitlen + c)`, where `base`
is the cost of `adr` when `base_cost` is left unspecified. -/
theorem update_lz_matrix_class_consistent {Tag : Type} [Inhabited Tag] [BEq Tag]
    (s : sssp_solver Tag) (adr : Nat) (offsets lens : List vrange) (find_lz : Nat → lz_data)
    (tag : Nat → Nat → Tag) (c base_cost : Nat)
    (hadr : adr < 2 ^ 64)
    (hcont : ∀ k, k + 1 < offsets.length →
      (offsets.getD (k + 1) default).min ≤ (offsets.getD k default).max + 1)
    (hfind : ∀ k, k < offsets.length → (lens.getD 0 default).min ≤ (find_lz k).len →
      (find_lz k).ofs ≤ adr ∧ adr - (find_lz k).ofs ≤ (offsets.getD k default).max)
    (hlen : ∀ k, (find_lz k).len + 1 < 2 ^ 63)
    (hmin : ∀ li, (lens.getD li default).min < 2 ^ 63)
    (hcost : ∀ oi li, (if base_cost = unspecified then (s.get adr).cost else base_cost) +
      ((offsets.getD oi default).bitlen + (lens.getD li default).bitlen + c) < unspecified) :
    ∃ s1, update_lz_matrix s adr offsets lens find_lz tag c base_cost = some s1 ∧
      s1.size = s.size ∧
      ∀ v, s1.get v ≠ s.get v →
        ∃ oi li, oi < offsets.length ∧ li < lens.length ∧
          (s1.get v).type = tag oi li ∧ v = adr + (s1.get v).len ∧
          (lens.getD li default).min ≤ (s1.get v).len ∧
          (s1.get v).len ≤ (lens.getD li default).max ∧
          (s1.get v).lz_ofs ≤ adr ∧
          (offsets.getD oi default).min ≤ adr - (s1.get v).lz_ofs ∧
          adr - (s1.get v).lz_ofs ≤ (offsets.getD oi default).max ∧
          (∃ k, k < offsets.length ∧ (find_lz k).ofs = (s1.get v).lz_ofs ∧
            (s1.get v).len ≤ (find_lz k).len) ∧
          (s1.get v).cost =
            (if base_cost = unspecified then (s.get adr).cost else base_cost) +
              ((offsets.getD oi default).bitlen + (lens.getD li default).bitlen + c) := by
  obtain ⟨s1, e1, e2, e3⟩ := update_lz_matrix_written s adr offsets lens find_lz tag c
    base_cost hadr hcont hfind hlen hmin hcost
  refine ⟨s1, e1, e2, ?_⟩
  intro v hv
  rcases e3 v with h | h
  · exact absurd h hv
  · exact h

set_option maxRecDepth 100000 in
/-- Witness for C16: position 20 of a fresh solver with 41 vertices, two offset classes, two
length classes, a match of length 12 at distance 18 and one of length 4 at distance 5.
Vertex 27 is written through the pair of classes `(1, 1)`, vertex 23 through `(0, 0)`. -/
theorem update_lz_matrix_class_consistent_witness :
    (20 : Nat) < 2 ^ 64 ∧
    (∀ k, k + 1 < matrix_scenario_offsets.length →
      (matrix_scenario_offsets.getD (k + 1) default).min ≤
        (matrix_scenario_offsets.getD k default).max + 1) ∧
    (∀ k, k < matrix_scenario_offsets.length →
      (matrix_scenario_lens.getD 0 default).min ≤ (matrix_scenario_find_lz k).len →
      (matrix_scenario_find_lz k).ofs ≤ 20 ∧
        20 - (matrix_scenario_find_lz k).ofs ≤ (matrix_scenario_offsets.getD k default).max) ∧
    (∀ k, (matrix_scenario_find_lz k).len + 1 < 2 ^ 63) ∧
    (∀ li, (matrix_scenario_lens.getD li default).min < 2 ^ 63) ∧
    (update_lz_matrix (mk_solver 40 20 : sssp_solver (Nat × Nat)) 20 matrix_scenario_offsets
      matrix_scenario_lens matrix_scenario_find_lz Prod.mk 1 unspecified).map
        (fun s1 => (s1.get 23, s1.get 27)) = some (⟨7, 3, 15, (0, 0)⟩, ⟨13, 7, 2, (1, 1)⟩) ∧
    ∃ s1, update_lz_matrix (mk_solver 40 20 : sssp_solver (Nat × Nat)) 20
        matrix_scenario_offsets matrix_scenario_lens matrix_scenario_find_lz Prod.mk 1
        unspecified = some s1 ∧
      s1.size = (mk_solver 40 20 : sssp_solver (Nat × Nat)).size ∧
      ∀ v, s1.get v ≠ (mk_solver 40 20 : sssp_solver (Nat × Nat)).get v →
        ∃ oi li, oi < matrix_scenario_offsets.length ∧ li < matrix_scenario_lens.length ∧
          (s1.get v).type = (oi, li) ∧ v = 20 + (s1.get v).len ∧
          (matrix_scenario_lens.getD li default).min ≤ (s1.get v).len ∧
          (s1.get v).len ≤ (matrix_scenario_lens.getD li default).max ∧
          (s1.get v).lz_ofs ≤ 20 ∧
          (matrix_scenario_offsets.getD oi default).min ≤ 20 - (s1.get v).lz_ofs ∧
          20 - (s1.get v).lz_ofs ≤ (matrix_scenario_offsets.getD oi default).max ∧
          (∃ k, k < matrix_scenario_offsets.length ∧
            (matrix_scenario_find_lz k).ofs = (s1.get v).lz_ofs ∧
            (s1.get v).len ≤ (matrix_scenario_find_lz k).len) ∧
          (s1.get v).cost =
            (if unspecified = unspecified
              then ((mk_solver 40 20 : sssp_solver (Nat × Nat)).get 20).cost
              else unspecified) +
              ((matrix_scenario_offsets.getD oi default).bitlen +
                (matrix_scenario_lens.getD li default).bitlen + 1) := by
  have h2 : ∀ k, k + 1 < matrix_scenario_offsets.length →
      (matrix_scenario_offsets.getD (k + 1) default).min ≤
        (matrix_scenario_offsets.getD k default).max + 1 := by
    intro k hk
    have hk0 : k = 0 := by
      have : matrix_scenario_offsets.length = 2 := rfl
      omega
    subst hk0
    decide
  have h3 : ∀ k, k < matrix_scenario_offsets.length →
      (matrix_scenario_lens.getD 0 default).min ≤ (matrix_scenario_find_lz k).len →
      (matrix_scenario_find_lz k).ofs ≤ 20 ∧
        20 - (matrix_scenario_find_lz k).ofs ≤
          (matrix_scenario_offsets.getD k default).max := by
    intro k hk _
    have hk0 : k = 0 ∨ k = 1 := by
      have : matrix_scenario_offsets.length = 2 := rfl
      omega
    rcases hk0 with h | h <;> subst h <;> decide
  have h4 : ∀ k, (matrix_scenario_find_lz k).len + 1 < 2 ^ 63 := by
    intro k
    unfold matrix_scenario_find_lz
    split <;> decide
  have h5 : ∀ li, (matrix_scenario_lens.getD li default).min < 2 ^ 63 := by
    intro li
    rcases li with _ | _ | li
    · decide
    · decide
    · exact (by decide : (default : vrange).min < 2 ^ 63)
  have h6 : ∀ oi li, (if unspecified = unspecified
      then ((mk_solver 40 20 : sssp_solver (Nat × Nat)).get 20).cost else unspecified) +
      ((matrix_scenario_offsets.getD oi default).bitlen +
        (matrix_scenario_lens.getD li default).bitlen + 1) < unspecified := by
    intro oi li
    have ho : (matrix_scenario_offsets.getD oi default).bitlen ≤ 8 := by
      rcases oi with _ | _ | oi
      · decide
      · decide
      · exact (by decide : (default : vrange).bitlen ≤ 8)
    have hl : (matrix_scenario_lens.getD li default).bitlen ≤ 4 := by
      rcases li with _ | _ | li
      · decide
      · decide
      · exact (by decide : (default : vrange).bitlen ≤ 4)
    have hb : (if unspecified = unspecified
      then ((mk_solver 40 20 : sssp_solver (Nat × Nat)).get 20).cost else unspecified) = 0 := by
      decide
    have hu : unspecified = 2 ^ 64 - 1 := rfl
    rw [hb, hu]
    omega
  exact ⟨by decide, h2, h3, h4, h5, by decide,
    update_lz_matrix_class_consistent (mk_solver 40 20 : sssp_solver (Nat × Nat)) 20
      matrix_scenario_offsets matrix_scenario_lens matrix_scenario_find_lz Prod.mk 1
      unspecified (by decide) h2 h3 h4 h5 h6⟩

end sfc_comp

namespace sfc_comp
open encode sssp_solver
namespace encode
namespace lz

theorem getD_set_eq (l : List lz_data) (n : Nat) (a d : lz_data) (h : n < l.length) :
    (l.set n a).getD n d = a := by
  simp [List.getD_eq_getElem?_getD, List.getElem?_set, h]

theorem getD_set_ne (l : List lz_data) (n k : Nat) (a d : lz_data) (h : n ≠ k) :
    (l.set n a).getD k d = l.getD k d := by
  simp [List.getD_eq_getElem?_getD, List.getElem?_set, h]

/-- The inner loop of `find_all` entered at class `n`: it stops at an index below `n`, writes
`res_lz` to every class above that index up to `n` and nothing else, and every class below
`n` it writes passes the test of the loop. -/
theorem find_all_fill_spec (i lz_min_len : Nat) (max_ofs : Nat → Nat) (res_lz : lz_data) :
    ∀ (n : Nat) (dest : List lz_data), n < dest.length →
      (find_all_fill i lz_min_len max_ofs res_lz n dest).1.length = dest.length ∧
      -1 ≤ (find_all_fill i lz_min_len max_ofs res_lz n dest).2 ∧
      (find_all_fill i lz_min_len max_ofs res_lz n dest).2 < (n : Int) ∧
      (∀ k : Nat, (find_all_fill i lz_min_len max_ofs res_lz n dest).2 < (k : Int) → k ≤ n →
        (find_all_fill i lz_min_len max_ofs res_lz n dest).1.getD k ⟨0, 0⟩ = res_lz) ∧
      (∀ k : Nat, n < k →
        (find_all_fill i lz_min_len max_ofs res_lz n dest).1.getD k ⟨0, 0⟩ =
          dest.getD k ⟨0, 0⟩) ∧
      (∀ k : Nat, (find_all_fill i lz_min_len max_ofs res_lz n dest).2 < (k : Int) → k < n →
        (res_lz.len < lz_min_len ∨
          size_t ((i : Int) - (res_lz.ofs : Int)) ≤ max_ofs k)) := by
  intro n
  induction n with
  | zero =>
    intro dest hn
    unfold find_all_fill
    refine ⟨by simp, by simp, by simp, ?_, ?_, ?_⟩
    · intro k _ hk
      have hk0 : k = 0 := by omega
      subst hk0
      exact getD_set_eq dest 0 res_lz _ hn
    · intro k hk
      exact getD_set_ne dest 0 k res_lz _ (by omega)
    · intro k _ hk
      omega
  | succ n ih =>
    intro dest hn
    unfold find_all_fill
    by_cases hc : res_lz.len < lz_min_len ∨
        size_t ((i : Int) - (res_lz.ofs : Int)) ≤ max_ofs n
    · rw [if_pos hc]
      have hlen : (dest.set (n + 1) res_lz).length = dest.length := by simp
      obtain ⟨i1, i2, i3, i4, i5, i6⟩ := ih (dest.set (n + 1) res_lz) (by rw [hlen]; omega)
      refine ⟨by rw [i1, hlen], i2, by omega, ?_, ?_, ?_⟩
      · intro k k1 k2
        by_cases hk : k = n + 1
        · subst hk
          rw [i5 (n + 1) (by omega)]
          exact getD_set_eq dest (n + 1) res_lz _ hn
        · exact i4 k k1 (by omega)
      · intro k hk
        rw [i5 k (by omega)]
        exact getD_set_ne dest (n + 1) k res_lz _ (by omega)
      · intro k k1 k2
        by_cases hk : k = n
        · subst hk; exact hc
        · exact i6 k k1 (by omega)
    · rw [if_neg hc]
      refine ⟨by simp, by show (-1 : Int) ≤ (n : Int); omega,
        by show (n : Int) < ((n + 1 : Nat) : Int); omega, ?_, ?_, ?_⟩
      · intro k k1 k2
        have hk : k = n + 1 := by simp at k1; omega
        subst hk
        exact getD_set_eq dest (n + 1) res_lz _ hn
      · intro k hk
        exact getD_set_ne dest (n + 1) k res_lz _ (by omega)
      · intro k k1 k2
        simp at k1
        omega

/-- The outer loop of `find_all`: with enough fuel it returns, every class it passes is
filled with a record that satisfies `G`, and every class is queried at most once. -/
theorem find_all_loop_spec (i lz_min_len o_size : Nat) (max_ofs : Nat → Nat)
    (find_lz : Nat → lz_data) (G : Nat → lz_data → Prop)
    (hG : ∀ n k, n < o_size → k ≤ n →
      ((if (find_lz (max_ofs n)).len < lz_min_len then (⟨0, 0⟩ : lz_data)
          else find_lz (max_ofs n)).len < lz_min_len ∨
        size_t ((i : Int) - ((if (find_lz (max_ofs n)).len < lz_min_len then (⟨0, 0⟩ : lz_data)
          else find_lz (max_ofs n)).ofs : Int)) ≤ max_ofs k ∨ k = n) →
      G k (if (find_lz (max_ofs n)).len < lz_min_len then (⟨0, 0⟩ : lz_data)
        else find_lz (max_ofs n))) :
    ∀ (fuel : Nat) (oi : Int) (dest : List lz_data) (calls : List Nat),
      (oi + 1).toNat < fuel → -1 ≤ oi → oi < (o_size : Int) → o_size ≤ dest.length →
      (∀ k : Nat, oi < (k : Int) → k < o_size → G k (dest.getD k ⟨0, 0⟩)) →
      calls.Pairwise (fun a b => a < b) → (∀ c ∈ calls, oi < (c : Int) ∧ c < o_size) →
      ∃ st, find_all_loop i lz_min_len max_ofs find_lz fuel oi dest calls = some st ∧
        st.1.length = dest.length ∧
        (∀ k, o_size ≤ k → st.1.getD k ⟨0, 0⟩ = dest.getD k ⟨0, 0⟩) ∧
        (∀ k, k < o_size → G k (st.1.getD k ⟨0, 0⟩)) ∧
        st.2.Pairwise (fun a b => a < b) ∧ (∀ c ∈ st.2, c < o_size) := by
  intro fuel
  induction fuel with
  | zero => intro oi dest calls h; omega
  | succ fuel ih =>
    intro oi dest calls hf h0 h1 hd hdone hp hc
    unfold find_all_loop
    by_cases hneg : oi < 0
    · rw [if_pos hneg]
      refine ⟨(dest, calls), rfl, rfl, fun k _ => rfl, ?_, hp, fun c hcm => (hc c hcm).2⟩
      intro k hk
      exact hdone k (by omega) hk
    · rw [if_neg hneg]
      simp only []
      have hn : oi.toNat < o_size := by omega
      obtain ⟨f1, f2, f3, f4, f5, f6⟩ := find_all_fill_spec i lz_min_len max_ofs
        (if (find_lz (max_ofs oi.toNat)).len < lz_min_len then (⟨0, 0⟩ : lz_data)
          else find_lz (max_ofs oi.toNat)) oi.toNat dest (by omega)
      generalize hfe : find_all_fill i lz_min_len max_ofs
        (if (find_lz (max_ofs oi.toNat)).len < lz_min_len then (⟨0, 0⟩ : lz_data)
          else find_lz (max_ofs oi.toNat)) oi.toNat dest = f at f1 f2 f3 f4 f5 f6 ⊢
      obtain ⟨st, e, s1, s2, s3, s4, s5⟩ := ih f.2 f.1 (oi.toNat :: calls) (by omega) f2
        (by omega) (by rw [f1]; exact hd)
        (by
          intro k k1 k2
          by_cases hk : k ≤ oi.toNat
          · rw [f4 k k1 hk]
            apply hG oi.toNat k hn hk
            by_cases hkn : k = oi.toNat
            · right; right; exact hkn
            · rcases f6 k k1 (by omega) with h | h
              · left; exact h
              · right; left; exact h
          · rw [f5 k (by omega)]
            exact hdone k (by omega) k2)
        (by
          rw [List.pairwise_cons]
          refine ⟨?_, hp⟩
          intro c hcm
          have := (hc c hcm).1
          omega)
        (by
          intro c hcm
          rcases List.mem_cons.mp hcm with h | h
          · subst h; exact ⟨by omega, hn⟩
          · have := hc c h
            exact ⟨by omega, this.2⟩)
      refine ⟨st, e, by rw [s1, f1], ?_, s3, s4, s5⟩
      intro k hk
      rw [s2 k hk, f5 k (by omega)]

end lz
end encode

/-- C17: `find_all` fills every class with its best match.  Let `m o` be the length of the
match at position `i` with source `o`.  For `i < 2^64`, `o_size < 2^63` classes that fit in
`dest`, caps `max_ofs(0) <= ... <= max_ofs(o_size - 1)` and a `find_lz` such that the record
`find_lz(d)`, when its length is `>= lz_min_len`, is a source `ofs < i` at distance `<= d`
with `m ofs = len`, and is at least as long as every source within distance `d` that reaches
`lz_min_len`: the call returns, and afterwards every `dest[oi]` with `oi < o_size` is either
such a longest match within `max_ofs(oi)` of length `>= lz_min_len`, or is `{0,0}` while no
source within `max_ofs(oi)` reaches `lz_min_len`; the entries from `o_size` on are untouched,
and the classes for which `find_lz` was called are pairwise distinct and below `o_size`, so
that `find_lz` is called at most once per class. -/
theorem find_all_best_match (i o_size lz_min_len : Nat) (dest : List lz_data)
    (max_ofs : Nat → Nat) (find_lz : Nat → lz_data) (m : Nat → Nat)
    (hi : i < 2 ^ 64) (ho : o_size < 2 ^ 63) (hd : o_size ≤ dest.length)
    (hmono : ∀ a b, a ≤ b → b < o_size → max_ofs a ≤ max_ofs b)
    (hvalid : ∀ d, lz_min_len ≤ (find_lz d).len →
      (find_lz d).ofs < i ∧ i - (find_lz d).ofs ≤ d ∧ m (find_lz d).ofs = (find_lz d).len)
    (hbest : ∀ d o, o < i → i - o ≤ d → m o ≤ (find_lz d).len ∨ m o < lz_min_len) :
    ∃ st, lz.find_all i o_size lz_min_len dest max_ofs find_lz = some st ∧
      st.1.length = dest.length ∧
      (∀ k, o_size ≤ k → st.1.getD k ⟨0, 0⟩ = dest.getD k ⟨0, 0⟩) ∧
      (∀ oi, oi < o_size →
        (lz_min_len ≤ (st.1.getD oi ⟨0, 0⟩).len ∧ (st.1.getD oi ⟨0, 0⟩).ofs < i ∧
          i - (st.1.getD oi ⟨0, 0⟩).ofs ≤ max_ofs oi ∧
          m (st.1.getD oi ⟨0, 0⟩).ofs = (st.1.getD oi ⟨0, 0⟩).len ∧
          ∀ o, o < i → i - o ≤ max_ofs oi → m o ≤ (st.1.getD oi ⟨0, 0⟩).len) ∨
        (st.1.getD oi ⟨0, 0⟩ = ⟨0, 0⟩ ∧
          ∀ o, o < i → i - o ≤ max_ofs oi → m o < lz_min_len)) ∧
      st.2.Pairwise (fun a b => a < b) ∧ (∀ c ∈ st.2, c < o_size) ∧
      st.2.length ≤ o_size := by
  have h0 : ptrdiff_t (size_t ((o_size : Int) - 1)) = (o_size : Int) - 1 := by
    by_cases hz : o_size = 0
    · subst hz; decide
    · have e : (o_size : Int) - 1 = ((o_size - 1 : Nat) : Int) := by omega
      rw [e, size_t_nat _ (by omega), ptrdiff_t_small _ (by omega)]
  unfold lz.find_all
  rw [h0]
  obtain ⟨st, e, s1, s2, s3, s4, s5⟩ := lz.find_all_loop_spec i lz_min_len o_size max_ofs find_lz
    (fun oi r =>
      (lz_min_len ≤ r.len ∧ r.ofs < i ∧ i - r.ofs ≤ max_ofs oi ∧ m r.ofs = r.len ∧
        ∀ o, o < i → i - o ≤ max_ofs oi → m o ≤ r.len) ∨
      (r = ⟨0, 0⟩ ∧ ∀ o, o < i → i - o ≤ max_ofs oi → m o < lz_min_len))
    (by
      intro n k hn hk hc
      by_cases hs : (find_lz (max_ofs n)).len < lz_min_len
      · rw [if_pos hs] at hc ⊢
        right
        refine ⟨rfl, ?_⟩
        intro o o1 o2
        have hm := hmono k n hk hn
        rcases hbest (max_ofs n) o o1 (by omega) with h | h
        · omega
        · exact h
      · rw [if_neg hs] at hc ⊢
        left
        obtain ⟨v1, v2, v3⟩ := hvalid (max_ofs n) (by omega)
        have hm := hmono k n hk hn
        refine ⟨by omega, v1, ?_, v3, ?_⟩
        · rcases hc with h | h | h
          · omega
          · rw [size_t_sub i _ (by omega) hi] at h
            exact h
          · rw [h]; exact v2
        · intro o o1 o2
          rcases hbest (max_ofs n) o o1 (by omega) with h | h
          · exact h
          · omega)
    (o_size + 1) ((o_size : Int) - 1) dest [] (by omega) (by omega) (by omega) hd
    (by intro k k1 k2; omega) List.Pairwise.nil (by intro c hc; cases hc)
  refine ⟨st, e, s1, s2, s3, s4, s5, ?_⟩
  have hnd : st.2.Nodup := s4.imp (fun h => Nat.ne_of_lt h)
  have hsub : st.2.toFinset ⊆ Finset.range o_size := by
    intro c hc
    rw [List.mem_toFinset] at hc
    exact Finset.mem_range.mpr (s5 c hc)
  have hcard := Finset.card_le_card hsub
  rw [List.toFinset_card_of_nodup hnd, Finset.card_range] at hcard
  exact hcard

end sfc_comp

namespace sfc_comp
open encode sssp_solver

/-- Witness for C17: position 10 with three classes of caps 2, 5 and 9 and minimum length 3.
The match of length 4 at distance 4 found for class 2 is reused for class 1, class 0 is
queried again and left empty: two calls for three classes. -/
theorem find_all_best_match_witness :
    (10 : Nat) < 2 ^ 64 ∧ (3 : Nat) < 2 ^ 63 ∧
    3 ≤ (List.replicate 4 (⟨7, 7⟩ : lz_data)).length ∧
    (∀ a b, a ≤ b → b < 3 → class_scenario_max_ofs a ≤ class_scenario_max_ofs b) ∧
    (∀ d, 3 ≤ (class_scenario_find_lz d).len →
      (class_scenario_find_lz d).ofs < 10 ∧ 10 - (class_scenario_find_lz d).ofs ≤ d ∧
        class_scenario_match (class_scenario_find_lz d).ofs = (class_scenario_find_lz d).len) ∧
    (∀ d o, o < 10 → 10 - o ≤ d →
      class_scenario_match o ≤ (class_scenario_find_lz d).len ∨ class_scenario_match o < 3) ∧
    lz.find_all 10 3 3 (List.replicate 4 ⟨7, 7⟩) class_scenario_max_ofs class_scenario_find_lz =
      some ([⟨0, 0⟩, ⟨6, 4⟩, ⟨6, 4⟩, ⟨7, 7⟩], [0, 2]) ∧
    ∃ st, lz.find_all 10 3 3 (List.replicate 4 ⟨7, 7⟩) class_scenario_max_ofs
        class_scenario_find_lz = some st ∧
      st.1.length = (List.replicate 4 (⟨7, 7⟩ : lz_data)).length ∧
      (∀ k, 3 ≤ k → st.1.getD k ⟨0, 0⟩ = (List.replicate 4 (⟨7, 7⟩ : lz_data)).getD k ⟨0, 0⟩) ∧
      (∀ oi, oi < 3 →
        (3 ≤ (st.1.getD oi ⟨0, 0⟩).len ∧ (st.1.getD oi ⟨0, 0⟩).ofs < 10 ∧
          10 - (st.1.getD oi ⟨0, 0⟩).ofs ≤ class_scenario_max_ofs oi ∧
          class_scenario_match (st.1.getD oi ⟨0, 0⟩).ofs = (st.1.getD oi ⟨0, 0⟩).len ∧
          ∀ o, o < 10 → 10 - o ≤ class_scenario_max_ofs oi →
            class_scenario_match o ≤ (st.1.getD oi ⟨0, 0⟩).len) ∨
        (st.1.getD oi ⟨0, 0⟩ = ⟨0, 0⟩ ∧
          ∀ o, o < 10 → 10 - o ≤ class_scenario_max_ofs oi → class_scenario_match o < 3)) ∧
      st.2.Pairwise (fun a b => a < b) ∧ (∀ c ∈ st.2, c < 3) ∧ st.2.length ≤ 3 := by
  have h4 : ∀ a b, a ≤ b → b < 3 → class_scenario_max_ofs a ≤ class_scenario_max_ofs b := by
    intro a b h1 h2
    interval_cases b <;> interval_cases a <;> decide
  have h5 : ∀ d, 3 ≤ (class_scenario_find_lz d).len →
      (class_scenario_find_lz d).ofs < 10 ∧ 10 - (class_scenario_find_lz d).ofs ≤ d ∧
        class_scenario_match (class_scenario_find_lz d).ofs =
          (class_scenario_find_lz d).len := by
    intro d
    unfold class_scenario_find_lz
    by_cases c1 : 4 ≤ d
    · rw [if_pos c1]
      intro _
      exact ⟨by decide, c1, by decide⟩
    · rw [if_neg c1]
      by_cases c2 : 2 ≤ d
      · rw [if_pos c2]
        intro h
        exact absurd h (by decide)
      · rw [if_neg c2]
        intro h
        exact absurd h (by decide)
  have h6 : ∀ d o, o < 10 → 10 - o ≤ d →
      class_scenario_match o ≤ (class_scenario_find_lz d).len ∨ class_scenario_match o < 3 := by
    intro d o h1 h2
    unfold class_scenario_match
    by_cases c1 : o = 6
    · rw [if_pos c1]
      left
      unfold class_scenario_find_lz
      rw [if_pos (by omega)]
    · rw [if_neg c1]
      right
      by_cases c2 : o = 8
      · rw [if_pos c2]; decide
      · rw [if_neg c2]; decide
  exact ⟨by decide, by decide, by decide, h4, h5, h6, by decide,
    find_all_best_match 10 3 3 (List.replicate 4 ⟨7, 7⟩) class_scenario_max_ofs
      class_scenario_find_lz class_scenario_match (by decide) (by decide) (by decide) h4 h5 h6⟩

/-- C19 (amended): an empty length-class table is not an error.  Both overloads of
`update_lz_matrix` return normally when the table of length classes is empty, whatever the
table of offset classes holds, and leave the solver as it was. -/
theorem update_lz_matrix_empty_lens {Tag : Type} [Inhabited Tag] [BEq Tag]
    (s : sssp_solver Tag) (adr : Nat) (offsets : List vrange) (find_lz : Nat → lz_data)
    (len_cost : Nat → Nat) (tag : Nat → Nat → Tag) (c base_cost : Nat) :
    update_lz_matrix s adr offsets [] find_lz tag c base_cost = some s ∧
    update_lz_matrix_lengths s adr offsets [] find_lz len_cost tag base_cost = some s :=
  ⟨rfl, rfl⟩

/-- Counterexample for C19: with the two offset classes of the matrix scenario and no length
class, both overloads of `update_lz_matrix` return normally with the solver unchanged; the
offset table is not empty. -/
theorem update_lz_matrix_empty_lens_counterexample :
    matrix_scenario_offsets ≠ [] ∧
    update_lz_matrix (mk_solver 40 20 : sssp_solver (Nat × Nat)) 20 matrix_scenario_offsets []
      matrix_scenario_find_lz Prod.mk 1 unspecified = some (mk_solver 40 20) ∧
    update_lz_matrix_lengths (mk_solver 40 20 : sssp_solver (Nat × Nat)) 20
      matrix_scenario_offsets [] matrix_scenario_find_lz (fun l => l) Prod.mk unspecified =
      some (mk_solver 40 20) := by
  decide

end sfc_comp

namespace sfc_comp
open encode sssp_solver

/-- C21.  Solver initialisation.  For every `n < SIZE_MAX` and `begin <= n`,
`sssp_solver(n, begin)` has `n + 1` vertices, `vertex[begin].cost = 0` and every other vertex
at cost infinity; with the default `begin = 0` the start is vertex 0; and for `n = 0` a fresh
solver has `optimal_cost() = 0` and `commands()` returns the empty list. -/
theorem solver_initialisation {Tag : Type} [Inhabited Tag] [BEq Tag] (n begin : Nat)
    (hn : n < 2 ^ 64 - 1) (hb : begin ≤ n) :
    (mk_solver n begin : sssp_solver Tag).size = n + 1 ∧
    ((mk_solver n begin : sssp_solver Tag).get begin).cost = 0 ∧
    (∀ v, v ≤ n → v ≠ begin →
      ((mk_solver n begin : sssp_solver Tag).get v).cost = infinite_cost) ∧
    ((mk_solver n 0 : sssp_solver Tag).get 0).cost = 0 ∧
    (mk_solver 0 0 : sssp_solver Tag).optimal_cost = 0 ∧
    (mk_solver 0 0 : sssp_solver Tag).commands 0 = .ok [] := by
  have hn2 : n + 1 < 2 ^ 64 := by omega
  refine ⟨sssp_solver.size_mk_solver n begin hn2, ?_, ?_, ?_, ?_, ?_⟩
  · rw [sssp_solver.get_mk_solver n begin begin hn2, if_pos ⟨rfl, hb⟩]
  · intro v hv hne
    rw [sssp_solver.get_mk_solver n begin v hn2, if_neg (fun h => hne h.1), if_pos hv]
  · rw [sssp_solver.get_mk_solver n 0 0 hn2, if_pos ⟨rfl, Nat.zero_le n⟩]
  · unfold optimal_cost
    rw [sssp_solver.size_mk_solver 0 0 (by decide),
      sssp_solver.get_mk_solver 0 0 _ (by decide), if_pos ⟨rfl, le_refl _⟩]
  · unfold commands
    rw [sssp_solver.size_mk_solver 0 0 (by decide)]
    rfl

/-- Witness for C21: the solver `sssp_solver(4, 1)`. -/
theorem solver_initialisation_witness :
    (4 : Nat) < 2 ^ 64 - 1 ∧ (1 : Nat) ≤ 4 ∧
    (mk_solver 4 1 : sssp_solver estpolis_biography.tag).size = 4 + 1 ∧
    ((mk_solver 4 1 : sssp_solver estpolis_biography.tag).get 1).cost = 0 ∧
    (∀ v, v ≤ 4 → v ≠ 1 →
      ((mk_solver 4 1 : sssp_solver estpolis_biography.tag).get v).cost = infinite_cost) :=
  ⟨by decide, by decide,
    (solver_initialisation 4 1 (by decide) (by decide)).1,
    (solver_initialisation 4 1 (by decide) (by decide)).2.1,
    (solver_initialisation 4 1 (by decide) (by decide)).2.2.1⟩

/-- C23.  Tag equality ignores the offset class.  Two `tag_ol` are equal under
`operator ==` if and only if their identifiers and their length-class indices `li` are equal,
whatever their `oi`; two `tag_l` if and only if identifier and `li` are equal; two `tag_o` if
and only if the identifiers are equal; and each of the three relations is an equivalence
relation. -/
theorem tag_equality_ignores_offset_class {T : Type} [DecidableEq T] :
    (∀ a b : tag_ol T, (a == b) = true ↔ a.tag = b.tag ∧ a.li = b.li) ∧
    (∀ (t : T) (oi oi1 li : Nat), (tag_ol.make t oi li == tag_ol.make t oi1 li) = true) ∧
    (∀ a b : tag_l T, (a == b) = true ↔ a.tag = b.tag ∧ a.li = b.li) ∧
    (∀ a b : tag_o T, (a == b) = true ↔ a.tag = b.tag) ∧
    (∀ (t : T) (oi oi1 : Nat), (tag_o.make t oi == tag_o.make t oi1) = true) ∧
    Equivalence (fun a b : tag_ol T => (a == b) = true) ∧
    Equivalence (fun a b : tag_l T => (a == b) = true) ∧
    Equivalence (fun a b : tag_o T => (a == b) = true) := by
  have h1 : ∀ a b : tag_ol T, (a == b) = true ↔ a.tag = b.tag ∧ a.li = b.li := by
    intro a b
    show (decide (a.tag = b.tag) && decide (a.li = b.li)) = true ↔ _
    simp
  have h2 : ∀ a b : tag_l T, (a == b) = true ↔ a.tag = b.tag ∧ a.li = b.li := by
    intro a b
    show (decide (a.tag = b.tag) && decide (a.li = b.li)) = true ↔ _
    simp
  have h3 : ∀ a b : tag_o T, (a == b) = true ↔ a.tag = b.tag := by
    intro a b
    show decide (a.tag = b.tag) = true ↔ _
    simp
  refine ⟨h1, ?_, h2, h3, ?_, ?_, ?_, ?_⟩
  · intro t oi oi1 li
    exact (h1 _ _).mpr ⟨rfl, rfl⟩
  · intro t oi oi1
    exact (h3 _ _).mpr rfl
  · refine ⟨fun a => (h1 a a).mpr ⟨rfl, rfl⟩, ?_, ?_⟩
    · intro a b h
      have := (h1 a b).mp h
      exact (h1 b a).mpr ⟨this.1.symm, this.2.symm⟩
    · intro a b c hab hbc
      have p := (h1 a b).mp hab
      have q := (h1 b c).mp hbc
      exact (h1 a c).mpr ⟨p.1.trans q.1, p.2.trans q.2⟩
  · refine ⟨fun a => (h2 a a).mpr ⟨rfl, rfl⟩, ?_, ?_⟩
    · intro a b h
      have := (h2 a b).mp h
      exact (h2 b a).mpr ⟨this.1.symm, this.2.symm⟩
    · intro a b c hab hbc
      have p := (h2 a b).mp hab
      have q := (h2 b c).mp hbc
      exact (h2 a c).mpr ⟨p.1.trans q.1, p.2.trans q.2⟩
  · refine ⟨fun a => (h3 a a).mpr rfl, ?_, ?_⟩
    · intro a b h
      exact (h3 b a).mpr ((h3 a b).mp h).symm
    · intro a b c hab hbc
      exact (h3 a c).mpr (((h3 a b).mp hab).trans ((h3 b c).mp hbc))

/-- Witness for C23: two `tag_ol` records over the tags of `estpolis_biography_comp` that
differ in the offset class only are equal, and two that differ in the length class are
not. -/
theorem tag_equality_ignores_offset_class_witness :
    ((tag_ol.make estpolis_biography.tag.lzs 3 7 ==
      tag_ol.make estpolis_biography.tag.lzs 5 7) = true) ∧
    ((tag_ol.make estpolis_biography.tag.lzs 3 7 ==
      tag_ol.make estpolis_biography.tag.lzs 3 8) = false) :=
  ⟨(tag_equality_ignores_offset_class).2.1 estpolis_biography.tag.lzs 3 5 7, by decide⟩


/-- C26 (amended).  The prune of `update_k<K>` is enabled only for cost functions that are
affine along the lengths it visits, as long as the numerator stays in `size_t`.  Whenever
`is_linear_k` holds for `LinearQ<A, B, C>` and `K` (that is `K % C == 0`) with `C >= 1`, and
`A * (l + K) + B` does not exceed `SIZE_MAX`, the cost function `f(l) = (A * l + B) / C`
satisfies `f(l + K) = f(l) + A * (K / C)`, where the increment is `K` times the slope
`A / C`, that is `C * (A * (K / C)) = A * K`; hence along the lengths `l, l + K, l + 2 K, ...`
that the loop visits `f(l + m * K) = f(l) + m * (A * (K / C))` for every `m` with
`A * (l + m * K) + B <= SIZE_MAX`. -/
theorem linear_k_affine_on_stride (A B C K l : Nat) (hlin : is_linear_k_LinearQ A B C K = true)
    (hC : 1 ≤ C) (hfit : A * (l + K) + B < 2 ^ 64) :
    LinearQ A B C (l + K) = LinearQ A B C l + A * (K / C) ∧
    C * (A * (K / C)) = A * K ∧
    ∀ m, A * (l + m * K) + B < 2 ^ 64 →
      LinearQ A B C (l + m * K) = LinearQ A B C l + m * (A * (K / C)) := by
  have hmod : K % C = 0 := by simpa [is_linear_k_LinearQ] using hlin
  have hK : K = C * (K / C) := by
    have := Nat.div_add_mod K C
    rw [hmod, Nat.add_zero] at this
    exact this.symm
  have hstride : ∀ m, A * (l + m * K) + B < 2 ^ 64 →
      LinearQ A B C (l + m * K) = LinearQ A B C l + m * (A * (K / C)) := by
    intro m hm
    have hl : A * l + B < 2 ^ 64 := by
      have : A * l ≤ A * (l + m * K) := Nat.mul_le_mul_left A (Nat.le_add_right _ _)
      omega
    unfold LinearQ
    rw [Nat.mod_eq_of_lt hm, Nat.mod_eq_of_lt hl]
    have e : A * (l + m * K) + B = (A * l + B) + (m * (A * (K / C))) * C := by
      have e2 : m * K = m * (K / C) * C := by
        conv_lhs => rw [hK]
        rw [Nat.mul_comm C (K / C), Nat.mul_assoc]
      rw [e2]
      ring
    rw [e, Nat.add_mul_div_right _ _ (by omega)]
  refine ⟨?_, ?_, hstride⟩
  · have := hstride 1 (by rw [Nat.one_mul]; exact hfit)
    simpa using this
  · conv_rhs => rw [hK]
    ring

/-- Witness for C26: `LinearQ<3, 1, 2>` with `K = 4` at `l = 5`. -/
theorem linear_k_affine_on_stride_witness :
    is_linear_k_LinearQ 3 1 2 4 = true ∧ (1 : Nat) ≤ 2 ∧ 3 * (5 + 4) + 1 < 2 ^ 64 ∧
    LinearQ 3 1 2 (5 + 4) = LinearQ 3 1 2 5 + 3 * (4 / 2) :=
  ⟨by decide, by decide, by decide,
    (linear_k_affine_on_stride 3 1 2 4 5 (by decide) (by decide) (by decide)).1⟩

/-- Counterexample to C26 as stated: `LinearQ<3, 1, 2>` is flagged affine for `K = 2`, and at
`l = 6148914691236517204` the numerator `3 l + 1 = 2^64 - 3` is a `size_t` and
`f(l) = 2^63 - 2`, but the numerator `3 (l + 2) + 1` wraps to 3 and `f(l + 2) = 1`, which is
not `f(l) + 3`. -/
theorem linear_k_affine_on_stride_counterexample :
    is_linear_k_LinearQ 3 1 2 2 = true ∧ (1 : Nat) ≤ 2 ∧
    6148914691236517204 + 2 < 2 ^ 64 ∧
    LinearQ 3 1 2 6148914691236517204 = 2 ^ 63 - 2 ∧
    LinearQ 3 1 2 (6148914691236517204 + 2) = 1 ∧
    LinearQ 3 1 2 (6148914691236517204 + 2) ≠ LinearQ 3 1 2 6148914691236517204 + 3 * (2 / 2) := by
  refine ⟨by decide, by decide, by decide, by decide, by decide, by decide⟩

namespace lz_helper_kirby

theorem fill_length (f : Nat → Int) (shift : Nat) : ∀ k ret,
    (fill f shift k ret).length = ret.length := by
  intro k
  induction k with
  | zero => intro ret; rfl
  | succ k ih => intro ret; simp [fill, ih]

theorem fill_getD (f : Nat → Int) (shift : Nat) : ∀ k ret j,
    k + shift ≤ ret.length →
    (fill f shift k ret).getD j 0 =
      if shift ≤ j ∧ j < shift + k then f (j - shift) else ret.getD j 0 := by
  intro k
  induction k with
  | zero =>
    intro ret j _
    have : ¬ (shift ≤ j ∧ j < shift + 0) := by omega
    rw [if_neg this]
    rfl
  | succ k ih =>
    intro ret j h
    have e : fill f shift (k + 1) ret = (fill f shift k ret).set (k + shift) (f k) := rfl
    rw [e]
    by_cases hj : j = k + shift
    · subst hj
      rw [List.getD_eq_getElem?_getD, List.getElem?_set]
      have h1 : k + shift < (fill f shift k ret).length := by rw [fill_length]; omega
      rw [if_pos rfl, if_pos h1, if_pos ⟨by omega, by omega⟩]
      have : k + shift - shift = k := by omega
      rw [this]
      rfl
    · rw [List.getD_eq_getElem?_getD, List.getElem?_set, if_neg (Ne.symm hj),
        ← List.getD_eq_getElem?_getD, ih ret j (by omega)]
      by_cases hc : shift ≤ j ∧ j < shift + k
      · rw [if_pos hc, if_pos ⟨hc.1, by omega⟩]
      · rw [if_neg hc, if_neg (by omega)]

theorem ext_getD (l1 l2 : List Int) (hl : l1.length = l2.length)
    (h : ∀ j, j < l1.length → l1.getD j 0 = l2.getD j 0) : l1 = l2 := by
  apply List.ext_getElem hl
  intro j h1 h2
  have := h j h1
  rw [List.getD_eq_getElem _ _ h1, List.getD_eq_getElem _ _ h2] at this
  exact this

theorem glue_getD (a b : List Int) (x : Int) (j : Nat) :
    (a ++ [x] ++ b).getD j 0 =
      if j < a.length then a.getD j 0
      else if j = a.length then x else b.getD (j - (a.length + 1)) 0 := by
  simp only [List.getD_eq_getElem?_getD]
  by_cases h1 : j < a.length
  · rw [if_pos h1, List.append_assoc, List.getElem?_append_left h1]
  · rw [if_neg h1, List.append_assoc, List.getElem?_append_right (by omega)]
    by_cases h2 : j = a.length
    · rw [if_pos h2, h2]
      simp
    · rw [if_neg h2]
      have : j - a.length = (j - (a.length + 1)) + 1 := by omega
      rw [this]
      simp

/-- The vector built by the two loops of `hflip_appended` is the input, then `-1`, then the
bit-reversed input. -/
theorem hflip_appended_vector_eq (input : List Nat) :
    hflip_appended_vector input =
      input.map Int.ofNat ++ [-1] ++ (input.map bit_reversed).map Int.ofNat := by
  have hlen : (hflip_appended_vector input).length = 2 * input.length + 1 := by
    simp [hflip_appended_vector, fill_length]
  apply ext_getD
  · rw [hlen]
    simp
    omega
  · intro j hj
    rw [hlen] at hj
    rw [glue_getD]
    unfold hflip_appended_vector
    simp only [List.length_map]
    rw [fill_getD _ _ _ _ _ (by simp [fill_length]; omega)]
    by_cases c0 : j < input.length
    · rw [if_neg (by omega), if_pos c0]
      rw [List.getD_eq_getElem?_getD, List.getElem?_set, if_neg (by omega),
        ← List.getD_eq_getElem?_getD, fill_getD _ _ _ _ _ (by simp; omega),
        if_pos ⟨Nat.zero_le _, by omega⟩]
      simp [List.getD_eq_getElem?_getD, List.getElem?_eq_getElem c0]
    · rw [if_neg c0]
      by_cases c2 : j = input.length
      · rw [if_pos c2, if_neg (by omega)]
        rw [List.getD_eq_getElem?_getD, List.getElem?_set, if_pos c2.symm,
          if_pos (by rw [fill_length]; simp; omega)]
        rfl
      · rw [if_neg c2, if_pos ⟨by omega, by omega⟩]
        have hk : j - (input.length + 1) < input.length := by omega
        simp [List.getD_eq_getElem?_getD, List.getElem?_eq_getElem hk]

end lz_helper_kirby

set_option maxRecDepth 100000 in
/-- C27.  The bit-reverse transform is exact.  For every byte `b` in `0 .. 255`, bit `k` of
`bit_reversed[b]` equals bit `7 - k` of `b` for all `k` in `0 .. 7`, `bit_reversed[b]` is a
byte and `bit_reversed[bit_reversed[b]] = b`; and the vector that `hflip_appended(input)`
fills is `input ++ [-1] ++ [bit_reversed[x] for x in input]`, of length `2 n + 1`. -/
theorem bit_reverse_exact :
    (∀ b, b < 256 → ∀ k, k < 8 → (bit_reversed b).testBit k = b.testBit (7 - k)) ∧
    (∀ b, b < 256 → bit_reversed b < 256 ∧ bit_reversed (bit_reversed b) = b) ∧
    (∀ input : List Nat,
      lz_helper_kirby.hflip_appended_vector input =
        input.map Int.ofNat ++ [-1] ++ (input.map bit_reversed).map Int.ofNat ∧
      lz_helper_kirby.hflip_appended input = lz_helper_kirby.hflip_appended_vector input ∧
      (lz_helper_kirby.hflip_appended_vector input).length = 2 * input.length + 1) := by
  refine ⟨by decide, by decide, ?_⟩
  intro input
  have e := lz_helper_kirby.hflip_appended_vector_eq input
  refine ⟨e, ?_, ?_⟩
  · rw [e]
    rfl
  · rw [e]
    simp
    omega

/-- Witness for C27: the byte `0x12 = 00010010` is reversed to `0x48 = 01001000`; bit 3 of
the result is bit 4 of the byte. -/
theorem bit_reverse_exact_witness :
    bit_reversed 0x12 = 0x48 ∧
    (bit_reversed 0x12).testBit 3 = (0x12 : Nat).testBit (7 - 3) ∧
    lz_helper_kirby.hflip_appended_vector [0x12, 0x01] = [0x12, 0x01, -1, 0x48, 0x80] :=
  ⟨by decide, bit_reverse_exact.1 0x12 (by decide) 3 (by decide), by decide⟩


end sfc_comp

namespace sfc_comp
open encode sssp_solver
namespace estpolis_biography

/-- A range update from position `i` with a constant cost equal to the declared bits of its
tag keeps the accounting invariant of the passes up to `i`, and the cost of `i`. -/
theorem Accounted_update (n i : Nat) (s : sssp_solver tag) (lin : Bool) (fr to_ C : Nat)
    (tg : tag) (arg : Nat) (h : Accounted n (i + 1) s) (hi : i < 2 ^ 64) (hfr : 1 ≤ fr)
    (hfr2 : fr < 2 ^ 63) (hw : (s.get i).cost + C < 2 ^ 64) (hC : declared_bits tg = C) :
    Accounted n (i + 1)
      (sssp_solver.update .greater_equal lin s i fr to_ (Constant C) tg unspecified arg) ∧
    ((sssp_solver.update .greater_equal lin s i fr to_ (Constant C) tg unspecified arg).get
      i).cost = (s.get i).cost := by
  obtain ⟨f1, f2⟩ := sssp_solver.update_frame .greater_equal lin s i fr to_ (Constant C) tg
    unspecified arg hi hfr2
  rw [if_pos rfl] at f2
  have hlow : ∀ v, v ≤ i →
      (sssp_solver.update .greater_equal lin s i fr to_ (Constant C) tg unspecified arg).get v =
        s.get v := by
    intro v hv
    rcases f2 v with e | ⟨l, l1, _, l3, _⟩
    · exact e
    · omega
  refine ⟨⟨by rw [f1]; exact h.size, by rw [hlow 0 (Nat.zero_le _)]; exact h.zero, ?_⟩,
    by rw [hlow i (le_refl _)]⟩
  intro v hv hv0 hfin
  rcases f2 v with e | ⟨l, l1, l2, l3, l4⟩
  · rw [e] at hfin ⊢
    obtain ⟨a1, a2, a3, a4⟩ := h.edge v hv hv0 hfin
    refine ⟨a1, a2, a3, ?_⟩
    rw [hlow _ (by omega)]
    exact a4
  · rw [l4]
    simp only []
    have e : v - l = i := by omega
    rw [e, hlow i (le_refl _), sssp_solver.Constant_apply C l (by omega),
      Nat.mod_eq_of_lt hw, hC]
    exact ⟨by omega, by omega, by omega, rfl⟩

theorem Accounted_step (input : List Nat) (i : Nat) (res_lzs res_lzl : lz_data)
    (s : sssp_solver tag) (h : Accounted input.length i s) (hi : i < 2 ^ 64)
    (hw : (s.get i).cost + 25 < 2 ^ 64) :
    Accounted input.length (i + 1) (step input i res_lzs res_lzl s) := by
  have h1 : Accounted input.length (i + 1) s := by
    refine ⟨h.size, h.zero, ?_⟩
    intro v hv hv0 hfin
    obtain ⟨a1, a2, a3, a4⟩ := h.edge v hv hv0 hfin
    exact ⟨a1, a2, by omega, a4⟩
  unfold step
  simp only []
  unfold sssp_solver.update_lz
  split
  · have a1 := Accounted_update input.length i s (is_linear_Constant 9) 1 1 9 .uncomp1 0 h1 hi
      (by decide) (by decide) (by omega) rfl
    have a2 := Accounted_update input.length i _ (is_linear_Constant 17) 3
      (min 0x11 res_lzs.len) 17 .lzs res_lzs.ofs a1.1 hi (by decide) (by decide)
      (by rw [a1.2]; omega) rfl
    have a3 := Accounted_update input.length i _ (is_linear_Constant 25) 3
      (min 0x42 res_lzl.len) 25 .lzl res_lzl.ofs a2.1 hi (by decide) (by decide)
      (by rw [a2.2, a1.2]; omega) rfl
    exact a3.1
  · have a1 := Accounted_update input.length i s (is_linear_Constant 8) 1 1 8 .uncomp0 0 h1 hi
      (by decide) (by decide) (by omega) rfl
    have a2 := Accounted_update input.length i _ (is_linear_Constant 17) 3
      (min 0x11 res_lzs.len) 17 .lzs res_lzs.ofs a1.1 hi (by decide) (by decide)
      (by rw [a1.2]; omega) rfl
    have a3 := Accounted_update input.length i _ (is_linear_Constant 25) 3
      (min 0x42 res_lzl.len) 25 .lzl res_lzl.ofs a2.1 hi (by decide) (by decide)
      (by rw [a2.2, a1.2]; omega) rfl
    exact a3.1

theorem Accounted_dp_after (input : List Nat) (find_s find_l : Nat → lz_data)
    (hN : input.length ≤ 0x10000) :
    ∀ i, i ≤ input.length → Accounted input.length i (dp_after input find_s find_l i) := by
  intro i
  induction i with
  | zero =>
    intro _
    have hn2 : input.length + 1 < 2 ^ 64 := by omega
    refine ⟨sssp_solver.size_mk_solver _ _ hn2, ?_, ?_⟩
    · show ((mk_solver input.length 0 : sssp_solver tag).get 0).cost = 0
      rw [sssp_solver.get_mk_solver _ _ _ hn2, if_pos ⟨rfl, Nat.zero_le _⟩]
    · intro v hv hv0 hfin
      exfalso
      have e : (dp_after input find_s find_l 0).get v = ⟨infinite_cost, 0, 0, default⟩ := by
        show (mk_solver input.length 0 : sssp_solver tag).get v = _
        rw [sssp_solver.get_mk_solver _ _ _ hn2, if_neg (fun c => hv0 c.1), if_pos hv]
      rw [e] at hfin
      exact Nat.lt_irrefl _ hfin
  | succ i ih =>
    intro hi
    have hG := Good_dp_after input find_s find_l hN i (by omega)
    have := hG.small i (le_refl _) (by omega)
    exact Accounted_step input i (find_s i) (find_l i) _ (ih (by omega)) (by omega) (by omega)

/-- The back-trace of `commands` on an accounted solver: from a vertex of finite cost it
returns, and the declared bits of the commands it visits sum to the cost of that vertex. -/
theorem commands_loop_bits (n i : Nat) (s : sssp_solver tag) (hA : Accounted n i s) :
    ∀ (fuel adr : Nat) (ret : List (Vertex tag)), adr ≤ n →
      (s.get adr).cost < infinite_cost → adr < fuel →
      ∃ chain : List (Vertex tag),
        commands_loop s (0 : Int) fuel (adr : Int) ret = .ok (ret ++ chain).reverse ∧
        (chain.map (fun c => declared_bits c.type)).sum = (s.get adr).cost := by
  intro fuel
  induction fuel with
  | zero => intro adr ret _ _ h; omega
  | succ fuel ih =>
    intro adr ret h1 h2 h3
    unfold commands_loop
    by_cases h0 : adr = 0
    · subst h0
      refine ⟨[], ?_, ?_⟩
      · simp
      · rw [hA.zero]; rfl
    · obtain ⟨a1, a2, a3, a4⟩ := hA.edge adr h1 h0 h2
      have hgt : (adr : Int) > (0 : Int) := by omega
      simp only [hgt, if_true, Int.toNat_ofNat]
      have hne : ¬ (s.get adr).len = 0 := by omega
      simp only [hne, if_false]
      have hcast : (adr : Int) - ((s.get adr).len : Int) =
          ((adr - (s.get adr).len : Nat) : Int) := by omega
      rw [hcast]
      obtain ⟨chain, c1, c2⟩ := ih (adr - (s.get adr).len) (ret ++ [s.get adr]) (by omega)
        (by omega) (by omega)
      refine ⟨s.get adr :: chain, ?_, ?_⟩
      · rw [c1]; simp
      · simp only [List.map_cons, List.sum_cons]
        omega

theorem written_bits_eq (t : tag) : written_bits t = declared_bits t := by
  cases t <;> rfl

end estpolis_biography

/-- C22.  Cost accounting of the estpolis_biography codec.  For every input accepted by
`check_size` (at most `0x10000` bytes) and every outcome of the match queries, after the loop
`dp.commands()` returns, `dp.optimal_cost()` equals the sum over the returned commands of the
declared bit cost of each command's tag (`uncomp0` 8, `uncomp1` 9, `lzs` 17, `lzl` 25), and
with each command written in the bits of its `write` call `dp.optimal_cost() + 2 * 8` equals
the bit length of the output. -/
theorem estpolis_biography_cost_accounting (input : List Nat) (find_s find_l : Nat → lz_data)
    (hN : input.length ≤ 0x10000) :
    ∃ cmds, (estpolis_biography.dp_after input find_s find_l input.length).commands 0 =
        .ok cmds ∧
      (estpolis_biography.dp_after input find_s find_l input.length).optimal_cost =
        (cmds.map (fun c => estpolis_biography.declared_bits c.type)).sum ∧
      (estpolis_biography.dp_after input find_s find_l input.length).optimal_cost + 2 * 8 =
        estpolis_biography.bit_length cmds := by
  have hG := estpolis_biography.Good_dp_after input find_s find_l hN input.length (le_refl _)
  have hA := estpolis_biography.Accounted_dp_after input find_s find_l hN input.length
    (le_refl _)
  have hfin : ((estpolis_biography.dp_after input find_s find_l input.length).get
      input.length).cost < infinite_cost := by
    have := hG.small input.length (le_refl _) (le_refl _)
    rw [estpolis_biography.inf_val]
    omega
  obtain ⟨chain, c1, c2⟩ := estpolis_biography.commands_loop_bits input.length input.length _ hA
    ((estpolis_biography.dp_after input find_s find_l input.length).size + 1) input.length []
    (le_refl _) hfin (by rw [hA.size]; omega)
  have hopt : (estpolis_biography.dp_after input find_s find_l input.length).optimal_cost =
      ((estpolis_biography.dp_after input find_s find_l input.length).get input.length).cost := by
    unfold optimal_cost
    rw [hA.size]
    simp
  have hsum : (chain.reverse.map (fun c => estpolis_biography.declared_bits c.type)).sum =
      (chain.map (fun c => estpolis_biography.declared_bits c.type)).sum := by
    rw [List.map_reverse, List.sum_reverse]
  refine ⟨chain.reverse, ?_, ?_, ?_⟩
  · unfold commands
    have : (((estpolis_biography.dp_after input find_s find_l input.length).size : Int) - 1) =
        (input.length : Int) := by rw [hA.size]; push_cast; omega
    rw [this]
    have c1' := c1
    simp only [List.nil_append] at c1'
    exact c1'
  · rw [hopt, hsum, c2]
  · unfold estpolis_biography.bit_length
    have : (fun c : Vertex estpolis_biography.tag => estpolis_biography.written_bits c.type) =
        (fun c => estpolis_biography.declared_bits c.type) := by
      funext c
      exact estpolis_biography.written_bits_eq c.type
    rw [this, hopt, hsum, c2]
    omega

set_option maxRecDepth 100000 in
/-- Witness for C22: nine bytes with one short match of length 6 offered at position 3; the
cheapest parse is three literals (8 + 9 + 8 bits) and the match (17 bits). -/
theorem estpolis_biography_cost_accounting_witness :
    ([1, 200, 3, 1, 200, 3, 1, 200, 3] : List Nat).length ≤ 0x10000 ∧
    (estpolis_biography.dp_after [1, 200, 3, 1, 200, 3, 1, 200, 3]
      (fun i => if i = 3 then ⟨0, 6⟩ else ⟨0, 0⟩) (fun _ => ⟨0, 0⟩) 9).optimal_cost = 42 ∧
    ∃ cmds, (estpolis_biography.dp_after [1, 200, 3, 1, 200, 3, 1, 200, 3]
        (fun i => if i = 3 then ⟨0, 6⟩ else ⟨0, 0⟩) (fun _ => ⟨0, 0⟩) 9).commands 0 =
        .ok cmds ∧
      (estpolis_biography.dp_after [1, 200, 3, 1, 200, 3, 1, 200, 3]
        (fun i => if i = 3 then ⟨0, 6⟩ else ⟨0, 0⟩) (fun _ => ⟨0, 0⟩) 9).optimal_cost =
        (cmds.map (fun c => estpolis_biography.declared_bits c.type)).sum ∧
      (estpolis_biography.dp_after [1, 200, 3, 1, 200, 3, 1, 200, 3]
        (fun i => if i = 3 then ⟨0, 6⟩ else ⟨0, 0⟩) (fun _ => ⟨0, 0⟩) 9).optimal_cost + 2 * 8 =
        estpolis_biography.bit_length cmds :=
  ⟨by decide, by decide,
    estpolis_biography_cost_accounting [1, 200, 3, 1, 200, 3, 1, 200, 3]
      (fun i => if i = 3 then ⟨0, 6⟩ else ⟨0, 0⟩) (fun _ => ⟨0, 0⟩) (by decide)⟩

end sfc_comp

namespace sfc_comp
open encode sssp_solver
namespace sssp_solver
variable {Tag : Type} [Inhabited Tag] [BEq Tag]

theorem Kept_mk_solver (n begin : Nat) (hb : begin ≤ n) (hn : n < 2 ^ 63) :
    Kept n begin (mk_solver n begin : sssp_solver Tag) := by
  have hn2 : n + 1 < 2 ^ 64 := by omega
  refine ⟨size_mk_solver n begin hn2, ?_, ?_, ?_⟩
  · rw [get_mk_solver n begin begin hn2, if_pos ⟨rfl, hb⟩]
  · intro v
    rw [get_mk_solver n begin v hn2]
    split
    · simp
    · split
      · simp
      · show (0 : Nat) ≤ _; simp
  · intro v hv hne hfin
    rw [get_mk_solver n begin v hn2, if_neg (fun c => hne c.1), if_pos hv] at hfin
    exact absurd hfin (Nat.lt_irrefl _)

theorem Relaxing_init (n begin : Nat) (s : sssp_solver Tag) (adr : Nat)
    (h : Kept n begin s) : Relaxing n begin s adr (s.get adr).cost s :=
  ⟨h, rfl, fun _ => le_refl _, fun _ => Or.inl rfl⟩

/-- Writing the edge of length `l` from `adr` at a cost that does not exceed the cost of the
target keeps the invariant of the relaxation. -/
theorem Relaxing_write (n begin : Nat) (s t : sssp_solver Tag) (adr base l c arg : Nat)
    (tag : Tag) (h : Relaxing n begin s adr base t) (hl : 1 ≤ l) (hln : adr + l ≤ n)
    (hc : c ≤ (t.get (adr + l)).cost) (hbc : base ≤ c) :
    Relaxing n begin s adr base (t.set (adr + l) ⟨c, l, arg, tag⟩) := by
  have hin : adr + l < t.size := by rw [h.kept.size]; omega
  have hmono : ∀ v, ((t.set (adr + l) ⟨c, l, arg, tag⟩).get v).cost ≤ (t.get v).cost := by
    intro v
    by_cases hv : v = adr + l
    · subst hv; rw [get_set_eq _ _ _ hin]; exact hc
    · rw [get_set_ne _ _ _ _ (Ne.symm hv)]
  have hadr : (t.set (adr + l) ⟨c, l, arg, tag⟩).get adr = t.get adr :=
    get_set_ne _ _ _ _ (by omega)
  refine ⟨⟨?_, ?_, ?_, ?_⟩, ?_, ?_, ?_⟩
  · rw [size_set]; exact h.kept.size
  · have := hmono begin
    rw [h.kept.start] at this
    omega
  · intro v; exact le_trans (hmono v) (h.kept.bounded v)
  · intro v hv hne hfin
    by_cases hve : v = adr + l
    · subst hve
      rw [get_set_eq _ _ _ hin] at hfin ⊢
      simp only at hfin ⊢
      have e : adr + l - l = adr := by omega
      rw [e, hadr, h.base_eq]
      exact ⟨hl, by omega, by omega⟩
    · rw [get_set_ne _ _ _ _ (Ne.symm hve)] at hfin ⊢
      obtain ⟨b1, b2, b3⟩ := h.kept.back v hv hne hfin
      exact ⟨b1, b2, lt_of_le_of_lt (hmono _) b3⟩
  · rw [hadr]; exact h.base_eq
  · intro v; exact le_trans (hmono v) (h.mono v)
  · intro v
    by_cases hve : v = adr + l
    · subst hve
      right
      rw [get_set_eq _ _ _ hin]
      exact ⟨rfl, hl, hbc⟩
    · rw [get_set_ne _ _ _ _ (Ne.symm hve)]
      exact h.written v

theorem Relaxing_relax (n begin : Nat) (s t : sssp_solver Tag) (skip : Skip) (lin : Bool)
    (adr : Nat) (func : Nat → Nat) (tag : Tag) (base arg l : Nat)
    (h : Relaxing n begin s adr base t) (hl : 1 ≤ l) (hln : adr + l ≤ n) (hn : n < 2 ^ 63)
    (hf : func l < 2 ^ 63) :
    Relaxing n begin s adr base (relax skip lin adr func tag base arg l t).1 := by
  have hb := h.kept.bounded adr
  rw [h.base_eq] at hb
  unfold infinite_cost at hb
  rcases relax_skip_cases skip lin adr func tag base arg l t (by omega) (by omega)
    with e | ⟨e1, e2⟩
  · rw [e]; exact h
  · rw [e2]
    exact Relaxing_write n begin s t adr base l _ arg tag h hl hln e1 (Nat.le_add_right _ _)

theorem Relaxing_update (n begin : Nat) (skip : Skip) (linear : Bool) (s : sssp_solver Tag)
    (adr fr to_ : Nat) (func : Nat → Nat) (tag : Tag) (arg : Nat)
    (hK : Kept n begin s) (hn : n < 2 ^ 63) (hfr : 1 ≤ fr) (hfr2 : fr < 2 ^ 63)
    (hf : ∀ l, func l < 2 ^ 63) :
    Relaxing n begin s adr (s.get adr).cost
      (sssp_solver.update skip linear s adr fr to_ func tag unspecified arg) := by
  rw [update_eq_descend _ _ _ _ _ _ _ _ _ _ hfr2 (cap_lt s n adr to_ hK.size hn)]
  simp only [if_true]
  refine update_descend_preserves (fun t => Relaxing n begin s adr (s.get adr).cost t)
    skip linear adr fr func tag _ arg _ ?_ _ (le_refl _) s (Relaxing_init n begin s adr hK)
  intro l t h1 h2 ht
  exact Relaxing_relax n begin s t skip linear adr func tag _ arg l ht (by omega)
    (cap_bound s n adr to_ l hK.size (by omega) h2) hn (hf l)

theorem Relaxing_update_k (n begin : Nat) (K : Nat) (linear : Bool) (s : sssp_solver Tag)
    (adr fr to_ : Nat) (func : Nat → Nat) (tag : Tag) (arg : Nat)
    (hK : Kept n begin s) (hn : n < 2 ^ 63) (hK1 : 1 ≤ K) (hK2 : K ≤ 2 ^ 63) (hfr : 1 ≤ fr)
    (hf : ∀ l, func l < 2 ^ 63) :
    Relaxing n begin s adr (s.get adr).cost
      (sssp_solver.update_k K linear s adr fr to_ func tag arg) := by
  rw [update_k_eq_descend K linear s adr fr to_ func tag arg hK1 hK2
    (cap_lt s n adr to_ hK.size hn)]
  by_cases hto : min to_ (if s.size > adr then s.size - 1 - adr else 0) < fr
  · simp only [hto, if_true]; exact Relaxing_init n begin s adr hK
  · simp only [hto, if_false]
    refine update_k_descend_preserves (fun t => Relaxing n begin s adr (s.get adr).cost t)
      K linear adr fr func tag _ arg
      (min to_ (if s.size > adr then s.size - 1 - adr else 0)) ?_ _ ?_ s
      (Relaxing_init n begin s adr hK)
    · intro l t h1 h2 ht
      exact Relaxing_relax n begin s t .greater_equal linear adr func tag _ arg l ht (by omega)
        (cap_bound s n adr to_ l hK.size (by omega) h2) hn (hf l)
    · have := Nat.div_mul_le_self
        (min to_ (if s.size > adr then s.size - 1 - adr else 0) - fr) K
      omega

theorem Relaxing_table (n begin : Nat) (s : sssp_solver Tag) (adr : Nat) (lz : lz_data)
    (func : Nat → Nat) (tag : Tag) (base : Nat) (hf : ∀ i, func i < 2 ^ 63) :
    ∀ (table : List Nat) (i : Nat) (t : sssp_solver Tag),
      (∀ l ∈ table, 1 ≤ l ∧ adr + l < 2 ^ 64) → Relaxing n begin s adr base t →
      Relaxing n begin s adr base (update_lz_table_loop adr lz func tag base i table t) := by
  intro table
  induction table with
  | nil => intro i t _ h; exact h
  | cons l rest ih =>
    intro i t htab h
    obtain ⟨l1, l2⟩ := htab l (List.mem_cons_self _ _)
    have hrest : ∀ x ∈ rest, 1 ≤ x ∧ adr + x < 2 ^ 64 :=
      fun x hx => htab x (List.mem_cons_of_mem _ hx)
    have e : (adr + l) % 2 ^ 64 = adr + l := Nat.mod_eq_of_lt l2
    have hb := h.kept.bounded adr
    rw [h.base_eq] at hb
    unfold infinite_cost at hb
    have e2 : (base + func i) % 2 ^ 64 = base + func i :=
      Nat.mod_eq_of_lt (by have := hf i; omega)
    unfold update_lz_table_loop
    rw [e, e2]
    by_cases c1 : l > lz.len ∨ adr + l ≥ t.size
    · rw [if_pos c1]; exact h
    · rw [if_neg c1]
      by_cases c2 : base + func i ≥ (t.get (adr + l)).cost
      · rw [if_pos c2]
        exact ih (i + 1) t hrest h
      · rw [if_neg c2]
        apply ih (i + 1) _ hrest
        have hs := h.kept.size
        exact Relaxing_write n begin s t adr base l _ lz.ofs tag h l1 (by omega) (by omega)
          (Nat.le_add_right _ _)

/-- One relaxation issued on a solver that satisfies the vertex invariant. -/
theorem Relaxing_of_relaxation (n begin : Nat) (s s1 : sssp_solver Tag)
    (hK : Kept n begin s) (hn : n < 2 ^ 63) (h : relaxation s s1) :
    ∃ adr, Relaxing n begin s adr (s.get adr).cost s1 := by
  cases h with
  | update skip linear adr fr to_ func tag arg _ h1 h2 h3 =>
    exact ⟨adr, Relaxing_update n begin skip linear s adr fr to_ func tag arg hK hn h1 h2 h3⟩
  | update_lz skip linear adr fr to_ lz func tag _ h1 h2 h3 =>
    exact ⟨adr, Relaxing_update n begin skip linear s adr fr _ func tag _ hK hn h1 h2 h3⟩
  | update_k K linear_k adr fr to_ func tag arg _ k1 k2 h1 h3 =>
    exact ⟨adr, Relaxing_update_k n begin K linear_k s adr fr to_ func tag arg hK hn k1 k2 h1
      h3⟩
  | update_lz_table adr table lz func tag _ h1 h3 =>
    exact ⟨adr, Relaxing_table n begin s adr lz func tag _ h3 table 0 s h1
      (Relaxing_init n begin s adr hK)⟩

theorem Kept_of_Reached (n begin : Nat) (hb : begin ≤ n) (hn : n < 2 ^ 63)
    (s : sssp_solver Tag) (h : Reached n begin s) : Kept n begin s := by
  induction h with
  | init => exact Kept_mk_solver n begin hb hn
  | step s s1 _ hr ih =>
    obtain ⟨adr, hR⟩ := Relaxing_of_relaxation n begin s s1 ih hn hr
    exact hR.kept

end sssp_solver

/-- C24 (amended).  Vertex invariant kept by relaxation, inside the signed range of the
lengths and costs.  Starting from `sssp_solver(n, begin)` with `begin <= n < 2^63`, after any
sequence of range relaxations (`update`, `update_lz`, `update_k<K>`, `update_lz_table`) issued
from a vertex of the table with the default base cost and lengths `>= 1`, where the lower
length bound of `update` and `update_lz` is below `2^63`, `1 <= K <= 2^63`, the sums
`adr + l` of `update_lz_table` stay in `size_t`, and the cost function values are below
`2^63`: the table keeps its size, `cost[begin] = 0`, no vertex cost exceeds infinity, and
every other vertex `v` either has cost infinity or has `1 <= len <= v`, a finite cost and a
predecessor `v - len` of finite cost.  Moreover each relaxation increases no cost, and every
vertex it changes to a finite cost has `1 <= len <= v` and a predecessor `v - len` whose cost
was finite when the relaxation was issued. -/
theorem vertex_invariant_kept {Tag : Type} [Inhabited Tag] [BEq Tag] (n begin : Nat)
    (hb : begin ≤ n) (hn : n < 2 ^ 63) :
    (∀ s : sssp_solver Tag, Reached n begin s →
      s.size = n + 1 ∧ (s.get begin).cost = 0 ∧ (∀ v, (s.get v).cost ≤ infinite_cost) ∧
      ∀ v, v ≤ n → v ≠ begin →
        (s.get v).cost = infinite_cost ∨
        (1 ≤ (s.get v).len ∧ (s.get v).len ≤ v ∧ (s.get v).cost < infinite_cost ∧
          (s.get (v - (s.get v).len)).cost < infinite_cost)) ∧
    (∀ s s1 : sssp_solver Tag, Reached n begin s → relaxation s s1 →
      (∀ v, (s1.get v).cost ≤ (s.get v).cost) ∧
      ∀ v, s1.get v ≠ s.get v → (s1.get v).cost < infinite_cost →
        1 ≤ (s1.get v).len ∧ (s1.get v).len ≤ v ∧
        (s.get (v - (s1.get v).len)).cost < infinite_cost) := by
  constructor
  · intro s hs
    have hK := sssp_solver.Kept_of_Reached n begin hb hn s hs
    refine ⟨hK.size, hK.start, hK.bounded, ?_⟩
    intro v hv hne
    by_cases hfin : (s.get v).cost < infinite_cost
    · right
      obtain ⟨b1, b2, b3⟩ := hK.back v hv hne hfin
      exact ⟨b1, b2, hfin, b3⟩
    · left
      have := hK.bounded v
      omega
  · intro s s1 hs hr
    have hK := sssp_solver.Kept_of_Reached n begin hb hn s hs
    obtain ⟨adr, hR⟩ := sssp_solver.Relaxing_of_relaxation n begin s s1 hK hn hr
    refine ⟨hR.mono, ?_⟩
    intro v hv hfin
    rcases hR.written v with e | ⟨w1, w2, w3⟩
    · exact absurd e hv
    · have e : v - (s1.get v).len = adr := by omega
      rw [e]
      exact ⟨w2, by omega, by omega⟩

set_option maxRecDepth 100000 in
/-- Witness for C24: a solver with three vertices after the relaxation of the lengths
`1 .. 2` from position 0 at the constant cost 8; vertex 2 has `len = 2` and cost 8. -/
theorem vertex_invariant_kept_witness :
    (0 : Nat) ≤ 2 ∧ (2 : Nat) < 2 ^ 63 ∧
    Reached 2 0 (sssp_solver.update .greater_equal true
      (mk_solver 2 0 : sssp_solver estpolis_biography.tag) 0 1 2 (Constant 8) .lzs unspecified
      7) ∧
    (sssp_solver.update .greater_equal true
      (mk_solver 2 0 : sssp_solver estpolis_biography.tag) 0 1 2 (Constant 8) .lzs unspecified
      7).get 2 = ⟨8, 2, 7, .lzs⟩ ∧
    ((sssp_solver.update .greater_equal true
      (mk_solver 2 0 : sssp_solver estpolis_biography.tag) 0 1 2 (Constant 8) .lzs unspecified
      7).get 0).cost = 0 := by
  have hr : Reached 2 0 (sssp_solver.update .greater_equal true
      (mk_solver 2 0 : sssp_solver estpolis_biography.tag) 0 1 2 (Constant 8) .lzs unspecified
      7) :=
    Reached.step _ _ Reached.init
      (relaxation.update _ _ _ _ _ _ _ _ (by decide) (by decide) (by decide)
        (fun l => by rw [sssp_solver.Constant_apply 8 l (by decide)]; decide))
  exact ⟨by decide, by decide, hr, by decide,
    ((vertex_invariant_kept 2 0 (by decide) (by decide)).1 _ hr).2.1⟩

/-- Counterexample to C24 as stated, in two parts, both on `sssp_solver(2, 0)` with the
default base cost and lengths `>= 1`.  First part: after `update(0, 2, 2, Constant<1>, lzs)`
the call `update(2, SIZE_MAX, 0, Constant<1>, lzl)` makes the pass at `i = 0` and, the counter
wrapped to `SIZE_MAX`, the pass at the index `2 + SIZE_MAX`, which is vertex 1: it receives
the finite cost 2 with `len = SIZE_MAX`, which is not `<= 1`.  Second part:
`update(1, 1, 1, Constant<2^63 + 1>, lzs)` is issued from the unreachable vertex 1, the sum
`infinity + 2^63 + 1` wraps to 0, and vertex 2 receives the finite cost 0 with `len = 1`
although its predecessor, vertex 1, has cost infinity. -/
theorem vertex_invariant_kept_counterexample :
    (1 : Nat) ≤ 2 ^ 64 - 1 ∧
    (sssp_solver.update .greater_equal true
      (sssp_solver.update .greater_equal true
        (mk_solver 2 0 : sssp_solver estpolis_biography.tag) 0 2 2 (Constant 1) .lzs
        unspecified 0)
      2 (2 ^ 64 - 1) 0 (Constant 1) .lzl unspecified 0).get 1 = ⟨2, 2 ^ 64 - 1, 0, .lzl⟩ ∧
    (2 : Nat) < infinite_cost ∧ ¬ (2 ^ 64 - 1 ≤ 1) ∧
    (sssp_solver.update .greater_equal true
      (mk_solver 2 0 : sssp_solver estpolis_biography.tag) 1 1 1 (Constant (2 ^ 63 + 1)) .lzs
      unspecified 0).get 2 = ⟨0, 1, 0, .lzs⟩ ∧
    ((mk_solver 2 0 : sssp_solver estpolis_biography.tag).get (2 - 1)).cost = infinite_cost ∧
    ((sssp_solver.update .greater_equal true
      (mk_solver 2 0 : sssp_solver estpolis_biography.tag) 1 1 1 (Constant (2 ^ 63 + 1)) .lzs
      unspecified 0).get (2 - 1)).cost = infinite_cost := by
  refine ⟨by decide, by decide, by decide, by decide, by decide, by decide, by decide⟩

end sfc_comp

namespace sfc_comp
open encode sssp_solver
namespace encode
namespace lz

end lz
end encode

end sfc_comp

namespace sfc_comp
open encode sssp_solver
namespace encode
namespace lz

/-- The loop of `find_non_overlapping` for positions below `2^63` and any query function: it
ends within `len_hi - ret.len` rounds with the result of the plain loop, every round tries a
length `1 <= len <= adr` and queries `adr - (len - 1)`, and the gap shrinks from round to
round. -/
theorem find_non_overlapping_loop_rounds_spec (adr : Nat) (find_lz : Nat → lz_data)
    (hadr : adr < 2 ^ 63) :
    ∀ (fuel : Nat) (ret : lz_data) (len_hi : Nat), len_hi ≤ adr → len_hi - ret.len < fuel →
      ∃ res rounds, find_non_overlapping_loop_rounds adr find_lz fuel ret len_hi =
          some (res, rounds) ∧
        find_non_overlapping_loop adr find_lz fuel ret len_hi = some res ∧
        (∀ r ∈ rounds, 1 ≤ r.len ∧ r.len ≤ adr ∧ r.arg = adr - (r.len - 1) ∧
          r.gap ≤ len_hi - ret.len) ∧
        (rounds.map (fun r => r.gap)).Pairwise (fun a b => b < a) ∧
        rounds.length ≤ len_hi - ret.len := by
  intro fuel
  induction fuel with
  | zero => intro ret len_hi _ h; omega
  | succ fuel ih =>
    intro ret len_hi hle hfuel
    unfold find_non_overlapping_loop_rounds find_non_overlapping_loop
    by_cases hc : ret.len < len_hi
    · rw [if_pos hc, if_pos hc]
      have e1 : size_t ((ret.len : Int) + (len_hi : Int) + 1) = ret.len + len_hi + 1 := by
        have e : (ret.len : Int) + (len_hi : Int) + 1 = ((ret.len + len_hi + 1 : Nat) : Int) := by
          omega
        rw [e, size_t_nat _ (by omega)]
      have hlen1 : 1 ≤ (ret.len + len_hi + 1) / 2 := by omega
      have hlen2 : (ret.len + len_hi + 1) / 2 ≤ len_hi := by omega
      have hlen3 : ret.len < (ret.len + len_hi + 1) / 2 := by omega
      have e2 : size_t ((((ret.len + len_hi + 1) / 2 : Nat) : Int) - 1) =
          (ret.len + len_hi + 1) / 2 - 1 := by
        have := size_t_sub ((ret.len + len_hi + 1) / 2) 1 hlen1 (by omega)
        rw [← this]
        rfl
      have e3 : size_t ((adr : Int) - (((ret.len + len_hi + 1) / 2 - 1 : Nat) : Int)) =
          adr - ((ret.len + len_hi + 1) / 2 - 1) :=
        size_t_sub adr _ (by omega) (by omega)
      simp only [e1, e2, e3]
      generalize (if overlapped adr (find_lz (adr - ((ret.len + len_hi + 1) / 2 - 1))) then
          (⟨(find_lz (adr - ((ret.len + len_hi + 1) / 2 - 1))).ofs, size_t ((adr : Int) -
            ((find_lz (adr - ((ret.len + len_hi + 1) / 2 - 1))).ofs : Int))⟩ : lz_data)
        else find_lz (adr - ((ret.len + len_hi + 1) / 2 - 1))) = lz
      have hnext : (if lz.len < (ret.len + len_hi + 1) / 2 then
            (ret.len + len_hi + 1) / 2 - 1 else len_hi) ≤ adr ∧
          (if lz.len < (ret.len + len_hi + 1) / 2 then
            (ret.len + len_hi + 1) / 2 - 1 else len_hi) -
            (if lz.gt ret then lz else ret).len < len_hi - ret.len := by
        by_cases hs : lz.len < (ret.len + len_hi + 1) / 2
        · rw [if_pos hs]
          refine ⟨by omega, ?_⟩
          by_cases hg : lz.gt ret = true
          · rw [if_pos hg]
            simp only [lz_data.gt, Bool.or_eq_true, Bool.and_eq_true, decide_eq_true_eq] at hg
            omega
          · rw [if_neg hg]; omega
        · rw [if_neg hs]
          have hg : lz.gt ret = true := by
            simp only [lz_data.gt, Bool.or_eq_true, Bool.and_eq_true, decide_eq_true_eq]
            left; omega
          rw [if_pos hg]
          exact ⟨hle, by omega⟩
      obtain ⟨res, rounds, r1, r2, r3, r4, r5⟩ := ih (if lz.gt ret then lz else ret)
        (if lz.len < (ret.len + len_hi + 1) / 2 then (ret.len + len_hi + 1) / 2 - 1 else len_hi)
        hnext.1 (by omega)
      refine ⟨res, ⟨(ret.len + len_hi + 1) / 2, adr - ((ret.len + len_hi + 1) / 2 - 1),
        len_hi - ret.len⟩ :: rounds, ?_, r2, ?_, ?_, ?_⟩
      · rw [r1]
      · intro r hr
        rcases List.mem_cons.mp hr with h | h
        · subst h
          refine ⟨hlen1, ?_, rfl, le_refl _⟩
          show (ret.len + len_hi + 1) / 2 ≤ adr
          omega
        · obtain ⟨q1, q2, q3, q4⟩ := r3 r h
          exact ⟨q1, q2, q3, by omega⟩
      · rw [List.map_cons, List.pairwise_cons]
        refine ⟨?_, r4⟩
        intro g hg
        obtain ⟨r, hr, rfl⟩ := List.mem_map.mp hg
        have := (r3 r hr).2.2.2
        show r.gap < len_hi - ret.len
        omega
      · simp only [List.length_cons]
        omega
    · rw [if_neg hc, if_neg hc]
      exact ⟨ret, [], rfl, rfl, by simp, by simp, by simp⟩

end lz
end encode

/-- C28 (amended).  `find_non_overlapping` terminates for positions below `2^63`, where the
midpoint `(ret.len + len_hi + 1) / 2` is formed without overflow.  For every `adr < 2^63`, `adr_l <= adr`, `prev`
with `prev.len <= adr + 1` and every total function `find_lz`: the call returns; its first
query is made at `adr - (max(prev.len - 1, 1) - 1)`, a difference that does not underflow;
the loop runs at most `min(adr - adr_l, len)` rounds, where `len` is the length of the first
result; every round tries a length `1 <= len <= adr` and passes `adr - (len - 1)` to
`find_lz`, computed without underflow; and the gap `len_hi - ret.len` strictly decreases from
each round to the next. -/
theorem find_non_overlapping_terminates (adr_l adr : Nat) (find_lz : Nat → lz_data)
    (prev : lz_data) (hadr : adr < 2 ^ 63) (hl : adr_l ≤ adr) (hprev : prev.len ≤ adr + 1) :
    ∃ res rounds,
      lz.find_non_overlapping_rounds adr_l adr find_lz prev =
        some (res, adr - (max (prev.len - 1) 1 - 1), rounds) ∧
      lz.find_non_overlapping adr_l adr find_lz prev = some res ∧
      max (prev.len - 1) 1 - 1 ≤ adr ∧
      (∀ r ∈ rounds, 1 ≤ r.len ∧ r.len - 1 ≤ adr ∧ r.arg = adr - (r.len - 1)) ∧
      (rounds.map (fun r => r.gap)).Pairwise (fun a b => b < a) ∧
      rounds.length ≤
        min (adr - adr_l) (find_lz (adr - (max (prev.len - 1) 1 - 1))).len := by
  unfold lz.find_non_overlapping_rounds lz.find_non_overlapping
  simp only []
  rw [lz.first_query adr prev hadr hprev]
  generalize hk : adr - (max (prev.len - 1) 1 - 1) = k
  have hsub : size_t ((adr : Int) - (adr_l : Int)) = adr - adr_l :=
    size_t_sub adr adr_l hl (by omega)
  rw [hsub]
  by_cases ho : lz.overlapped adr (find_lz k) = false
  · rw [if_pos ho, if_pos ho]
    exact ⟨find_lz k, [], rfl, rfl, by omega, by simp, by simp, by simp⟩
  · rw [if_neg ho, if_neg ho]
    obtain ⟨res, rounds, r1, r2, r3, r4, r5⟩ := lz.find_non_overlapping_loop_rounds_spec adr
      find_lz hadr (min (adr - adr_l) (find_lz k).len + 1)
      ⟨(find_lz k).ofs, size_t ((adr : Int) - ((find_lz k).ofs : Int))⟩
      (min (adr - adr_l) (find_lz k).len)
      (le_trans (Nat.min_le_left _ _) (Nat.sub_le _ _)) (by omega)
    refine ⟨res, rounds, ?_, r2, by omega, ?_, r4, by omega⟩
    · rw [r1]
    · intro r hr
      obtain ⟨q1, q2, q3, _⟩ := r3 r hr
      exact ⟨q1, by omega, q3⟩

set_option maxRecDepth 100000 in
/-- Witness for C28: position 10, window start 0, previous match of length 4 and a query
function that always answers the source 7 with length 8, which overlaps position 10: the loop
runs two rounds, with the lengths 6 and 4. -/
theorem find_non_overlapping_terminates_witness :
    (10 : Nat) < 2 ^ 63 ∧ (0 : Nat) ≤ 10 ∧ (⟨5, 4⟩ : lz_data).len ≤ 10 + 1 ∧
    lz.find_non_overlapping_rounds 0 10 (fun _ => ⟨7, 8⟩) ⟨5, 4⟩ =
      some (⟨7, 3⟩, 8, [⟨6, 5, 5⟩, ⟨4, 7, 2⟩]) ∧
    ∃ res rounds,
      lz.find_non_overlapping_rounds 0 10 (fun _ => ⟨7, 8⟩) ⟨5, 4⟩ =
        some (res, 10 - (max ((⟨5, 4⟩ : lz_data).len - 1) 1 - 1), rounds) ∧
      lz.find_non_overlapping 0 10 (fun _ => ⟨7, 8⟩) ⟨5, 4⟩ = some res ∧
      max ((⟨5, 4⟩ : lz_data).len - 1) 1 - 1 ≤ 10 ∧
      (∀ r ∈ rounds, 1 ≤ r.len ∧ r.len - 1 ≤ 10 ∧ r.arg = 10 - (r.len - 1)) ∧
      (rounds.map (fun r => r.gap)).Pairwise (fun a b => b < a) ∧
      rounds.length ≤
        min (10 - 0) ((fun _ => (⟨7, 8⟩ : lz_data))
          (10 - (max ((⟨5, 4⟩ : lz_data).len - 1) 1 - 1))).len :=
  ⟨by decide, by decide, by decide, by decide,
    find_non_overlapping_terminates 0 10 (fun _ => ⟨7, 8⟩) ⟨5, 4⟩ (by decide) (by decide)
      (by decide)⟩

end sfc_comp

namespace sfc_comp
open encode sssp_solver
namespace encode
namespace lz

/-- In the overflow scenario the loop of `find_non_overlapping` never leaves the state it is
entered with: whatever the number of rounds allowed, it has not returned. -/
theorem overflow_scenario_loop : ∀ fuel,
    find_non_overlapping_loop (2 ^ 64 - 2) overflow_scenario_find fuel ⟨1, 2 ^ 64 - 3⟩
      (2 ^ 64 - 2) = none
  | 0 => rfl
  | fuel + 1 =>
    (show find_non_overlapping_loop (2 ^ 64 - 2) overflow_scenario_find (fuel + 1)
        ⟨1, 2 ^ 64 - 3⟩ (2 ^ 64 - 2) =
      find_non_overlapping_loop (2 ^ 64 - 2) overflow_scenario_find fuel ⟨1, 2 ^ 64 - 3⟩
        (2 ^ 64 - 2)
      from by
        rw [find_non_overlapping_loop]
        rw [if_pos (by decide)]
        have e1 : size_t ((((⟨1, 2 ^ 64 - 3⟩ : lz_data).len : Nat) : Int) +
            ((2 ^ 64 - 2 : Nat) : Int) + 1) / 2 = 2 ^ 63 - 2 := by decide
        have e2 : size_t (((2 ^ 63 - 2 : Nat) : Int) - 1) = 2 ^ 63 - 3 := by decide
        have e3 : size_t (((2 ^ 64 - 2 : Nat) : Int) - ((2 ^ 63 - 3 : Nat) : Int)) =
            2 ^ 63 + 1 := by
          decide
        have e4 : overflow_scenario_find (2 ^ 63 + 1) = ⟨1, 2 ^ 64 - 2⟩ := by decide
        have e5 : overlapped (2 ^ 64 - 2) ⟨1, 2 ^ 64 - 2⟩ = true := by decide
        have e6 : size_t (((2 ^ 64 - 2 : Nat) : Int) -
            (((⟨1, 2 ^ 64 - 2⟩ : lz_data).ofs : Nat) : Int)) = 2 ^ 64 - 3 := by decide
        simp only [e1, e2, e3, e4, e5, e6, if_true]
        have e7 : lz_data.gt ⟨1, 2 ^ 64 - 3⟩ ⟨1, 2 ^ 64 - 3⟩ = false := by decide
        have e8 : ¬ ((2 ^ 64 - 3 : Nat) < 2 ^ 63 - 2) := by decide
        simp only [e7, e8, if_false, Bool.false_eq_true]).trans (overflow_scenario_loop fuel)

/-- In the overflow scenario the call enters the loop in the state
`ret = {1, 2^64 - 3}`, `len_hi = 2^64 - 2`. -/
theorem overflow_scenario_call :
    find_non_overlapping 0 (2 ^ 64 - 2) overflow_scenario_find ⟨0, 0⟩ = none := by
  unfold find_non_overlapping
  have e0 : ¬ ((⟨0, 0⟩ : lz_data).len ≥ 1) := by decide
  simp only [e0, if_false]
  have e1 : size_t (((2 ^ 64 - 2 : Nat) : Int) -
      ((size_t (((max (⟨0, 0⟩ : lz_data).len 1 : Nat) : Int) - 1) : Nat) : Int)) =
      2 ^ 64 - 2 := by
    decide
  have e2 : overflow_scenario_find (2 ^ 64 - 2) = ⟨1, 2 ^ 64 - 2⟩ := by decide
  have e3 : overlapped (2 ^ 64 - 2) ⟨1, 2 ^ 64 - 2⟩ = true := by decide
  have e4 : size_t (((2 ^ 64 - 2 : Nat) : Int) - ((0 : Nat) : Int)) = 2 ^ 64 - 2 := by decide
  have e6 : size_t (((2 ^ 64 - 2 : Nat) : Int) -
      (((⟨1, 2 ^ 64 - 2⟩ : lz_data).ofs : Nat) : Int)) = 2 ^ 64 - 3 := by decide
  have e7 : min (2 ^ 64 - 2) (⟨1, 2 ^ 64 - 2⟩ : lz_data).len = 2 ^ 64 - 2 := by decide
  simp only [e1, e2, e3, e4, e6, e7]
  rw [if_neg (by decide)]
  exact overflow_scenario_loop _

end lz
end encode

/-- Counterexample to C28 as stated, at `adr = 2^64 - 2` with `adr_l = 0` and `prev = {0, 0}`.
The query function answers `{1, 2^64 - 2}` at every argument `>= 2` and `{0, 0}` below, so
the source start of every result lies in `[adr_l, argument)` for every argument `>= 1`, and
the answer at the argument 0, where that interval is empty, is the empty match.  The
first query, at `adr`, overlaps `adr`, and the loop is entered with `ret = {1, 2^64 - 3}` and
`len_hi = 2^64 - 2`.  The sum `ret.len + len_hi + 1` wraps to `2^64 - 4`, the midpoint is
`2^63 - 2`, below `ret.len`; the query at `adr - (len - 1) = 2^63 + 1` gives the same match
again, which neither replaces `ret` nor lowers `len_hi`: the gap `len_hi - ret.len` stays 1
and the loop does not end, whatever the number of rounds. -/
theorem find_non_overlapping_terminates_counterexample :
    (0 : Nat) ≤ 2 ^ 64 - 2 ∧ (⟨0, 0⟩ : lz_data).len ≤ (2 ^ 64 - 2) + 1 ∧
    (∀ k, 1 ≤ k → 0 ≤ (lz.overflow_scenario_find k).ofs ∧
      (lz.overflow_scenario_find k).ofs < k) ∧
    lz.overflow_scenario_find 0 = lz.empty ∧
    lz.overflow_scenario_find (2 ^ 64 - 2) = ⟨1, 2 ^ 64 - 2⟩ ∧
    lz.overlapped (2 ^ 64 - 2) (lz.overflow_scenario_find (2 ^ 64 - 2)) = true ∧
    size_t (((2 ^ 64 - 2 : Nat) : Int) - ((1 : Nat) : Int)) = 2 ^ 64 - 3 ∧
    size_t ((((2 ^ 64 - 3 : Nat)) : Int) + ((2 ^ 64 - 2 : Nat) : Int) + 1) / 2 = 2 ^ 63 - 2 ∧
    lz.find_non_overlapping 0 (2 ^ 64 - 2) lz.overflow_scenario_find ⟨0, 0⟩ = none ∧
    ∀ fuel, lz.find_non_overlapping_loop (2 ^ 64 - 2) lz.overflow_scenario_find fuel
      ⟨1, 2 ^ 64 - 3⟩ (2 ^ 64 - 2) = none := by
  refine ⟨by decide, by decide, ?_, by decide, by decide, by decide, by decide, by decide,
    lz.overflow_scenario_call, lz.overflow_scenario_loop⟩
  intro k hk
  unfold lz.overflow_scenario_find
  by_cases h : 2 ≤ k
  · rw [if_pos h]
    exact ⟨Nat.zero_le _, h⟩
  · rw [if_neg h]
    exact ⟨Nat.zero_le _, hk⟩

end sfc_comp

namespace sfc_comp
open encode sssp_solver
namespace sssp_solver
variable {Tag : Type} [Inhabited Tag] [BEq Tag]

/-- The loop of the range `update` with checked accesses, entered at a counter `i` whose
target is inside the table, with `fr < 2^63`: no access leaves the table, the loop ends
within `i + 2` tests, and the result is the one of the passes `update_descend`. -/
theorem update_loop_checked_eq (skip : Skip) (linear : Bool) (adr fr : Nat)
    (func : Nat → Nat) (tag : Tag) (base arg : Nat) (hfr : fr < 2 ^ 63) :
    ∀ (i fuel : Nat) (s : sssp_solver Tag), adr + i < s.size → s.size ≤ 2 ^ 63 →
      i + 2 ≤ fuel →
      update_loop_checked skip linear adr fr func tag base arg fuel i s =
        .done (update_descend skip linear adr fr func tag base arg i s) := by
  intro i
  induction i with
  | zero =>
    intro fuel s hin hsz hfuel
    obtain ⟨f1, rfl⟩ : ∃ f1, fuel = f1 + 2 := ⟨fuel - 2, by omega⟩
    have hlast : ∀ t : sssp_solver Tag,
        update_loop_checked skip linear adr fr func tag base arg (f1 + 1)
          ((0 + (2 ^ 64 - 1)) % 2 ^ 64) t = .done t := by
      intro t
      unfold update_loop_checked
      have hneg : ptrdiff_t ((0 + (2 ^ 64 - 1)) % 2 ^ 64) < 0 :=
        ptrdiff_t_neg _ (by decide) (by decide)
      have hpos : ptrdiff_t fr = (fr : Int) := ptrdiff_t_small fr hfr
      rw [if_neg (by omega)]
    unfold update_loop_checked update_descend relax
    rw [ptrdiff_t_small 0 (by decide), ptrdiff_t_small fr hfr]
    have e : (adr + 0) % 2 ^ 64 = adr + 0 := Nat.mod_eq_of_lt (by omega)
    by_cases h0 : 0 < fr
    · rw [if_neg (by omega), if_pos h0]
    · rw [if_pos (by omega), if_neg h0, e, if_neg (by omega)]
      simp only []
      by_cases ht : skip.test ((base + func 0) % 2 ^ 64) (s.get (adr + 0)).cost = true
      · rw [if_pos ht, if_pos ht]
        by_cases hb : (linear && ((s.get (adr + 0)).type == tag)) = true
        · rw [if_pos hb]
        · rw [if_neg hb, hlast]
      · rw [if_neg ht, if_neg ht, hlast]
  | succ i ih =>
    intro fuel s hin hsz hfuel
    obtain ⟨f1, rfl⟩ : ∃ f1, fuel = f1 + 1 := ⟨fuel - 1, by omega⟩
    unfold update_loop_checked update_descend relax
    rw [ptrdiff_t_small (i + 1) (by omega), ptrdiff_t_small fr hfr]
    have e : (adr + (i + 1)) % 2 ^ 64 = adr + (i + 1) := Nat.mod_eq_of_lt (by omega)
    have edec : (i + 1 + (2 ^ 64 - 1)) % 2 ^ 64 = i := by omega
    by_cases h0 : i + 1 < fr
    · rw [if_neg (by omega), if_pos h0]
    · rw [if_pos (by omega), if_neg h0, e, if_neg (by omega), edec]
      by_cases ht : skip.test ((base + func (i + 1)) % 2 ^ 64) (s.get (adr + (i + 1))).cost = true
      · simp only [ht, if_true]
        by_cases hb : (linear && ((s.get (adr + (i + 1))).type == tag)) = true
        · simp only [hb, if_true, Bool.not_true]
          rfl
        · have hb2 : (linear && ((s.get (adr + (i + 1))).type == tag)) = false :=
            Bool.eq_false_iff.mpr hb
          simp only [hb2, Bool.false_eq_true, if_false, Bool.not_false, if_true]
          exact ih f1 s (by omega) hsz (by omega)
      · simp only [ht, if_false, if_true]
        exact ih f1 _ (by rw [size_set]; omega) (by rw [size_set]; exact hsz) (by omega)

/-- The loop of `update_k` with checked accesses, entered at the counter `fr + m * K` whose
target is inside the table, with `1 <= K <= 2^63`: no access leaves the table, the loop ends
within `m + 2` tests, and the result is the one of the passes `update_k_descend`. -/
theorem update_k_loop_checked_eq (K : Nat) (linear_k : Bool) (adr fr : Nat)
    (func : Nat → Nat) (tag : Tag) (base arg : Nat) (hK : 1 ≤ K) (hK2 : K ≤ 2 ^ 63) :
    ∀ (m fuel : Nat) (s : sssp_solver Tag), adr + (fr + m * K) < s.size → s.size ≤ 2 ^ 63 →
      m + 2 ≤ fuel →
      update_k_loop_checked K linear_k adr fr func tag base arg fuel (fr + m * K) s =
        .done (update_k_descend K linear_k adr fr func tag base arg m s) := by
  intro m
  induction m with
  | zero =>
    intro fuel s hin hsz hfuel
    obtain ⟨f1, rfl⟩ : ∃ f1, fuel = f1 + 2 := ⟨fuel - 2, by omega⟩
    simp only [Nat.zero_mul, Nat.add_zero] at hin ⊢
    have hfr : fr < 2 ^ 63 := by omega
    have hKm : K % 2 ^ 64 = K := Nat.mod_eq_of_lt (by omega)
    have hlast : ∀ t : sssp_solver Tag,
        update_k_loop_checked K linear_k adr fr func tag base arg (f1 + 1)
          ((fr + (2 ^ 64 - K % 2 ^ 64)) % 2 ^ 64) t = .done t := by
      intro t
      unfold update_k_loop_checked
      rw [hKm, ptrdiff_t_small fr hfr]
      by_cases hc : K ≤ fr
      · have e : (fr + (2 ^ 64 - K)) % 2 ^ 64 = fr - K := by omega
        rw [e, ptrdiff_t_small (fr - K) (by omega), if_neg (by omega)]
      · have e : (fr + (2 ^ 64 - K)) % 2 ^ 64 = fr + (2 ^ 64 - K) := by omega
        have hneg := ptrdiff_t_neg (fr + (2 ^ 64 - K)) (by omega) (by omega)
        rw [e, if_neg (by omega)]
    unfold update_k_loop_checked update_k_descend relax
    have e : (adr + fr) % 2 ^ 64 = adr + fr := Nat.mod_eq_of_lt (by omega)
    rw [if_pos (le_refl _), e, if_neg (by omega)]
    simp only []
    by_cases ht : (base + func fr) % 2 ^ 64 ≥ (s.get (adr + fr)).cost
    · have ht2 : Skip.greater_equal.test ((base + func fr) % 2 ^ 64) (s.get (adr + fr)).cost =
          true := by
        simp only [Skip.test, decide_eq_true_eq]
        exact ht
      rw [if_pos ht, if_pos ht2]
      by_cases hb : (linear_k && ((s.get (adr + fr)).type == tag)) = true
      · rw [if_pos hb]
      · rw [if_neg hb, hlast]
    · have ht2 : ¬ Skip.greater_equal.test ((base + func fr) % 2 ^ 64)
          (s.get (adr + fr)).cost = true := by
        simp only [Skip.test, decide_eq_true_eq]
        exact ht
      rw [if_neg ht, if_neg ht2, hlast]
  | succ m ih =>
    intro fuel s hin hsz hfuel
    obtain ⟨f1, rfl⟩ : ∃ f1, fuel = f1 + 1 := ⟨fuel - 1, by omega⟩
    have hmul : (m + 1) * K = m * K + K := Nat.succ_mul m K
    have hfr : fr < 2 ^ 63 := by omega
    have hKm : K % 2 ^ 64 = K := Nat.mod_eq_of_lt (by omega)
    unfold update_k_loop_checked update_k_descend relax
    rw [ptrdiff_t_small (fr + (m + 1) * K) (by omega), ptrdiff_t_small fr hfr]
    have e : (adr + (fr + (m + 1) * K)) % 2 ^ 64 = adr + (fr + (m + 1) * K) :=
      Nat.mod_eq_of_lt (by omega)
    have edec : (fr + (m + 1) * K + (2 ^ 64 - K % 2 ^ 64)) % 2 ^ 64 = fr + m * K := by
      rw [hKm]
      omega
    rw [if_pos (by omega), e, if_neg (by omega), edec]
    by_cases ht : (base + func (fr + (m + 1) * K)) % 2 ^ 64 ≥
        (s.get (adr + (fr + (m + 1) * K))).cost
    · have ht2 : Skip.greater_equal.test ((base + func (fr + (m + 1) * K)) % 2 ^ 64)
          (s.get (adr + (fr + (m + 1) * K))).cost = true := by
        simp only [Skip.test, decide_eq_true_eq]
        exact ht
      simp only [ht, ht2, if_true]
      by_cases hb : (linear_k && ((s.get (adr + (fr + (m + 1) * K))).type == tag)) = true
      · simp only [hb, if_true, Bool.not_true]
        rfl
      · have hb2 : (linear_k && ((s.get (adr + (fr + (m + 1) * K))).type == tag)) = false :=
          Bool.eq_false_iff.mpr hb
        simp only [hb2, Bool.false_eq_true, if_false, Bool.not_false, if_true]
        exact ih f1 s (by omega) hsz (by omega)
    · have ht2 : ¬ Skip.greater_equal.test ((base + func (fr + (m + 1) * K)) % 2 ^ 64)
          (s.get (adr + (fr + (m + 1) * K))).cost = true := by
        simp only [Skip.test, decide_eq_true_eq]
        exact ht
      simp only [ht, ht2, if_false, if_true]
      exact ih f1 _ (by rw [size_set]; omega) (by rw [size_set]; exact hsz) (by omega)

/-- The loop of `update_lz_table` tests every index before it is used. -/
theorem update_lz_table_loop_checked_eq (adr : Nat) (lz : lz_data) (func : Nat → Nat)
    (tag : Tag) (base : Nat) :
    ∀ (table : List Nat) (i : Nat) (s : sssp_solver Tag),
      update_lz_table_loop_checked adr lz func tag base i table s =
        .done (update_lz_table_loop adr lz func tag base i table s) := by
  intro table
  induction table with
  | nil => intro i s; rfl
  | cons l rest ih =>
    intro i s
    unfold update_lz_table_loop_checked update_lz_table_loop
    by_cases c1 : l > lz.len ∨ (adr + l) % 2 ^ 64 ≥ s.size
    · rw [if_pos c1, if_pos c1]
    · rw [if_neg c1, if_neg c1, if_neg (by omega)]
      by_cases c2 : (base + func i) % 2 ^ 64 ≥ (s.get ((adr + l) % 2 ^ 64)).cost
      · rw [if_pos c2, if_pos c2]
        exact ih (i + 1) s
      · rw [if_neg c2, if_neg c2]
        exact ih (i + 1) _

end sssp_solver

/-- C29 (amended).  Relaxations never index past the last vertex when the lower length bound
is below `2^63`.  For every solver with `N + 1 <= 2^63` vertices and every `adr <= N`: the
range `update` and `update_lz` with any `lo < 2^63` and any `hi` (including `hi = SIZE_MAX`
and `lo = 0`), `update_k<K>` with `1 <= K <= 2^63` and any `lo`, `hi`, and `update_lz_table`
with any table, executed with `size_t` counters and every vertex access checked against
`size()`, access only vertices with index in `[0, N]`; the descending loops end within
`N + 2` tests, also when the counter passes below `lo = 0`; and the solver they leave is the
one of the relaxation. -/
theorem relaxations_stay_in_table {Tag : Type} [Inhabited Tag] [BEq Tag]
    (s : sssp_solver Tag) (N adr : Nat) (hs : s.size = N + 1) (hN : N < 2 ^ 63)
    (hadr : adr ≤ N) :
    (∀ (skip : Skip) (linear : Bool) (lo hi : Nat) (func : Nat → Nat) (tag : Tag)
        (base_cost arg : Nat), lo < 2 ^ 63 →
      update_checked skip linear s adr lo hi func tag base_cost arg (N + 2) =
        .done (sssp_solver.update skip linear s adr lo hi func tag base_cost arg)) ∧
    (∀ (skip : Skip) (linear : Bool) (lo hi : Nat) (res : lz_data) (func : Nat → Nat)
        (tag : Tag) (base_cost : Nat), lo < 2 ^ 63 →
      update_lz_checked skip linear s adr lo hi res func tag base_cost (N + 2) =
        .done (sssp_solver.update_lz skip linear s adr lo hi res func tag base_cost)) ∧
    (∀ (K : Nat) (linear_k : Bool) (lo hi : Nat) (func : Nat → Nat) (tag : Tag) (arg : Nat),
      1 ≤ K → K ≤ 2 ^ 63 →
      update_k_checked K linear_k s adr lo hi func tag arg (N + 2) =
        .done (sssp_solver.update_k K linear_k s adr lo hi func tag arg)) ∧
    (∀ (table : List Nat) (res : lz_data) (func : Nat → Nat) (tag : Tag),
      update_lz_table_checked s adr table res func tag =
        .done (sssp_solver.update_lz_table s adr table res func tag)) := by
  have hcap : (if s.size > adr then s.size - 1 - adr else 0) = N - adr := by
    rw [if_pos (by omega), hs]
    omega
  have hup : ∀ (skip : Skip) (linear : Bool) (lo hi : Nat) (func : Nat → Nat) (tag : Tag)
      (base_cost arg : Nat), lo < 2 ^ 63 →
      update_checked skip linear s adr lo hi func tag base_cost arg (N + 2) =
        .done (sssp_solver.update skip linear s adr lo hi func tag base_cost arg) := by
    intro skip linear lo hi func tag base_cost arg hlo
    have := Nat.min_le_right hi (N - adr)
    rw [sssp_solver.update_eq_descend _ _ _ _ _ _ _ _ _ _ hlo (by rw [hcap]; omega)]
    unfold update_checked
    simp only [hcap]
    rw [if_neg (by omega)]
    exact sssp_solver.update_loop_checked_eq skip linear adr lo func tag _ arg hlo
      (min hi (N - adr)) (N + 2) s (by omega) (by omega) (by omega)
  refine ⟨hup, ?_, ?_, ?_⟩
  · intro skip linear lo hi res func tag base_cost hlo
    exact hup skip linear lo (min hi res.len) func tag base_cost res.ofs hlo
  · intro K linear_k lo hi func tag arg hK hK2
    have h0 := Nat.min_le_right hi (N - adr)
    rw [sssp_solver.update_k_eq_descend K linear_k s adr lo hi func tag arg hK hK2
      (by rw [hcap]; omega)]
    unfold update_k_checked
    simp only [hcap]
    by_cases hto : min hi (N - adr) < lo
    · rw [if_pos hto, if_pos hto]
    · rw [if_neg hto, if_neg hto, if_neg (by omega)]
      have h1 := Nat.min_le_right hi (N - adr)
      have h2 := Nat.div_mul_le_self (min hi (N - adr) - lo) K
      have h3 : (min hi (N - adr) - lo) / K ≤ min hi (N - adr) - lo := Nat.div_le_self _ _
      exact sssp_solver.update_k_loop_checked_eq K linear_k adr lo func tag _ arg hK hK2
        ((min hi (N - adr) - lo) / K) (N + 2) s (by omega) (by omega) (by omega)
  · intro table res func tag
    unfold update_lz_table_checked sssp_solver.update_lz_table
    rw [if_neg (by omega)]
    exact sssp_solver.update_lz_table_loop_checked_eq adr res func tag _ table 0 s

set_option maxRecDepth 100000 in
/-- Witness for C29: a solver with five vertices, the range update from position 1 with
`lo = 0` and `hi = SIZE_MAX`: the counter runs from 3 down to 0 and wraps, and the loop
ends. -/
theorem relaxations_stay_in_table_witness :
    (mk_solver 4 0 : sssp_solver estpolis_biography.tag).size = 4 + 1 ∧ (4 : Nat) < 2 ^ 63 ∧
    (1 : Nat) ≤ 4 ∧ (0 : Nat) < 2 ^ 63 ∧
    update_checked .greater_equal false (mk_solver 4 0 : sssp_solver estpolis_biography.tag)
        1 0 (2 ^ 64 - 1) (Constant 8) .lzs 5 0 (4 + 2) =
      .done (sssp_solver.update .greater_equal false
        (mk_solver 4 0 : sssp_solver estpolis_biography.tag) 1 0 (2 ^ 64 - 1) (Constant 8)
        .lzs 5 0) ∧
    ((sssp_solver.update .greater_equal false
        (mk_solver 4 0 : sssp_solver estpolis_biography.tag) 1 0 (2 ^ 64 - 1) (Constant 8)
        .lzs 5 0).get 4).len = 3 :=
  ⟨by decide, by decide, by decide, by decide,
    (relaxations_stay_in_table (mk_solver 4 0 : sssp_solver estpolis_biography.tag) 4 1
      (by decide) (by decide) (by decide)).1 .greater_equal false 0 (2 ^ 64 - 1) (Constant 8)
      .lzs 5 0 (by decide), by decide⟩

set_option maxRecDepth 100000 in
/-- Counterexample to C29 as stated: on the solver `sssp_solver(0)` (one vertex, `N = 0`),
the range update from `adr = 0` with `lo = SIZE_MAX` and `hi = 0` passes the loop test at
`i = 0`, decrements the counter to `SIZE_MAX`, passes the test again because
`ptrdiff_t(SIZE_MAX) >= ptrdiff_t(SIZE_MAX)`, and accesses the vertex `0 + SIZE_MAX`. -/
theorem relaxations_stay_in_table_counterexample :
    (mk_solver 0 0 : sssp_solver estpolis_biography.tag).size = 0 + 1 ∧
    update_checked .greater_equal false (mk_solver 0 0 : sssp_solver estpolis_biography.tag)
        0 (2 ^ 64 - 1) 0 (Constant 1) .lzs unspecified 0 3 = .out_of_range (2 ^ 64 - 1) ∧
    ¬ (2 ^ 64 - 1 ≤ 0) :=
  ⟨by decide, by decide, by decide⟩

end sfc_comp

namespace sfc_comp
open encode sssp_solver
namespace papuwa

theorem or_add (a b k : Nat) (ha : a % 2 ^ k = 0) (hb : b < 2 ^ k) : a ||| b = a + b := by
  have e : 2 ^ k * (a / 2 ^ k) = a := Nat.mul_div_cancel' (Nat.dvd_of_mod_eq_zero ha)
  have := Nat.mul_add_lt_is_or hb (a / 2 ^ k)
  rw [e] at this
  exact this.symm

theorem and_field (x k n : Nat) : x &&& ((2 ^ n - 1) <<< k) = ((x >>> k) % 2 ^ n) <<< k := by
  rw [← Nat.and_pow_two_sub_one_eq_mod]
  apply Nat.eq_of_testBit_eq
  intro i
  simp only [Nat.testBit_and, Nat.testBit_shiftLeft, Nat.testBit_shiftRight]
  by_cases h : i ≥ k
  · have e : k + (i - k) = i := by omega
    simp [h, e]
  · simp [h]

theorem or2 (c a1 y k1 k2 : Nat) (h1 : c % 2 ^ k1 = 0) (h2 : a1 < 2 ^ k1)
    (h3 : (c + a1) % 2 ^ k2 = 0) (h4 : y < 2 ^ k2) : (c ||| a1) ||| y = c + a1 + y := by
  rw [or_add c a1 k1 h1 h2, or_add (c + a1) y k2 h3 h4]

theorem or3 (c a1 a2 y k1 k2 k3 : Nat) (h1 : c % 2 ^ k1 = 0) (h2 : a1 < 2 ^ k1)
    (h3 : (c + a1) % 2 ^ k2 = 0) (h4 : a2 < 2 ^ k2)
    (h5 : (c + a1 + a2) % 2 ^ k3 = 0) (h6 : y < 2 ^ k3) :
    ((c ||| a1) ||| a2) ||| y = c + a1 + a2 + y := by
  rw [or2 c a1 a2 k1 k2 h1 h2 h3 h4, or_add (c + a1 + a2) y k3 h5 h6]

theorem or4 (c a1 a2 a3 y k1 k2 k3 k4 : Nat) (h1 : c % 2 ^ k1 = 0) (h2 : a1 < 2 ^ k1)
    (h3 : (c + a1) % 2 ^ k2 = 0) (h4 : a2 < 2 ^ k2)
    (h5 : (c + a1 + a2) % 2 ^ k3 = 0) (h6 : a3 < 2 ^ k3)
    (h7 : (c + a1 + a2 + a3) % 2 ^ k4 = 0) (h8 : y < 2 ^ k4) :
    (((c ||| a1) ||| a2) ||| a3) ||| y = c + a1 + a2 + a3 + y := by
  rw [or3 c a1 a2 a3 k1 k2 k3 h1 h2 h3 h4 h5 h6, or_add (c + a1 + a2 + a3) y k4 h7 h8]

theorem word_lzs (len d : Nat) (h : produced .lzs len d) :
    word .lzs len d = (len - 3) + (d - 1) * 4 := by
  obtain ⟨h1, h2, h3, h4⟩ := h
  show (len - 3) ||| ((d - 1) <<< 2) = _
  rw [Nat.or_comm, or_add _ _ 2 (by omega) (by omega)]
  omega

theorem word_lzm (len d : Nat) (h : produced .lzm len d) :
    word .lzm len d = 0x8000 + (len - 7) * 1024 + (d - 1) := by
  obtain ⟨h1, h2, h3, h4⟩ := h
  show (0x8000 ||| ((len - 7) <<< 10)) ||| (d - 1) = _
  rw [or2 0x8000 _ _ 15 10 (by decide) (by omega) (by omega) (by omega)]
  omega

theorem word_lzls (len d : Nat) (h : produced .lzls len d) :
    word .lzls len d =
      0x4000 + ((d - 1) / 256 % 16) * 1024 + (len - 3) * 256 + (d - 1) % 256 := by
  obtain ⟨h1, h2, h3, h4⟩ := h
  show ((0x4000 ||| (((d - 1) &&& 0x0f00) <<< 2)) ||| ((len - 3) <<< 8)) |||
    ((d - 1) &&& 0x00ff) = _
  have m1 : (d - 1) &&& 0x0f00 = (((d - 1) >>> 8) % 2 ^ 4) <<< 8 := and_field (d - 1) 8 4
  have m2 : (d - 1) &&& 0x00ff = (d - 1) % 2 ^ 8 := Nat.and_pow_two_sub_one_eq_mod (d - 1) 8
  rw [m1, m2, or3 0x4000 _ _ _ 14 10 8 (by decide) (by omega) (by omega) (by omega)
    (by omega) (by omega)]
  omega

theorem word_lzlm (len d : Nat) (h : produced .lzlm len d) :
    word .lzlm len d =
      0xc00000 + ((len - 7) / 256 % 2) * 2 ^ 20 + ((len - 7) % 16) * 2 ^ 16 +
        ((len - 7) / 16 % 16) * 2 ^ 12 + (d - 1) := by
  obtain ⟨h1, h2, h3, h4⟩ := h
  show (((0xc00000 ||| (((len - 7) &&& 0x100) <<< 12)) ||| (((len - 7) &&& 0x00f) <<< 16))
      ||| (((len - 7) &&& 0x0f0) <<< 8)) ||| (d - 1) = _
  have m1 : (len - 7) &&& 0x100 = (((len - 7) >>> 8) % 2 ^ 1) <<< 8 := and_field (len - 7) 8 1
  have m2 : (len - 7) &&& 0x00f = (len - 7) % 2 ^ 4 :=
    Nat.and_pow_two_sub_one_eq_mod (len - 7) 4
  have m3 : (len - 7) &&& 0x0f0 = (((len - 7) >>> 4) % 2 ^ 4) <<< 4 := and_field (len - 7) 4 4
  rw [m1, m2, m3, or4 0xc00000 _ _ _ _ 21 20 16 12 (by decide) (by omega) (by omega)
    (by omega) (by omega) (by omega) (by omega) (by omega)]
  omega

theorem word_lzll (len d : Nat) (h : produced .lzll len d) :
    word .lzll len d =
      0xf0000000 + ((len - 519) / 4096 % 8) * 2 ^ 24 + ((len - 519) % 256) * 2 ^ 16 +
        ((len - 519) / 256 % 16) * 2 ^ 12 + (d - 1) := by
  obtain ⟨h1, h2, h3, h4⟩ := h
  show (((0xf0000000 ||| (((len - 519) &&& 0x7000) <<< 12)) |||
      (((len - 519) &&& 0x00ff) <<< 16)) ||| (((len - 519) &&& 0x0f00) <<< 4)) ||| (d - 1) = _
  have m1 : (len - 519) &&& 0x7000 = (((len - 519) >>> 12) % 2 ^ 3) <<< 12 :=
    and_field (len - 519) 12 3
  have m2 : (len - 519) &&& 0x00ff = (len - 519) % 2 ^ 8 :=
    Nat.and_pow_two_sub_one_eq_mod (len - 519) 8
  have m3 : (len - 519) &&& 0x0f00 = (((len - 519) >>> 8) % 2 ^ 4) <<< 8 :=
    and_field (len - 519) 8 4
  rw [m1, m2, m3, or4 0xf0000000 _ _ _ _ 27 24 16 12 (by decide) (by omega) (by omega)
    (by omega) (by omega) (by omega) (by omega) (by omega)]
  omega

/-- The value of the word of a produced command lies in the range of its tag. -/
theorem word_range (t : tag) (len d : Nat) (h : produced t len d) :
    lead_lo t * 2 ^ (width t - 8) ≤ word t len d ∧
      word t len d < (lead_hi t + 1) * 2 ^ (width t - 8) := by
  cases t with
  | uncomp =>
    obtain ⟨h1, h2⟩ := h
    show 0xe0 * 2 ^ (8 - 8) ≤ 0xe0 + len - 1 ∧ 0xe0 + len - 1 < (0xef + 1) * 2 ^ (8 - 8)
    omega
  | uncompl =>
    obtain ⟨h1, h2⟩ := h
    show 0xf8 * 2 ^ (16 - 8) ≤ 0xf800 + len - 0x11 ∧
      0xf800 + len - 0x11 < (0xfb + 1) * 2 ^ (16 - 8)
    omega
  | lzs =>
    rw [word_lzs len d h]
    obtain ⟨h1, h2, h3, h4⟩ := h
    show 0x00 * 2 ^ (8 - 8) ≤ _ ∧ _ < (0x3f + 1) * 2 ^ (8 - 8)
    omega
  | lzm =>
    rw [word_lzm len d h]
    obtain ⟨h1, h2, h3, h4⟩ := h
    show 0x80 * 2 ^ (16 - 8) ≤ _ ∧ _ < (0xbf + 1) * 2 ^ (16 - 8)
    omega
  | lzls =>
    rw [word_lzls len d h]
    obtain ⟨h1, h2, h3, h4⟩ := h
    show 0x40 * 2 ^ (16 - 8) ≤ _ ∧ _ < (0x7f + 1) * 2 ^ (16 - 8)
    omega
  | lzlm =>
    rw [word_lzlm len d h]
    obtain ⟨h1, h2, h3, h4⟩ := h
    show 0xc0 * 2 ^ (24 - 8) ≤ _ ∧ _ < (0xdf + 1) * 2 ^ (24 - 8)
    omega
  | lzll =>
    rw [word_lzll len d h]
    obtain ⟨h1, h2, h3, h4⟩ := h
    show 0xf0 * 2 ^ (32 - 8) ≤ _ ∧ _ < (0xf7 + 1) * 2 ^ (32 - 8)
    omega

theorem digits_lzlm (x : Nat) (h : x < 512) :
    x = (x / 256 % 2) * 256 + (x / 16 % 16) * 16 + x % 16 := by omega

theorem digits_lzll (x : Nat) (h : x < 32768) :
    x = (x / 4096 % 8) * 4096 + (x / 256 % 16) * 256 + x % 256 := by omega

theorem radix_lzlm (A B C y A1 B1 C1 y1 : Nat) (hB : B < 16) (hC : C < 16) (hy : y < 4096)
    (hB1 : B1 < 16) (hC1 : C1 < 16) (hy1 : y1 < 4096)
    (hw : 0xc00000 + A * 2 ^ 20 + B * 2 ^ 16 + C * 2 ^ 12 + y =
      0xc00000 + A1 * 2 ^ 20 + B1 * 2 ^ 16 + C1 * 2 ^ 12 + y1) :
    A = A1 ∧ B = B1 ∧ C = C1 ∧ y = y1 := by omega

theorem radix_lzll (A B C y A1 B1 C1 y1 : Nat) (hB : B < 256) (hC : C < 16) (hy : y < 4096)
    (hB1 : B1 < 256) (hC1 : C1 < 16) (hy1 : y1 < 4096)
    (hw : 0xf0000000 + A * 2 ^ 24 + B * 2 ^ 16 + C * 2 ^ 12 + y =
      0xf0000000 + A1 * 2 ^ 24 + B1 * 2 ^ 16 + C1 * 2 ^ 12 + y1) :
    A = A1 ∧ B = B1 ∧ C = C1 ∧ y = y1 := by omega

/-- Two produced commands of the same tag with the same word have the same length and, for a
match tag, the same distance. -/
theorem word_inj_tag (t : tag) (len d len1 d1 : Nat) (h : produced t len d)
    (h1 : produced t len1 d1) (hw : word t len d = word t len1 d1) :
    len = len1 ∧ (is_lz t = true → d = d1) := by
  cases t with
  | uncomp =>
    obtain ⟨a1, a2⟩ := h
    obtain ⟨b1, b2⟩ := h1
    have hw2 : 0xe0 + len - 1 = 0xe0 + len1 - 1 := hw
    exact ⟨by omega, fun c => by cases c⟩
  | uncompl =>
    obtain ⟨a1, a2⟩ := h
    obtain ⟨b1, b2⟩ := h1
    have hw2 : 0xf800 + len - 0x11 = 0xf800 + len1 - 0x11 := hw
    exact ⟨by omega, fun c => by cases c⟩
  | lzs =>
    rw [word_lzs len d h, word_lzs len1 d1 h1] at hw
    obtain ⟨a1, a2, a3, a4⟩ := h
    obtain ⟨b1, b2, b3, b4⟩ := h1
    exact ⟨by omega, fun _ => by omega⟩
  | lzm =>
    rw [word_lzm len d h, word_lzm len1 d1 h1] at hw
    obtain ⟨a1, a2, a3, a4⟩ := h
    obtain ⟨b1, b2, b3, b4⟩ := h1
    exact ⟨by omega, fun _ => by omega⟩
  | lzls =>
    rw [word_lzls len d h, word_lzls len1 d1 h1] at hw
    obtain ⟨a1, a2, a3, a4⟩ := h
    obtain ⟨b1, b2, b3, b4⟩ := h1
    exact ⟨by omega, fun _ => by omega⟩
  | lzlm =>
    rw [word_lzlm len d h, word_lzlm len1 d1 h1] at hw
    obtain ⟨a1, a2, a3, a4⟩ := h
    obtain ⟨b1, b2, b3, b4⟩ := h1
    have rx := digits_lzlm (len - 7) (by omega)
    have rx1 := digits_lzlm (len1 - 7) (by omega)
    obtain ⟨e1, e2, e3, e4⟩ := radix_lzlm _ _ _ _ _ _ _ _ (Nat.mod_lt _ (by decide))
      (Nat.mod_lt _ (by decide)) (by omega) (Nat.mod_lt _ (by decide))
      (Nat.mod_lt _ (by decide)) (by omega) hw
    rw [e1, e2, e3, ← rx1] at rx
    clear hw rx1 e1 e2 e3
    exact ⟨by omega, fun _ => by omega⟩
  | lzll =>
    rw [word_lzll len d h, word_lzll len1 d1 h1] at hw
    obtain ⟨a1, a2, a3, a4⟩ := h
    obtain ⟨b1, b2, b3, b4⟩ := h1
    have rx := digits_lzll (len - 519) (by omega)
    have rx1 := digits_lzll (len1 - 519) (by omega)
    obtain ⟨e1, e2, e3, e4⟩ := radix_lzll _ _ _ _ _ _ _ _ (Nat.mod_lt _ (by decide))
      (Nat.mod_lt _ (by decide)) (by omega) (Nat.mod_lt _ (by decide))
      (Nat.mod_lt _ (by decide)) (by omega) hw
    rw [e1, e3, e2, ← rx1] at rx
    clear hw rx1 e1 e2 e3
    exact ⟨by omega, fun _ => by omega⟩

/-- The value ranges of the words of two different tags are disjoint. -/
theorem word_tag (t : tag) (len d : Nat) (t1 : tag) (len1 d1 : Nat) (h : produced t len d)
    (h1 : produced t1 len1 d1) (hw : word t len d = word t1 len1 d1) : t = t1 := by
  obtain ⟨r1, r2⟩ := word_range t len d h
  obtain ⟨q1, q2⟩ := word_range t1 len1 d1 h1
  rw [hw] at r1 r2
  generalize word t1 len1 d1 = w at r1 r2 q1 q2
  clear hw h h1
  cases t <;> cases t1 <;>
    first
    | rfl
    | (exfalso
       simp only [lead_lo, lead_hi, width] at r1 r2 q1 q2
       omega)

theorem lead_ranges_disjoint (t t1 : tag) (h : t ≠ t1) :
    lead_hi t < lead_lo t1 ∨ lead_hi t1 < lead_lo t := by
  cases t <;> cases t1 <;> first | exact absurd rfl h | decide

theorem lead_byte_range (t : tag) (len d : Nat) (h : produced t len d) :
    lead_lo t ≤ lead_byte t len d ∧ lead_byte t len d ≤ lead_hi t := by
  obtain ⟨r1, r2⟩ := word_range t len d h
  unfold lead_byte
  rw [Nat.shiftRight_eq_div_pow]
  have hpos : 0 < 2 ^ (width t - 8) := Nat.two_pow_pos _
  constructor
  · exact (Nat.le_div_iff_mul_le hpos).mpr r1
  · exact Nat.le_of_lt_succ ((Nat.div_lt_iff_lt_mul hpos).mpr r2)

end papuwa

/-- C30.  The papuwa command words are uniquely decodable.  For every command the loop of
`papuwa_comp` can produce (`lzs`: len 3..6, d 1..0x10; `lzm`: len 7..22, d 1..0x400; `lzls`:
len 3..6, d 1..0x1000; `lzlm`: len 7..0x206, d 1..0x1000; `lzll`: len 0x207..0x8206,
d 1..0x1000; `uncomp`: len 1..0x10; `uncompl`: len 0x11..0x410) the packed word fits the
declared width of its field (8, 16, 16, 24, 32, 8, 16 bits) and its leading byte lies in the
range of its tag (`lzs` 0x00-0x3f, `lzls` 0x40-0x7f, `lzm` 0x80-0xbf, `lzlm` 0xc0-0xdf,
`uncomp` 0xe0-0xef, `lzll` 0xf0-0xf7, `uncompl` 0xf8-0xfb); the ranges of two different tags
are disjoint; and two produced commands with the same word (as a number, whatever the
widths) have the same tag, the same length and, for the match tags, the same distance; the
words of `uncomp` and `uncompl` carry no distance. -/
theorem papuwa_words_uniquely_decodable :
    (∀ t len d, papuwa.produced t len d →
      papuwa.word t len d < 2 ^ papuwa.width t ∧
      papuwa.lead_lo t ≤ papuwa.lead_byte t len d ∧
      papuwa.lead_byte t len d ≤ papuwa.lead_hi t) ∧
    (∀ t t1, t ≠ t1 →
      papuwa.lead_hi t < papuwa.lead_lo t1 ∨ papuwa.lead_hi t1 < papuwa.lead_lo t) ∧
    (∀ t len d t1 len1 d1, papuwa.produced t len d → papuwa.produced t1 len1 d1 →
      papuwa.word t len d = papuwa.word t1 len1 d1 →
      t = t1 ∧ len = len1 ∧ (papuwa.is_lz t = true → d = d1)) := by
  refine ⟨?_, papuwa.lead_ranges_disjoint, ?_⟩
  · intro t len d h
    obtain ⟨b1, b2⟩ := papuwa.lead_byte_range t len d h
    refine ⟨?_, b1, b2⟩
    obtain ⟨r1, r2⟩ := papuwa.word_range t len d h
    have hw : (papuwa.lead_hi t + 1) * 2 ^ (papuwa.width t - 8) ≤ 2 ^ papuwa.width t := by
      cases t <;> decide
    omega
  · intro t len d t1 len1 d1 h h1 hw
    have ht : t = t1 := papuwa.word_tag t len d t1 len1 d1 h h1 hw
    subst ht
    obtain ⟨i1, i2⟩ := papuwa.word_inj_tag t len d len1 d1 h h1 hw
    exact ⟨rfl, i1, i2⟩

/-- Witness for C30: the `lzll` command of length `0x8206` at distance `0x1000` is packed as
`0xf7ffffff`, the `lzlm` command of length 7 at distance 1 as `0xc00000`. -/
theorem papuwa_words_uniquely_decodable_witness :
    papuwa.produced .lzll 0x8206 0x1000 ∧ papuwa.word .lzll 0x8206 0x1000 = 0xf7ffffff ∧
    papuwa.word .lzlm 7 1 = 0xc00000 ∧
    papuwa.word .lzll 0x8206 0x1000 < 2 ^ papuwa.width .lzll ∧
    papuwa.lead_lo .lzll ≤ papuwa.lead_byte .lzll 0x8206 0x1000 ∧
    papuwa.lead_byte .lzll 0x8206 0x1000 ≤ papuwa.lead_hi .lzll :=
  ⟨by decide, by decide, by decide,
    papuwa_words_uniquely_decodable.1 .lzll 0x8206 0x1000 (by decide)⟩

end sfc_comp
